import Mathlib

/-!
# Shallow embedding of `a2alloc.c` (Hoard-style parallel allocator)

Addresses are natural numbers and `0` is `NULL`.  The headers that the C code
keeps at the start of a page (`superblk_t`, `node_t`) are records stored in a
finite address map; the heap table is a separate array of `heap_t` records.
Every C statement that dereferences a pointer reads the record back from the
map, so aliasing between the pointers of a list is kept.  A run that
dereferences `NULL` or an unmapped address, indexes an array out of bounds,
blocks on a mutex it already holds or leaves the range in which the C
arithmetic is defined has no result (`none`).

Layout is the LP64 one (Linux x86-64: `int` 4 bytes, `size_t` and pointers 8
bytes), which gives `sizeof(superblk_t) = 104` and `sizeof(node_t) = 32`.
The calls are sequential; the identity of the calling CPU (`get_cpu_id`) is an
argument of the entry points.
-/

namespace A2Alloc

/-! ## Constants and records -/

/-- Global `int superblk_size = 4096`. -/
def superblk_size : Nat := 4096

/-- Global `size_t block_sizes[9]`. -/
def block_sizes : List Nat := [8, 16, 32, 64, 128, 256, 512, 1024, 2048]

/-- `sizeof(superblk_t)`: 4 (+4 padding) + 8 + 64 + 4 + 4 + 8 + 8 bytes. -/
def sizeof_superblk_t : Nat := 104

/-- `sizeof(node_t)`: 4 + 4 + 4 (+4 padding) + 8 + 8 bytes. -/
def sizeof_node_t : Nat := 32

/-- Number of values of a `size_t`. -/
def size_t_mod : Nat := 2 ^ 64

/-- Record `superblk_t`.  A byte of `block_bit_map` is kept as its unsigned
8-bit pattern; only the indices below 64 exist. -/
structure superblk_t where
  type : Int
  block_class : Nat
  block_bit_map : Nat → Nat
  u : Int
  heap_num : Int
  prev : Nat
  next : Nat

/-- Record `node_t`, the header of a large block. -/
structure node_t where
  type : Int
  npages : Int
  heap_num : Int
  prev : Nat
  next : Nat

/-- Record `heap_t`; `heap_lock` is `true` while the mutex is held.  The
counters `a` and `u` are `int`s: every store into them goes through `int32`. -/
structure heap_t where
  heap_lock : Bool
  a : Int
  u : Int
  largeblks : Nat
  super_bases : Nat → Nat → Nat

/-- What a page header holds: both records start with the `int type` tag. -/
inductive Obj where
  | super (s : superblk_t)
  | node (n : node_t)

/-- The allocator state: the heap table (`nheaps` entries), the global
`system_lock`, the headers in memory, `page_size`, and the raw region of
memlib (`mem_brk`, `mem_max_addr`). -/
structure State where
  nheaps : Nat
  heaptable : Nat → heap_t
  system_lock : Bool
  mem : List (Nat × Obj)
  page_size : Nat
  mem_brk : Nat
  mem_max_addr : Nat

/-! ## Memory and heap table access -/

/-- Look an address up in the header map. -/
def mem_read : List (Nat × Obj) → Nat → Option Obj
  | [], _ => none
  | (q, o) :: rest, p => if q = p then some o else mem_read rest p

/-- Store a header at an address, replacing the one that is there. -/
def mem_write : List (Nat × Obj) → Nat → Obj → List (Nat × Obj)
  | [], p, o => [(p, o)]
  | (q, o') :: rest, p, o => if q = p then (p, o) :: rest else (q, o') :: mem_write rest p o

/-- Read through a pointer; `NULL` and unmapped addresses have no value. -/
def load (st : State) (p : Nat) : Option Obj :=
  if p = 0 then none else mem_read st.mem p

/-- The state in which the header `o` is stored at address `p`. -/
def write_obj (st : State) (p : Nat) (o : Obj) : State :=
  { st with mem := mem_write st.mem p o }

/-- Write a whole header through a pointer. -/
def store (st : State) (p : Nat) (o : Obj) : Option State :=
  if p = 0 then none else some (write_obj st p o)

/-- Read `*(superblk_t *)p`. -/
def get_super (st : State) (p : Nat) : Option superblk_t :=
  match load st p with
  | some (Obj.super s) => some s
  | _ => none

/-- Read `*(node_t *)p`. -/
def get_node (st : State) (p : Nat) : Option node_t :=
  match load st p with
  | some (Obj.node n) => some n
  | _ => none

/-- Assign fields of the superblock at `p`. -/
def modify_super (st : State) (p : Nat) (f : superblk_t → superblk_t) : Option State :=
  (get_super st p).bind fun s => store st p (Obj.super (f s))

/-- Assign fields of the node at `p`. -/
def modify_node (st : State) (p : Nat) (f : node_t → node_t) : Option State :=
  (get_node st p).bind fun n => store st p (Obj.node (f n))

/-- Read `*heaptable[i]`. -/
def heap_at (st : State) (i : Int) : Option heap_t :=
  if 0 ≤ i ∧ i.toNat < st.nheaps then some (st.heaptable i.toNat) else none

/-- Overwrite `*heaptable[i]`. -/
def set_heap (st : State) (i : Int) (h : heap_t) : State :=
  { st with heaptable := fun j => if j = i.toNat then h else st.heaptable j }

/-- Assign fields of `*heaptable[i]`. -/
def modify_heap (st : State) (i : Int) (f : heap_t → heap_t) : Option State :=
  (heap_at st i).bind fun h => some (set_heap st i (f h))

/-- Read `heaptable[hp]->super_bases[cls][full]`. -/
def get_bin (st : State) (hp cls full : Int) : Option Nat :=
  (heap_at st hp).bind fun h =>
    if 0 ≤ cls ∧ cls < 9 ∧ 0 ≤ full ∧ full < 6 then some (h.super_bases cls.toNat full.toNat)
    else none

/-- Assign `heaptable[hp]->super_bases[cls][full] = v`. -/
def set_bin (st : State) (hp cls full : Int) (v : Nat) : Option State :=
  if 0 ≤ cls ∧ cls < 9 ∧ 0 ≤ full ∧ full < 6 then
    modify_heap st hp fun h =>
      { h with super_bases := fun c f =>
          if c = cls.toNat ∧ f = full.toNat then v else h.super_bases c f }
  else none

/-- `pthread_mutex_lock(&heaptable[i]->heap_lock)`: a caller that already
holds the mutex blocks for ever. -/
def lock_heap (st : State) (i : Int) : Option State :=
  (heap_at st i).bind fun h =>
    if h.heap_lock then none else some (set_heap st i { h with heap_lock := true })

/-- `pthread_mutex_unlock(&heaptable[i]->heap_lock)`. -/
def unlock_heap (st : State) (i : Int) : Option State :=
  modify_heap st i fun h => { h with heap_lock := false }

/-- `pthread_mutex_lock(&system_lock)`. -/
def lock_system (st : State) : Option State :=
  if st.system_lock then none else some { st with system_lock := true }

/-- `pthread_mutex_unlock(&system_lock)`. -/
def unlock_system (st : State) : State :=
  { st with system_lock := false }

/-- Modelled from the spec: `mem_sbrk` of memlib (memlib.c is not part of the
sources).  It returns the base of an `n`-byte contiguous growth of the raw
region, or null when the region is exhausted. -/
def mem_sbrk (st : State) (n : Nat) : Nat × State :=
  if st.mem_brk + n ≤ st.mem_max_addr then (st.mem_brk, { st with mem_brk := st.mem_brk + n })
  else (0, st)

/-! ## Bytes and the C arithmetic on them -/

/-- Value of an `int` object after the value `x` is stored in it: the low 32
bits of `x` in two's complement (LP64).  The counters `a` and `u` of a heap are
`int`s; this is what the conversion of a `size_t` sum to `int` gives and what
the machine computes for a sum of `int`s that leaves the range of `int`. -/
def int32 (x : Int) : Int :=
  (x + 2147483648) % 4294967296 - 2147483648

/-- Value of a `char` (signed on this platform) with the given bit pattern. -/
def schar (b : Nat) : Int :=
  if b % 256 < 128 then ((b % 256 : Nat) : Int) else ((b % 256 : Nat) : Int) - 256

/-- Conversion `(float)n` of an unsigned integer below `2 ^ 64`: round to
nearest, ties to even, on a 24-bit significand. -/
def float_of_nat (n : Nat) : Nat :=
  if n < 2 ^ 24 then n
  else
    let e := ((List.range 41).filter fun k => 2 ^ (24 + k) ≤ n).length
    let q := n / 2 ^ e
    let r := n % 2 ^ e
    let q1 := if 2 ^ e < 2 * r ∨ (2 * r = 2 ^ e ∧ q % 2 = 1) then q + 1 else q
    q1 * 2 ^ e

/-- Fullness bin `(int)(((float)u / (float)(superblk_size / block_class)) * 4) + 1`.
The float operations are exact when the capacity is a power of two and
`|u| ≤ 2 ^ 24`; then the cast truncates `4 * u / capacity` toward zero.  A
zero `block_class` traps and a zero capacity makes the cast undefined. -/
def fullness (u : Int) (block_class : Nat) : Option Int :=
  let cap := superblk_size / block_class
  if block_class = 0 ∨ cap = 0 then none
  else if superblk_size % cap = 0 ∧ -(2 ^ 24) ≤ u ∧ u ≤ 2 ^ 24 then
    some (Int.tdiv (4 * u) (cap : Int) + 1)
  else none

/-! ## `create_superblk`, `move_superblk`, `find_blk` -/

/-- Bitmap written by `create_superblk`: `memset` to zero, then the bits of the
`blks_used` blocks that hold the header. -/
def header_bitmap (blks_used : Nat) : Nat → Nat := fun i =>
  if blks_used = 0 then 0
  else if blks_used ≤ 8 then (if i = 0 then (2 ^ blks_used - 1) % 256 else 0)
  else if i = 0 then 255
  else if i = 1 then (2 ^ (blks_used % 8) - 1) % 256
  else 0

/-- Number of header blocks `create_superblk` reserves:
`ceil((float)sizeof(superblk_t) / (float)blocksize)` when
`blocksize < sizeof(superblk_t) * 2`, none otherwise. -/
def blks_used (blocksize : Nat) : Nat :=
  if blocksize < sizeof_superblk_t * 2 then (sizeof_superblk_t + blocksize - 1) / blocksize else 0

/-- `create_superblk(ptr, blocksize)`; the result pointer is `ptr`.  The sum
`heaptable[0]->u += blks_used * super->block_class` is computed in `size_t` and
stored into the `int u`. -/
def create_superblk (st : State) (ptr : Nat) (blocksize : Nat) : Option State :=
  if blocksize = 0 then none
  else
    (store st ptr (Obj.super
      { type := 0, block_class := blocksize, block_bit_map := header_bitmap (blks_used blocksize),
        u := (blks_used blocksize : Nat), heap_num := 0, prev := 0, next := 0 })).bind fun st =>
    if blocksize < sizeof_superblk_t * 2 then
      modify_heap st 0 fun h =>
        { h with u := int32 (h.u + ((blks_used blocksize * blocksize : Nat) : Int)) }
    else some st

/-- First part of `move_superblk`: remove `super` from the list of `src`. -/
def unlink_super (st : State) (super : Nat) (src : Int × Int × Int) : Option State :=
  (get_super st super).bind fun s =>
  (if s.next ≠ 0 then modify_super st s.next fun n => { n with prev := s.prev }
    else some st).bind fun st =>
  (get_super st super).bind fun s =>
  if s.prev ≠ 0 then modify_super st s.prev fun p => { p with next := s.next }
  else set_bin st src.1 src.2.1 src.2.2 s.next

/-- Second part of `move_superblk`: insert `super` at the head of `dest`. -/
def push_super (st : State) (super : Nat) (dest : Int × Int × Int) : Option State :=
  (get_bin st dest.1 dest.2.1 dest.2.2).bind fun d =>
  (if d ≠ 0 then modify_super st d fun h => { h with prev := super } else some st).bind fun st =>
  (modify_super st super fun x => { x with next := d, prev := 0 }).bind fun st =>
  set_bin st dest.1 dest.2.1 dest.2.2 super

/-- Last part of `move_superblk`: when the heap changes, set the owner and
transfer the used and allocated bytes.  `int total_bytes` takes the product
`super->u * super->block_class`; the four sums are sums of `int`s. -/
def transfer_super (st : State) (super : Nat) (src dest : Int × Int × Int) : Option State :=
  if dest.1 ≠ src.1 then
    (modify_super st super fun x => { x with heap_num := dest.1 }).bind fun st =>
    (get_super st super).bind fun s =>
    (modify_heap st src.1 fun h =>
      { h with u := int32 (h.u - int32 (s.u * (s.block_class : Int))),
               a := int32 (h.a - (superblk_size : Int)) }).bind
    fun st =>
    modify_heap st dest.1 fun h =>
      { h with u := int32 (h.u + int32 (s.u * (s.block_class : Int))),
               a := int32 (h.a + (superblk_size : Int)) }
  else some st

/-- `move_superblk(super, src, dest)` with `src = {heap, class, fullness}`. -/
def move_superblk (st : State) (super : Nat) (src dest : Int × Int × Int) : Option State :=
  (unlink_super st super src).bind fun st =>
  (push_super st super dest).bind fun st =>
  transfer_super st super src dest

/-- `find_blk(blk_map, blocksize)`.  `num = 4096 / (blocksize * 8)` as a float
(exact for the block classes): when `num < 1` a first loop over
`k < round(8 * num)` tests `!blk_map[0] % (int)pow(2, k)`; then the bytes
`i < num` are scanned for a clear bit. -/
def find_blk (blk_map : Nat → Nat) (blocksize : Nat) : Int :=
  let first : Option Nat :=
    if superblk_size < blocksize * 8 then
      (List.range ((2 * superblk_size + blocksize) / (2 * blocksize))).find? fun k =>
        decide (Int.tmod (if schar (blk_map 0) = 0 then 1 else 0) ((2 : Int) ^ k) ≠ 0)
    else none
  match first with
  | some k => (k : Int)
  | none =>
    let second : Option Nat :=
      (List.range ((superblk_size + blocksize * 8 - 1) / (blocksize * 8))).findSome? fun i =>
        if schar (blk_map i) < 255 then
          ((List.range 8).find? fun k =>
            decide (Int.tmod (Int.shiftRight (schar (blk_map i)) k) 2 = 0)).map fun k => i * 8 + k
        else none
    match second with
    | some b => (b : Int)
    | none => -1

/-! ## `mm_malloc`, small path -/

/-- Size-class loop of `mm_malloc` (and of `mm_free`): the first index whose
class is at least `sz`; without a `break` the index ends at 9 and
`block_class` keeps its initial value 8. -/
def size_class_loop (sz : Nat) : Nat → List Nat → Nat × Nat
  | sz_id, [] => (sz_id, 8)
  | sz_id, c :: rest => if sz ≤ c then (sz_id, c) else size_class_loop sz (sz_id + 1) rest

/-- The pair `(sz_id, block_class)` that `mm_malloc` computes for `sz`. -/
def size_class (sz : Nat) : Nat × Nat :=
  size_class_loop sz 0 block_sizes

/-- The `while (super)` loop over one fullness bin.  The result is
`some (super_res, use)` when a superblock is taken.  The fuel is the number of
mapped headers plus one: a walk that outlasts it has entered a cycle, on which
the C loop does not end either. -/
def scan_bin (st : State) (sz block_class : Nat) : Nat → Nat → Option (Option (Nat × Bool))
  | 0, _ => none
  | fuel + 1, super =>
    if super = 0 then some none
    else
      (get_super st super).bind fun s =>
        if Int.tmod (schar (s.block_bit_map 0)) 2 = 0 ∧
            ¬ (sz > (block_class + size_t_mod - sizeof_superblk_t) % size_t_mod) then
          some (some (super, true))
        else
          let x_use : Int := if Int.tmod (schar (s.block_bit_map 0)) 2 = 0 then 1 else 0
          if ((s.u + x_use) % (size_t_mod : Int)).toNat < superblk_size / block_class then
            some (some (super, false))
          else scan_bin st sz block_class fuel s.next

/-- The `for (i=4; i>=0; i--)` loop of `mm_malloc`; `n` bins are left to
look at, the next one is `n - 1`.  The result is `(super_res, f, use)`. -/
def scan_bins (st : State) (hp : Int) (sz_id sz block_class : Nat) :
    Nat → Option (Option (Nat × Int × Bool))
  | 0 => some none
  | i + 1 =>
    (get_bin st hp sz_id i).bind fun head =>
      (scan_bin st sz block_class (st.mem.length + 1) head).bind fun r =>
        match r with
        | some (p, use) => some (some (p, (i : Int), use))
        | none => scan_bins st hp sz_id sz block_class i

/-- Lines 384-398 of `mm_malloc`: the first non-empty bin `[i][0]` of the
global heap, whose head is laid out again for `block_class`.  The result is
`(super_res, src)`, with `super_res = 0` when all these bins are empty. -/
def reuse_empty (st : State) (block_class : Nat) : Option (State × Nat × (Int × Int × Int)) :=
  (heap_at st 0).bind fun h0 =>
  match (List.range 9).find? fun i => decide (h0.super_bases i 0 ≠ 0) with
  | some i =>
    (get_super st (h0.super_bases i 0)).bind fun s =>
    (modify_heap st 0 fun h =>
      { h with u := int32 (h.u - s.u * (s.block_class : Int)) }).bind fun st =>
    (create_superblk st (h0.super_bases i 0) block_class).bind fun st =>
    (modify_super st (h0.super_bases i 0) fun x => { x with next := s.next }).bind fun st =>
    some (st, h0.super_bases i 0, ((0 : Int), (i : Int), (0 : Int)))
  | none => some (st, 0, (0, 0, 0))

/-- Lines 407-426 of `mm_malloc`: a fresh page becomes a superblock of the
global heap, in bin `[sz_id][0]`.  The inner result is `none` at
`return NULL`. -/
def fresh_superblk (st : State) (sz_id block_class : Nat) : Option (State × Option Nat) :=
  (lock_system st).bind fun st =>
  if (mem_sbrk st st.page_size).1 = 0 then
    some (unlock_system (mem_sbrk st st.page_size).2, none)
  else
    (create_superblk (unlock_system (mem_sbrk st st.page_size).2)
      (mem_sbrk st st.page_size).1 block_class).bind fun st1 =>
    (set_bin st1 0 sz_id 0 (mem_sbrk st st.page_size).1).bind fun st1 =>
    (modify_heap st1 0 fun h => { h with a := int32 (h.a + (superblk_size : Int)) }).bind fun st1 =>
    some (st1, some (mem_sbrk st st.page_size).1)

/-- The block `if (!super_res)` of `mm_malloc`: take a superblock from the
global heap, or a fresh page, and move it to bin `[sz_id][1]` of the caller's
heap.  The inner result is `none` at `return NULL` (the raw region is
exhausted). -/
def fetch_global (st : State) (cpu_id : Int) (sz_id block_class : Nat) :
    Option (State × Option Nat) :=
  (lock_heap st 0).bind fun st =>
  (reuse_empty st block_class).bind fun e =>
  -- check the next bin
  (if e.2.1 = 0 then get_bin e.1 0 sz_id 1 else some 0).bind fun b1 =>
  if e.2.1 = 0 ∧ b1 = 0 then
    (fresh_superblk e.1 sz_id block_class).bind fun p =>
    match p.2 with
    | none => some (p.1, none)
    | some ptr =>
      (move_superblk p.1 ptr (0, sz_id, 0) (cpu_id + 1, sz_id, 1)).bind fun st =>
      (unlock_heap st 0).bind fun st => some (st, some ptr)
  else
    (move_superblk e.1 (if e.2.1 = 0 then b1 else e.2.1)
      (if e.2.1 = 0 then (0, sz_id, 1) else e.2.2) (cpu_id + 1, sz_id, 1)).bind fun st =>
    (unlock_heap st 0).bind fun st => some (st, some (if e.2.1 = 0 then b1 else e.2.1))

/-- What the small path hands back: the final state, the superblock
`super_res` it took the block from, the returned pointer `blk` (0 is `NULL`)
and whether the block `if (!super_res)` ran. -/
structure small_result where
  st : State
  super_res : Nat
  blk : Nat
  fetched : Bool

/-- Lines 435-451 of `mm_malloc`: choose the block and set its bit.  With
`use` the block is the rest of block 0 behind the header; otherwise `find_blk`
chooses it.  The inner result is `none` at `return NULL`. -/
def mark_blk (st : State) (block_class super_res : Nat) (use : Bool) :
    Option (Option (Nat × State)) :=
  (get_super st super_res).bind fun s =>
  if use then
    (modify_super st super_res fun x =>
      { x with block_bit_map := fun i =>
          if i = 0 then (x.block_bit_map 0 + 1) % 256 else x.block_bit_map i }).bind fun st =>
    some (some (super_res + sizeof_superblk_t, st))
  else if find_blk s.block_bit_map block_class = -1 then some none
  else if 0 ≤ find_blk s.block_bit_map block_class ∧
      (find_blk s.block_bit_map block_class).toNat / 8 < 64 then
    (modify_super st super_res fun x =>
      { x with block_bit_map := fun i =>
          if i = (find_blk s.block_bit_map block_class).toNat / 8 then
            (x.block_bit_map i + 2 ^ ((find_blk s.block_bit_map block_class).toNat % 8)) % 256
          else x.block_bit_map i }).bind fun st =>
    some (some (super_res + (find_blk s.block_bit_map block_class).toNat * block_class, st))
  else none

/-- Lines 453-467 of `mm_malloc`: count the block and move the superblock to
its new fullness bin. -/
def charge_blk (st : State) (cpu_id : Int) (sz_id block_class super_res : Nat) (f : Int) :
    Option State :=
  (modify_super st super_res fun x => { x with u := x.u + 1 }).bind fun st =>
  (modify_heap st (cpu_id + 1) fun h =>
    { h with u := int32 (h.u + (block_class : Int)) }).bind fun st =>
  -- if bin has changed fullness, move it again
  (get_super st super_res).bind fun s =>
  (fullness s.u block_class).bind fun new_f =>
  (if new_f ≠ f then
      move_superblk st super_res (cpu_id + 1, sz_id, f) (cpu_id + 1, sz_id, new_f)
    else some st).bind fun st =>
  unlock_heap st (cpu_id + 1)

/-- The part of `mm_malloc` after the superblock is chosen. -/
def take_blk (st : State) (cpu_id : Int) (sz_id block_class : Nat)
    (super_res : Nat) (f : Int) (use : Bool) (fetched : Bool) : Option small_result :=
  (mark_blk st block_class super_res use).bind fun r =>
  match r with
  | none => some { st := st, super_res := super_res, blk := 0, fetched := fetched }
  | some (blk, st1) =>
    (charge_blk st1 cpu_id sz_id block_class super_res f).bind fun st2 =>
    some { st := st2, super_res := super_res, blk := blk, fetched := fetched }

/-- The small path of `mm_malloc` (`sz <= superblk_size / 2`). -/
def mm_malloc_small (st : State) (cpu_id : Int) (sz : Nat) : Option small_result :=
  (lock_heap st (cpu_id + 1)).bind fun st =>
  -- now check the fullness bins for most full block to most empty
  (scan_bins st (cpu_id + 1) (size_class sz).1 sz (size_class sz).2 5).bind fun found =>
  match found with
  | some (super_res, f, use) =>
    take_blk st cpu_id (size_class sz).1 (size_class sz).2 super_res f use false
  | none =>
    (fetch_global st cpu_id (size_class sz).1 (size_class sz).2).bind fun g =>
    match g.2 with
    | none => some { st := g.1, super_res := 0, blk := 0, fetched := true }
    | some super_res =>
      take_blk g.1 cpu_id (size_class sz).1 (size_class sz).2 super_res 1 false true

/-! ## Large blocks -/

/-- `int num_pgs = ceil((float)(sz + sizeof(node_t))/(float)superblk_size)`:
the sum is a `size_t`, its conversion to `float` rounds, the division by
4096 and `ceil` are exact.  A value outside `int` has no defined conversion. -/
def num_pgs_of (sz : Nat) : Option Nat :=
  let x := float_of_nat ((sz + sizeof_node_t) % size_t_mod)
  let n := (x + superblk_size - 1) / superblk_size
  if n < 2 ^ 31 then some n else none

/-- Lines 68-97 of `alloc_large`: `curr` is the node that fits.  A longer run
is split, the residue header taking the place of `curr` in the list;
otherwise `curr` is unlinked. -/
def take_large (st : State) (num_pgs : Nat) (curr : Nat) : Option State :=
  (get_node st curr).bind fun c =>
  (if c.npages > (num_pgs : Int) then
      (store st ((curr + num_pgs * st.page_size) % size_t_mod) (Obj.node
        { type := 1, npages := c.npages - (num_pgs : Int), heap_num := 0,
          prev := c.prev, next := c.next })).bind fun st =>
      some (st, (curr + num_pgs * st.page_size) % size_t_mod,
        (curr + num_pgs * st.page_size) % size_t_mod)
    else some (st, c.next, c.prev)).bind fun t =>
  (get_node t.1 curr).bind fun c =>
  (if c.prev ≠ 0 then modify_node t.1 c.prev fun p => { p with next := t.2.1 }
    else modify_heap t.1 0 fun h => { h with largeblks := t.2.1 }).bind fun st =>
  (get_node st curr).bind fun c =>
  if c.next ≠ 0 then modify_node st c.next fun n => { n with prev := t.2.2 }
  else some st

/-- The `while (curr)` first-fit loop of `alloc_large` over the global list;
the result is the state and `res` (0 when nothing fits).  The fuel is the
number of mapped headers plus one, as in `scan_bin`. -/
def search_large (st : State) (num_pgs : Nat) : Nat → Nat → Option (State × Nat)
  | 0, _ => none
  | fuel + 1, curr =>
    if curr = 0 then some (st, 0)
    else
      (get_node st curr).bind fun c =>
        if c.npages ≥ (num_pgs : Int) then
          (take_large st num_pgs curr).bind fun st => some (st, curr)
        else search_large st num_pgs fuel c.next

/-- Lines 114-128 of `alloc_large`: push `res` on the large list of heap
`cpu_id + 1` and fill its header. -/
def push_large (st : State) (num_pgs : Nat) (cpu_id : Int) (res : Nat) : Option State :=
  (lock_heap st (cpu_id + 1)).bind fun st =>
  (heap_at st (cpu_id + 1)).bind fun h =>
  (if h.largeblks ≠ 0 then modify_node st h.largeblks fun n => { n with prev := res }
    else some st).bind fun st =>
  (store st res (Obj.node
    { type := 1, npages := (num_pgs : Int), heap_num := cpu_id, prev := 0,
      next := h.largeblks })).bind fun st =>
  (modify_heap st (cpu_id + 1) fun h => { h with largeblks := res }).bind fun st =>
  unlock_heap st (cpu_id + 1)

/-- `alloc_large(sz, cpu_id)`; the result is the returned pointer and the state. -/
def alloc_large (st : State) (sz : Nat) (cpu_id : Int) : Option (Nat × State) :=
  (num_pgs_of sz).bind fun num_pgs =>
  -- search global heap
  (lock_heap st 0).bind fun st =>
  (heap_at st 0).bind fun h0 =>
  (search_large st num_pgs (st.mem.length + 1) h0.largeblks).bind fun sr =>
  (unlock_heap sr.1 0).bind fun st =>
  (if sr.2 = 0 then
      -- use sbrk to get more memory from system
      (lock_system st).bind fun st =>
        some ((mem_sbrk st (num_pgs * st.page_size)).1,
          unlock_system (mem_sbrk st (num_pgs * st.page_size)).2)
    else some (sr.2, st)).bind fun rs =>
  (push_large rs.2 num_pgs cpu_id rs.1).bind fun st =>
  some (rs.1 + sizeof_node_t, st)

/-- Lines 140-153 of `dealloc_large`: unlink `blk` from the list of the heap
`blk->heap_num`. -/
def unlink_large (st : State) (blk : Nat) : Option State :=
  (get_node st blk).bind fun b0 =>
  (lock_heap st b0.heap_num).bind fun st =>
  (get_node st blk).bind fun b =>
  (if b.prev ≠ 0 then modify_node st b.prev fun p => { p with next := b.next }
    else modify_heap st b0.heap_num fun h => { h with largeblks := b.next }).bind fun st =>
  (get_node st blk).bind fun b =>
  (if b.next ≠ 0 then modify_node st b.next fun n => { n with prev := b.prev }
    else some st).bind fun st =>
  unlock_heap st b0.heap_num

/-- `dealloc_large(blk)`: unlink, then push on the list of the global heap. -/
def dealloc_large (st : State) (blk : Nat) : Option State :=
  (unlink_large st blk).bind fun st =>
  -- insert into global heap
  (lock_heap st 0).bind fun st =>
  (heap_at st 0).bind fun h0 =>
  (if h0.largeblks ≠ 0 then modify_node st h0.largeblks fun n => { n with prev := blk }
    else some st).bind fun st =>
  (modify_node st blk fun n => { n with next := h0.largeblks, prev := 0 }).bind fun st =>
  (modify_heap st 0 fun h => { h with largeblks := blk }).bind fun st =>
  unlock_heap st 0

/-! ## Entry points -/

/-- `mm_malloc(sz)` called on CPU `cpu_id`: the returned pointer (0 is `NULL`)
and the state. -/
def mm_malloc (st : State) (cpu_id : Int) (sz : Nat) : Option (Nat × State) :=
  if sz > superblk_size / 2 then alloc_large st sz cpu_id
  else (mm_malloc_small st cpu_id sz).map fun r => (r.blk, r.st)

/-- The scan `for (k=0;k<=1;k++) for (i=0;i<9;i++)` of `mm_free` for the first
non-empty bin of fullness 0 or 1: `(super_res, i, k)`, all zero when there is
none. -/
def release_scan (h : heap_t) : Nat × Nat × Nat :=
  match (((List.range 9).map fun i => (i, 0)) ++ ((List.range 9).map fun i => (i, 1))).find?
      fun (ik : Nat × Nat) => decide (h.super_bases ik.1 ik.2 ≠ 0) with
  | some ik => (h.super_bases ik.1 ik.2, ik.1, ik.2)
  | none => (0, 0, 0)

/-- The end of `mm_free`, after the block is released: nothing more for the
global heap; a per-CPU heap past the emptiness threshold gives one superblock
back to the global heap. -/
def free_release (st : State) (heap_num : Int) : Option State :=
  if heap_num = 0 then unlock_heap st 0
  else
    (heap_at st heap_num).bind fun h =>
      (if h.u < Int.tdiv h.a 4 ∧ h.u < int32 (h.a - 8 * (superblk_size : Int)) then
          move_superblk st (release_scan h).1
            (if (release_scan h).1 = 0 then (0, 0, 0)
             else (heap_num, ((release_scan h).2.1 : Int), ((release_scan h).2.2 : Int)))
            (0, ((release_scan h).2.1 : Int), ((release_scan h).2.2 : Int))
        else some st).bind fun st =>
      unlock_heap st heap_num

/-- The bitmap update `super->block_bit_map[blk_id/8] -= pow(2, blk_id % 8)`. -/
def clear_bit (st : State) (pg blk_id : Nat) : Option State :=
  if blk_id / 8 < 64 then
    modify_super st pg fun x =>
      { x with block_bit_map := fun i =>
          if i = blk_id / 8 then (x.block_bit_map i + 256 - 2 ^ (blk_id % 8)) % 256
          else x.block_bit_map i }
  else none

/-- Lines 500-521 of `mm_free`: count the block out and move the superblock
to its new fullness bin; `f` is computed before `u` is decremented. -/
def uncharge_blk (st : State) (pg : Nat) (heap_num : Int) : Option State :=
  (get_super st pg).bind fun s =>
  (fullness s.u s.block_class).bind fun f =>
  (modify_super st pg fun x => { x with u := x.u - 1 }).bind fun st =>
  (modify_heap st heap_num fun h =>
    { h with u := int32 (h.u - (s.block_class : Int)) }).bind fun st =>
  -- update bins
  (fullness (s.u - 1) s.block_class).bind fun new_f =>
  if new_f ≠ f then
    move_superblk st pg (heap_num, ((size_class_loop s.block_class 0 block_sizes).1 : Int), f)
      (heap_num, ((size_class_loop s.block_class 0 block_sizes).1 : Int), new_f)
  else some st

/-- The small path of `mm_free`: `pg` is the page of the pointer and `offset`
its offset in the page. -/
def free_small (st : State) (pg offset : Nat) : Option State :=
  (get_super st pg).bind fun s =>
  (lock_heap st s.heap_num).bind fun st =>
  if s.block_class = 0 then none
  else
    (clear_bit st pg (offset / s.block_class)).bind fun st =>
    (uncharge_blk st pg s.heap_num).bind fun st =>
    free_release st s.heap_num

/-- `mm_free(ptr)`: recover the page header, dispatch on its `type` tag. -/
def mm_free (st : State) (ptr : Nat) : Option State :=
  if st.page_size = 0 then none
  else
    let pg := ptr - ptr % st.page_size
    let offset := ptr % st.page_size
    match load st pg with
    | some (Obj.node n) => if n.type ≠ 0 then dealloc_large st pg else none
    | some (Obj.super s) => if s.type ≠ 0 then none else free_small st pg offset
    | none => none

/-- The loop of `mm_init`: one page per heap, each heap cleared.  The heaps
are kept in the heap table of the state, the pages they occupy are taken from
the raw region. -/
def init_heaps (st : State) : Nat → Option State
  | 0 => some st
  | n + 1 =>
    (init_heaps st n).bind fun st =>
      let (p, st) := mem_sbrk st st.page_size
      if p = 0 then none
      else some { st with
        nheaps := n + 1
        heaptable := fun j =>
          if j = n then
            { heap_lock := false, a := 0, u := 0, largeblks := 0, super_bases := fun _ _ => 0 }
          else st.heaptable j }

/-- Modelled from the spec: `mem_init` and `mem_pagesize` of memlib (not part
of the sources).  The raw region is `[lo, hi)`, it starts empty and
`mem_pagesize()` is `pagesize`. -/
def mem_init (pagesize lo hi : Nat) : State :=
  { nheaps := 0
    heaptable := fun _ =>
      { heap_lock := false, a := 0, u := 0, largeblks := 0, super_bases := fun _ _ => 0 }
    system_lock := false
    mem := []
    page_size := pagesize
    mem_brk := lo
    mem_max_addr := hi }

/-- `mm_init()` on a machine with `ncpu` processors: a page for the heap
table, then the heaps `0..ncpu`. -/
def mm_init (ncpu pagesize lo hi : Nat) : Option State :=
  let st := mem_init pagesize lo hi
  let (p, st) := mem_sbrk st st.page_size
  if p = 0 then none else init_heaps st (ncpu + 1)

/-! ## Call sequences -/

/-- A call of a client: `malloc cpu_id sz`, or `free k`, which frees the
pointer that the `k`-th `malloc` of the sequence (counted from 0) returned. -/
inductive Call where
  | malloc (cpu_id : Int) (sz : Nat)
  | free (k : Nat)

/-- Run a sequence of calls; `ps` collects the pointers returned so far. -/
def run_calls : State → List Nat → List Call → Option (List Nat × State)
  | st, ps, [] => some (ps, st)
  | st, ps, Call.malloc cpu_id sz :: cs =>
    (mm_malloc st cpu_id sz).bind fun r => run_calls r.2 (ps ++ [r.1]) cs
  | st, ps, Call.free k :: cs =>
    (ps.get? k).bind fun p => (mm_free st p).bind fun st => run_calls st ps cs

/-- The scenario machine of the spec: two CPUs, pages of 4096 bytes, a raw
region of 64 MiB that starts at the page-aligned address `0x100000`. -/
def scenario_init : Option State :=
  mm_init 2 4096 1048576 (1048576 + 67108864)

/-- A machine whose raw region holds exactly the four pages that `mm_init`
takes (the heap table and three heaps): afterwards `mem_sbrk` returns null. -/
def exhausted_init : Option State :=
  mm_init 2 4096 1048576 (1048576 + 4 * 4096)

/-- The state of the scenario machine after `mm_init`. -/
def scenario_state : State :=
  scenario_init.get (by rfl)

/-- The result of the first `mm_malloc(600)` on the scenario machine. -/
def scenario_first_600 : small_result :=
  (mm_malloc_small scenario_state 0 600).get (by rfl)

/-! ## Allocation runs of one size -/

/-- Bitmap whose first `u` bits are set. -/
def first_bits (u : Nat) : Nat → Nat := fun i =>
  if 8 * (i + 1) ≤ u then 255 else if 8 * i < u then 2 ^ (u - 8 * i) - 1 else 0

/-- Run `n` consecutive `mm_malloc(sz)` on one CPU and collect what the small
path hands back, in call order. -/
def malloc_run (cpu_id : Int) (sz : Nat) : Nat → State → Option (List small_result)
  | 0, _ => some []
  | n + 1, st =>
    (mm_malloc_small st cpu_id sz).bind fun r =>
      (malloc_run cpu_id sz n r.st).map fun rs => r :: rs

/-- The state after a run: the state of the last result, or the initial state
of an empty run. -/
def run_final (st : State) (rs : List small_result) : State :=
  (rs.getLast?.map fun r => r.st).getD st

/-- Shape of the state while CPU 0 only allocates blocks of 32 bytes on a fresh
allocator whose first superblock page is `B`: `j` superblocks are full, and
`cur = some u` says that the superblock at `B + j * 4096` is in use with `u`
blocks taken (header blocks included), `u < 128`. -/
structure Run32 (B hi j : Nat) (cur : Option Nat) (st : State) : Prop where
  nheaps : 2 ≤ st.nheaps
  page : st.page_size = 4096
  sys : st.system_lock = false
  max : st.mem_max_addr = hi
  brk : st.mem_brk = B + (j + (if cur.isSome then 1 else 0)) * 4096
  base : 0 < B
  lock0 : (st.heaptable 0).heap_lock = false
  lock1 : (st.heaptable 1).heap_lock = false
  bins0 : ∀ c f, (st.heaptable 0).super_bases c f = 0
  a0 : (st.heaptable 0).a = 0
  a1 : (st.heaptable 1).a =
    int32 ((4096 * (j + (if cur.isSome then 1 else 0)) : Nat) : Int)
  u1 : (st.heaptable 1).u = int32 ((4096 * j + 32 * cur.getD 0 : Nat) : Int)
  bins1 : ∀ f, f < 5 → (st.heaptable 1).super_bases 2 f =
    (cur.map fun u => if f = u / 32 + 1 then B + j * 4096 else 0).getD 0
  bin5 : (st.heaptable 1).super_bases 2 5 = if j = 0 then 0 else B + (j - 1) * 4096
  full : ∀ i, i < j → ∃ s, get_super st (B + i * 4096) = some s ∧ s.u = 128
  owner : ∀ p s, get_super st p = some s →
    s.heap_num = 1 ∧ s.block_class = 32 ∧ s.type = 0 ∧
      ∃ i, i < j + (if cur.isSome then 1 else 0) ∧ p = B + i * 4096
  cur_ok : ∀ u, cur = some u → 4 < u ∧ u < 128 ∧
    ∃ s, get_super st (B + j * 4096) = some s ∧ s.block_class = 32 ∧ s.u = (u : Int) ∧
      s.prev = 0 ∧ s.next = 0 ∧ s.block_bit_map = first_bits u

/-! ## Invariants of the reachable states -/

/-- Bit `i` of a bitmap: bit `i % 8` of byte `i / 8`. -/
def bit_set (m : Nat → Nat) (i : Nat) : Bool :=
  decide ((m (i / 8) / 2 ^ (i % 8)) % 2 = 1)

/-- Number of set bits among the first `n` bits of a bitmap. -/
def popcount (m : Nat → Nat) (n : Nat) : Nat :=
  ((List.range n).filter fun i => bit_set m i).length

/-- The bitmap after `block_bit_map[i/8] += pow(2, i % 8)`. -/
def set_bit_map (m : Nat → Nat) (i : Nat) : Nat → Nat := fun j =>
  if j = i / 8 then (m j + 2 ^ (i % 8)) % 256 else m j

/-- The bitmap after `block_bit_map[i/8] -= pow(2, i % 8)`. -/
def clear_bit_map (m : Nat → Nat) (i : Nat) : Nat → Nat := fun j =>
  if j = i / 8 then (m j + 256 - 2 ^ (i % 8)) % 256 else m j

/-- Capacity `superblk_size / block_class` of a superblock, in blocks. -/
def capacity (bc : Nat) : Nat :=
  superblk_size / bc

/-- The index `sz_id` that `mm_free` computes from `super->block_class`. -/
def class_index (bc : Nat) : Nat :=
  (size_class_loop bc 0 block_sizes).1

/-- The header that `create_superblk` writes for the class `bc`. -/
def fresh_header (bc : Nat) : superblk_t :=
  { type := 0, block_class := bc, block_bit_map := header_bitmap (blks_used bc),
    u := (blks_used bc : Nat), heap_num := 0, prev := 0, next := 0 }

/-- A bin `{heap, class, fullness}` exists in the heap table. -/
def ValidBin (st : State) (b : Int × Int × Int) : Prop :=
  0 ≤ b.1 ∧ b.1.toNat < st.nheaps ∧ 0 ≤ b.2.1 ∧ b.2.1 < 9 ∧ 0 ≤ b.2.2 ∧ b.2.2 < 6

/-- The head `heaptable[heap]->super_bases[class][fullness]` of a bin. -/
def bin_of (st : State) (b : Int × Int × Int) : Nat :=
  (st.heaptable b.1.toNat).super_bases b.2.1.toNat b.2.2.toNat

/-- The bin a superblock belongs to by its own fields: heap `heap_num`, the
index of its class, the fullness computed from `u`. -/
def home_bin (s : superblk_t) : Int × Int × Int :=
  (s.heap_num, (class_index s.block_class : Int), (fullness s.u s.block_class).getD 0)

/-- The home bin of the superblock at `p`. -/
def loc_of (st : State) (p : Nat) : Int × Int × Int :=
  ((get_super st p).map home_bin).getD (0, 0, 0)

/-- Page of a pointer, as `mm_free` computes it with a page size of 4096. -/
def page_of (q : Nat) : Nat :=
  q - q % 4096

/-- Number of live pointers that lie in page `p` and, for the block class
`bc`, in block `i`. -/
def live_at (live : List Nat) (p bc i : Nat) : Nat :=
  live.countP fun q => decide (page_of q = p ∧ q % 4096 / bc = i)

/-- The bin lists are consistent: `loc` says in which bin each superblock is;
a head has no predecessor and lies in its bin, `next` and `prev` are inverse
to each other and stay inside a bin. -/
structure Lists (st : State) (loc : Nat → Int × Int × Int) : Prop where
  head : ∀ b, ValidBin st b → bin_of st b ≠ 0 →
    ∃ s, get_super st (bin_of st b) = some s ∧ s.prev = 0 ∧ loc (bin_of st b) = b
  next : ∀ p s, get_super st p = some s → s.next ≠ 0 →
    ∃ n, get_super st s.next = some n ∧ n.prev = p ∧ loc s.next = loc p
  prev : ∀ p s, get_super st p = some s → s.prev ≠ 0 →
    ∃ m, get_super st s.prev = some m ∧ m.next = p

/-- What holds of the superblock `s` at address `p`, `live` being the pointers
handed out and not yet freed: `u` counts the set bits, the header blocks are
marked, and a block holds at most one live pointer, none when its bit is
clear. -/
structure SuperOK (brk : Nat) (live : List Nat) (p : Nat) (s : superblk_t) : Prop where
  cls : s.block_class ∈ block_sizes
  aligned : p % 4096 = 0
  below : p + 4096 ≤ brk
  bytes : ∀ i, s.block_bit_map i < 256
  count : s.u = ((popcount s.block_bit_map (capacity s.block_class) : Nat) : Int)
  header : ∀ i, i < blks_used s.block_class → bit_set s.block_bit_map i = true
  livebits : ∀ i, live_at live p s.block_class i ≤
    if i < capacity s.block_class ∧ blks_used s.block_class ≤ i ∧
      bit_set s.block_bit_map i = true then 1 else 0

/-- What holds of the large-block node `n` at address `x`: its run of pages
lies below the break and holds no superblock. -/
structure NodeOK (st : State) (x : Nat) (n : node_t) : Prop where
  aligned : x % 4096 = 0
  pages : 1 ≤ n.npages
  below : x + n.npages.toNat * 4096 ≤ st.mem_brk
  nosuper : ∀ j : Nat, (j : Int) < n.npages → get_super st (x + j * 4096) = none

/-- The part of the invariant that does not concern the bin lists. -/
structure BaseInv (st : State) (live : List Nat) : Prop where
  page : st.page_size = 4096
  brk_aligned : st.mem_brk % 4096 = 0
  brk_pos : 0 < st.mem_brk
  brk_max : st.mem_brk ≤ st.mem_max_addr
  max : st.mem_max_addr ≤ 2 ^ 64
  supers : ∀ p s, get_super st p = some s → SuperOK st.mem_brk live p s
  nodes : ∀ x n, get_node st x = some n → NodeOK st x n
  live_below : ∀ q, q ∈ live → q < st.mem_brk

/-- The invariant of the states reachable from `mm_init` with pages of 4096
bytes: every superblock is in the bin that its owner, class and fullness
name. -/
structure HeapInv (st : State) (live : List Nat) : Prop where
  base : BaseInv st live
  lists : Lists st (loc_of st)

/-- Two states agree on the scalars, on every header and on every bin head:
they differ at most in the locks and in the counters and large lists of the
heaps. -/
structure Sim (st st1 : State) : Prop where
  nheaps : st1.nheaps = st.nheaps
  page : st1.page_size = st.page_size
  brk : st1.mem_brk = st.mem_brk
  max : st1.mem_max_addr = st.mem_max_addr
  mem : st1.mem = st.mem
  bins : ∀ i, (st1.heaptable i).super_bases = (st.heaptable i).super_bases

/-- The state after `set_bin` agrees with the old one but for the head of
that bin. -/
structure BinUpd (st st1 : State) (b : Int × Int × Int) (v : Nat) : Prop where
  nheaps : st1.nheaps = st.nheaps
  page : st1.page_size = st.page_size
  brk : st1.mem_brk = st.mem_brk
  max : st1.mem_max_addr = st.mem_max_addr
  mem : st1.mem = st.mem
  valid : ValidBin st b
  bins : ∀ b', ValidBin st b' → bin_of st1 b' = if b' = b then v else bin_of st b'

/-- The state after a superblock header is written at `q`. -/
structure SupUpd (st st1 : State) (q : Nat) (s1 : superblk_t) : Prop where
  nheaps : st1.nheaps = st.nheaps
  page : st1.page_size = st.page_size
  brk : st1.mem_brk = st.mem_brk
  max : st1.mem_max_addr = st.mem_max_addr
  heaps : st1.heaptable = st.heaptable
  sup : ∀ x, get_super st1 x = if x = q then some s1 else get_super st x
  nod : ∀ x, get_node st1 x = if x = q then none else get_node st x

/-- The state `st1` comes from `st` by rewriting every superblock header with
`g` and every bin head with `β`; the scalars and the nodes are the same. -/
structure Upd (st st1 : State) (g : Nat → superblk_t → superblk_t)
    (β : Int × Int × Int → Nat → Nat) : Prop where
  nheaps : st1.nheaps = st.nheaps
  page : st1.page_size = st.page_size
  brk : st1.mem_brk = st.mem_brk
  max : st1.mem_max_addr = st.mem_max_addr
  sup : ∀ x, get_super st1 x = (get_super st x).map (g x)
  nod : ∀ x, get_node st1 x = get_node st x
  bins : ∀ b, ValidBin st b → bin_of st1 b = β b (bin_of st b)

/-- The header at `x` after `move_superblk(p, src, dest)`, when `s` was the
header of `p` and `d` the head of the bin `dest`: `r` is the header at `x`
before. -/
def moved (p d : Nat) (s : superblk_t) (src dest : Int × Int × Int) (x : Nat)
    (r : superblk_t) : superblk_t :=
  { r with
    prev := if x = p then 0 else if x = d ∧ d ≠ 0 then p
      else if x = s.next ∧ s.next ≠ 0 then s.prev else r.prev
    next := if x = p then d else if x = s.prev ∧ s.prev ≠ 0 then s.next else r.next
    heap_num := if x = p ∧ dest.1 ≠ src.1 then dest.1 else r.heap_num }

/-- The head of the bin `b` after `move_superblk(p, src, dest)`, `v` being the
head before. -/
def moved_bin (p : Nat) (s : superblk_t) (src dest b : Int × Int × Int) (v : Nat) : Nat :=
  if b = dest then p else if s.prev = 0 ∧ b = src then s.next else v

/-- The state `st1` comes from `st` by taking one page at the break for a
superblock with header `s0`, which becomes the head of the bin `b`. -/
structure Fresh (st st1 : State) (s0 : superblk_t) (b : Int × Int × Int) : Prop where
  nheaps : st1.nheaps = st.nheaps
  page : st1.page_size = st.page_size
  brk : st1.mem_brk = st.mem_brk + 4096
  max : st1.mem_max_addr = st.mem_max_addr
  sup : ∀ x, get_super st1 x = if x = st.mem_brk then some s0 else get_super st x
  nod : ∀ x, get_node st1 x = if x = st.mem_brk then none else get_node st x
  valid : ValidBin st b
  bins : ∀ b', ValidBin st b' → bin_of st1 b' = if b' = b then st.mem_brk else bin_of st b'

/-- The states `st` and `st1` have the same superblocks and bin heads. -/
structure Same (st st1 : State) : Prop where
  nheaps : st1.nheaps = st.nheaps
  sup : ∀ x, get_super st1 x = get_super st x
  bins : ∀ b, bin_of st1 b = bin_of st b

/-- A step of the large path: the superblocks and bins are untouched, the
nodes keep their page counts and the base invariant is kept. -/
structure Large (st st1 : State) : Prop where
  base : ∀ live, BaseInv st live → BaseInv st1 live
  same : Same st st1
  nod : ∀ x n, get_node st x = some n → ∃ n1, get_node st1 x = some n1 ∧ n1.npages = n.npages

/-- The block class, bitmap and counter `u` of the superblock at `x`, if there
is one. -/
def bits_of (st : State) (x : Nat) : Option (Nat × (Nat → Nat) × Int) :=
  (get_super st x).map fun s => (s.block_class, s.block_bit_map, s.u)

/-- The header of the superblock that a small-path call took its block from,
as it was before the call; a superblock that the call created on a fresh page
counts with the header that `create_superblk` wrote. -/
def before_header (st : State) (r : small_result) (sz : Nat) : superblk_t :=
  (get_super st r.super_res).getD (fresh_header (size_class sz).2)

/-- The index of the returned block in its superblock. -/
def blk_index (r : small_result) (sz : Nat) : Nat :=
  (r.blk - r.super_res) / (size_class sz).2

/-- The states a client reaches from `mm_init` (`ncpu` processors, pages of
4096 bytes, a page-aligned raw region `[lo, hi)` of the 64-bit address space
that does not start at null), together with the pointers that are live:
`mm_malloc` is called on an existing CPU with a size whose sum with
`sizeof(node_t)` does not wrap, `mm_free` on a live pointer. -/
inductive Reachable (ncpu lo hi : Nat) : State → List Nat → Prop where
  | init (st : State) : 0 < lo → lo % 4096 = 0 → hi ≤ 2 ^ 64 →
      mm_init ncpu 4096 lo hi = some st → Reachable ncpu lo hi st []
  | malloc (st st1 : State) (live : List Nat) (cpu_id : Int) (sz p : Nat) :
      Reachable ncpu lo hi st live → 0 ≤ cpu_id → cpu_id < (ncpu : Int) →
      sz + sizeof_node_t < size_t_mod → mm_malloc st cpu_id sz = some (p, st1) →
      Reachable ncpu lo hi st1 (if p = 0 then live else p :: live)
  | free (st st1 : State) (live : List Nat) (p : Nat) :
      Reachable ncpu lo hi st live → p ∈ live → mm_free st p = some st1 →
      Reachable ncpu lo hi st1 (live.erase p)

/-! ## The bin lists -/

/-- The addresses met from `p` by following `next`, at most `fuel` of them; the
walk stops at a null pointer (and at an address that holds no superblock). -/
def bin_walk (st : State) : Nat → Nat → List Nat
  | 0, _ => []
  | fuel + 1, p =>
    if p = 0 then []
    else
      match get_super st p with
      | some s => p :: bin_walk st fuel s.next
      | none => []

/-- The superblocks linked in `heaptable[h]->super_bases[k][f]`, in list order.
The fuel is the number of mapped headers plus one, as in `scan_bin`: it bounds
the length of every list of distinct superblocks. -/
def bin_list (st : State) (h k f : Nat) : List Nat :=
  bin_walk st (st.mem.length + 1) ((st.heaptable h).super_bases k f)

/-- The list `xs` is a well-formed doubly linked list of superblocks that
starts at `head`: `head` is its first element (null when it is empty), the
`prev` of the first element is `prev`, the `next` of an element is the element
after it, whose `prev` points back, and the `next` of the last one is null. -/
def chain_ok (st : State) : Nat → Nat → List Nat → Bool
  | _, head, [] => decide (head = 0)
  | prev, head, x :: xs =>
    decide (head = x) && decide (x ≠ 0) &&
      match get_super st x with
      | some s => decide (s.prev = prev) && chain_ok st x s.next xs
      | none => false

/-- The bytes in use in the superblock at `p`: `u * block_class`. -/
def super_bytes (st : State) (p : Nat) : Int :=
  match get_super st p with
  | some s => s.u * (s.block_class : Int)
  | none => 0

/-- All the bins `(k, f)` of a heap, in a fixed order. -/
def all_bins : List (Nat × Nat) :=
  (List.range 9).flatMap fun k => (List.range 6).map fun f => (k, f)

/-- The superblocks linked in the bins of the heap `h`. -/
def heap_supers (st : State) (h : Nat) : List Nat :=
  all_bins.flatMap fun kf => bin_list st h kf.1 kf.2

/-- The sum of `u * block_class` over the superblocks linked in the bins of
the heap `h`. -/
def heap_used (st : State) (h : Nat) : Int :=
  ((heap_supers st h).map (super_bytes st)).sum

/-- The emptiness threshold of `mm_free` for a heap with counters `u` and `a`:
`u < a / 4 && u < a - 8 * superblk_size`, in `int` arithmetic. -/
def empty_threshold (h : heap_t) : Bool :=
  decide (h.u < Int.tdiv h.a 4 ∧ h.u < int32 (h.a - 8 * (superblk_size : Int)))

/-- The superblock at `p` is linked in the bin of the heap `h` that its class
and the formula `floor(4 * u / capacity) + 1` name. -/
def in_formula_bin (st : State) (h p : Nat) : Bool :=
  match get_super st p with
  | some s =>
    decide (s.block_class ∈ block_sizes) && decide (0 ≤ s.u) &&
      decide (p ∈ bin_list st h (class_index s.block_class)
        (4 * s.u.toNat / capacity s.block_class + 1))
  | none => false

/-- A run of client calls that keeps track of the live pointers and takes
only the calls a client may make: `mm_malloc` on an existing CPU with a size
whose sum with `sizeof(node_t)` does not wrap, `mm_free` on a live pointer.
The result is the pointers returned, the live ones and the state. -/
def run_live (ncpu : Nat) : State → List Nat → List Nat → List Call →
    Option (List Nat × List Nat × State)
  | st, ps, live, [] => some (ps, live, st)
  | st, ps, live, Call.malloc cpu_id sz :: cs =>
    if 0 ≤ cpu_id ∧ cpu_id < (ncpu : Int) ∧ sz + sizeof_node_t < size_t_mod then
      (mm_malloc st cpu_id sz).bind fun r =>
        run_live ncpu r.2 (ps ++ [r.1]) (if r.1 = 0 then live else r.1 :: live) cs
    else none
  | st, ps, live, Call.free k :: cs =>
    (ps.get? k).bind fun p =>
      if p ∈ live then (mm_free st p).bind fun st1 => run_live ncpu st1 ps (live.erase p) cs
      else none

/-- A run of the client on the scenario machine: twelve `mm_malloc(2048)` on
CPU 0, then `mm_free` of the first seven blocks. -/
def threshold_calls : List Call :=
  List.replicate 12 (Call.malloc 0 2048) ++ (List.range 7).map Call.free

set_option maxRecDepth 1000000 in
/-- The pointers returned by `threshold_calls`, the live ones and the state
after the calls. -/
def threshold_run : List Nat × List Nat × State :=
  (run_live 2 scenario_state [] [] threshold_calls).get (by decide)

/-- The state after `threshold_calls`: the heap of CPU 0 holds eleven
superblocks and 10240 bytes in use. -/
def threshold_state : State := threshold_run.2.2

/-- The position of every superblock in its bin list: `rank p` is the number
of `prev` steps from `p` to the head of the list of the bin `loc p`.  A
superblock without predecessor is the head of its bin. -/
structure Rooted (st : State) (loc : Nat → Int × Int × Int) (rank : Nat → Nat) : Prop where
  root : ∀ p s, get_super st p = some s → s.prev = 0 →
    ValidBin st (loc p) ∧ bin_of st (loc p) = p ∧ rank p = 0
  step : ∀ p s, get_super st p = some s → s.prev ≠ 0 → rank p = rank s.prev + 1

/-- The ranks after `move_superblk(p, src, dest)`: `p` is the new head of
`dest`, the old members of `dest` move down by one, the members of `src`
behind `p` move up by one. -/
def moved_rank (p : Nat) (loc : Nat → Int × Int × Int) (rank : Nat → Nat)
    (src dest : Int × Int × Int) (x : Nat) : Nat :=
  if x = p then 0 else if loc x = dest then rank x + 1
  else if loc x = src ∧ rank p < rank x then rank x - 1 else rank x

/-- The bytes in use that the superblock at `x` contributes to the heap `h`:
`u * block_class` when `h` is its owner. -/
def owned_bytes (st : State) (h : Nat) (x : Nat) : Int :=
  match get_super st x with
  | some s => if s.heap_num = (h : Int) then s.u * (s.block_class : Int) else 0
  | none => 0

/-- The bytes that the superblock at `x` contributes to the `a` of the heap
`h`: `superblk_size` when `h` is its owner. -/
def owned_page (st : State) (h : Nat) (x : Nat) : Int :=
  match get_super st x with
  | some s => if s.heap_num = (h : Int) then (superblk_size : Int) else 0
  | none => 0

/-- The counters of the heaps account for the superblocks: `S` is the set of
the superblocks, `u` of a heap holds the sum of `u * block_class` over the
superblocks it owns and `a` holds `superblk_size` times their number, both as
far as an `int` can hold them. -/
structure Acct (st : State) (S : Finset Nat) : Prop where
  mem : ∀ x, x ∈ S ↔ ∃ s, get_super st x = some s
  used : ∀ h, h < st.nheaps → (st.heaptable h).u = int32 (S.sum (owned_bytes st h))
  alloc : ∀ h, h < st.nheaps → (st.heaptable h).a = int32 (S.sum (owned_page st h))

/-- The counters and the locks are the same in `st` and `st1`. -/
structure Frame (st st1 : State) : Prop where
  u : ∀ h, (st1.heaptable h).u = (st.heaptable h).u
  a : ∀ h, (st1.heaptable h).a = (st.heaptable h).a
  lock : ∀ h, (st1.heaptable h).heap_lock = (st.heaptable h).heap_lock
  sys : st1.system_lock = st.system_lock

/-- The bin lists are rooted and the counters account for the superblocks. -/
structure Tight (st : State) (loc : Nat → Int × Int × Int) : Prop where
  rooted : ∃ rank, Rooted st loc rank
  acct : ∃ S, Acct st S

/-- The counters `u` and `a` of every heap are the same in `st` and `st1`. -/
structure Cnt (st st1 : State) : Prop where
  u : ∀ h, (st1.heaptable h).u = (st.heaptable h).u
  a : ∀ h, (st1.heaptable h).a = (st.heaptable h).a

/-- The request size `(size_t)-32`: its sum with `sizeof(node_t)` is 0 in
`size_t` arithmetic. -/
def wrap_size : Nat := size_t_mod - 32

/-- The bytes of `block_bit_map` after a pointer `v` is stored into the field
`prev` of a `node_t` laid over a `superblk_t`.  In `node_t` the three `int`s
`type`, `npages`, `heap_num` and 4 bytes of padding come before `prev`, which
is at offset 16; in `superblk_t` the `int type`, 4 bytes of padding and the
`size_t block_class` come before `block_bit_map`, which is at offset 16 too.
The 8 bytes of the pointer, least significant first, replace
`block_bit_map[0..7]`. -/
def prev_over_bitmap (m : Nat → Nat) (v : Nat) : Nat → Nat := fun i =>
  if i < 8 then v / 256 ^ i % 256 else m i

/-- The store `p->prev = res` through a `node_t *p`, whatever record the
header at `p` holds. -/
def store_prev (st : State) (p res : Nat) : Option State :=
  match load st p with
  | some (Obj.node n) => store st p (Obj.node { n with prev := res })
  | some (Obj.super s) =>
    store st p (Obj.super { s with block_bit_map := prev_over_bitmap s.block_bit_map res })
  | none => none

/-- Lines 114-128 of `alloc_large`, as `push_large`, with the store of line 118
done by `store_prev`. -/
def push_large_aliased (st : State) (num_pgs : Nat) (cpu_id : Int) (res : Nat) : Option State :=
  (lock_heap st (cpu_id + 1)).bind fun st =>
  (heap_at st (cpu_id + 1)).bind fun h =>
  (if h.largeblks ≠ 0 then store_prev st h.largeblks res else some st).bind fun st =>
  (store st res (Obj.node
    { type := 1, npages := (num_pgs : Int), heap_num := cpu_id, prev := 0,
      next := h.largeblks })).bind fun st =>
  (modify_heap st (cpu_id + 1) fun h => { h with largeblks := res }).bind fun st =>
  unlock_heap st (cpu_id + 1)

/-- `alloc_large(sz, cpu_id)`, as `alloc_large`, with `push_large_aliased`. -/
def alloc_large_aliased (st : State) (sz : Nat) (cpu_id : Int) : Option (Nat × State) :=
  (num_pgs_of sz).bind fun num_pgs =>
  (lock_heap st 0).bind fun st =>
  (heap_at st 0).bind fun h0 =>
  (search_large st num_pgs (st.mem.length + 1) h0.largeblks).bind fun sr =>
  (unlock_heap sr.1 0).bind fun st =>
  (if sr.2 = 0 then
      (lock_system st).bind fun st =>
        some ((mem_sbrk st (num_pgs * st.page_size)).1,
          unlock_system (mem_sbrk st (num_pgs * st.page_size)).2)
    else some (sr.2, st)).bind fun rs =>
  (push_large_aliased rs.2 num_pgs cpu_id rs.1).bind fun st =>
  some (rs.1 + sizeof_node_t, st)

/-! # Theorems -/

/-! ## The `int` counters -/

theorem int32_range (x : Int) : -2147483648 ≤ int32 x ∧ int32 x < 2147483648 := by
  unfold int32
  omega

theorem int32_eq_self {x : Int} (h0 : -2147483648 ≤ x) (h1 : x < 2147483648) : int32 x = x := by
  unfold int32
  omega

@[simp] theorem int32_idem (x : Int) : int32 (int32 x) = int32 x := by
  unfold int32
  omega

@[simp] theorem int32_add_left (x y : Int) : int32 (int32 x + y) = int32 (x + y) := by
  unfold int32
  omega

@[simp] theorem int32_add_right (x y : Int) : int32 (x + int32 y) = int32 (x + y) := by
  unfold int32
  omega

@[simp] theorem int32_sub_left (x y : Int) : int32 (int32 x - y) = int32 (x - y) := by
  unfold int32
  omega

@[simp] theorem int32_sub_right (x y : Int) : int32 (x - int32 y) = int32 (x - y) := by
  unfold int32
  omega

@[simp] theorem int32_zero : int32 0 = 0 := by decide

theorem int32_add_sub_cancel (x y : Int) : int32 (int32 (x + y) - y) = int32 x := by
  rw [int32_sub_left]
  congr 1
  ring


/-! ## Basic lemmas on the state -/

theorem mem_read_write (m : List (Nat × Obj)) (p q : Nat) (o : Obj) :
    mem_read (mem_write m p o) q = if q = p then some o else mem_read m q := by
  induction m with
  | nil => simp [mem_write, mem_read, eq_comm]
  | cons e rest ih =>
    obtain ⟨k, v⟩ := e
    by_cases hk : k = p
    · subst hk
      by_cases hq : k = q
      · simp [mem_write, mem_read, hq]
      · have hq' : ¬ q = k := fun h => hq h.symm
        simp [mem_write, mem_read, hq, hq']
    · by_cases hq : k = q
      · subst hq
        simp [mem_write, mem_read, hk]
      · simp [mem_write, mem_read, hk, hq, ih]

@[simp] theorem write_obj_nheaps (st : State) (p : Nat) (o : Obj) :
    (write_obj st p o).nheaps = st.nheaps := rfl
@[simp] theorem write_obj_heaptable (st : State) (p : Nat) (o : Obj) :
    (write_obj st p o).heaptable = st.heaptable := rfl
@[simp] theorem write_obj_system_lock (st : State) (p : Nat) (o : Obj) :
    (write_obj st p o).system_lock = st.system_lock := rfl
@[simp] theorem write_obj_page_size (st : State) (p : Nat) (o : Obj) :
    (write_obj st p o).page_size = st.page_size := rfl
@[simp] theorem write_obj_mem_brk (st : State) (p : Nat) (o : Obj) :
    (write_obj st p o).mem_brk = st.mem_brk := rfl
@[simp] theorem write_obj_mem_max_addr (st : State) (p : Nat) (o : Obj) :
    (write_obj st p o).mem_max_addr = st.mem_max_addr := rfl

@[simp] theorem set_heap_nheaps (st : State) (i : Int) (h : heap_t) :
    (set_heap st i h).nheaps = st.nheaps := rfl
@[simp] theorem set_heap_heaptable (st : State) (i : Int) (h : heap_t) (j : Nat) :
    (set_heap st i h).heaptable j = if j = i.toNat then h else st.heaptable j := rfl
@[simp] theorem set_heap_system_lock (st : State) (i : Int) (h : heap_t) :
    (set_heap st i h).system_lock = st.system_lock := rfl
@[simp] theorem set_heap_mem (st : State) (i : Int) (h : heap_t) :
    (set_heap st i h).mem = st.mem := rfl
@[simp] theorem set_heap_page_size (st : State) (i : Int) (h : heap_t) :
    (set_heap st i h).page_size = st.page_size := rfl
@[simp] theorem set_heap_mem_brk (st : State) (i : Int) (h : heap_t) :
    (set_heap st i h).mem_brk = st.mem_brk := rfl
@[simp] theorem set_heap_mem_max_addr (st : State) (i : Int) (h : heap_t) :
    (set_heap st i h).mem_max_addr = st.mem_max_addr := rfl

@[simp] theorem load_write_obj (st : State) (p x : Nat) (o : Obj) :
    load (write_obj st p o) x = if x = 0 then none else if x = p then some o else load st x := by
  unfold load write_obj
  by_cases hx : x = 0
  · simp [hx]
  · simp [hx, mem_read_write]

@[simp] theorem load_set_heap (st : State) (i : Int) (h : heap_t) (x : Nat) :
    load (set_heap st i h) x = load st x := rfl

@[simp] theorem get_super_set_heap (st : State) (i : Int) (h : heap_t) (x : Nat) :
    get_super (set_heap st i h) x = get_super st x := rfl

@[simp] theorem get_node_set_heap (st : State) (i : Int) (h : heap_t) (x : Nat) :
    get_node (set_heap st i h) x = get_node st x := rfl

theorem get_super_zero (st : State) : get_super st 0 = none := by
  simp [get_super, load]

theorem get_node_zero (st : State) : get_node st 0 = none := by
  simp [get_node, load]

theorem get_super_ne_zero {st : State} {p : Nat} {s : superblk_t}
    (h : get_super st p = some s) : p ≠ 0 := by
  intro h0; rw [h0, get_super_zero] at h; cases h

theorem get_node_ne_zero {st : State} {p : Nat} {n : node_t}
    (h : get_node st p = some n) : p ≠ 0 := by
  intro h0; rw [h0, get_node_zero] at h; cases h

@[simp] theorem get_super_write_super (st : State) (p x : Nat) (s : superblk_t) :
    get_super (write_obj st p (Obj.super s)) x =
      if x = p then (if p = 0 then none else some s) else get_super st x := by
  unfold get_super
  rw [load_write_obj]
  by_cases hx : x = p
  · subst hx
    by_cases h0 : x = 0 <;> simp [h0]
  · by_cases h0 : x = 0
    · subst h0
      simp [hx, load]
    · simp [h0, hx]

@[simp] theorem get_super_write_node (st : State) (p x : Nat) (n : node_t) :
    get_super (write_obj st p (Obj.node n)) x = if x = p then none else get_super st x := by
  unfold get_super
  rw [load_write_obj]
  by_cases hx : x = p
  · subst hx
    by_cases h0 : x = 0 <;> simp [h0]
  · by_cases h0 : x = 0
    · subst h0
      simp [hx, load]
    · simp [h0, hx]

@[simp] theorem get_node_write_node (st : State) (p x : Nat) (n : node_t) :
    get_node (write_obj st p (Obj.node n)) x =
      if x = p then (if p = 0 then none else some n) else get_node st x := by
  unfold get_node
  rw [load_write_obj]
  by_cases hx : x = p
  · subst hx
    by_cases h0 : x = 0 <;> simp [h0]
  · by_cases h0 : x = 0
    · subst h0
      simp [hx, load]
    · simp [h0, hx]

@[simp] theorem get_node_write_super (st : State) (p x : Nat) (s : superblk_t) :
    get_node (write_obj st p (Obj.super s)) x = if x = p then none else get_node st x := by
  unfold get_node
  rw [load_write_obj]
  by_cases hx : x = p
  · subst hx
    by_cases h0 : x = 0 <;> simp [h0]
  · by_cases h0 : x = 0
    · subst h0
      simp [hx, load]
    · simp [h0, hx]

@[simp] theorem heap_at_write_obj (st : State) (p : Nat) (o : Obj) (i : Int) :
    heap_at (write_obj st p o) i = heap_at st i := rfl

theorem heap_at_nat (st : State) (i : Nat) :
    heap_at st (i : Int) = if i < st.nheaps then some (st.heaptable i) else none := by
  simp [heap_at]

theorem heap_at_eq_some {st : State} {i : Int} {h : heap_t} (hh : heap_at st i = some h) :
    0 ≤ i ∧ i.toNat < st.nheaps ∧ h = st.heaptable i.toNat := by
  unfold heap_at at hh
  split_ifs at hh with hc
  simp only [Option.some.injEq] at hh
  exact ⟨hc.1, hc.2, hh.symm⟩

/-! ## Exec lemmas -/

theorem store_eq {st : State} {p : Nat} (o : Obj) (hp : p ≠ 0) :
    store st p o = some (write_obj st p o) := by
  simp [store, hp]

theorem modify_super_eq {st : State} {p : Nat} {s : superblk_t} (f : superblk_t → superblk_t)
    (h : get_super st p = some s) :
    modify_super st p f = some (write_obj st p (Obj.super (f s))) := by
  simp [modify_super, h, store_eq _ (get_super_ne_zero h)]

theorem modify_heap_eq {st : State} {i : Int} {h : heap_t} (f : heap_t → heap_t)
    (hh : heap_at st i = some h) : modify_heap st i f = some (set_heap st i (f h)) := by
  simp [modify_heap, hh]

theorem lock_heap_eq {st : State} {i : Int} {h : heap_t}
    (hh : heap_at st i = some h) (hl : h.heap_lock = false) :
    lock_heap st i = some (set_heap st i { h with heap_lock := true }) := by
  simp [lock_heap, hh, hl]

theorem get_bin_eq {st : State} {hp : Int} {h : heap_t} (c f : Nat)
    (hh : heap_at st hp = some h) (hc : c < 9) (hf : f < 6) :
    get_bin st hp c f = some (h.super_bases c f) := by
  have : (c : Int) < 9 := by exact_mod_cast hc
  have : (f : Int) < 6 := by exact_mod_cast hf
  simp [get_bin, hh, *]

theorem set_bin_eq {st : State} {hp : Int} {h : heap_t} (c f : Nat) (v : Nat)
    (hh : heap_at st hp = some h) (hc : c < 9) (hf : f < 6) :
    set_bin st hp c f v = some (set_heap st hp
      { h with super_bases := fun c' f' =>
          if c' = c ∧ f' = f then v else h.super_bases c' f' }) := by
  have : (c : Int) < 9 := by exact_mod_cast hc
  have : (f : Int) < 6 := by exact_mod_cast hf
  simp [set_bin, modify_heap, hh, *]


/-! ## Normal forms of the primitive operations -/

theorem modify_super_map (st : State) (p : Nat) (f : superblk_t → superblk_t) :
    modify_super st p f = (get_super st p).map fun s => write_obj st p (Obj.super (f s)) := by
  unfold modify_super
  cases h : get_super st p with
  | none => rfl
  | some s => simp [store_eq _ (get_super_ne_zero h)]

theorem modify_node_map (st : State) (p : Nat) (f : node_t → node_t) :
    modify_node st p f = (get_node st p).map fun n => write_obj st p (Obj.node (f n)) := by
  unfold modify_node
  cases h : get_node st p with
  | none => rfl
  | some s => simp [store_eq _ (get_node_ne_zero h)]

theorem modify_heap_nat (st : State) (i : Nat) (f : heap_t → heap_t) :
    modify_heap st (i : Int) f =
      if i < st.nheaps then some (set_heap st (i : Int) (f (st.heaptable i))) else none := by
  simp only [modify_heap, heap_at_nat]
  split_ifs <;> rfl

theorem get_bin_nat (st : State) (hp c f : Nat) :
    get_bin st (hp : Int) (c : Int) (f : Int) =
      if hp < st.nheaps ∧ c < 9 ∧ f < 6 then some ((st.heaptable hp).super_bases c f) else none := by
  simp only [get_bin, heap_at_nat]
  by_cases h : hp < st.nheaps
  · by_cases hc : c < 9
    · by_cases hf : f < 6
      · have : (c : Int) < 9 := by exact_mod_cast hc
        have : (f : Int) < 6 := by exact_mod_cast hf
        simp [*]
      · have : ¬ (f : Int) < 6 := by exact_mod_cast hf
        simp [*]
    · have : ¬ (c : Int) < 9 := by exact_mod_cast hc
      simp [*]
  · simp [h]

theorem set_bin_nat (st : State) (hp c f v : Nat) :
    set_bin st (hp : Int) (c : Int) (f : Int) v =
      if hp < st.nheaps ∧ c < 9 ∧ f < 6 then
        some (set_heap st (hp : Int)
          { st.heaptable hp with super_bases := fun c' f' =>
              if c' = c ∧ f' = f then v else (st.heaptable hp).super_bases c' f' })
      else none := by
  simp only [set_bin, modify_heap_nat]
  by_cases h : hp < st.nheaps
  · by_cases hc : c < 9
    · by_cases hf : f < 6
      · have : (c : Int) < 9 := by exact_mod_cast hc
        have : (f : Int) < 6 := by exact_mod_cast hf
        simp [*]
      · have : ¬ (f : Int) < 6 := by exact_mod_cast hf
        simp [*]
    · have : ¬ (c : Int) < 9 := by exact_mod_cast hc
      simp [*]
  · simp [h]

theorem lock_heap_nat (st : State) (i : Nat) :
    lock_heap st (i : Int) =
      if i < st.nheaps ∧ (st.heaptable i).heap_lock = false then
        some (set_heap st (i : Int) { st.heaptable i with heap_lock := true })
      else none := by
  simp only [lock_heap, heap_at_nat]
  by_cases h : i < st.nheaps
  · cases hl : (st.heaptable i).heap_lock <;> simp [h, hl]
  · simp [h]

theorem unlock_heap_nat (st : State) (i : Nat) :
    unlock_heap st (i : Int) =
      if i < st.nheaps then
        some (set_heap st (i : Int) { st.heaptable i with heap_lock := false })
      else none := by
  simp only [unlock_heap, modify_heap_nat]

theorem move_alone (st : State) (p : Nat) (s : superblk_t) (sh c sf dh c' df : Nat)
    (hs : get_super st p = some s) (hn : s.next = 0) (hpv : s.prev = 0)
    (hsh : sh < st.nheaps) (hdh : dh < st.nheaps)
    (hc : c < 9) (hsf : sf < 6) (hc' : c' < 9) (hdf : df < 6)
    (hne : ¬ (sh = dh ∧ c = c' ∧ sf = df))
    (hd : (st.heaptable dh).super_bases c' df = 0 ∨
      ((st.heaptable dh).super_bases c' df ≠ p ∧
        ∃ sd, get_super st ((st.heaptable dh).super_bases c' df) = some sd)) :
    ∃ st1, move_superblk st p ((sh : Int), (c : Int), (sf : Int)) ((dh : Int), (c' : Int), (df : Int))
        = some st1 ∧
      st1.nheaps = st.nheaps ∧ st1.system_lock = st.system_lock ∧
      st1.page_size = st.page_size ∧ st1.mem_brk = st.mem_brk ∧
      st1.mem_max_addr = st.mem_max_addr ∧
      (∀ x, get_super st1 x =
        if x = p then some { s with next := (st.heaptable dh).super_bases c' df, prev := 0,
                                    heap_num := if dh = sh then s.heap_num else (dh : Int) }
        else if x = (st.heaptable dh).super_bases c' df then
          (get_super st x).map fun sd => { sd with prev := p }
        else get_super st x) ∧
      (∀ i, (st1.heaptable i).heap_lock = (st.heaptable i).heap_lock ∧
        (st1.heaptable i).largeblks = (st.heaptable i).largeblks ∧
        (∀ c0 f0, (st1.heaptable i).super_bases c0 f0 =
          if i = dh ∧ c0 = c' ∧ f0 = df then p
          else if i = sh ∧ c0 = c ∧ f0 = sf then 0
          else (st.heaptable i).super_bases c0 f0) ∧
        (st1.heaptable i).u =
          (if dh ≠ sh ∧ i = dh then int32 ((st.heaptable i).u + s.u * (s.block_class : Int))
           else if dh ≠ sh ∧ i = sh then int32 ((st.heaptable i).u - s.u * (s.block_class : Int))
           else (st.heaptable i).u) ∧
        (st1.heaptable i).a =
          (if dh ≠ sh ∧ i = dh then int32 ((st.heaptable i).a + (superblk_size : Int))
           else if dh ≠ sh ∧ i = sh then int32 ((st.heaptable i).a - (superblk_size : Int))
           else (st.heaptable i).a)) := by
  have hp0 := get_super_ne_zero hs
  generalize hdd : (st.heaptable dh).super_bases c' df = d at hd ⊢
  by_cases hds : dh = sh
  · subst hds
    have hcf : ¬ (c' = c ∧ df = sf) := fun hh => hne ⟨rfl, hh.1.symm, hh.2.symm⟩
    rcases hd with hd0 | ⟨hdp, sd, hsd⟩
    · subst hd0
      simp only [move_superblk, unlink_super, push_super, transfer_super, hs, Option.some_bind, hn,
        hpv, ne_eq, not_true_eq_false, if_false, set_bin_nat, hdh, hc, hsf, hc', hdf, and_self,
        if_true, get_bin_nat, set_heap_nheaps, set_heap_heaptable, Int.toNat_ofNat,
        modify_super_map, get_super_set_heap, modify_heap_nat, hcf, hdd, Option.map_some',
        write_obj_nheaps, write_obj_heaptable]
      refine ⟨_, rfl, rfl, rfl, rfl, rfl, rfl, ?_, ?_⟩
      · intro x
        by_cases hx : x = p
        · simp [hx, hp0]
        · by_cases hx0 : x = 0
          · subst hx0; simp [get_super_zero, hx]
          · simp [hx, hx0]
      · intro i
        by_cases hi : i = dh
        · subst hi
          refine ⟨by simp, by simp, ?_, by simp, by simp⟩
          intro c0 f0
          by_cases h1 : c0 = c' ∧ f0 = df
          · simp [h1]
          · simp [h1]
        · simp [hi]
    · have hd0 : d ≠ 0 := get_super_ne_zero hsd
      simp only [move_superblk, unlink_super, push_super, transfer_super, hs, Option.some_bind, hn,
        hpv, ne_eq, not_true_eq_false, if_false, set_bin_nat, hdh, hc, hsf, hc', hdf, and_self,
        if_true, get_bin_nat, set_heap_nheaps, set_heap_heaptable, Int.toNat_ofNat,
        modify_super_map, get_super_set_heap, modify_heap_nat, hcf, hdd, Option.map_some',
        write_obj_nheaps, write_obj_heaptable, hd0, not_false_eq_true, hsd,
        get_super_write_super, Ne.symm hdp]
      refine ⟨_, rfl, rfl, rfl, rfl, rfl, rfl, ?_, ?_⟩
      · intro x
        by_cases hx : x = p
        · simp [hx, hp0]
        · by_cases hxd : x = d
          · subst hxd; simp [hx, hsd, hd0]
          · simp [hx, hxd]
      · intro i
        by_cases hi : i = dh
        · subst hi
          refine ⟨by simp, by simp, ?_, by simp, by simp⟩
          intro c0 f0
          by_cases h1 : c0 = c' ∧ f0 = df
          · simp [h1]
          · simp [h1]
        · simp [hi]
  · have hcast : ¬ ((dh : Int) = (sh : Int)) := by exact_mod_cast hds
    have hsd' : ¬ sh = dh := fun h => hds h.symm
    rcases hd with hd0 | ⟨hdp, sd, hsd⟩
    · subst hd0
      simp only [move_superblk, unlink_super, push_super, transfer_super, hs, Option.some_bind, hn,
        hpv, ne_eq, not_true_eq_false, if_false, set_bin_nat, hdh, hsh, hc, hsf, hc', hdf, and_self,
        if_true, get_bin_nat, set_heap_nheaps, set_heap_heaptable, Int.toNat_ofNat,
        modify_super_map, get_super_set_heap, modify_heap_nat, hdd, Option.map_some',
        write_obj_nheaps, write_obj_heaptable, hds, hsd', hcast, not_false_eq_true,
        get_super_write_super, hp0]
      refine ⟨_, rfl, rfl, rfl, rfl, rfl, rfl, ?_, ?_⟩
      · intro x
        by_cases hx : x = p
        · simp [hx, hp0]
        · by_cases hx0 : x = 0
          · subst hx0; simp [get_super_zero, hx]
          · simp [hx, hx0]
      · intro i
        by_cases hi : i = dh
        · subst hi
          refine ⟨by simp [hds], by simp [hds], ?_, by simp [hds], by simp [hds]⟩
          intro c0 f0
          by_cases h1 : c0 = c' ∧ f0 = df
          · simp [h1, hds]
          · simp [h1, hds]
        · by_cases hi2 : i = sh
          · subst hi2
            refine ⟨by simp [hi], by simp [hi], ?_, by simp [hi, hds], by simp [hi, hds]⟩
            intro c0 f0
            by_cases h1 : c0 = c ∧ f0 = sf
            · simp [h1, hi]
            · simp [h1, hi]
          · simp [hi, hi2]
    · have hd0 : d ≠ 0 := get_super_ne_zero hsd
      simp only [move_superblk, unlink_super, push_super, transfer_super, hs, Option.some_bind, hn,
        hpv, ne_eq, not_true_eq_false, if_false, set_bin_nat, hdh, hsh, hc, hsf, hc', hdf, and_self,
        if_true, get_bin_nat, set_heap_nheaps, set_heap_heaptable, Int.toNat_ofNat,
        modify_super_map, get_super_set_heap, modify_heap_nat, hdd, Option.map_some',
        write_obj_nheaps, write_obj_heaptable, hds, hsd', hcast, not_false_eq_true,
        get_super_write_super, hp0, hd0, hsd, Ne.symm hdp]
      refine ⟨_, rfl, rfl, rfl, rfl, rfl, rfl, ?_, ?_⟩
      · intro x
        by_cases hx : x = p
        · simp [hx, hp0]
        · by_cases hxd : x = d
          · subst hxd; simp [hx, hsd, hd0]
          · simp [hx, hxd]
      · intro i
        by_cases hi : i = dh
        · subst hi
          refine ⟨by simp [hds], by simp [hds], ?_, by simp [hds], by simp [hds]⟩
          intro c0 f0
          by_cases h1 : c0 = c' ∧ f0 = df
          · simp [h1, hds]
          · simp [h1, hds]
        · by_cases hi2 : i = sh
          · subst hi2
            refine ⟨by simp [hi], by simp [hi], ?_, by simp [hi, hds], by simp [hi, hds]⟩
            intro c0 f0
            by_cases h1 : c0 = c ∧ f0 = sf
            · simp [h1, hi]
            · simp [h1, hi]
          · simp [hi, hi2]

/-! ## Helper lemmas for runs of `mm_malloc(32)` -/

theorem size_class_32 : size_class 32 = (2, 32) := by decide

theorem scan_bin_null (st : State) (sz bc fuel : Nat) :
    scan_bin st sz bc (fuel + 1) 0 = some none := by
  simp [scan_bin]

theorem scan_bin_take {st : State} {p : Nat} {s : superblk_t} (sz bc fuel : Nat)
    (hs : get_super st p = some s) (hodd : Int.tmod (schar (s.block_bit_map 0)) 2 ≠ 0)
    (hu : (s.u % (size_t_mod : Int)).toNat < superblk_size / bc) :
    scan_bin st sz bc (fuel + 1) p = some (some (p, false)) := by
  have hp := get_super_ne_zero hs
  simp [scan_bin, hp, hs, hodd, hu]

theorem first_bits_odd (u : Nat) (h : 0 < u) :
    Int.tmod (schar (first_bits u 0)) 2 ≠ 0 := by
  unfold first_bits
  by_cases h8 : 8 ≤ u
  · simp [h8]; decide
  · have : u < 8 := by omega
    interval_cases u <;> simp <;> decide

set_option maxRecDepth 100000 in
theorem find_blk_first_bits : ∀ u < 128, find_blk (first_bits u) 32 = u := by decide

set_option maxRecDepth 100000 in
theorem fullness_32 : ∀ u < 129, fullness (u : Nat) 32 = some (((u / 32 + 1 : Nat) : Int)) := by
  decide

theorem first_bits_succ (u : Nat) :
    (fun i => if i = u / 8 then (first_bits u i + 2 ^ (u % 8)) % 256 else first_bits u i)
      = first_bits (u + 1) := by
  obtain ⟨q, r, hr, rfl⟩ : ∃ q r, r < 8 ∧ u = 8 * q + r :=
    ⟨u / 8, u % 8, Nat.mod_lt _ (by decide), (Nat.div_add_mod u 8).symm⟩
  have hq : (8 * q + r) / 8 = q := by omega
  have hm : (8 * q + r) % 8 = r := by omega
  funext i
  unfold first_bits
  rw [hq, hm]
  by_cases hi : i = q
  · subst hi
    have e1 : 8 * i + r - 8 * i = r := by omega
    have e2 : 8 * i + r + 1 - 8 * i = r + 1 := by omega
    have c1 : ¬ 8 * (i + 1) ≤ 8 * i + r := by omega
    simp only [if_true, c1, if_false, e1, e2]
    interval_cases r <;> simp <;> split_ifs <;> omega
  · simp only [hi, if_false]
    by_cases hlt : i < q
    · have c1 : 8 * (i + 1) ≤ 8 * q + r := by omega
      have c2 : 8 * (i + 1) ≤ 8 * q + r + 1 := by omega
      simp [c1, c2]
    · have hgt : q < i := by omega
      have c1 : ¬ 8 * (i + 1) ≤ 8 * q + r := by omega
      have c2 : ¬ 8 * (i + 1) ≤ 8 * q + r + 1 := by omega
      have c3 : ¬ 8 * i < 8 * q + r := by omega
      have c4 : ¬ 8 * i < 8 * q + r + 1 := by omega
      simp [c1, c2, c3, c4]



/-! ## Routing and size classes -/

theorem size_class_loop_spec (sz : Nat) (h : sz ≤ 2048) :
    block_sizes.get? (size_class sz).1 = some (size_class sz).2 ∧
      sz ≤ (size_class sz).2 ∧ ∀ c ∈ block_sizes, sz ≤ c → (size_class sz).2 ≤ c := by
  unfold size_class block_sizes
  simp only [size_class_loop]
  split_ifs <;> simp <;> omega

/-- C4: a request above 2048 bytes is served by `alloc_large`; any other
request is served by the small path with the smallest block class that holds
it, `sz_id` being the index of that class in `block_sizes` (size 0 maps to
class 8, size 2048 to class 2048). -/
theorem mm_malloc_routing (sz : Nat) :
    (2048 < sz → ∀ st cpu_id, mm_malloc st cpu_id sz = alloc_large st sz cpu_id) ∧
    (sz ≤ 2048 →
      (∀ st cpu_id, mm_malloc st cpu_id sz =
        (mm_malloc_small st cpu_id sz).map fun r => (r.blk, r.st)) ∧
      block_sizes.get? (size_class sz).1 = some (size_class sz).2 ∧
      sz ≤ (size_class sz).2 ∧ ∀ c ∈ block_sizes, sz ≤ c → (size_class sz).2 ≤ c) ∧
    size_class 0 = (0, 8) ∧ size_class 2048 = (8, 2048) := by
  refine ⟨?_, ?_, by decide, by decide⟩
  · intro h st cpu_id
    have : sz > superblk_size / 2 := by simpa [superblk_size] using h
    simp [mm_malloc, this]
  · intro h
    refine ⟨?_, size_class_loop_spec sz h⟩
    intro st cpu_id
    have : ¬ sz > superblk_size / 2 := by simpa [superblk_size] using h
    simp [mm_malloc, this]

/-- Witness for C4 at the sizes 2049 (large path) and 2048 (class 2048). -/
theorem mm_malloc_routing_witness :
    (∀ st cpu_id, mm_malloc st cpu_id 2049 = alloc_large st 2049 cpu_id) ∧
      size_class 2048 = (8, 2048) ∧ block_sizes.get? 8 = some 2048 :=
  ⟨(mm_malloc_routing 2049).1 (by decide), (mm_malloc_routing 2048).2.2.2,
    ((mm_malloc_routing 2048).2.1 (by decide)).2.1⟩

theorem Run32.bins1_some {B hi j u : Nat} {st : State} (h : Run32 B hi j (some u) st)
    (f : Nat) (hf : f < 5) :
    (st.heaptable 1).super_bases 2 f = if f = u / 32 + 1 then B + j * 4096 else 0 := by
  have := h.bins1 f hf
  simpa using this

theorem Run32.bins1_none {B hi j : Nat} {st : State} (h : Run32 B hi j none st)
    (f : Nat) (hf : f < 5) : (st.heaptable 1).super_bases 2 f = 0 := by
  have := h.bins1 f hf
  simpa using this

theorem scan_bins_none {st : State} (hp c sz bc : Nat) (hhp : hp < st.nheaps) (hc : c < 9)
    (h0 : ∀ f, f < 5 → (st.heaptable hp).super_bases c f = 0) :
    scan_bins st (hp : Int) c sz bc 5 = some none := by
  simp only [scan_bins, get_bin_nat, hhp, hc, true_and, Nat.lt_add_one, if_true,
    Option.some_bind, h0 4 (by decide), h0 3 (by decide), h0 2 (by decide), h0 1 (by decide),
    h0 0 (by decide), scan_bin_null, show (4:Nat) < 6 by decide, show (3:Nat) < 6 by decide,
    show (2:Nat) < 6 by decide, show (1:Nat) < 6 by decide, show (0:Nat) < 6 by decide]

theorem scan_bins_one (st : State) (p : Nat) (s : superblk_t) (hp c sz bc f0 : Nat)
    (hhp : hp < st.nheaps) (hc : c < 9) (hf0 : f0 < 5)
    (hb : ∀ f, f < 5 → (st.heaptable hp).super_bases c f = if f = f0 then p else 0)
    (hs : get_super st p = some s) (hodd : Int.tmod (schar (s.block_bit_map 0)) 2 ≠ 0)
    (hu : (s.u % (size_t_mod : Int)).toNat < superblk_size / bc) :
    scan_bins st (hp : Int) c sz bc 5 = some (some (p, (f0 : Int), false)) := by
  have key := scan_bin_take sz bc st.mem.length hs hodd hu
  have h4 := hb 4 (by decide)
  have h3 := hb 3 (by decide)
  have h2 := hb 2 (by decide)
  have h1 := hb 1 (by decide)
  have h0 := hb 0 (by decide)
  interval_cases f0 <;>
  simp only [scan_bins, get_bin_nat, hhp, hc, true_and, if_true, Option.some_bind, h4, h3, h2, h1,
    h0, scan_bin_null, key, show (4:Nat) < 6 by decide, show (3:Nat) < 6 by decide,
    show (2:Nat) < 6 by decide, show (1:Nat) < 6 by decide, show (0:Nat) < 6 by decide] <;>
  simp [scan_bin_null, key]

theorem cast_zero_add_one : ((0 : Nat) : Int) + 1 = ((1 : Nat) : Int) := rfl

theorem mem_write_write (m : List (Nat × Obj)) (p : Nat) (o1 o2 : Obj) :
    mem_write (mem_write m p o1) p o2 = mem_write m p o2 := by
  induction m with
  | nil => simp [mem_write]
  | cons e rest ih =>
    obtain ⟨k, v⟩ := e
    by_cases hk : k = p
    · simp [mem_write, hk]
    · simp [mem_write, hk, ih]

@[simp] theorem write_obj_write_obj (st : State) (p : Nat) (o1 o2 : Obj) :
    write_obj (write_obj st p o1) p o2 = write_obj st p o2 := by
  simp [write_obj, mem_write_write]

/-- `charge_blk` on a superblock that is alone in its bin. -/
theorem charge_blk_alone (st : State) (p : Nat) (s : superblk_t) (k c bc f f1 : Nat)
    (hs : get_super st p = some s) (hn : s.next = 0) (hpv : s.prev = 0)
    (hk : k + 1 < st.nheaps) (hc : c < 9) (hf : f < 6) (hf1 : f1 < 6)
    (hfull : fullness (s.u + 1) bc = some (f1 : Int))
    (hd : f1 ≠ f → ((st.heaptable (k + 1)).super_bases c f1 = 0 ∨
      ((st.heaptable (k + 1)).super_bases c f1 ≠ p ∧
        ∃ sd, get_super st ((st.heaptable (k + 1)).super_bases c f1) = some sd))) :
    ∃ st1, charge_blk st (k : Int) c bc p (f : Int) = some st1 ∧
      st1.nheaps = st.nheaps ∧ st1.system_lock = st.system_lock ∧
      st1.page_size = st.page_size ∧ st1.mem_brk = st.mem_brk ∧
      st1.mem_max_addr = st.mem_max_addr ∧
      (∀ x, get_super st1 x =
        if x = p then some { s with u := s.u + 1,
                                    next := if f1 = f then 0 else (st.heaptable (k + 1)).super_bases c f1,
                                    prev := 0 }
        else if f1 ≠ f ∧ x = (st.heaptable (k + 1)).super_bases c f1 then
          (get_super st x).map fun sd => { sd with prev := p }
        else get_super st x) ∧
      (∀ i, (st1.heaptable i).heap_lock = (if i = k + 1 then false else (st.heaptable i).heap_lock) ∧
        (st1.heaptable i).largeblks = (st.heaptable i).largeblks ∧
        (∀ c0 f0, (st1.heaptable i).super_bases c0 f0 =
          if f1 ≠ f ∧ i = k + 1 ∧ c0 = c ∧ f0 = f1 then p
          else if f1 ≠ f ∧ i = k + 1 ∧ c0 = c ∧ f0 = f then 0
          else (st.heaptable i).super_bases c0 f0) ∧
        (st1.heaptable i).u =
          (if i = k + 1 then int32 ((st.heaptable i).u + (bc : Int)) else (st.heaptable i).u) ∧
        (st1.heaptable i).a = (st.heaptable i).a) := by
  have hp0 := get_super_ne_zero hs
  have hk1 : ((k : Nat) : Int) + 1 = ((k + 1 : Nat) : Int) := by push_cast; rfl
  simp only [charge_blk, hk1, modify_super_map, hs, Option.map_some', Option.some_bind,
    modify_heap_nat, write_obj_nheaps, hk, if_true, get_super_set_heap, get_super_write_super,
    hp0, if_false, hfull, write_obj_heaptable]
  by_cases hff : f1 = f
  · subst hff
    simp only [ne_eq, not_true_eq_false, if_false, Option.some_bind, unlock_heap_nat,
      set_heap_nheaps, write_obj_nheaps, hk, if_true]
    refine ⟨_, rfl, rfl, rfl, rfl, rfl, rfl, ?_, ?_⟩
    · intro x
      by_cases hx : x = p
      · simp [hx, hp0, hn, hpv]
      · simp [hx]
    · intro i
      by_cases hi : i = k + 1
      · simp [hi]
      · simp [hi]
  · have hcast : ((f1 : Int) ≠ (f : Int)) := by exact_mod_cast hff
    simp only [ne_eq, hcast, not_false_eq_true, if_true]
    have hd1 := hd hff
    obtain ⟨st5, hmv, e1, e2, e3, e4, e5, hsup, hheap⟩ :=
      move_alone (set_heap (write_obj st p (Obj.super { s with u := s.u + 1 }))
          ((k + 1 : Nat) : Int)
          { st.heaptable (k + 1) with u := int32 ((st.heaptable (k + 1)).u + (bc : Int)) })
        p { s with u := s.u + 1 } (k + 1) c f (k + 1) c f1
        (by simp [hp0]) hn hpv (by simpa using hk) (by simpa using hk) hc hf hc hf1
        (by intro hh; exact hff hh.2.2.symm)
        (by
          simp only [set_heap_heaptable, Int.toNat_ofNat, if_true, write_obj_heaptable,
            get_super_set_heap, get_super_write_super]
          rcases hd1 with h0 | ⟨hne, sd, hsd⟩
          · exact Or.inl h0
          · refine Or.inr ⟨hne, ?_⟩
            simp only [hne, if_false]
            exact ⟨sd, hsd⟩)
    rw [hmv]
    simp only [Option.some_bind, unlock_heap_nat, e1, set_heap_nheaps, write_obj_nheaps, hk, if_true]
    refine ⟨_, rfl, by simp [e1], by simp [e2], by simp [e3], by simp [e4], by simp [e5], ?_, ?_⟩
    · intro x
      simp only [get_super_set_heap, hsup, set_heap_heaptable, Int.toNat_ofNat, if_true,
        write_obj_heaptable, get_super_write_super, hp0, if_false, hff, not_false_eq_true, true_and]
      by_cases hx : x = p
      · simp [hx]
      · simp [hx]
    · intro i
      obtain ⟨o1, o2, o3, o4, o5⟩ := hheap i
      by_cases hi : i = k + 1
      · subst hi
        refine ⟨by simp, by simpa using o2, ?_, by simpa using o4, by simpa using o5⟩
        intro c0 f0
        have := o3 c0 f0
        simp only [set_heap_heaptable, Int.toNat_ofNat, if_true] at this ⊢
        rw [this]
        simp [hff]
      · refine ⟨by simpa [hi] using o1, by simpa [hi] using o2, ?_, by simpa [hi] using o4,
          by simpa [hi] using o5⟩
        intro c0 f0
        have := o3 c0 f0
        simp only [set_heap_heaptable, Int.toNat_ofNat, hi, if_false] at this ⊢
        rw [this]
        simp [hi]

theorem step_in_use {B hi j u : Nat} {st : State} (h : Run32 B hi j (some u) st) :
    ∃ r, mm_malloc_small st ((0 : Nat) : Int) 32 = some r ∧
      r.blk = B + j * 4096 + u * 32 ∧ r.fetched = false ∧
      Run32 B hi (if u + 1 = 128 then j + 1 else j)
        (if u + 1 = 128 then none else some (u + 1)) r.st := by
  obtain ⟨hu4, hu128, s, hs, hbc, hsu, hsp, hsn, hbm⟩ := h.cur_ok u rfl
  have hn1 : 1 < st.nheaps := h.nheaps
  have hl1 := h.lock1
  have hC0 := get_super_ne_zero hs
  -- the scan finds the superblock in use
  have hf0 : u / 32 + 1 < 5 := by omega
  have hscan : scan_bins (set_heap st ((1 : Nat) : Int) { st.heaptable 1 with heap_lock := true })
      ((1 : Nat) : Int) 2 32 32 5 = some (some (B + j * 4096, ((u / 32 + 1 : Nat) : Int), false)) := by
    apply scan_bins_one _ _ s 1 2 32 32 (u / 32 + 1) (by simpa using hn1) (by decide) hf0
    · intro f hf
      simpa using h.bins1_some f hf
    · simpa using hs
    · rw [hbm]; exact first_bits_odd u (by omega)
    · rw [hsu]
      have : ((u : Int) % (size_t_mod : Int)).toNat = u := by
        simp only [size_t_mod]
        have h1 : (u : Int) % ((2 ^ 64 : Nat) : Int) = u := by
          apply Int.emod_eq_of_lt (by positivity)
          norm_cast
          omega
        rw [h1]; simp
      rw [this]; simp [superblk_size]; omega
  have hfind : find_blk s.block_bit_map 32 = (u : Int) := by
    rw [hbm]; exact find_blk_first_bits u hu128
  have hfull : fullness (s.u + 1) 32 = some (((u + 1) / 32 + 1 : Nat) : Int) := by
    rw [hsu]
    exact_mod_cast fullness_32 (u + 1) (by omega)
  have hneg : ¬ ((u : Int) = -1) := by omega
  have hnn : (0 : Int) ≤ (u : Int) := by omega
  have hu8 : u / 8 < 64 := by omega
  simp only [mm_malloc_small, size_class_32, cast_zero_add_one, lock_heap_nat, hn1, hl1, and_self,
    if_true, Option.some_bind, hscan, take_blk, mark_blk, get_super_set_heap, hs, hfind]
  simp only [Bool.false_eq_true, if_false, hneg, hnn, Int.toNat_ofNat, hu8, and_self, if_true,
    modify_super_map, get_super_set_heap, hs, Option.map_some', Option.some_bind]
  simp only [hbm, first_bits_succ]
  -- the block is charged and the superblock moved when its fullness changes
  have hdest : (u + 1) / 32 + 1 ≠ u / 32 + 1 →
      ((st.heaptable 1).super_bases 2 ((u + 1) / 32 + 1) = 0 ∨
        ((st.heaptable 1).super_bases 2 ((u + 1) / 32 + 1) ≠ B + j * 4096 ∧
          ∃ sd, get_super st ((st.heaptable 1).super_bases 2 ((u + 1) / 32 + 1)) = some sd)) := by
    intro hne
    by_cases h5 : (u + 1) / 32 + 1 < 5
    · left
      rw [h.bins1_some _ h5]
      simp [hne]
    · have e5 : (u + 1) / 32 + 1 = 5 := by omega
      rw [e5, h.bin5]
      by_cases hj : j = 0
      · simp [hj]
      · right
        simp only [hj, if_false]
        refine ⟨by omega, ?_⟩
        obtain ⟨sd, hsd, _⟩ := h.full (j - 1) (by omega)
        exact ⟨sd, hsd⟩
  obtain ⟨st5, hch, e1, e2, e3, e4, e5, hsup, hheap⟩ :=
    charge_blk_alone (write_obj
        (set_heap st ((1 : Nat) : Int) { st.heaptable 1 with heap_lock := true })
        (B + j * 4096) (Obj.super { s with block_bit_map := first_bits (u + 1) }))
      (B + j * 4096) { s with block_bit_map := first_bits (u + 1) }
      0 2 32 (u / 32 + 1) ((u + 1) / 32 + 1)
      (by simp [hC0]) hsn hsp (by simpa using hn1) (by decide) (by omega) (by omega) hfull
      (by
        intro hne
        simp only [write_obj_heaptable, set_heap_heaptable, Int.toNat_ofNat, zero_add, if_true,
          get_super_write_super, get_super_set_heap]
        rcases hdest hne with h0 | ⟨hne2, sd, hsd⟩
        · exact Or.inl h0
        · refine Or.inr ⟨hne2, ?_⟩
          simp only [hne2, if_false]
          exact ⟨sd, hsd⟩)
  rw [hch]
  simp only [Option.some_bind]
  refine ⟨_, rfl, rfl, rfl, ?_⟩
  simp only [write_obj_heaptable, set_heap_heaptable, Int.toNat_ofNat, zero_add,
    get_super_write_super, get_super_set_heap, hC0, if_false] at hsup hheap
  simp only [write_obj_nheaps, write_obj_system_lock, write_obj_page_size, write_obj_mem_brk,
    write_obj_mem_max_addr, set_heap_nheaps, set_heap_system_lock, set_heap_page_size,
    set_heap_mem_brk, set_heap_mem_max_addr] at e1 e2 e3 e4 e5
  have hh0 := hheap 0
  have hh1 := hheap 1
  simp only [zero_ne_one, if_false, if_true, false_and, and_false, true_and] at hh0 hh1
  obtain ⟨l0, -, b0, -, a0⟩ := hh0
  obtain ⟨l1, -, b1, u1, a1⟩ := hh1
  have hown : ∀ p sp, get_super st p = some sp →
      sp.heap_num = 1 ∧ sp.block_class = 32 ∧ sp.type = 0 ∧
        ∃ i, i < j + 1 ∧ p = B + i * 4096 := by
    intro p sp hp
    simpa using h.owner p sp hp
  by_cases hfullc : u + 1 = 128
  · have hu : u = 127 := by omega
    subst hu
    simp only [if_true] 
    norm_num at hsup b0 b1 hdest ⊢
    refine ⟨?_, ?_, ?_, ?_, ?_, ?_, ?_, ?_, ?_, ?_, ?_, ?_, ?_, ?_, ?_, ?_, ?_⟩
    · rw [e1]; exact h.nheaps
    · rw [e3]; exact h.page
    · rw [e2]; exact h.sys
    · rw [e5]; exact h.max
    · rw [e4, h.brk]; simp
    · exact h.base
    · rw [l0]; exact h.lock0
    · exact l1
    · intro c f; rw [b0]; exact h.bins0 c f
    · rw [a0]; exact h.a0
    · rw [a1, h.a1]; simp
    · rw [u1, h.u1, int32_add_left]
      congr 1
    ·
      intro f hf
      rw [b1]
      have hf5 : f ≠ 5 := by omega
      simp only [hf5, and_false, if_false]
      by_cases hf4 : f = 4
      · simp [hf4]
      · simp only [hf4, and_false, if_false]
        rw [h.bins1_some f hf]
        simp; omega
    · rw [b1]; simp
    ·
      intro i hi
      rw [hsup]
      by_cases hic : i = j
      · subst hic; simp [hsu]
      · have hne : ¬ (B + i * 4096 = B + j * 4096) := by omega
        simp only [hne, if_false]
        obtain ⟨si, hsi, hui⟩ := h.full i (by omega)
        split_ifs <;> simp [hsi, hui]
    ·
      intro p sp hp
      by_cases hpj : p = B + j * 4096
      · rw [hsup, if_pos hpj] at hp
        simp only [Option.some.injEq] at hp
        subst hp
        obtain ⟨o1, o2, o3, _⟩ := hown _ s hs
        exact ⟨o1, o2, o3, j, by simp, hpj⟩
      · rw [hsup, if_neg hpj] at hp
        have key : ∃ s0, get_super st p = some s0 ∧ sp.heap_num = s0.heap_num ∧
            sp.block_class = s0.block_class ∧ sp.type = s0.type := by
          try split_ifs at hp
          all_goals first
            | exact ⟨sp, hp, rfl, rfl, rfl⟩
            | (simp only [Option.map_eq_some'] at hp
               obtain ⟨sd, hsd, rfl⟩ := hp
               exact ⟨sd, hsd, rfl, rfl, rfl⟩)
        obtain ⟨s0, hs0, k1, k2, k3⟩ := key
        obtain ⟨o1, o2, o3, i, hi, hpi⟩ := hown _ s0 hs0
        exact ⟨k1.trans o1, k2.trans o2, k3.trans o3, i, by simpa using hi, hpi⟩
    · intro u0 hu0; cases hu0
  · simp only [hfullc, if_false]
    have hu127 : u + 1 < 128 := by omega
    have hf1 : (u + 1) / 32 + 1 < 5 := by omega
    have hd0 : (u + 1) / 32 + 1 ≠ u / 32 + 1 → (st.heaptable 1).super_bases 2 ((u + 1) / 32 + 1) = 0 := by
      intro hne
      rw [h.bins1_some _ hf1]; simp [hne]
    refine ⟨?_, ?_, ?_, ?_, ?_, ?_, ?_, ?_, ?_, ?_, ?_, ?_, ?_, ?_, ?_, ?_, ?_⟩
    · rw [e1]; exact h.nheaps
    · rw [e3]; exact h.page
    · rw [e2]; exact h.sys
    · rw [e5]; exact h.max
    · rw [e4, h.brk]; simp
    · exact h.base
    · rw [l0]; exact h.lock0
    · exact l1
    · intro c f; rw [b0]; exact h.bins0 c f
    · rw [a0]; exact h.a0
    · rw [a1, h.a1]; simp
    · rw [u1, h.u1, int32_add_left]
      congr 1
    · intro f hf
      simp only [Option.map_some', Option.getD_some]
      rw [b1]
      simp only [true_and]
      by_cases hff : (u + 1) / 32 + 1 = u / 32 + 1
      · simp only [hff, ne_eq, not_true_eq_false, false_and, if_false]
        rw [h.bins1_some f hf]
      · simp only [ne_eq, hff, not_false_eq_true, true_and]
        by_cases h1 : f = (u + 1) / 32 + 1
        · simp [h1]
        · by_cases h2 : f = u / 32 + 1
          · simp [h1, h2, hff]
          · simp only [h1, h2, if_false]
            rw [h.bins1_some f hf]
            simp [h1, h2]
    · rw [b1]
      have h5a : ¬ (5 = (u + 1) / 32 + 1) := by omega
      have h5b : ¬ (5 = u / 32 + 1) := by omega
      simp only [h5a, h5b, and_false, if_false]
      exact h.bin5
    · intro i hi
      rw [hsup]
      have hne : ¬ (B + i * 4096 = B + j * 4096) := by omega
      simp only [hne, if_false]
      obtain ⟨si, hsi, hui⟩ := h.full i hi
      split_ifs <;> simp [hsi, hui]
    · intro p sp hp
      by_cases hpj : p = B + j * 4096
      · rw [hsup, if_pos hpj] at hp
        simp only [Option.some.injEq] at hp
        subst hp
        obtain ⟨o1, o2, o3, _⟩ := hown _ s hs
        exact ⟨o1, o2, o3, j, by simp, hpj⟩
      · rw [hsup, if_neg hpj] at hp
        have key : ∃ s0, get_super st p = some s0 ∧ sp.heap_num = s0.heap_num ∧
            sp.block_class = s0.block_class ∧ sp.type = s0.type := by
          try split_ifs at hp
          all_goals first
            | exact ⟨sp, hp, rfl, rfl, rfl⟩
            | (simp only [Option.map_eq_some'] at hp
               obtain ⟨sd, hsd, rfl⟩ := hp
               exact ⟨sd, hsd, rfl, rfl, rfl⟩)
        obtain ⟨s0, hs0, k1, k2, k3⟩ := key
        obtain ⟨o1, o2, o3, i, hi, hpi⟩ := hown _ s0 hs0
        exact ⟨k1.trans o1, k2.trans o2, k3.trans o3, i, by simpa using hi, hpi⟩
    · intro u0 hu0
      simp only [Option.some.injEq] at hu0
      subst hu0
      refine ⟨by omega, hu127, ?_⟩
      rw [hsup]
      simp only [if_true]
      refine ⟨_, rfl, hbc, by simp [hsu], rfl, ?_, rfl⟩
      by_cases hff : (u + 1) / 32 + 1 = u / 32 + 1
      · simp [hff]
      · simp [hff, hd0 hff]

theorem header_bitmap_32 : header_bitmap (blks_used 32) = first_bits 4 := by
  funext i
  simp only [blks_used, sizeof_superblk_t, header_bitmap, first_bits]
  norm_num
  by_cases h0 : i = 0
  · simp [h0]
  · have : ¬ (8 * i < 4) := by omega
    have h2 : ¬ (8 * (i + 1) ≤ 4) := by omega
    simp [h0, this, h2]

theorem blks_used_32 : blks_used 32 = 4 := by decide

theorem reuse_empty_none {st : State} (bc : Nat) (hn0 : 0 < st.nheaps)
    (hb0 : ∀ i, (st.heaptable 0).super_bases i 0 = 0) :
    reuse_empty st bc = some (st, 0, (0, 0, 0)) := by
  have hfind : (List.range 9).find? (fun i => decide ((st.heaptable 0).super_bases i 0 ≠ 0)) = none := by
    simp [hb0]
  have h0 : heap_at st 0 = some (st.heaptable 0) := by
    simpa [hn0] using heap_at_nat st 0
  simp only [reuse_empty, h0, Option.some_bind, hfind]

theorem fresh_superblk_ok (st : State) (c bc : Nat) (hn0 : 0 < st.nheaps) (hc : c < 9)
    (hbc : bc ≠ 0) (hsys : st.system_lock = false)
    (hbrk0 : st.mem_brk ≠ 0) (hroom : st.mem_brk + st.page_size ≤ st.mem_max_addr) :
    ∃ st1, fresh_superblk st c bc = some (st1, some st.mem_brk) ∧
      st1.nheaps = st.nheaps ∧ st1.system_lock = false ∧
      st1.page_size = st.page_size ∧ st1.mem_brk = st.mem_brk + st.page_size ∧
      st1.mem_max_addr = st.mem_max_addr ∧
      (∀ x, get_super st1 x =
        if x = st.mem_brk then
          some { type := 0, block_class := bc, block_bit_map := header_bitmap (blks_used bc),
                 u := (blks_used bc : Nat), heap_num := 0, prev := 0, next := 0 }
        else get_super st x) ∧
      (∀ i, (st1.heaptable i).heap_lock = (st.heaptable i).heap_lock ∧
        (st1.heaptable i).largeblks = (st.heaptable i).largeblks ∧
        (∀ c0 f0, (st1.heaptable i).super_bases c0 f0 =
          if i = 0 ∧ c0 = c ∧ f0 = 0 then st.mem_brk else (st.heaptable i).super_bases c0 f0) ∧
        (st1.heaptable i).u =
          (if i = 0 ∧ bc < sizeof_superblk_t * 2 then
            int32 ((st.heaptable i).u + ((blks_used bc * bc : Nat) : Int))
          else (st.heaptable i).u) ∧
        (st1.heaptable i).a =
          (if i = 0 then int32 ((st.heaptable i).a + (superblk_size : Int))
          else (st.heaptable i).a)) := by
  have hbu : ¬ bc < sizeof_superblk_t * 2 → blks_used bc = 0 := by
    intro h; simp [blks_used, h]
  unfold fresh_superblk
  simp only [lock_system, hsys, Bool.false_eq_true, if_false, Option.some_bind, mem_sbrk, hroom,
    if_true, hbrk0, unlock_system, create_superblk, hbc, store, ← @Nat.cast_zero ℤ _,
    modify_heap_nat, set_bin_nat]
  by_cases hsmall : bc < sizeof_superblk_t * 2
  · simp only [hsmall, if_true, write_obj_nheaps, hn0, Option.some_bind, set_heap_nheaps, hc,
      Nat.zero_lt_succ, and_self, show (0:Nat) < 6 by decide]
    refine ⟨_, rfl, rfl, rfl, rfl, rfl, rfl, ?_, ?_⟩
    · intro x
      simp only [get_super_set_heap, get_super_write_super, hbrk0, if_false]
      by_cases hx : x = st.mem_brk
      · simp [hx]
      · simp only [hx, if_false]
        rfl
    · intro i
      by_cases hi : i = 0
      · subst hi
        simp
      · simp [hi]
  · simp only [hsmall, if_false, write_obj_nheaps, hn0, Option.some_bind, set_heap_nheaps, hc,
      Nat.zero_lt_succ, and_self, show (0:Nat) < 6 by decide, if_true]
    refine ⟨_, rfl, rfl, rfl, rfl, rfl, rfl, ?_, ?_⟩
    · intro x
      simp only [get_super_set_heap, get_super_write_super, hbrk0, if_false]
      by_cases hx : x = st.mem_brk
      · simp [hx]
      · simp only [hx, if_false]
        rfl
    · intro i
      by_cases hi : i = 0
      · subst hi
        simp [hbu hsmall]
      · simp [hi]

/-- The block `if (!super_res)` on a state whose global heap is empty and whose
raw region has room: a fresh superblock of class 32 ends in bin `[2][1]` of
heap 1. -/
theorem fetch_fresh_32 {st : State} (hn : 1 < st.nheaps) (hl0 : (st.heaptable 0).heap_lock = false)
    (hsys : st.system_lock = false) (hpg : st.page_size = 4096)
    (hbrk0 : st.mem_brk ≠ 0) (hroom : st.mem_brk + 4096 ≤ st.mem_max_addr)
    (hb0 : ∀ c f, (st.heaptable 0).super_bases c f = 0)
    (hb1 : (st.heaptable 1).super_bases 2 1 = 0) :
    ∃ st1, fetch_global st ((0 : Nat) : Int) 2 32 = some (st1, some st.mem_brk) ∧
      st1.nheaps = st.nheaps ∧ st1.system_lock = false ∧
      st1.page_size = st.page_size ∧ st1.mem_brk = st.mem_brk + 4096 ∧
      st1.mem_max_addr = st.mem_max_addr ∧
      (∀ x, get_super st1 x =
        if x = st.mem_brk then
          some { type := 0, block_class := 32, block_bit_map := first_bits 4, u := 4,
                 heap_num := 1, prev := 0, next := 0 }
        else get_super st x) ∧
      (∀ i, (st1.heaptable i).heap_lock = (st.heaptable i).heap_lock ∧
        (st1.heaptable i).largeblks = (st.heaptable i).largeblks ∧
        (∀ c0 f0, (st1.heaptable i).super_bases c0 f0 =
          if i = 1 ∧ c0 = 2 ∧ f0 = 1 then st.mem_brk else (st.heaptable i).super_bases c0 f0) ∧
        (st1.heaptable i).u =
          (if i = 1 then int32 ((st.heaptable i).u + 128)
          else if i = 0 then int32 (st.heaptable i).u else (st.heaptable i).u) ∧
        (st1.heaptable i).a =
          (if i = 1 then int32 ((st.heaptable i).a + 4096)
          else if i = 0 then int32 (st.heaptable i).a else (st.heaptable i).a)) := by
  have hn0 : 0 < st.nheaps := by omega
  unfold fetch_global
  rw [show lock_heap st 0 = some (set_heap st ((0 : Nat) : Int)
      { st.heaptable 0 with heap_lock := true }) by
    simpa [hn0, hl0] using lock_heap_nat st 0]
  simp only [Option.some_bind]
  rw [reuse_empty_none 32 (by simpa using hn0) (by intro i; simpa using hb0 i 0)]
  simp only [Option.some_bind, if_true]
  rw [show get_bin (set_heap st ((0 : Nat) : Int) { st.heaptable 0 with heap_lock := true })
      0 ((2 : Nat) : Int) 1 = some 0 by
    have := get_bin_nat (set_heap st ((0 : Nat) : Int) { st.heaptable 0 with heap_lock := true }) 0 2 1
    simpa [hn0, hb0] using this]
  simp only [Option.some_bind, and_self, if_true]
  obtain ⟨st3, hfr, f1, f2, f3, f4, f5, fsup, fheap⟩ :=
    fresh_superblk_ok (set_heap st ((0 : Nat) : Int) { st.heaptable 0 with heap_lock := true })
      2 32 (by simpa using hn0) (by decide) (by decide) (by simpa using hsys)
      (by simpa using hbrk0) (by simpa [hpg] using hroom)
  rw [hfr]
  simp only [Option.some_bind, set_heap_mem_brk]
  simp only [set_heap_nheaps, set_heap_system_lock, set_heap_page_size, set_heap_mem_brk,
    set_heap_mem_max_addr, get_super_set_heap, set_heap_heaptable, Int.toNat_ofNat, hpg,
    Nat.cast_zero, Int.toNat_zero] at f1 f2 f3 f4 f5 fsup fheap
  obtain ⟨st4, hmv, m1, m2, m3, m4, m5, msup, mheap⟩ :=
    move_alone st3 st.mem_brk
      { type := 0, block_class := 32, block_bit_map := header_bitmap (blks_used 32),
        u := (blks_used 32 : Nat), heap_num := 0, prev := 0, next := 0 }
      0 2 0 1 2 1 (by rw [fsup]; simp) rfl rfl
      (by rw [f1]; exact hn0) (by rw [f1]; exact hn) (by decide) (by decide) (by decide)
      (by decide) (by decide)
      (by
        left
        rw [(fheap 1).2.2.1]
        simp [hb1])
  have hmv' : move_superblk st3 st.mem_brk (0, ((2 : Nat) : Int), 0)
      (((0 : Nat) : Int) + 1, ((2 : Nat) : Int), 1) = some st4 := hmv
  rw [hmv']
  simp only [Option.some_bind]
  rw [show unlock_heap st4 0 = some (set_heap st4 ((0 : Nat) : Int)
      { st4.heaptable 0 with heap_lock := false }) by
    have := unlock_heap_nat st4 0
    simpa [m1, f1, hn0] using this]
  simp only [Option.some_bind]
  have hd0 : (st3.heaptable 1).super_bases 2 1 = 0 := by
    rw [(fheap 1).2.2.1]; simp [hb1]
  rw [hd0] at msup
  refine ⟨_, rfl, by simp [m1, f1], by simp [m2, f2], by simp [m3, f3, hpg], by simp [m4, f4],
    by simp [m5, f5], ?_, ?_⟩
  · intro x
    simp only [get_super_set_heap, msup, fsup]
    by_cases hx : x = st.mem_brk
    · have hb4 : header_bitmap 4 = first_bits 4 := by
        have := header_bitmap_32
        rwa [blks_used_32] at this
      simp [hx, blks_used_32, hb4]
    · by_cases hx0 : x = 0
      · subst hx0; simp [get_super_zero, Ne.symm hbrk0]
      · simp [hx, hx0]
  · intro i
    obtain ⟨o1, o2, o3, o4, o5⟩ := mheap i
    obtain ⟨p1, p2, p3, p4, p5⟩ := fheap i
    by_cases hi0 : i = 0
    · subst hi0
      refine ⟨?_, ?_, ?_, ?_, ?_⟩
      · simp [hl0]
      · simp [o2, p2]
      · intro c0 f0
        simp [o3, p3, hb0]
        intro h1 h2; simp [h1, h2]
      · simp [o4, p4, blks_used_32, sizeof_superblk_t]
      · simp [o5, p5, superblk_size]
    · by_cases hi1 : i = 1
      · subst hi1
        refine ⟨?_, ?_, ?_, ?_, ?_⟩
        · simp [o1, p1]
        · simp [o2, p2]
        · intro c0 f0
          simp [o3, p3]
        · simp [o4, p4, blks_used_32, sizeof_superblk_t]
        · simp [o5, p5, superblk_size]
      · refine ⟨?_, ?_, ?_, ?_, ?_⟩
        · simp [o1, p1, hi0, hi1]
        · simp [o2, p2, hi0, hi1]
        · intro c0 f0
          simp [o3, p3, hi0, hi1]
        · simp [o4, p4, hi0, hi1]
        · simp [o5, p5, hi0, hi1]

theorem step_fresh {B hi j : Nat} {st : State} (h : Run32 B hi j none st)
    (hroom : B + (j + 1) * 4096 ≤ hi) :
    ∃ r, mm_malloc_small st ((0 : Nat) : Int) 32 = some r ∧
      r.blk = B + j * 4096 + 4 * 32 ∧ r.fetched = true ∧ Run32 B hi j (some 5) r.st := by
  have hn1 : 1 < st.nheaps := h.nheaps
  have hl1 := h.lock1
  have hbrk : st.mem_brk = B + j * 4096 := by rw [h.brk]; simp
  have hB := h.base
  have hC0 : B + j * 4096 ≠ 0 := by omega
  have hscan : scan_bins (set_heap st ((1 : Nat) : Int) { st.heaptable 1 with heap_lock := true })
      ((1 : Nat) : Int) 2 32 32 5 = some none := by
    apply scan_bins_none 1 2 32 32 (by simpa using hn1) (by decide)
    intro f hf
    simpa using h.bins1_none f hf
  obtain ⟨st3, hfe, f1, f2, f3, f4, f5, fsup, fheap⟩ :=
    @fetch_fresh_32 (set_heap st ((1 : Nat) : Int) { st.heaptable 1 with heap_lock := true })
      (by simpa using hn1) (by simpa using h.lock0) (by simpa using h.sys) (by simpa using h.page)
      (by simpa [hbrk] using hC0) (by simp [hbrk, h.max]; omega)
      (by intro c f; simpa using h.bins0 c f) (by simpa using h.bins1_none 1 (by decide))
  simp only [set_heap_nheaps, set_heap_system_lock, set_heap_page_size, set_heap_mem_brk,
    set_heap_mem_max_addr, get_super_set_heap, set_heap_heaptable, Int.toNat_ofNat, hbrk,
    h.page, h.max] at hfe f1 f2 f3 f4 f5 fsup fheap
  have hfind : find_blk (first_bits 4) 32 = ((4 : Nat) : Int) := find_blk_first_bits 4 (by decide)
  have hsup3 : get_super st3 (B + j * 4096) = some
      { type := 0, block_class := 32, block_bit_map := first_bits 4, u := 4, heap_num := 1,
        prev := 0, next := 0 } := by
    rw [fsup]; simp
  simp only [mm_malloc_small, size_class_32, cast_zero_add_one, lock_heap_nat, hn1, hl1, and_self,
    if_true, Option.some_bind, hscan, hfe, take_blk, mark_blk, hsup3, hfind]
  have hneg : ¬ (((4 : Nat) : Int) = -1) := by decide
  have hnn : (0 : Int) ≤ ((4 : Nat) : Int) := by decide
  simp only [Bool.false_eq_true, if_false, hneg, hnn, Int.toNat_ofNat, and_self, if_true,
    modify_super_map, hsup3, Option.map_some', Option.some_bind,
    show (4 : Nat) / 8 < 64 by decide]
  simp only [first_bits_succ]
  obtain ⟨st5, hch, e1, e2, e3, e4, e5, hsup, hheap⟩ :=
    charge_blk_alone (write_obj st3 (B + j * 4096) (Obj.super
        { type := 0, block_class := 32, block_bit_map := first_bits (4 + 1), u := 4,
          heap_num := 1, prev := 0, next := 0 }))
      (B + j * 4096)
      { type := 0, block_class := 32, block_bit_map := first_bits (4 + 1), u := 4,
        heap_num := 1, prev := 0, next := 0 }
      0 2 32 1 1
      (by simp [hC0]) rfl rfl (by simpa [f1] using hn1) (by decide) (by decide) (by decide)
      (by decide) (by intro hne; exact absurd rfl hne)
  have hch' : charge_blk (write_obj st3 (B + j * 4096) (Obj.super
        { type := 0, block_class := 32, block_bit_map := first_bits (4 + 1), u := 4,
          heap_num := 1, prev := 0, next := 0 })) ((0 : Nat) : Int) 2 32 (B + j * 4096) 1
      = some st5 := hch
  rw [hch']
  simp only [Option.some_bind]
  refine ⟨_, rfl, rfl, rfl, ?_⟩
  simp only [write_obj_heaptable, get_super_write_super, hC0, if_false, zero_add, ne_eq,
    not_true_eq_false, false_and, if_true] at hsup hheap
  simp only [write_obj_nheaps, write_obj_system_lock, write_obj_page_size, write_obj_mem_brk,
    write_obj_mem_max_addr] at e1 e2 e3 e4 e5
  have hh0 := hheap 0
  have hh1 := hheap 1
  have g0 := fheap 0
  have g1 := fheap 1
  simp only [zero_ne_one, if_false, if_true, false_and, and_false, true_and] at hh0 hh1 g0 g1
  obtain ⟨l0, -, b0, -, a0⟩ := hh0
  obtain ⟨l1, -, b1, u1, a1⟩ := hh1
  obtain ⟨gl0, -, gb0, -, ga0⟩ := g0
  obtain ⟨gl1, -, gb1, gu1, ga1⟩ := g1
  refine ⟨?_, ?_, ?_, ?_, ?_, ?_, ?_, ?_, ?_, ?_, ?_, ?_, ?_, ?_, ?_, ?_, ?_⟩
  · rw [e1, f1]; exact h.nheaps
  · rw [e3, f3]
  · rw [e2, f2]
  · rw [e5, f5]
  · rw [e4, f4]; simp; ring
  · exact h.base
  · rw [l0, gl0]; exact h.lock0
  · exact l1
  · intro c f; rw [b0, gb0]; exact h.bins0 c f
  · rw [a0, ga0]; simp [h.a0]
  · rw [a1, ga1, h.a1, int32_add_left]
    congr 1
  · rw [u1, gu1, h.u1]
    simp only [int32_add_left]
    congr 1
  · intro f hf
    simp only [Option.map_some', Option.getD_some]
    rw [b1, gb1]
    simp only [true_and]
    by_cases hf1 : f = 1
    · simp [hf1]
    · have := h.bins1_none f hf
      simp [hf1, this]
  · rw [b1, gb1]; simp; exact h.bin5
  · intro i hi
    rw [hsup]
    have hne : ¬ (B + i * 4096 = B + j * 4096) := by omega
    simp only [hne, if_false]
    rw [fsup]
    simp only [hne, if_false]
    exact h.full i hi
  · intro p sp hp
    rw [hsup] at hp
    split_ifs at hp with h1
    · simp only [Option.some.injEq] at hp
      subst hp
      exact ⟨rfl, rfl, rfl, j, by simp, h1⟩
    · rw [fsup] at hp
      simp only [h1, if_false] at hp
      obtain ⟨o1, o2, o3, i, hi, hpi⟩ := h.owner _ _ hp
      exact ⟨o1, o2, o3, i, by simp at hi ⊢; omega, hpi⟩
  · intro u0 hu0
    simp only [Option.some.injEq] at hu0
    subst hu0
    refine ⟨by decide, by decide, ?_⟩
    rw [hsup]
    simp

theorem init_heaps_spec (st : State) (n : Nat) (hb : st.mem_brk ≠ 0)
    (hroom : st.mem_brk + n * st.page_size ≤ st.mem_max_addr)
    (he : ∀ j, st.heaptable j =
      { heap_lock := false, a := 0, u := 0, largeblks := 0, super_bases := fun _ _ => 0 }) :
    ∃ st1, init_heaps st n = some st1 ∧
      st1.nheaps = (if n = 0 then st.nheaps else n) ∧ st1.system_lock = st.system_lock ∧
      st1.page_size = st.page_size ∧ st1.mem_brk = st.mem_brk + n * st.page_size ∧
      st1.mem_max_addr = st.mem_max_addr ∧ st1.mem = st.mem ∧
      ∀ j, st1.heaptable j =
        { heap_lock := false, a := 0, u := 0, largeblks := 0, super_bases := fun _ _ => 0 } := by
  induction n with
  | zero => exact ⟨st, rfl, by simp, rfl, rfl, by simp, rfl, rfl, he⟩
  | succ n ih =>
    obtain ⟨st1, h1, e1, e2, e3, e4, e5, e6, e7⟩ := ih (by
      have : n * st.page_size ≤ (n + 1) * st.page_size := Nat.mul_le_mul_right _ (Nat.le_succ n)
      omega)
    have hr : st1.mem_brk + st1.page_size ≤ st1.mem_max_addr := by
      rw [e4, e3, e5]
      have : (n + 1) * st.page_size = n * st.page_size + st.page_size := by ring
      omega
    have hb1 : st1.mem_brk ≠ 0 := by rw [e4]; omega
    simp only [init_heaps, h1, Option.some_bind, mem_sbrk, hr, if_true, hb1, if_false]
    refine ⟨_, rfl, by simp, e2, e3, ?_, e5, e6, ?_⟩
    · simp only [e4, e3]; ring
    · intro j
      by_cases hj : j = n
      · simp [hj]
      · simp [hj, e7]

theorem mm_init_run32 (ncpu lo hi : Nat) (hcpu : 1 ≤ ncpu) (hlo : 0 < lo)
    (hroom : lo + (ncpu + 2) * 4096 ≤ hi) :
    ∃ s0, mm_init ncpu 4096 lo hi = some s0 ∧ Run32 (lo + (ncpu + 2) * 4096) hi 0 none s0 := by
  have hlo0 : lo ≠ 0 := by omega
  have h1 : lo + 4096 ≤ hi := by omega
  obtain ⟨s0, h0, e1, e2, e3, e4, e5, e6, e7⟩ := init_heaps_spec
    { nheaps := 0
      heaptable := fun _ =>
        { heap_lock := false, a := 0, u := 0, largeblks := 0, super_bases := fun _ _ => 0 }
      system_lock := false
      mem := []
      page_size := 4096
      mem_brk := lo + 4096
      mem_max_addr := hi } (ncpu + 1) (by simp) (by simp; omega) (by intro j; rfl)
  refine ⟨s0, ?_, ?_⟩
  · simp only [mm_init, mem_init, mem_sbrk, h1, if_true, hlo0, if_false]
    exact h0
  · simp only [Nat.add_one_ne_zero, if_false] at e1 e2 e3 e4 e5 e6
    refine ⟨?_, ?_, ?_, ?_, ?_, ?_, ?_, ?_, ?_, ?_, ?_, ?_, ?_, ?_, ?_, ?_, ?_⟩
    · rw [e1]; omega
    · exact e3
    · exact e2
    · exact e5
    · rw [e4]; simp; ring
    · omega
    · rw [e7]
    · rw [e7]
    · intro c f; rw [e7]
    · rw [e7]
    · rw [e7]; simp
    · rw [e7]; simp
    · intro f _; rw [e7]; rfl
    · rw [e7]; simp
    · intro i hi; omega
    · intro p sp hp
      simp [get_super, load, e6, mem_read] at hp
    · intro u hu; cases hu

theorem step_any {B hi k : Nat} {st : State}
    (h : Run32 B hi (k / 124) (if k % 124 = 0 then none else some (k % 124 + 4)) st)
    (hroom : B + (k / 124 + 1) * 4096 ≤ hi) :
    ∃ r, mm_malloc_small st ((0 : Nat) : Int) 32 = some r ∧
      r.blk = B + k / 124 * 4096 + (4 + k % 124) * 32 ∧
      r.fetched = decide (k % 124 = 0) ∧
      Run32 B hi ((k + 1) / 124)
        (if (k + 1) % 124 = 0 then none else some ((k + 1) % 124 + 4)) r.st := by
  have hm := Nat.mod_lt k (show 124 > 0 by decide)
  by_cases h0 : k % 124 = 0
  · simp only [h0, if_true] at h
    obtain ⟨r, hr, hb, hf, hR⟩ := step_fresh h hroom
    refine ⟨r, hr, by rw [hb, h0], by simp [hf, h0], ?_⟩
    have e1 : (k + 1) / 124 = k / 124 := by omega
    have e2 : (k + 1) % 124 = 1 := by omega
    rw [e1, e2]
    simpa using hR
  · simp only [h0, if_false] at h
    obtain ⟨r, hr, hb, hf, hR⟩ := step_in_use h
    refine ⟨r, hr, by rw [hb]; ring, by simp [hf, h0], ?_⟩
    by_cases h123 : k % 124 = 123
    · have e1 : (k + 1) / 124 = k / 124 + 1 := by omega
      have e2 : (k + 1) % 124 = 0 := by omega
      rw [e1, e2]
      simpa [h123] using hR
    · have e1 : (k + 1) / 124 = k / 124 := by omega
      have e2 : (k + 1) % 124 = k % 124 + 1 := by omega
      have e3 : ¬ (k % 124 + 4 + 1 = 128) := by omega
      rw [e1, e2]
      simp only [e3, if_false] at hR
      simpa using hR

theorem run_final_cons (st : State) (r : small_result) (rs : List small_result) :
    run_final st (r :: rs) = run_final r.st rs := by
  cases rs with
  | nil => simp [run_final]
  | cons a t =>
    unfold run_final
    rw [List.getLast?_cons_cons]
    cases h : (a :: t).getLast? with
    | none => simp at h
    | some x => rfl

theorem run32 (B hi : Nat) : ∀ (n k : Nat) (st : State),
    Run32 B hi (k / 124) (if k % 124 = 0 then none else some (k % 124 + 4)) st →
    B + ((k + n + 123) / 124) * 4096 ≤ hi →
    ∃ rs, malloc_run ((0 : Nat) : Int) 32 n st = some rs ∧
      rs.map (fun r => r.blk) =
        (List.range n).map (fun i => B + (k + i) / 124 * 4096 + (4 + (k + i) % 124) * 32) ∧
      rs.map (fun r => r.fetched) = (List.range n).map (fun i => decide ((k + i) % 124 = 0)) ∧
      Run32 B hi ((k + n) / 124)
        (if (k + n) % 124 = 0 then none else some ((k + n) % 124 + 4)) (run_final st rs) := by
  intro n
  induction n with
  | zero =>
    intro k st h _
    exact ⟨[], rfl, rfl, rfl, by simpa [run_final] using h⟩
  | succ n ih =>
    intro k st h hroom
    obtain ⟨r, hr, hb, hf, hR⟩ := step_any h (by
      have : k / 124 + 1 ≤ (k + (n + 1) + 123) / 124 := by omega
      have := Nat.mul_le_mul_right 4096 this
      omega)
    obtain ⟨rs, hrs, hbs, hfs, hRs⟩ := ih (k + 1) r.st hR (by
      have : k + 1 + n + 123 = k + (n + 1) + 123 := by ring
      rw [this]; exact hroom)
    refine ⟨r :: rs, ?_, ?_, ?_, ?_⟩
    · show (mm_malloc_small st ((0 : Nat) : Int) 32).bind
          (fun r => (malloc_run ((0 : Nat) : Int) 32 n r.st).map fun rs => r :: rs) = _
      rw [hr]
      simp only [Option.some_bind, hrs, Option.map_some']
    · rw [List.range_succ_eq_map, List.map_cons, List.map_cons, List.map_map, hbs, hb]
      refine congrArg₂ _ rfl ?_
      apply List.map_congr_left
      intro i _
      show _ = B + (k + (i + 1)) / 124 * 4096 + (4 + (k + (i + 1)) % 124) * 32
      have : k + 1 + i = k + (i + 1) := by ring
      rw [this]
    · rw [List.range_succ_eq_map, List.map_cons, List.map_cons, List.map_map, hfs, hf]
      refine congrArg₂ _ rfl ?_
      apply List.map_congr_left
      intro i _
      show _ = decide ((k + (i + 1)) % 124 = 0)
      have : k + 1 + i = k + (i + 1) := by ring
      rw [this]
    · rw [run_final_cons]
      have : k + 1 + n = k + (n + 1) := by ring
      rw [this] at hRs
      exact hRs

theorem size_class_mem (sz : Nat) (h : sz ≤ 2048) : (size_class sz).2 ∈ block_sizes := by
  unfold size_class block_sizes
  simp only [size_class_loop]
  split_ifs <;> simp

/-- C1: on CPU 0, after `a = malloc(3000); b = malloc(3000); free(b);
c = malloc(3000); d = malloc(3000)` the pointer `d` equals `a`, which was
never freed: `dealloc_large` unlinks `b` from heap 0 instead of heap 1 and so
puts the live node of `a` on the global free list. -/
theorem live_large_block_returned_twice :
    (scenario_init.bind fun s =>
        run_calls s [] [Call.malloc 0 3000, Call.malloc 0 3000, Call.free 1,
          Call.malloc 0 3000, Call.malloc 0 3000]).map Prod.fst
      = some [1064992, 1069088, 1069088, 1064992] := by
  rfl

/-- C2: on a fresh allocator `mm_malloc(256)` returns the base address of the
superblock it has just created, that is the first byte of the header. -/
theorem class_256_returns_header :
    (scenario_init.bind fun s => mm_malloc_small s 0 256).map
        (fun r => (r.blk, r.super_res, (get_super r.st r.super_res).isSome))
      = some (1064960, 1064960, true) ∧
    (scenario_init.bind fun s => mm_malloc s 0 256).map Prod.fst = some 1064960 := by
  constructor <;> rfl

/-- C6: with the raw region exhausted and no superblock in any heap,
`mm_malloc(8)` on CPU 0 returns null while the mutexes of heap 1 and of the
global heap are still held (the system lock is free). -/
theorem null_return_keeps_locks :
    (exhausted_init.bind fun s => mm_malloc s 0 8).map
        (fun r => (r.1, (r.2.heaptable 1).heap_lock, (r.2.heaptable 0).heap_lock,
          r.2.system_lock))
      = some (0, true, true, false) := by
  rfl

/-- C7: after `a = malloc(3000); free(a)` on CPU 0 the node of `a` is the head
of the large list of the global heap and is still the head of the large list
of heap 1. -/
theorem freed_large_node_stays_in_cpu_list :
    (scenario_init.bind fun s =>
        run_calls s [] [Call.malloc 0 3000, Call.free 0]).map
        (fun r => (r.1, (r.2.heaptable 0).largeblks, (r.2.heaptable 1).largeblks))
      = some ([1064960 + sizeof_node_t], 1064960, 1064960) := by
  rfl

/-- C8: for `s = 16777185` (so `s + sizeof(node_t) = 2 ^ 24 + 1`) the float
conversion rounds the sum down and `alloc_large` reserves 4096 pages, one
byte less than the request with its header: the run ends at the new break,
below the end of the payload. -/
theorem num_pgs_rounds_down :
    num_pgs_of 16777185 = some 4096 ∧ 4096 * superblk_size < 16777185 + sizeof_node_t ∧
    (scenario_init.bind fun s => alloc_large s 16777185 0).map
        (fun r => (r.1, (get_node r.2 (r.1 - sizeof_node_t)).map fun n => n.npages,
          decide (r.2.mem_brk < r.1 + 16777185)))
      = some (1064960 + sizeof_node_t, some 4096, true) := by
  refine ⟨by rfl, by decide, by rfl⟩

/-- C9, counterexample: at the end of scenario S1 the counter `heap[1].u` is
128, not 0, and `heap[1].bins[2][0]` is empty. -/
theorem scenario_S1_as_stated_fails :
    (scenario_init.bind fun s => run_calls s [] [Call.malloc 0 32, Call.free 0]).map
        (fun r => ((r.2.heaptable 1).u, (r.2.heaptable 1).super_bases 2 0))
      = some (128, 0) := by
  rfl

/-- C9 (amended): on the scenario machine, after `mm_init(); a = mm_malloc(32);
mm_free(a)` on CPU 0 the pointer `a` is not null, `heap[1].u` is 128 (the four
header blocks of 32 bytes stay charged), `heap[1].a` is 4096, and the only
non-empty bin of class 32 of heap 1 is `bins[2][1]`, which holds exactly one
superblock, of class 32 with 4 blocks in use. -/
theorem scenario_S1_result :
    (scenario_init.bind fun s => run_calls s [] [Call.malloc 0 32, Call.free 0]).map
        (fun r => (r.1, (r.2.heaptable 1).u, (r.2.heaptable 1).a,
          (List.range 6).map ((r.2.heaptable 1).super_bases 2),
          (get_super r.2 ((r.2.heaptable 1).super_bases 2 1)).map
            fun s => (s.block_class, s.u, s.prev, s.next)))
      = some ([1064960 + 4 * 32], 128, 4096, [0, 1064960, 0, 0, 0, 0], some (32, 4, 0, 0)) := by
  rfl

/-! # The invariant of the reachable states -/

/-! ## Bits of the bitmap -/

set_option maxRecDepth 1000000 in
theorem byte_set_bit : ∀ b < 256, ∀ k < 8, (b / 2 ^ k) % 2 = 0 → ∀ j < 8,
    (((b + 2 ^ k) % 256) / 2 ^ j) % 2 = if j = k then 1 else (b / 2 ^ j) % 2 := by decide

set_option maxRecDepth 1000000 in
theorem byte_clear_bit : ∀ b < 256, ∀ k < 8, (b / 2 ^ k) % 2 = 1 → ∀ j < 8,
    (((b + 256 - 2 ^ k) % 256) / 2 ^ j) % 2 = if j = k then 0 else (b / 2 ^ j) % 2 := by decide

set_option maxRecDepth 1000000 in
theorem byte_shift_test : ∀ b < 256, ∀ k < 8,
    (Int.tmod (Int.shiftRight (schar b) k) 2 = 0 ↔ (b / 2 ^ k) % 2 = 0) := by decide

set_option maxRecDepth 1000000 in
theorem byte_parity_test : ∀ b < 256, (Int.tmod (schar b) 2 = 0 ↔ b % 2 = 0) := by decide

set_option maxRecDepth 1000000 in
theorem fullness_table : ∀ bc ∈ block_sizes, ∀ u, u ≤ 4096 / bc →
    fullness ((u : Nat) : Int) bc = some (((4 * u / (4096 / bc) + 1 : Nat) : Int)) ∧
      4 * u / (4096 / bc) + 1 < 6 := by decide

theorem bit_index_eq {i j : Nat} (h : j / 8 = i / 8) : j % 8 = i % 8 ↔ j = i := by
  omega

theorem bit_set_false {m : Nat → Nat} {i : Nat} :
    bit_set m i = false ↔ (m (i / 8) / 2 ^ (i % 8)) % 2 = 0 := by
  unfold bit_set
  rw [decide_eq_false_iff_not]
  omega

theorem bit_set_true {m : Nat → Nat} {i : Nat} :
    bit_set m i = true ↔ (m (i / 8) / 2 ^ (i % 8)) % 2 = 1 := by
  unfold bit_set
  rw [decide_eq_true_iff]

theorem bit_set_set (m : Nat → Nat) (i j : Nat) (hb : m (i / 8) < 256)
    (hc : bit_set m i = false) :
    bit_set (set_bit_map m i) j = if j = i then true else bit_set m j := by
  have hc' := bit_set_false.1 hc
  by_cases hji : j = i
  · subst hji
    rw [if_pos rfl, bit_set_true]
    simp only [set_bit_map, if_pos]
    rw [byte_set_bit _ hb _ (Nat.mod_lt _ (by decide)) hc' _ (Nat.mod_lt _ (by decide))]
    simp
  · rw [if_neg hji]
    by_cases hq : j / 8 = i / 8
    · have hne : ¬ j % 8 = i % 8 := fun h => hji ((bit_index_eq hq).1 h)
      unfold bit_set
      simp only [set_bit_map, if_pos hq]
      rw [hq, byte_set_bit _ hb _ (Nat.mod_lt _ (by decide)) hc' _ (Nat.mod_lt _ (by decide)),
        if_neg hne]
    · unfold bit_set
      simp only [set_bit_map, if_neg hq]

theorem bit_set_clear (m : Nat → Nat) (i j : Nat) (hb : m (i / 8) < 256)
    (hc : bit_set m i = true) :
    bit_set (clear_bit_map m i) j = if j = i then false else bit_set m j := by
  have hc' := bit_set_true.1 hc
  by_cases hji : j = i
  · subst hji
    rw [if_pos rfl, bit_set_false]
    simp only [clear_bit_map, if_pos]
    rw [byte_clear_bit _ hb _ (Nat.mod_lt _ (by decide)) hc' _ (Nat.mod_lt _ (by decide))]
    simp
  · rw [if_neg hji]
    by_cases hq : j / 8 = i / 8
    · have hne : ¬ j % 8 = i % 8 := fun h => hji ((bit_index_eq hq).1 h)
      unfold bit_set
      simp only [clear_bit_map, if_pos hq]
      rw [hq, byte_clear_bit _ hb _ (Nat.mod_lt _ (by decide)) hc' _ (Nat.mod_lt _ (by decide)),
        if_neg hne]
    · unfold bit_set
      simp only [clear_bit_map, if_neg hq]

theorem set_bit_map_lt (m : Nat → Nat) (i : Nat) (hb : ∀ j, m j < 256) (j : Nat) :
    set_bit_map m i j < 256 := by
  unfold set_bit_map
  split_ifs
  · exact Nat.mod_lt _ (by decide)
  · exact hb j

theorem clear_bit_map_lt (m : Nat → Nat) (i : Nat) (hb : ∀ j, m j < 256) (j : Nat) :
    clear_bit_map m i j < 256 := by
  unfold clear_bit_map
  split_ifs
  · exact Nat.mod_lt _ (by decide)
  · exact hb j

/-- Counting with one more element that satisfies the predicate. -/
theorem count_range_insert (f g : Nat → Bool) (i : Nat) (hi : f i = false)
    (hg : ∀ j, g j = if j = i then true else f j) :
    ∀ n, ((List.range n).filter g).length =
      ((List.range n).filter f).length + if i < n then 1 else 0 := by
  intro n
  induction n with
  | zero => simp
  | succ n ih =>
    rw [List.range_succ, List.filter_append, List.filter_append, List.length_append,
      List.length_append, ih]
    by_cases hn : n = i
    · subst hn
      simp [hg, hi]
    · have h1 : g n = f n := by rw [hg, if_neg hn]
      have h2 : (i < n + 1) = (i < n) := by
        apply propext
        constructor <;> intro h <;> omega
      simp only [List.filter_cons, List.filter_nil, h1, h2]
      omega

theorem popcount_set (m : Nat → Nat) (i n : Nat) (hb : m (i / 8) < 256)
    (hc : bit_set m i = false) (hi : i < n) :
    popcount (set_bit_map m i) n = popcount m n + 1 := by
  unfold popcount
  rw [count_range_insert (fun j => bit_set m j) (fun j => bit_set (set_bit_map m i) j) i hc
    (fun j => bit_set_set m i j hb hc) n, if_pos hi]

theorem popcount_clear (m : Nat → Nat) (i n : Nat) (hb : m (i / 8) < 256)
    (hc : bit_set m i = true) (hi : i < n) :
    popcount m n = popcount (clear_bit_map m i) n + 1 := by
  unfold popcount
  have h0 : bit_set (clear_bit_map m i) i = false := by
    rw [bit_set_clear m i i hb hc, if_pos rfl]
  rw [count_range_insert (fun j => bit_set (clear_bit_map m i) j) (fun j => bit_set m j) i h0
    (fun j => by
      show bit_set m j = if j = i then true else bit_set (clear_bit_map m i) j
      rw [bit_set_clear m i j hb hc]
      by_cases hj : j = i
      · subst hj; simp [hc]
      · simp [hj]) n, if_pos hi]

theorem popcount_le (m : Nat → Nat) (n : Nat) : popcount m n ≤ n := by
  unfold popcount
  calc ((List.range n).filter fun i => bit_set m i).length ≤ (List.range n).length :=
        List.length_filter_le _ _
    _ = n := List.length_range n

theorem exists_clear_bit (m : Nat → Nat) (n : Nat) (h : popcount m n < n) :
    ∃ i, i < n ∧ bit_set m i = false := by
  by_contra hne
  have hall : ∀ i, i < n → bit_set m i = true := by
    intro i hi
    by_contra hb
    exact hne ⟨i, hi, by simpa using hb⟩
  have : popcount m n = n := by
    unfold popcount
    rw [List.filter_eq_self.2, List.length_range]
    intro a ha
    exact hall a (List.mem_range.1 ha)
  omega
/-! ## States that agree on headers and bins -/

theorem Sim.sim_refl (st : State) : Sim st st :=
  ⟨rfl, rfl, rfl, rfl, rfl, fun _ => rfl⟩

theorem Sim.sim_trans {a b c : State} (h1 : Sim a b) (h2 : Sim b c) : Sim a c :=
  ⟨h2.nheaps.trans h1.nheaps, h2.page.trans h1.page, h2.brk.trans h1.brk,
    h2.max.trans h1.max, h2.mem.trans h1.mem, fun i => (h2.bins i).trans (h1.bins i)⟩

theorem Sim.sim_get_super {st st1 : State} (h : Sim st st1) (x : Nat) :
    get_super st1 x = get_super st x := by
  unfold A2Alloc.get_super load
  rw [h.mem]

theorem Sim.sim_get_node {st st1 : State} (h : Sim st st1) (x : Nat) :
    get_node st1 x = get_node st x := by
  unfold A2Alloc.get_node load
  rw [h.mem]

theorem Sim.sim_bin_of {st st1 : State} (h : Sim st st1) (b : Int × Int × Int) :
    bin_of st1 b = bin_of st b := by
  unfold A2Alloc.bin_of
  rw [h.bins]

theorem Sim.sim_validBin {st st1 : State} (h : Sim st st1) (b : Int × Int × Int) :
    ValidBin st1 b ↔ ValidBin st b := by
  unfold ValidBin
  rw [h.nheaps]

theorem Sim.sim_loc_of {st st1 : State} (h : Sim st st1) : loc_of st1 = loc_of st := by
  funext x
  unfold A2Alloc.loc_of
  rw [h.sim_get_super]

theorem Lists.lists_sim {st st1 : State} {loc : Nat → Int × Int × Int} (h : Sim st st1)
    (hl : Lists st loc) : Lists st1 loc := by
  refine ⟨?_, ?_, ?_⟩
  · intro b hb hne
    rw [h.sim_validBin] at hb
    rw [h.sim_bin_of] at hne ⊢
    rw [h.sim_get_super]
    exact hl.head b hb hne
  · intro p s hs hn
    rw [h.sim_get_super] at hs
    rw [h.sim_get_super]
    exact hl.next p s hs hn
  · intro p s hs hn
    rw [h.sim_get_super] at hs
    rw [h.sim_get_super]
    exact hl.prev p s hs hn

theorem NodeOK.nodeok_sim {st st1 : State} (h : Sim st st1) {x : Nat} {n : node_t}
    (hn : NodeOK st x n) : NodeOK st1 x n := by
  refine ⟨hn.aligned, hn.pages, ?_, ?_⟩
  · rw [h.brk]; exact hn.below
  · intro j hj
    rw [h.sim_get_super]
    exact hn.nosuper j hj

theorem BaseInv.baseinv_sim {st st1 : State} {live : List Nat} (h : Sim st st1) (hi : BaseInv st live) :
    BaseInv st1 live := by
  refine ⟨?_, ?_, ?_, ?_, ?_, ?_, ?_, ?_⟩
  · rw [h.page]; exact hi.page
  · rw [h.brk]; exact hi.brk_aligned
  · rw [h.brk]; exact hi.brk_pos
  · rw [h.brk, h.max]; exact hi.brk_max
  · rw [h.max]; exact hi.max
  · intro p s hs
    rw [h.sim_get_super] at hs
    rw [h.brk]
    exact hi.supers p s hs
  · intro x n hn
    rw [h.sim_get_node] at hn
    exact (hi.nodes x n hn).nodeok_sim h
  · intro q hq
    rw [h.brk]
    exact hi.live_below q hq

theorem HeapInv.heapinv_sim {st st1 : State} {live : List Nat} (h : Sim st st1) (hi : HeapInv st live) :
    HeapInv st1 live := by
  refine ⟨hi.base.baseinv_sim h, ?_⟩
  rw [h.sim_loc_of]
  exact hi.lists.lists_sim h

theorem set_heap_sim (st : State) (i : Int) (h : heap_t)
    (hb : h.super_bases = (st.heaptable i.toNat).super_bases) : Sim st (set_heap st i h) := by
  refine ⟨rfl, rfl, rfl, rfl, rfl, ?_⟩
  intro j
  rw [set_heap_heaptable]
  split_ifs with hj
  · rw [hb, hj]
  · rfl

theorem modify_heap_sim {st st1 : State} {i : Int} {f : heap_t → heap_t}
    (h : modify_heap st i f = some st1) (hf : ∀ h, (f h).super_bases = h.super_bases) :
    Sim st st1 := by
  unfold modify_heap at h
  cases hh : heap_at st i with
  | none => rw [hh] at h; cases h
  | some h0 =>
    rw [hh] at h
    simp only [Option.some_bind, Option.some.injEq] at h
    subst h
    obtain ⟨_, _, rfl⟩ := heap_at_eq_some hh
    exact set_heap_sim st i _ (hf _)

theorem lock_heap_sim {st st1 : State} {i : Int} (h : lock_heap st i = some st1) :
    Sim st st1 ∧ 0 ≤ i ∧ i.toNat < st.nheaps := by
  unfold lock_heap at h
  cases hh : heap_at st i with
  | none => rw [hh] at h; cases h
  | some h0 =>
    rw [hh] at h
    simp only [Option.some_bind] at h
    split_ifs at h
    simp only [Option.some.injEq] at h
    subst h
    obtain ⟨h1, h2, rfl⟩ := heap_at_eq_some hh
    exact ⟨set_heap_sim st i _ rfl, h1, h2⟩

theorem unlock_heap_sim {st st1 : State} {i : Int} (h : unlock_heap st i = some st1) :
    Sim st st1 := by
  unfold unlock_heap at h
  exact modify_heap_sim h (fun _ => rfl)

theorem lock_system_sim {st st1 : State} (h : lock_system st = some st1) : Sim st st1 := by
  unfold lock_system at h
  split_ifs at h
  simp only [Option.some.injEq] at h
  subst h
  exact ⟨rfl, rfl, rfl, rfl, rfl, fun _ => rfl⟩

theorem unlock_system_sim (st : State) : Sim st (unlock_system st) :=
  ⟨rfl, rfl, rfl, rfl, rfl, fun _ => rfl⟩

/-! ## Reading and writing bins -/

theorem toNat_inj {a b : Int} (ha : 0 ≤ a) (hb : 0 ≤ b) : a.toNat = b.toNat ↔ a = b := by
  omega

theorem bin_eq_iff {st : State} {b b' : Int × Int × Int} (hb : ValidBin st b)
    (hb' : ValidBin st b') :
    (b'.1.toNat = b.1.toNat ∧ b'.2.1.toNat = b.2.1.toNat ∧ b'.2.2.toNat = b.2.2.toNat) ↔
      b' = b := by
  obtain ⟨b1, b2, b3⟩ := b
  obtain ⟨c1, c2, c3⟩ := b'
  unfold ValidBin at hb hb'
  simp only [Prod.mk.injEq] at *
  omega

theorem get_bin_some {st : State} {b : Int × Int × Int} {v : Nat}
    (h : get_bin st b.1 b.2.1 b.2.2 = some v) : ValidBin st b ∧ v = bin_of st b := by
  unfold get_bin at h
  cases hh : heap_at st b.1 with
  | none => rw [hh] at h; cases h
  | some h0 =>
    rw [hh] at h
    simp only [Option.some_bind] at h
    obtain ⟨h1, h2, rfl⟩ := heap_at_eq_some hh
    split_ifs at h with hc
    simp only [Option.some.injEq] at h
    exact ⟨⟨h1, h2, hc⟩, h.symm⟩

theorem get_bin_valid {st : State} {b : Int × Int × Int} (hb : ValidBin st b) :
    get_bin st b.1 b.2.1 b.2.2 = some (bin_of st b) := by
  unfold get_bin heap_at
  obtain ⟨h1, h2, hc⟩ := hb
  rw [if_pos ⟨h1, h2⟩]
  simp only [Option.some_bind]
  rw [if_pos hc]
  rfl


theorem set_bin_some {st st1 : State} {b : Int × Int × Int} {v : Nat}
    (h : set_bin st b.1 b.2.1 b.2.2 v = some st1) : BinUpd st st1 b v := by
  unfold set_bin at h
  split_ifs at h with hc
  unfold modify_heap at h
  cases hh : heap_at st b.1 with
  | none => rw [hh] at h; cases h
  | some h0 =>
    rw [hh] at h
    simp only [Option.some_bind, Option.some.injEq] at h
    subst h
    obtain ⟨h1, h2, rfl⟩ := heap_at_eq_some hh
    have hv : ValidBin st b := ⟨h1, h2, hc⟩
    refine ⟨rfl, rfl, rfl, rfl, rfl, hv, ?_⟩
    intro b' hb'
    have hiff := bin_eq_iff hv hb'
    unfold bin_of
    rw [set_heap_heaptable]
    by_cases he : b' = b
    · subst he
      simp
    · rw [if_neg he]
      by_cases h1' : b'.1.toNat = b.1.toNat
      · rw [if_pos h1']
        have : ¬ (b'.2.1.toNat = b.2.1.toNat ∧ b'.2.2.toNat = b.2.2.toNat) := fun hx =>
          he (hiff.1 ⟨h1', hx⟩)
        simp only [this, if_false]
        rw [h1']
      · rw [if_neg h1']

theorem BinUpd.binupd_get_super {st st1 : State} {b : Int × Int × Int} {v : Nat}
    (h : BinUpd st st1 b v) (x : Nat) : get_super st1 x = get_super st x := by
  unfold A2Alloc.get_super load
  rw [h.mem]

theorem BinUpd.binupd_get_node {st st1 : State} {b : Int × Int × Int} {v : Nat}
    (h : BinUpd st st1 b v) (x : Nat) : get_node st1 x = get_node st x := by
  unfold A2Alloc.get_node load
  rw [h.mem]

theorem BinUpd.binupd_validBin {st st1 : State} {b : Int × Int × Int} {v : Nat}
    (h : BinUpd st st1 b v) (b' : Int × Int × Int) : ValidBin st1 b' ↔ ValidBin st b' := by
  unfold ValidBin
  rw [h.nheaps]

/-! ## Writing superblock headers -/


theorem write_super_upd (st : State) (q : Nat) (s1 : superblk_t) (hq : q ≠ 0) :
    SupUpd st (write_obj st q (Obj.super s1)) q s1 := by
  refine ⟨rfl, rfl, rfl, rfl, rfl, ?_, ?_⟩
  · intro x
    rw [get_super_write_super, if_neg hq]
  · intro x
    rw [get_node_write_super]

theorem modify_super_some {st st1 : State} {q : Nat} {f : superblk_t → superblk_t}
    (h : modify_super st q f = some st1) :
    ∃ s, get_super st q = some s ∧ SupUpd st st1 q (f s) := by
  rw [modify_super_map] at h
  cases hs : get_super st q with
  | none => rw [hs] at h; cases h
  | some s =>
    rw [hs] at h
    simp only [Option.map_some', Option.some.injEq] at h
    subst h
    exact ⟨s, rfl, write_super_upd st q _ (get_super_ne_zero hs)⟩

theorem SupUpd.supupd_bin_of {st st1 : State} {q : Nat} {s1 : superblk_t}
    (h : SupUpd st st1 q s1) (b : Int × Int × Int) : bin_of st1 b = bin_of st b := by
  unfold A2Alloc.bin_of
  rw [h.heaps]

theorem SupUpd.supupd_validBin {st st1 : State} {q : Nat} {s1 : superblk_t}
    (h : SupUpd st st1 q s1) (b : Int × Int × Int) : ValidBin st1 b ↔ ValidBin st b := by
  unfold ValidBin
  rw [h.nheaps]

theorem SupUpd.supupd_self {st st1 : State} {q : Nat} {s1 : superblk_t}
    (h : SupUpd st st1 q s1) : get_super st1 q = some s1 := by
  rw [h.sup, if_pos rfl]

theorem SupUpd.supupd_other {st st1 : State} {q : Nat} {s1 : superblk_t}
    (h : SupUpd st st1 q s1) {x : Nat} (hx : x ≠ q) : get_super st1 x = get_super st x := by
  rw [h.sup, if_neg hx]

/-! ## Rewriting headers and bins -/

theorem Upd.upd_validBin {st st1 : State} {g : Nat → superblk_t → superblk_t}
    {β : Int × Int × Int → Nat → Nat} (h : Upd st st1 g β) (b : Int × Int × Int) :
    ValidBin st1 b ↔ ValidBin st b := by
  unfold ValidBin
  rw [h.nheaps]

theorem Sim.sim_upd {st st1 : State} (h : Sim st st1) :
    Upd st st1 (fun _ r => r) (fun _ v => v) := by
  refine ⟨h.nheaps, h.page, h.brk, h.max, ?_, h.sim_get_node, fun b _ => h.sim_bin_of b⟩
  intro x
  rw [h.sim_get_super]
  cases A2Alloc.get_super st x <;> rfl

theorem SupUpd.supupd_upd {st st1 : State} {q : Nat} {f : superblk_t → superblk_t} {s : superblk_t}
    (hs : get_super st q = some s) (h : SupUpd st st1 q (f s)) :
    Upd st st1 (fun x r => if x = q then f r else r) (fun _ v => v) := by
  refine ⟨h.nheaps, h.page, h.brk, h.max, ?_, ?_, fun b _ => h.supupd_bin_of b⟩
  · intro x
    rw [h.sup]
    by_cases hx : x = q
    · subst hx
      simp [hs]
    · simp only [if_neg hx]
      cases get_super st x <;> rfl
  · intro x
    rw [h.nod]
    by_cases hx : x = q
    · subst hx
      rw [if_pos rfl]
      unfold get_node
      unfold get_super at hs
      cases hl : load st x with
      | none => rfl
      | some o =>
        rw [hl] at hs
        cases o with
        | super _ => rfl
        | node _ => cases hs
    · rw [if_neg hx]

theorem modify_super_upd {st st1 : State} {q : Nat} {f : superblk_t → superblk_t}
    (h : modify_super st q f = some st1) :
    (∃ s, get_super st q = some s) ∧
      Upd st st1 (fun x r => if x = q then f r else r) (fun _ v => v) := by
  obtain ⟨s, hs, hu⟩ := modify_super_some h
  exact ⟨⟨s, hs⟩, hu.supupd_upd hs⟩

theorem BinUpd.binupd_upd {st st1 : State} {b : Int × Int × Int} {v : Nat} (h : BinUpd st st1 b v) :
    Upd st st1 (fun _ r => r) (fun b' v' => if b' = b then v else v') := by
  refine ⟨h.nheaps, h.page, h.brk, h.max, ?_, h.binupd_get_node, h.bins⟩
  intro x
  rw [h.binupd_get_super]
  cases A2Alloc.get_super st x <;> rfl

theorem Upd.upd_trans {a b c : State} {g g' : Nat → superblk_t → superblk_t}
    {β β' : Int × Int × Int → Nat → Nat} (h1 : Upd a b g β) (h2 : Upd b c g' β') :
    Upd a c (fun x r => g' x (g x r)) (fun b v => β' b (β b v)) := by
  refine ⟨h2.nheaps.trans h1.nheaps, h2.page.trans h1.page, h2.brk.trans h1.brk,
    h2.max.trans h1.max, ?_, fun x => (h2.nod x).trans (h1.nod x), ?_⟩
  · intro x
    rw [h2.sup, h1.sup]
    cases get_super a x <;> rfl
  · intro b0 hb
    rw [h2.bins b0 ((h1.upd_validBin b0).2 hb), h1.bins b0 hb]

theorem Upd.upd_congr {a b : State} {g g' : Nat → superblk_t → superblk_t}
    {β β' : Int × Int × Int → Nat → Nat} (h : Upd a b g β)
    (hg : ∀ x r, get_super a x = some r → g x r = g' x r)
    (hβ : ∀ b0, ValidBin a b0 → β b0 (bin_of a b0) = β' b0 (bin_of a b0)) : Upd a b g' β' := by
  refine ⟨h.nheaps, h.page, h.brk, h.max, ?_, h.nod, ?_⟩
  · intro x
    rw [h.sup]
    cases hs : get_super a x with
    | none => rfl
    | some r => simp only [Option.map_some', hg x r hs]
  · intro b0 hb
    rw [h.bins b0 hb, hβ b0 hb]

theorem Upd.upd_get {a b : State} {g : Nat → superblk_t → superblk_t}
    {β : Int × Int × Int → Nat → Nat} (h : Upd a b g β) {x : Nat} {r : superblk_t}
    (hr : get_super a x = some r) : get_super b x = some (g x r) := by
  rw [h.sup, hr]
  rfl

theorem Upd.upd_get_inv {a b : State} {g : Nat → superblk_t → superblk_t}
    {β : Int × Int × Int → Nat → Nat} (h : Upd a b g β) {x : Nat} {r1 : superblk_t}
    (hr : get_super b x = some r1) : ∃ r, get_super a x = some r ∧ r1 = g x r := by
  rw [h.sup] at hr
  cases hs : get_super a x with
  | none => rw [hs] at hr; cases hr
  | some r =>
    rw [hs] at hr
    simp only [Option.map_some', Option.some.injEq] at hr
    exact ⟨r, rfl, hr.symm⟩

/-! ## `move_superblk` -/

theorem unlink_super_upd {st st1 : State} {p : Nat} {src : Int × Int × Int}
    (h : unlink_super st p src = some st1) :
    ∃ s, get_super st p = some s ∧ (s.prev = 0 → ValidBin st src) ∧
      Upd st st1
        (fun x r => { r with
          prev := if x = s.next ∧ s.next ≠ 0 then s.prev else r.prev
          next := if x = s.prev ∧ s.prev ≠ 0 then s.next else r.next })
        (fun b v => if s.prev = 0 ∧ b = src then s.next else v) := by
  unfold unlink_super at h
  cases hs : get_super st p with
  | none => rw [hs] at h; cases h
  | some s =>
    rw [hs] at h
    simp only [Option.some_bind] at h
    refine ⟨s, rfl, ?_⟩
    -- first assignment
    have h1 : ∃ sta, (if s.next ≠ 0 then modify_super st s.next fun n => { n with prev := s.prev }
        else some st) = some sta ∧ get_super sta p = some s ∧
        Upd st sta (fun x r => if x = s.next ∧ s.next ≠ 0 then { r with prev := s.prev } else r)
          (fun _ v => v) := by
      by_cases hn : s.next ≠ 0
      · rw [if_pos hn] at h ⊢
        cases hm : modify_super st s.next fun n => { n with prev := s.prev } with
        | none => rw [hm] at h; cases h
        | some sta =>
          obtain ⟨_, hu⟩ := modify_super_upd hm
          refine ⟨sta, rfl, ?_, hu.upd_congr (fun x r _ => by simp [hn]) (fun _ _ => rfl)⟩
          rw [hu.upd_get hs]
          by_cases hp : p = s.next
          · rw [if_pos hp]
          · rw [if_neg hp]
      · rw [if_neg hn]
        exact ⟨st, rfl, hs, (Sim.sim_refl st).sim_upd.upd_congr (fun x r _ => by simp [hn]) (fun _ _ => rfl)⟩
    obtain ⟨sta, hsta, hsp, hua⟩ := h1
    rw [hsta] at h
    simp only [Option.some_bind, hsp] at h
    by_cases hm : s.prev ≠ 0
    · rw [if_pos hm] at h
      obtain ⟨_, hu⟩ := modify_super_upd h
      refine ⟨fun h0 => absurd h0 hm, (hua.upd_trans hu).upd_congr ?_ ?_⟩
      · intro x r _
        dsimp only
        split_ifs <;> first | rfl | (exfalso; tauto)
      · intro b0 _
        simp [hm]
    · rw [if_neg hm] at h
      have hm0 : s.prev = 0 := by simpa using hm
      have hb := set_bin_some h
      have hv : ValidBin st src := (hua.upd_validBin src).1 hb.valid
      refine ⟨fun _ => hv, (hua.upd_trans hb.binupd_upd).upd_congr ?_ ?_⟩
      · intro x r _
        dsimp only
        split_ifs <;> first | rfl | (exfalso; tauto)
      · intro b0 _
        simp [hm0]

theorem push_super_upd {st st1 : State} {p : Nat} {dest : Int × Int × Int}
    (h : push_super st p dest = some st1) :
    ValidBin st dest ∧ (∃ s, get_super st p = some s) ∧
      Upd st st1
        (fun x r => { r with
          prev := if x = p then 0 else if x = bin_of st dest ∧ bin_of st dest ≠ 0 then p
            else r.prev
          next := if x = p then bin_of st dest else r.next })
        (fun b v => if b = dest then p else v) := by
  unfold push_super at h
  cases hg : get_bin st dest.1 dest.2.1 dest.2.2 with
  | none => rw [hg] at h; cases h
  | some d =>
    rw [hg] at h
    obtain ⟨hv, rfl⟩ := get_bin_some hg
    simp only [Option.some_bind] at h
    refine ⟨hv, ?_⟩
    have h1 : ∃ sta, (if bin_of st dest ≠ 0 then
        modify_super st (bin_of st dest) fun h => { h with prev := p } else some st) = some sta ∧
        Upd st sta (fun x r => if x = bin_of st dest ∧ bin_of st dest ≠ 0 then
          { r with prev := p } else r) (fun _ v => v) := by
      by_cases hn : bin_of st dest ≠ 0
      · rw [if_pos hn] at h ⊢
        cases hm : modify_super st (bin_of st dest) fun h => { h with prev := p } with
        | none => rw [hm] at h; cases h
        | some sta =>
          obtain ⟨_, hu⟩ := modify_super_upd hm
          exact ⟨sta, rfl, hu.upd_congr (fun x r _ => by simp [hn]) (fun _ _ => rfl)⟩
      · rw [if_neg hn]
        exact ⟨st, rfl, (Sim.sim_refl st).sim_upd.upd_congr (fun x r _ => by simp [hn]) (fun _ _ => rfl)⟩
    obtain ⟨sta, hsta, hua⟩ := h1
    rw [hsta] at h
    simp only [Option.some_bind] at h
    cases hm : modify_super sta p fun x => { x with next := bin_of st dest, prev := 0 } with
    | none => rw [hm] at h; cases h
    | some stb =>
      rw [hm] at h
      simp only [Option.some_bind] at h
      obtain ⟨⟨s1, hs1⟩, hub⟩ := modify_super_upd hm
      obtain ⟨s, hs, _⟩ := hua.upd_get_inv hs1
      have hb := set_bin_some h
      refine ⟨⟨s, hs⟩, ((hua.upd_trans hub).upd_trans hb.binupd_upd).upd_congr ?_ ?_⟩
      · intro x r _
        dsimp only
        split_ifs <;> rfl
      · intro b0 _
        rfl

theorem transfer_super_upd {st st1 : State} {p : Nat} {src dest : Int × Int × Int}
    (h : transfer_super st p src dest = some st1) :
    Upd st st1
      (fun x r => if x = p ∧ dest.1 ≠ src.1 then { r with heap_num := dest.1 } else r)
      (fun _ v => v) := by
  unfold transfer_super at h
  by_cases hd : dest.1 ≠ src.1
  · rw [if_pos hd] at h
    cases hm : modify_super st p fun x => { x with heap_num := dest.1 } with
    | none => rw [hm] at h; cases h
    | some sta =>
      rw [hm] at h
      simp only [Option.some_bind] at h
      obtain ⟨_, hua⟩ := modify_super_upd hm
      cases hs : get_super sta p with
      | none => rw [hs] at h; cases h
      | some s =>
        rw [hs] at h
        simp only [Option.some_bind] at h
        cases hh : modify_heap sta src.1 fun h =>
            { h with u := int32 (h.u - int32 (s.u * (s.block_class : Int))),
                     a := int32 (h.a - (superblk_size : Int)) } with
        | none => rw [hh] at h; cases h
        | some stb =>
          rw [hh] at h
          simp only [Option.some_bind] at h
          have s1 := modify_heap_sim hh (fun _ => rfl)
          have s2 := modify_heap_sim h (fun _ => rfl)
          exact ((hua.upd_trans s1.sim_upd).upd_trans s2.sim_upd).upd_congr (fun x r _ => by simp [hd])
            (fun _ _ => rfl)
  · rw [if_neg hd] at h
    simp only [Option.some.injEq] at h
    subst h
    exact (Sim.sim_refl st).sim_upd.upd_congr (fun x r _ => by simp [hd]) (fun _ _ => rfl)

theorem move_superblk_upd {st st1 : State} {p : Nat} {src dest : Int × Int × Int}
    (hne : src ≠ dest) (h : move_superblk st p src dest = some st1) :
    ∃ s, get_super st p = some s ∧ ValidBin st dest ∧ (s.prev = 0 → ValidBin st src) ∧
      Upd st st1 (moved p (bin_of st dest) s src dest) (moved_bin p s src dest) := by
  unfold move_superblk at h
  cases h1 : unlink_super st p src with
  | none => rw [h1] at h; cases h
  | some sta =>
    rw [h1] at h
    simp only [Option.some_bind] at h
    cases h2 : push_super sta p dest with
    | none => rw [h2] at h; cases h
    | some stb =>
      rw [h2] at h
      simp only [Option.some_bind] at h
      obtain ⟨s, hs, hv, hua⟩ := unlink_super_upd h1
      obtain ⟨hvd, _, hub⟩ := push_super_upd h2
      have huc := transfer_super_upd h
      have hvd' : ValidBin st dest := (hua.upd_validBin dest).1 hvd
      have hd : bin_of sta dest = bin_of st dest := by
        rw [hua.bins dest hvd']
        have : ¬ (s.prev = 0 ∧ dest = src) := fun hx => hne hx.2.symm
        simp only [this, if_false]
      rw [hd] at hub
      refine ⟨s, hs, hvd', hv, ((hua.upd_trans hub).upd_trans huc).upd_congr ?_ ?_⟩
      · intro x r _
        unfold moved
        dsimp only
        split_ifs <;> rfl
      · intro b0 _
        unfold moved_bin
        dsimp only

theorem moved_block_class (p d : Nat) (s : superblk_t) (src dest : Int × Int × Int) (x : Nat)
    (r : superblk_t) : (moved p d s src dest x r).block_class = r.block_class := rfl
theorem moved_block_bit_map (p d : Nat) (s : superblk_t) (src dest : Int × Int × Int)
    (x : Nat) (r : superblk_t) : (moved p d s src dest x r).block_bit_map = r.block_bit_map :=
  rfl
theorem moved_u (p d : Nat) (s : superblk_t) (src dest : Int × Int × Int) (x : Nat)
    (r : superblk_t) : (moved p d s src dest x r).u = r.u := rfl
theorem moved_heap_num (p d : Nat) (s : superblk_t) (src dest : Int × Int × Int) (x : Nat)
    (r : superblk_t) : (moved p d s src dest x r).heap_num =
      if x = p ∧ dest.1 ≠ src.1 then dest.1 else r.heap_num := rfl
theorem moved_prev (p d : Nat) (s : superblk_t) (src dest : Int × Int × Int) (x : Nat)
    (r : superblk_t) : (moved p d s src dest x r).prev =
      if x = p then 0 else if x = d ∧ d ≠ 0 then p
        else if x = s.next ∧ s.next ≠ 0 then s.prev else r.prev := rfl
theorem moved_next (p d : Nat) (s : superblk_t) (src dest : Int × Int × Int) (x : Nat)
    (r : superblk_t) : (moved p d s src dest x r).next =
      if x = p then d else if x = s.prev ∧ s.prev ≠ 0 then s.next else r.next := rfl

/-- The bin lists stay consistent when `move_superblk` moves `p` out of its bin
`src` into another bin `dest`. -/
theorem Lists.lists_move {st st1 : State} {loc : Nat → Int × Int × Int} {p : Nat} {s : superblk_t}
    {src dest : Int × Int × Int} (hl : Lists st loc) (hs : get_super st p = some s)
    (hloc : loc p = src) (hne : src ≠ dest) (hvd : ValidBin st dest)
    (hu : Upd st st1 (moved p (bin_of st dest) s src dest) (moved_bin p s src dest)) :
    Lists st1 (Function.update loc p dest) := by
  have hp0 : p ≠ 0 := get_super_ne_zero hs
  -- the neighbours of `p` and the head of `dest`
  have F1 : bin_of st dest ≠ 0 → ∃ sd, get_super st (bin_of st dest) = some sd ∧ sd.prev = 0 ∧
      loc (bin_of st dest) = dest := hl.head dest hvd
  have F2 : s.next ≠ 0 → ∃ sn, get_super st s.next = some sn ∧ sn.prev = p ∧
      loc s.next = src := by
    intro h
    obtain ⟨sn, h1, h2, h3⟩ := hl.next p s hs h
    exact ⟨sn, h1, h2, h3.trans hloc⟩
  have F3 : s.prev ≠ 0 → ∃ sm, get_super st s.prev = some sm ∧ sm.next = p ∧
      loc s.prev = src := by
    intro h
    obtain ⟨sm, h1, h2⟩ := hl.prev p s hs h
    have hpn : sm.next ≠ 0 := by rw [h2]; exact hp0
    obtain ⟨_, _, _, h3⟩ := hl.next s.prev sm h1 hpn
    rw [h2] at h3
    exact ⟨sm, h1, h2, h3.symm.trans hloc⟩
  have hdp : bin_of st dest ≠ 0 → bin_of st dest ≠ p := by
    intro h0 he
    obtain ⟨_, _, _, h3⟩ := F1 h0
    rw [he, hloc] at h3
    exact hne h3
  have hdn : bin_of st dest ≠ 0 → s.next ≠ 0 → bin_of st dest ≠ s.next := by
    intro h0 hn he
    obtain ⟨_, _, _, h3⟩ := F1 h0
    obtain ⟨_, _, _, h4⟩ := F2 hn
    rw [he, h4] at h3
    exact hne h3
  have hdm : bin_of st dest ≠ 0 → s.prev ≠ 0 → bin_of st dest ≠ s.prev := by
    intro h0 hm he
    obtain ⟨_, _, _, h3⟩ := F1 h0
    obtain ⟨_, _, _, h4⟩ := F3 hm
    rw [he, h4] at h3
    exact hne h3
  have hnp : s.next = p → s.prev = p := by
    intro he
    obtain ⟨sn, h1, h2, _⟩ := F2 (by rw [he]; exact hp0)
    rw [he, hs] at h1
    cases h1
    exact h2
  have hmp : s.prev = p → s.next = p := by
    intro he
    obtain ⟨sm, h1, h2, _⟩ := F3 (by rw [he]; exact hp0)
    rw [he, hs] at h1
    cases h1
    exact h2
  refine ⟨?_, ?_, ?_⟩
  · -- heads
    intro b hb hne0
    have hb' : ValidBin st b := (hu.upd_validBin b).1 hb
    rw [hu.bins b hb'] at hne0 ⊢
    unfold moved_bin at hne0 ⊢
    by_cases hbd : b = dest
    · rw [if_pos hbd] at hne0 ⊢
      refine ⟨_, hu.upd_get hs, ?_, ?_⟩
      · rw [moved_prev, if_pos rfl]
      · rw [Function.update_same, hbd]
    · rw [if_neg hbd] at hne0 ⊢
      by_cases hbs : s.prev = 0 ∧ b = src
      · rw [if_pos hbs] at hne0 ⊢
        obtain ⟨sn, h1, h2, h3⟩ := F2 hne0
        have hnp' : s.next ≠ p := fun he => hp0 ((hnp he).symm.trans hbs.1)
        refine ⟨_, hu.upd_get h1, ?_, ?_⟩
        · rw [moved_prev, if_neg hnp']
          have : ¬ (s.next = bin_of st dest ∧ bin_of st dest ≠ 0) := fun hx =>
            hdn hx.2 hne0 hx.1.symm
          rw [if_neg this, if_pos ⟨rfl, hne0⟩]
          exact hbs.1
        · rw [Function.update_noteq hnp', h3, hbs.2]
      · rw [if_neg hbs] at hne0 ⊢
        obtain ⟨sh, h1, h2, h3⟩ := hl.head b hb' hne0
        have hhp : bin_of st b ≠ p := by
          intro he
          rw [he, hs] at h1
          cases h1
          rw [he, hloc] at h3
          exact hbs ⟨h2, h3.symm⟩
        refine ⟨_, hu.upd_get h1, ?_, ?_⟩
        · rw [moved_prev, if_neg hhp]
          have c1 : ¬ (bin_of st b = bin_of st dest ∧ bin_of st dest ≠ 0) := by
            intro hx
            obtain ⟨_, _, _, h4⟩ := F1 hx.2
            rw [← hx.1, h3] at h4
            exact hbd h4
          have c2 : ¬ (bin_of st b = s.next ∧ s.next ≠ 0) := by
            intro hx
            obtain ⟨sn, h4, h5, _⟩ := F2 hx.2
            rw [← hx.1, h1] at h4
            cases h4
            exact hp0 (h5.symm.trans h2)
          rw [if_neg c1, if_neg c2]
          exact h2
        · rw [Function.update_noteq hhp, h3]
  · -- next
    intro x s1 hs1 hn1
    obtain ⟨r, hr, rfl⟩ := hu.upd_get_inv hs1
    have hx0 : x ≠ 0 := get_super_ne_zero hr
    rw [moved_next] at hn1 ⊢
    by_cases hxp : x = p
    · subst hxp
      rw [if_pos rfl] at hn1 ⊢
      obtain ⟨sd, h1, h2, h3⟩ := F1 hn1
      refine ⟨_, hu.upd_get h1, ?_, ?_⟩
      · rw [moved_prev, if_neg (hdp hn1), if_pos ⟨rfl, hn1⟩]
      · rw [Function.update_noteq (hdp hn1), Function.update_same, h3]
    · rw [if_neg hxp] at hn1 ⊢
      by_cases hxm : x = s.prev ∧ s.prev ≠ 0
      · rw [if_pos hxm] at hn1 ⊢
        obtain ⟨sn, h1, h2, h3⟩ := F2 hn1
        obtain ⟨sm, h4, h5, h6⟩ := F3 hxm.2
        have hnp' : s.next ≠ p := fun he => hxp (hxm.1.trans (hnp he))
        refine ⟨_, hu.upd_get h1, ?_, ?_⟩
        · rw [moved_prev, if_neg hnp']
          have : ¬ (s.next = bin_of st dest ∧ bin_of st dest ≠ 0) := fun hx =>
            hdn hx.2 hn1 hx.1.symm
          rw [if_neg this, if_pos ⟨rfl, hn1⟩]
          exact hxm.1.symm
        · rw [Function.update_noteq hnp', Function.update_noteq hxp, h3, hxm.1, h6]
      · rw [if_neg hxm] at hn1 ⊢
        obtain ⟨ry, h1, h2, h3⟩ := hl.next x r hr hn1
        have hyp : r.next ≠ p := by
          intro he
          rw [he, hs] at h1
          cases h1
          exact hxm ⟨h2.symm, by rw [h2]; exact hx0⟩
        refine ⟨_, hu.upd_get h1, ?_, ?_⟩
        · rw [moved_prev, if_neg hyp]
          have c1 : ¬ (r.next = bin_of st dest ∧ bin_of st dest ≠ 0) := by
            intro hx
            obtain ⟨sd, h4, h5, _⟩ := F1 hx.2
            rw [← hx.1, h1] at h4
            cases h4
            exact hx0 (h2.symm.trans h5)
          have c2 : ¬ (r.next = s.next ∧ s.next ≠ 0) := by
            intro hx
            obtain ⟨sn, h4, h5, _⟩ := F2 hx.2
            rw [← hx.1, h1] at h4
            cases h4
            exact hxp (h2.symm.trans h5)
          rw [if_neg c1, if_neg c2]
          exact h2
        · rw [Function.update_noteq hyp, Function.update_noteq hxp, h3]
  · -- prev
    intro x s1 hs1 hn1
    obtain ⟨r, hr, rfl⟩ := hu.upd_get_inv hs1
    have hx0 : x ≠ 0 := get_super_ne_zero hr
    rw [moved_prev] at hn1 ⊢
    by_cases hxp : x = p
    · rw [if_pos hxp] at hn1
      exact absurd rfl hn1
    · rw [if_neg hxp] at hn1 ⊢
      by_cases hxd : x = bin_of st dest ∧ bin_of st dest ≠ 0
      · rw [if_pos hxd] at hn1 ⊢
        refine ⟨_, hu.upd_get hs, ?_⟩
        rw [moved_next, if_pos rfl]
        exact hxd.1.symm
      · rw [if_neg hxd] at hn1 ⊢
        by_cases hxn : x = s.next ∧ s.next ≠ 0
        · rw [if_pos hxn] at hn1 ⊢
          obtain ⟨sm, h4, h5, h6⟩ := F3 hn1
          have hmp' : s.prev ≠ p := fun he => hxp (hxn.1.trans (hmp he))
          refine ⟨_, hu.upd_get h4, ?_⟩
          rw [moved_next, if_neg hmp', if_pos ⟨rfl, hn1⟩]
          exact hxn.1.symm
        · rw [if_neg hxn] at hn1 ⊢
          obtain ⟨ry, h1, h2⟩ := hl.prev x r hr hn1
          have hyp : r.prev ≠ p := by
            intro he
            rw [he, hs] at h1
            cases h1
            exact hxn ⟨h2.symm, by rw [h2]; exact hx0⟩
          refine ⟨_, hu.upd_get h1, ?_⟩
          rw [moved_next, if_neg hyp]
          have c2 : ¬ (r.prev = s.prev ∧ s.prev ≠ 0) := by
            intro hx
            obtain ⟨sm, h4, h5, _⟩ := F3 hx.2
            rw [← hx.1, h1] at h4
            cases h4
            exact hxp (h2.symm.trans h5)
          rw [if_neg c2]
          exact h2

/-! ## `find_blk` -/

set_option maxRecDepth 1000000 in
theorem byte_find : ∀ b < 256, ∀ j < 8, (b / 2 ^ j) % 2 = 0 →
    ∃ k, k < j + 1 ∧ ((List.range 8).find? fun k =>
      decide (Int.tmod (Int.shiftRight (schar b) k) 2 = 0)) = some k := by decide

theorem schar_lt (b : Nat) : schar b < 255 := by
  unfold schar
  split_ifs <;> omega

set_option maxRecDepth 100000 in
theorem schar_eq_zero : ∀ b < 256, (schar b = 0 ↔ b = 0) := by decide

/-- The scan of the bytes `i < N` in `find_blk` finds a clear bit when one of
the first `8 * N` bits is clear; in byte 0 it finds the lowest one. -/
theorem find_blk_scan (m : Nat → Nat) (N : Nat) (hb : ∀ i, m i < 256) (j : Nat)
    (hj : j < 8 * N) (hc : bit_set m j = false) :
    ∃ b, ((List.range N).findSome? fun i =>
        if schar (m i) < 255 then
          ((List.range 8).find? fun k =>
            decide (Int.tmod (Int.shiftRight (schar (m i)) k) 2 = 0)).map fun k => i * 8 + k
        else none) = some b ∧ b < 8 * N ∧ bit_set m b = false ∧ (N = 1 → b ≤ j) := by
  cases hf : (List.range N).findSome? fun i =>
        if schar (m i) < 255 then
          ((List.range 8).find? fun k =>
            decide (Int.tmod (Int.shiftRight (schar (m i)) k) 2 = 0)).map fun k => i * 8 + k
        else none with
  | none =>
    exfalso
    rw [List.findSome?_eq_none_iff] at hf
    have h1 := hf (j / 8) (List.mem_range.2 (by omega))
    rw [if_pos (schar_lt _)] at h1
    obtain ⟨k, _, hk⟩ := byte_find _ (hb (j / 8)) (j % 8) (Nat.mod_lt _ (by decide))
      (bit_set_false.1 hc)
    rw [hk] at h1
    cases h1
  | some b =>
    refine ⟨b, rfl, ?_⟩
    obtain ⟨i, hi, hfi⟩ := List.exists_of_findSome?_eq_some hf
    rw [if_pos (schar_lt _)] at hfi
    cases hk : (List.range 8).find? fun k =>
        decide (Int.tmod (Int.shiftRight (schar (m i)) k) 2 = 0) with
    | none => rw [hk] at hfi; cases hfi
    | some k =>
      rw [hk] at hfi
      simp only [Option.map_some', Option.some.injEq] at hfi
      have hk8 : k < 8 := List.mem_range.1 (List.mem_of_find?_eq_some hk)
      have hi' : i < N := List.mem_range.1 hi
      have ht := List.find?_some hk
      rw [decide_eq_true_iff, byte_shift_test _ (hb i) _ hk8] at ht
      have e1 : b / 8 = i := by omega
      have e2 : b % 8 = k := by omega
      refine ⟨by omega, ?_, ?_⟩
      · rw [bit_set_false, e1, e2]
        exact ht
      · intro hN
        subst hN
        have hi0 : i = 0 := by omega
        subst hi0
        have hj8 : j / 8 = 0 := by omega
        have hjm : j % 8 = j := by omega
        have hc' := bit_set_false.1 hc
        rw [hj8, hjm] at hc'
        obtain ⟨k', hk', hfk⟩ := byte_find _ (hb 0) j (by omega) hc'
        rw [hk] at hfk
        cases hfk
        omega

theorem find_blk_small (m : Nat → Nat) (bc : Nat) (h8 : ¬ superblk_size < bc * 8) :
    find_blk m bc =
      match ((List.range ((superblk_size + bc * 8 - 1) / (bc * 8))).findSome? fun i =>
        if schar (m i) < 255 then
          ((List.range 8).find? fun k =>
            decide (Int.tmod (Int.shiftRight (schar (m i)) k) 2 = 0)).map fun k => i * 8 + k
        else none) with
      | some b => (b : Int)
      | none => -1 := by
  unfold find_blk
  simp only [if_neg h8]
  try rfl

/-- On a superblock of one of the block classes that has a clear bit below its
capacity, `find_blk` returns the index of a clear bit below the capacity. -/
theorem find_blk_spec (m : Nat → Nat) (bc : Nat) (hbc : bc ∈ block_sizes)
    (hb : ∀ i, m i < 256) (j : Nat) (hj : j < capacity bc) (hc : bit_set m j = false) :
    ∃ k : Nat, find_blk m bc = (k : Int) ∧ k < capacity bc ∧ bit_set m k = false := by
  have hsmall : ∀ N, ¬ superblk_size < bc * 8 → (superblk_size + bc * 8 - 1) / (bc * 8) = N →
      capacity bc = 8 * N →
      ∃ k : Nat, find_blk m bc = (k : Int) ∧ k < capacity bc ∧ bit_set m k = false := by
    intro N h8 hN hcap
    rw [hcap] at hj ⊢
    obtain ⟨b, h1, h2, h3, _⟩ := find_blk_scan m N hb j hj hc
    refine ⟨b, ?_, h2, h3⟩
    rw [find_blk_small m bc h8, hN, h1]
  have hlarge : ∀ R, superblk_size < bc * 8 → (2 * superblk_size + bc) / (2 * bc) = R + 2 →
      (superblk_size + bc * 8 - 1) / (bc * 8) = 1 → capacity bc = R + 2 →
      ∃ k : Nat, find_blk m bc = (k : Int) ∧ k < capacity bc ∧ bit_set m k = false := by
    intro R h8 hR hN hcap
    by_cases h0 : m 0 = 0
    · refine ⟨1, ?_, by omega, ?_⟩
      · have hf : ((List.range (R + 2)).find? fun k =>
            decide (Int.tmod (if schar 0 = 0 then 1 else 0) ((2 : Int) ^ k) ≠ 0)) = some 1 := by
          rw [List.range_succ_eq_map, List.range_succ_eq_map]
          rfl
        unfold find_blk
        simp only [if_pos h8, hR, h0, hf]
      · rw [bit_set_false]
        show (m 0 / 2) % 2 = 0
        rw [h0]
    · have hs : ¬ schar (m 0) = 0 := fun h => h0 ((schar_eq_zero _ (hb 0)).1 h)
      rw [hcap] at hj
      have hj8 : j < 8 * 1 := by
        have : capacity bc ≤ 8 := by
          unfold capacity superblk_size
          unfold superblk_size at h8
          rw [Nat.div_le_iff_le_mul_add_pred (by omega)]
          omega
        omega
      obtain ⟨b, h1, h2, h3, h4⟩ := find_blk_scan m 1 hb j hj8 hc
      refine ⟨b, ?_, ?_, h3⟩
      · unfold find_blk
        simp only [if_pos h8, hN, h1, if_neg hs]
        have : ((List.range ((2 * superblk_size + bc) / (2 * bc))).find? fun k =>
            decide (Int.tmod (0 : Int) ((2 : Int) ^ k) ≠ 0)) = none := by
          rw [List.find?_eq_none]
          intro x _
          simp
        rw [this]
      · have := h4 rfl
        omega
  simp only [block_sizes, List.mem_cons, List.mem_singleton, List.not_mem_nil, or_false] at hbc
  rcases hbc with rfl | rfl | rfl | rfl | rfl | rfl | rfl | rfl | rfl
  · exact hsmall 64 (by decide) (by decide) (by decide)
  · exact hsmall 32 (by decide) (by decide) (by decide)
  · exact hsmall 16 (by decide) (by decide) (by decide)
  · exact hsmall 8 (by decide) (by decide) (by decide)
  · exact hsmall 4 (by decide) (by decide) (by decide)
  · exact hsmall 2 (by decide) (by decide) (by decide)
  · exact hsmall 1 (by decide) (by decide) (by decide)
  · exact hlarge 2 (by decide) (by decide) (by decide) (by decide)
  · exact hlarge 0 (by decide) (by decide) (by decide) (by decide)

/-! ## Live pointers of a superblock -/

theorem live_at_cons (live : List Nat) (q p bc i : Nat) :
    live_at (q :: live) p bc i =
      live_at live p bc i + if page_of q = p ∧ q % 4096 / bc = i then 1 else 0 := by
  unfold live_at
  rw [List.countP_cons]
  simp only [decide_eq_true_eq]

theorem live_at_erase_le (live : List Nat) (q p bc i : Nat) :
    live_at (live.erase q) p bc i ≤ live_at live p bc i := by
  unfold live_at
  exact List.Sublist.countP_le _ (List.erase_sublist q live)

theorem live_at_erase_self (live : List Nat) (q p bc i : Nat) (hq : q ∈ live)
    (hp : page_of q = p) (hi : q % 4096 / bc = i) :
    live_at (live.erase q) p bc i + 1 = live_at live p bc i := by
  induction live with
  | nil => cases hq
  | cons a l ih =>
    by_cases ha : a = q
    · subst ha
      rw [List.erase_cons_head, live_at_cons, if_pos ⟨hp, hi⟩]
    · have hq' : q ∈ l := by
        rcases List.mem_cons.1 hq with h | h
        · exact absurd h.symm ha
        · exact h
      rw [List.erase_cons_tail (by simpa using ha), live_at_cons, live_at_cons, ← ih hq']
      omega

theorem live_at_pos (live : List Nat) (q p bc i : Nat) (hq : q ∈ live)
    (hp : page_of q = p) (hi : q % 4096 / bc = i) : 0 < live_at live p bc i := by
  unfold live_at
  rw [List.countP_pos_iff]
  exact ⟨q, hq, by simp [hp, hi]⟩

theorem live_at_zero (live : List Nat) (p bc i : Nat) (h : live_at live p bc i = 0) (q : Nat)
    (hq : q ∈ live) : ¬ (page_of q = p ∧ q % 4096 / bc = i) := by
  unfold live_at at h
  rw [List.countP_eq_zero] at h
  simpa using h q hq

theorem page_of_add (p off : Nat) (hp : p % 4096 = 0) (ho : off < 4096) :
    page_of (p + off) = p ∧ (p + off) % 4096 = off := by
  unfold page_of
  omega

theorem page_of_le (q : Nat) : page_of q ≤ q ∧ q < page_of q + 4096 := by
  unfold page_of
  omega

/-! ## Superblock facts -/

theorem SuperOK.superok_congr {brk : Nat} {live : List Nat} {p : Nat} {s s1 : superblk_t}
    (h : SuperOK brk live p s) (h1 : s1.block_class = s.block_class)
    (h2 : s1.block_bit_map = s.block_bit_map) (h3 : s1.u = s.u) : SuperOK brk live p s1 := by
  refine ⟨?_, h.aligned, h.below, ?_, ?_, ?_, ?_⟩
  · rw [h1]; exact h.cls
  · rw [h2]; exact h.bytes
  · rw [h1, h2, h3]; exact h.count
  · rw [h1, h2]; exact h.header
  · rw [h1, h2]; exact h.livebits

theorem SuperOK.superok_mono {brk brk1 : Nat} {live : List Nat} {p : Nat} {s : superblk_t}
    (h : SuperOK brk live p s) (hb : brk ≤ brk1) : SuperOK brk1 live p s :=
  ⟨h.cls, h.aligned, le_trans h.below hb, h.bytes, h.count, h.header, h.livebits⟩

theorem SuperOK.superok_cons_other {brk : Nat} {live : List Nat} {p : Nat} {s : superblk_t}
    (h : SuperOK brk live p s) (q : Nat) (hq : page_of q ≠ p) :
    SuperOK brk (q :: live) p s := by
  refine ⟨h.cls, h.aligned, h.below, h.bytes, h.count, h.header, ?_⟩
  intro i
  rw [live_at_cons, if_neg (fun hx => hq hx.1)]
  exact h.livebits i

theorem SuperOK.superok_erase {brk : Nat} {live : List Nat} {p : Nat} {s : superblk_t}
    (h : SuperOK brk live p s) (q : Nat) : SuperOK brk (live.erase q) p s := by
  refine ⟨h.cls, h.aligned, h.below, h.bytes, h.count, h.header, ?_⟩
  intro i
  exact le_trans (live_at_erase_le live q p s.block_class i) (h.livebits i)

theorem SuperOK.superok_u_le {brk : Nat} {live : List Nat} {p : Nat} {s : superblk_t}
    (h : SuperOK brk live p s) :
    ∃ u : Nat, s.u = (u : Int) ∧ u = popcount s.block_bit_map (capacity s.block_class) ∧
      u ≤ 4096 / s.block_class :=
  ⟨_, h.count, rfl, popcount_le _ _⟩

/-- The fullness bin of a superblock is one of the bins 1 to 5; it is bin 5
exactly when the superblock is full. -/
theorem SuperOK.superok_fullness {brk : Nat} {live : List Nat} {p : Nat} {s : superblk_t}
    (h : SuperOK brk live p s) :
    ∃ f : Nat, fullness s.u s.block_class = some (f : Int) ∧ 1 ≤ f ∧ f < 6 ∧
      (f < 5 → popcount s.block_bit_map (capacity s.block_class) < capacity s.block_class) := by
  obtain ⟨u, hu, hu2, hle⟩ := h.superok_u_le
  obtain ⟨h1, h2⟩ := fullness_table _ h.cls u hle
  refine ⟨4 * u / (4096 / s.block_class) + 1, by rw [hu]; exact h1, Nat.le_add_left 1 _, h2, ?_⟩
  intro hf
  rw [← hu2]
  show u < 4096 / s.block_class
  have hpos : 0 < 4096 / s.block_class := by
    have := h.cls
    simp only [block_sizes, List.mem_cons, List.mem_singleton, List.not_mem_nil,
      or_false] at this
    rcases this with e | e | e | e | e | e | e | e | e <;> rw [e] <;> decide
  have h4 : 4 * u / (4096 / s.block_class) < 4 := by omega
  rw [Nat.div_lt_iff_lt_mul hpos] at h4
  omega

theorem class_index_inj : ∀ a ∈ block_sizes, ∀ b ∈ block_sizes,
    class_index a = class_index b → a = b := by decide

theorem class_index_lt : ∀ a ∈ block_sizes, class_index a < 9 := by decide

theorem class_index_get : ∀ i, i < 9 → class_index (block_sizes.getD i 0) = i := by decide

theorem class_index_size_class (sz : Nat) (h : sz ≤ 2048) :
    class_index (size_class sz).2 = (size_class sz).1 ∧ (size_class sz).1 < 9 := by
  have h1 := (size_class_loop_spec sz h).1
  have h2 : (size_class sz).1 < 9 := by
    have := (List.get?_eq_some.1 h1).1
    simpa [block_sizes] using this
  have h3 : block_sizes.getD (size_class sz).1 0 = (size_class sz).2 := by
    rw [List.getD_eq_getElem?_getD, ← List.get?_eq_getElem?, h1]
    rfl
  refine ⟨?_, h2⟩
  rw [← h3]
  exact class_index_get _ h2

set_option maxRecDepth 100000 in
theorem header_table : ∀ bc ∈ block_sizes,
    (∀ i, i < 64 → header_bitmap (blks_used bc) i < 256) ∧
    popcount (header_bitmap (blks_used bc)) (capacity bc) = blks_used bc ∧
    (∀ i, i < blks_used bc → bit_set (header_bitmap (blks_used bc)) i = true) ∧
    blks_used bc < capacity bc ∧
    (blks_used bc = 0 → 104 < bc) ∧ (0 < blks_used bc → bc ≤ 128) ∧
    4 * blks_used bc / (4096 / bc) + 1 = 1 := by decide

theorem header_bitmap_lt (n i : Nat) : header_bitmap n i < 256 := by
  unfold header_bitmap
  split_ifs <;> omega

/-! ## Preservation of the invariant by header updates -/

theorem NodeOK.nodeok_upd {st st1 : State} {g : Nat → superblk_t → superblk_t}
    {β : Int × Int × Int → Nat → Nat} (hu : Upd st st1 g β) {x : Nat} {n : node_t}
    (hn : NodeOK st x n) : NodeOK st1 x n := by
  refine ⟨hn.aligned, hn.pages, ?_, ?_⟩
  · rw [hu.brk]; exact hn.below
  · intro j hj
    rw [hu.sup, hn.nosuper j hj]
    rfl

theorem BaseInv.baseinv_upd {st st1 : State} {live live1 : List Nat} {g : Nat → superblk_t → superblk_t}
    {β : Int × Int × Int → Nat → Nat} (hi : BaseInv st live) (hu : Upd st st1 g β)
    (hsup : ∀ x r, get_super st x = some r → SuperOK st.mem_brk live x r →
      SuperOK st.mem_brk live1 x (g x r))
    (hlive : ∀ q, q ∈ live1 → q < st.mem_brk) : BaseInv st1 live1 := by
  refine ⟨?_, ?_, ?_, ?_, ?_, ?_, ?_, ?_⟩
  · rw [hu.page]; exact hi.page
  · rw [hu.brk]; exact hi.brk_aligned
  · rw [hu.brk]; exact hi.brk_pos
  · rw [hu.brk, hu.max]; exact hi.brk_max
  · rw [hu.max]; exact hi.max
  · intro p s hs
    obtain ⟨r, hr, rfl⟩ := hu.upd_get_inv hs
    rw [hu.brk]
    exact hsup p r hr (hi.supers p r hr)
  · intro x n hn
    rw [hu.nod] at hn
    exact (hi.nodes x n hn).nodeok_upd hu
  · intro q hq
    rw [hu.brk]
    exact hlive q hq

theorem Lists.lists_content {st st1 : State} {loc : Nat → Int × Int × Int}
    {g : Nat → superblk_t → superblk_t} (hu : Upd st st1 g (fun _ v => v))
    (hg : ∀ x r, (g x r).next = r.next ∧ (g x r).prev = r.prev) (hl : Lists st loc) :
    Lists st1 loc := by
  refine ⟨?_, ?_, ?_⟩
  · intro b hb hne
    have hb' := (hu.upd_validBin b).1 hb
    rw [hu.bins b hb'] at hne ⊢
    obtain ⟨s, h1, h2, h3⟩ := hl.head b hb' hne
    exact ⟨_, hu.upd_get h1, by rw [(hg _ s).2]; exact h2, h3⟩
  · intro p s1 hs1 hn
    obtain ⟨r, hr, rfl⟩ := hu.upd_get_inv hs1
    rw [(hg p r).1] at hn ⊢
    obtain ⟨n, h1, h2, h3⟩ := hl.next p r hr hn
    exact ⟨_, hu.upd_get h1, by rw [(hg _ n).2]; exact h2, h3⟩
  · intro p s1 hs1 hn
    obtain ⟨r, hr, rfl⟩ := hu.upd_get_inv hs1
    rw [(hg p r).2] at hn ⊢
    obtain ⟨m, h1, h2⟩ := hl.prev p r hr hn
    exact ⟨_, hu.upd_get h1, by rw [(hg _ m).1]; exact h2⟩

theorem Lists.lists_congr_loc {st : State} {loc loc1 : Nat → Int × Int × Int}
    (h : ∀ x s, get_super st x = some s → loc x = loc1 x) (hl : Lists st loc) :
    Lists st loc1 := by
  refine ⟨?_, ?_, hl.prev⟩
  · intro b hb hne
    obtain ⟨s, h1, h2, h3⟩ := hl.head b hb hne
    exact ⟨s, h1, h2, by rw [← h _ s h1]; exact h3⟩
  · intro p s hs hn
    obtain ⟨n, h1, h2, h3⟩ := hl.next p s hs hn
    exact ⟨n, h1, h2, by rw [← h _ n h1, ← h _ s hs]; exact h3⟩

theorem loc_of_eq {st : State} {x : Nat} {s : superblk_t} (h : get_super st x = some s) :
    loc_of st x = home_bin s := by
  unfold loc_of
  rw [h]
  rfl

theorem home_bin_congr {s s1 : superblk_t} (h0 : s1.heap_num = s.heap_num)
    (h1 : s1.block_class = s.block_class) (h3 : s1.u = s.u) : home_bin s1 = home_bin s := by
  unfold home_bin
  rw [h0, h1, h3]

theorem Upd.upd_bits {st st1 : State} {g : Nat → superblk_t → superblk_t}
    {β : Int × Int × Int → Nat → Nat} (hu : Upd st st1 g β) (x : Nat)
    (hg : ∀ r, (g x r).block_class = r.block_class ∧
      (g x r).block_bit_map = r.block_bit_map ∧ (g x r).u = r.u) :
    bits_of st1 x = bits_of st x := by
  unfold bits_of
  rw [hu.sup]
  cases A2Alloc.get_super st x with
  | none => rfl
  | some r =>
    simp only [Option.map_some', Option.some.injEq, Prod.mk.injEq]
    exact hg r

theorem bits_of_congr {st st1 : State} {x : Nat} (h : get_super st1 x = get_super st x) :
    bits_of st1 x = bits_of st x := by
  unfold bits_of
  rw [h]

/-- Moving a superblock that sits in the bin `src` to the bin `dest` that its
fields name after the move restores the invariant. -/
theorem relocate {st st1 : State} {live : List Nat} {p : Nat} {s : superblk_t}
    {src dest : Int × Int × Int} {loc : Nat → Int × Int × Int}
    (hi : BaseInv st live) (hl : Lists st loc) (hs : get_super st p = some s)
    (hloc : loc p = src) (hother : ∀ x r, x ≠ p → get_super st x = some r → loc x = home_bin r)
    (hne : src ≠ dest) (hh : s.heap_num = src.1)
    (hd : (class_index s.block_class : Int) = dest.2.1 ∧
      (fullness s.u s.block_class).getD 0 = dest.2.2)
    (h : move_superblk st p src dest = some st1) :
    HeapInv st1 live ∧ (∃ s1, get_super st1 p = some s1 ∧ home_bin s1 = dest ∧
      s1.block_bit_map = s.block_bit_map ∧ s1.u = s.u ∧ s1.block_class = s.block_class) ∧
      ∀ x, bits_of st1 x = bits_of st x := by
  obtain ⟨s', hs', hvd, _, hu⟩ := move_superblk_upd hne h
  rw [hs] at hs'
  cases hs'
  have hhome : home_bin (moved p (bin_of st dest) s src dest p s) = dest := by
    unfold home_bin
    rw [moved_heap_num, moved_block_class, moved_u, hd.1, hd.2]
    by_cases hc : dest.1 ≠ src.1
    · rw [if_pos ⟨rfl, hc⟩]
    · rw [if_neg (fun hx => hc hx.2), hh]
      have : dest.1 = src.1 := by simpa using hc
      rw [← this]
  refine ⟨⟨?_, ?_⟩, ⟨_, hu.upd_get hs, hhome, rfl, rfl, rfl⟩,
    fun x => hu.upd_bits x (fun _ => ⟨rfl, rfl, rfl⟩)⟩
  · refine hi.baseinv_upd hu ?_ hi.live_below
    intro x r _ hr
    exact hr.superok_congr rfl rfl rfl
  · refine Lists.lists_congr_loc ?_ (hl.lists_move hs hloc hne hvd hu)
    intro x s1 hs1
    obtain ⟨r, hr, rfl⟩ := hu.upd_get_inv hs1
    rw [loc_of_eq (hu.upd_get hr)]
    by_cases hx : x = p
    · subst hx
      rw [hs] at hr
      cases hr
      rw [Function.update_same, hhome]
    · rw [Function.update_noteq hx, hother x r hx hr]
      have hc : home_bin (moved p (bin_of st dest) s src dest x r) = home_bin r := by
        refine home_bin_congr ?_ rfl rfl
        rw [moved_heap_num, if_neg (fun h => hx h.1)]
      rw [hc]

/-! ## Taking and releasing a block -/

/-- Marking a clear block `i` and counting it keeps the superblock facts, the
pointer handed out lying in block `i`. -/
theorem SuperOK.superok_take {brk : Nat} {live : List Nat} {p : Nat} {s s1 : superblk_t} {i off : Nat}
    (h : SuperOK brk live p s) (hi : i < capacity s.block_class)
    (hc : bit_set s.block_bit_map i = false) (ho : off < 4096)
    (hoi : off / s.block_class = i) (h1 : s1.block_class = s.block_class)
    (h2 : s1.block_bit_map = set_bit_map s.block_bit_map i) (h3 : s1.u = s.u + 1) :
    SuperOK brk ((p + off) :: live) p s1 := by
  have hpg := page_of_add p off h.aligned ho
  have hbi : blks_used s.block_class ≤ i := by
    by_contra hlt
    have := h.header i (by omega)
    rw [hc] at this
    cases this
  refine ⟨?_, h.aligned, h.below, ?_, ?_, ?_, ?_⟩
  · rw [h1]; exact h.cls
  · rw [h2]; exact set_bit_map_lt _ _ h.bytes
  · rw [h1, h2, h3, popcount_set _ _ _ (h.bytes _) hc hi, h.count]
    push_cast
    rfl
  · intro j hj
    rw [h1] at hj
    rw [h2, bit_set_set _ _ _ (h.bytes _) hc]
    split_ifs
    · rfl
    · exact h.header j hj
  · intro j
    rw [h1, h2, live_at_cons, hpg.1, hpg.2, hoi, bit_set_set _ _ _ (h.bytes _) hc]
    have hold := h.livebits j
    by_cases hji : j = i
    · subst hji
      rw [hc] at hold
      simp only [Bool.false_eq_true, and_false, if_false, Nat.le_zero] at hold
      rw [hold]
      simp [hi, hbi]
    · have hij : ¬ i = j := fun e => hji e.symm
      simp only [hij, and_false, if_false, add_zero, hji]
      exact hold

/-- A live pointer of a superblock lies in a block past the header whose bit is
set; clearing the bit and counting the block out keeps the superblock facts. -/
theorem SuperOK.superok_release {brk : Nat} {live : List Nat} {p : Nat} {s s1 : superblk_t} {q : Nat}
    (h : SuperOK brk live p s) (hq : q ∈ live) (hp : page_of q = p)
    (h1 : s1.block_class = s.block_class)
    (h2 : s1.block_bit_map = clear_bit_map s.block_bit_map (q % 4096 / s.block_class))
    (h3 : s1.u = s.u - 1) :
    (q % 4096 / s.block_class < capacity s.block_class ∧
      blks_used s.block_class ≤ q % 4096 / s.block_class ∧
      bit_set s.block_bit_map (q % 4096 / s.block_class) = true) ∧
    SuperOK brk (live.erase q) p s1 := by
  have hpos := live_at_pos live q p s.block_class _ hq hp rfl
  have hb := h.livebits (q % 4096 / s.block_class)
  have hcond : q % 4096 / s.block_class < capacity s.block_class ∧
      blks_used s.block_class ≤ q % 4096 / s.block_class ∧
      bit_set s.block_bit_map (q % 4096 / s.block_class) = true := by
    by_contra hn
    rw [if_neg hn] at hb
    omega
  refine ⟨hcond, ?_, h.aligned, h.below, ?_, ?_, ?_, ?_⟩
  · rw [h1]; exact h.cls
  · rw [h2]; exact clear_bit_map_lt _ _ h.bytes
  · rw [h1, h2, h3, h.count, popcount_clear _ _ _ (h.bytes _) hcond.2.2 hcond.1]
    push_cast
    omega
  · intro j hj
    rw [h1] at hj
    rw [h2, bit_set_clear _ _ _ (h.bytes _) hcond.2.2]
    have : ¬ j = q % 4096 / s.block_class := by omega
    rw [if_neg this]
    exact h.header j hj
  · intro j
    rw [h1, h2, bit_set_clear _ _ _ (h.bytes _) hcond.2.2]
    by_cases hji : j = q % 4096 / s.block_class
    · subst hji
      have := live_at_erase_self live q p s.block_class _ hq hp rfl
      rw [if_pos hcond] at hb
      simp only [if_true, Bool.false_eq_true, and_false, if_false]
      omega
    · simp only [hji, if_false]
      exact le_trans (live_at_erase_le live q p s.block_class j) (h.livebits j)

/-! ## The scan of the bins in `mm_malloc` -/

theorem scan_bin_spec {st : State} {loc : Nat → Int × Int × Int} {b : Int × Int × Int}
    {sz bc : Nat} (hl : Lists st loc) :
    ∀ (fuel cur p : Nat) (use : Bool),
      (cur ≠ 0 → ∃ s, get_super st cur = some s ∧ loc cur = b) →
      scan_bin st sz bc fuel cur = some (some (p, use)) →
      ∃ s, get_super st p = some s ∧ loc p = b ∧
        (use = true → Int.tmod (schar (s.block_bit_map 0)) 2 = 0) := by
  intro fuel
  induction fuel with
  | zero =>
    intro cur p use _ h
    simp only [scan_bin] at h
    cases h
  | succ n ih =>
    intro cur p use hcur h
    simp only [scan_bin] at h
    by_cases h0 : cur = 0
    · rw [if_pos h0] at h
      cases h
    · rw [if_neg h0] at h
      obtain ⟨s, hs, hlc⟩ := hcur h0
      rw [hs] at h
      simp only [Option.some_bind] at h
      have hrec : scan_bin st sz bc n s.next = some (some (p, use)) →
          ∃ s, get_super st p = some s ∧ loc p = b ∧
            (use = true → Int.tmod (schar (s.block_bit_map 0)) 2 = 0) := by
        intro h
        refine ih s.next p use ?_ h
        intro hn
        obtain ⟨n', h1, _, h3⟩ := hl.next cur s hs hn
        exact ⟨n', h1, h3.trans hlc⟩
      split_ifs at h with c1 <;> first
        | exact hrec h
        | (simp only [Option.some.injEq, Prod.mk.injEq] at h
           obtain ⟨rfl, rfl⟩ := h
           first
             | exact ⟨s, hs, hlc, fun _ => c1.1⟩
             | exact ⟨s, hs, hlc, fun hx => by cases hx⟩)

theorem scan_bins_spec {st : State} {loc : Nat → Int × Int × Int} {hp : Int} {c sz bc : Nat}
    (hl : Lists st loc) :
    ∀ (n p : Nat) (f : Int) (use : Bool),
      scan_bins st hp c sz bc n = some (some (p, f, use)) →
      ∃ s, get_super st p = some s ∧ loc p = (hp, (c : Int), f) ∧ f < (n : Int) ∧
        (use = true → Int.tmod (schar (s.block_bit_map 0)) 2 = 0) := by
  intro n
  induction n with
  | zero =>
    intro p f use h
    simp only [scan_bins] at h
    cases h
  | succ i ih =>
    intro p f use h
    simp only [scan_bins] at h
    cases hg : get_bin st hp (c : Int) (i : Int) with
    | none => rw [hg] at h; cases h
    | some head =>
      rw [hg] at h
      simp only [Option.some_bind] at h
      obtain ⟨hv, rfl⟩ := @get_bin_some st (hp, (c : Int), (i : Int)) _ hg
      cases hsb : scan_bin st sz bc (st.mem.length + 1) (bin_of st (hp, (c : Int), (i : Int))) with
      | none => rw [hsb] at h; cases h
      | some r =>
        rw [hsb] at h
        simp only [Option.some_bind] at h
        cases r with
        | none =>
          obtain ⟨s, h1, h2, h3, h4⟩ := ih p f use h
          exact ⟨s, h1, h2, by push_cast; omega, h4⟩
        | some pu =>
          obtain ⟨p', use'⟩ := pu
          simp only [Option.some.injEq, Prod.mk.injEq] at h
          obtain ⟨rfl, rfl, rfl⟩ := h
          obtain ⟨s, h1, h2, h3⟩ := scan_bin_spec hl _ _ _ _
            (fun hne => by
              obtain ⟨s, h1, _, h3⟩ := hl.head _ hv hne
              exact ⟨s, h1, h3⟩) hsb
          exact ⟨s, h1, h2, by push_cast; omega, h3⟩

/-! ## `mark_blk` -/

theorem mark_blk_spec {st st1 : State} {brk : Nat} {live : List Nat} {bc p blk : Nat}
    {use : Bool} {s : superblk_t} (hs : get_super st p = some s) (hok : SuperOK brk live p s)
    (hbc : s.block_class = bc)
    (hfree : popcount s.block_bit_map (capacity bc) < capacity bc)
    (huse : use = true → Int.tmod (schar (s.block_bit_map 0)) 2 = 0)
    (h : mark_blk st bc p use = some (some (blk, st1))) :
    ∃ i off, i < capacity bc ∧ bit_set s.block_bit_map i = false ∧ blk = p + off ∧
      off < 4096 ∧ off / bc = i ∧
      (off = sizeof_superblk_t ∧ i = 0 ∨ off = i * bc) ∧
      Upd st st1
        (fun x r => if x = p then
          { r with block_bit_map := set_bit_map r.block_bit_map i } else r)
        (fun _ v => v) := by
  have hcls : bc ∈ block_sizes := hbc ▸ hok.cls
  have hbcpos : 0 < bc := by
    simp only [block_sizes, List.mem_cons, List.mem_singleton, List.not_mem_nil,
      or_false] at hcls
    omega
  unfold mark_blk at h
  rw [hs] at h
  simp only [Option.some_bind] at h
  by_cases hu : use = true
  · rw [if_pos hu] at h
    cases hm : modify_super st p fun x =>
        { x with block_bit_map := fun i =>
            if i = 0 then (x.block_bit_map 0 + 1) % 256 else x.block_bit_map i } with
    | none => rw [hm] at h; cases h
    | some st2 =>
      rw [hm] at h
      simp only [Option.some_bind, Option.some.injEq, Prod.mk.injEq] at h
      obtain ⟨rfl, rfl⟩ := h
      obtain ⟨_, hupd⟩ := modify_super_upd hm
      have hb0 : bit_set s.block_bit_map 0 = false := by
        rw [bit_set_false]
        have := (byte_parity_test _ (hok.bytes 0)).1 (huse hu)
        simpa using this
      have hbu : blks_used bc = 0 := by
        by_contra hne
        have := hok.header 0 (by rw [hbc]; omega)
        rw [hb0] at this
        cases this
      have h104 : 104 < bc := ((header_table bc hcls).2.2.2.2.1) hbu
      have hcap : 0 < capacity bc := by
        have := (header_table bc hcls).2.2.2.1
        omega
      refine ⟨0, sizeof_superblk_t, hcap, hb0, rfl, by decide, ?_, Or.inl ⟨rfl, rfl⟩, ?_⟩
      · unfold sizeof_superblk_t
        exact Nat.div_eq_of_lt h104
      · refine hupd.upd_congr ?_ (fun _ _ => rfl)
        intro x r _
        by_cases hx : x = p
        · simp only [if_pos hx]
          congr 1
          funext j
          unfold set_bit_map
          by_cases hj : j = 0
          · subst hj; simp
          · have : ¬ j = 0 / 8 := by simpa using hj
            simp [hj]
        · simp only [if_neg hx]
  · rw [if_neg hu] at h
    obtain ⟨j, hj, hjc⟩ := exists_clear_bit _ _ hfree
    obtain ⟨k, hk1, hk2, hk3⟩ := find_blk_spec s.block_bit_map bc hcls hok.bytes j hj hjc
    rw [hk1] at h
    have hne : ¬ ((k : Int) = -1) := by omega
    rw [if_neg hne] at h
    have hcap : capacity bc * bc ≤ 4096 := by
      unfold capacity superblk_size
      exact Nat.div_mul_le_self 4096 bc
    have hk512 : k < 512 := by
      have : capacity bc ≤ 512 := by
        unfold capacity superblk_size
        simp only [block_sizes, List.mem_cons, List.mem_singleton, List.not_mem_nil,
          or_false] at hcls
        rcases hcls with e | e | e | e | e | e | e | e | e <;> rw [e] <;> decide
      omega
    have hok2 : 0 ≤ (k : Int) ∧ (k : Int).toNat / 8 < 64 := by
      refine ⟨by omega, ?_⟩
      rw [Int.toNat_ofNat]
      omega
    rw [if_pos hok2] at h
    simp only [Int.toNat_ofNat] at h
    cases hm : modify_super st p fun x =>
        { x with block_bit_map := fun i =>
            if i = k / 8 then (x.block_bit_map i + 2 ^ (k % 8)) % 256
            else x.block_bit_map i } with
    | none => rw [hm] at h; cases h
    | some st2 =>
      rw [hm] at h
      simp only [Option.some_bind, Option.some.injEq, Prod.mk.injEq] at h
      obtain ⟨rfl, rfl⟩ := h
      obtain ⟨_, hupd⟩ := modify_super_upd hm
      have hlt : k * bc < 4096 := by
        have : (k + 1) * bc ≤ capacity bc * bc := Nat.mul_le_mul_right bc hk2
        have e : (k + 1) * bc = k * bc + bc := by ring
        omega
      refine ⟨k, k * bc, hk2, hk3, rfl, hlt, Nat.mul_div_cancel k hbcpos, Or.inr rfl, ?_⟩
      exact hupd.upd_congr (fun x r _ => rfl) (fun _ _ => rfl)

/-! ## `take_blk` keeps the invariant -/

theorem home_bin_eq {s : superblk_t} {h : Int} {c : Nat} {f : Int}
    (hh : home_bin s = (h, (c : Int), f)) :
    s.heap_num = h ∧ class_index s.block_class = c ∧
      (fullness s.u s.block_class).getD 0 = f := by
  unfold home_bin at hh
  simp only [Prod.mk.injEq] at hh
  exact ⟨hh.1, by exact_mod_cast hh.2.1, hh.2.2⟩

theorem take_blk_inv {st : State} {live : List Nat} {cpu_id : Int} {c bc p : Nat} {f : Int}
    {use fetched : Bool} {r : small_result} {s : superblk_t}
    (hi : HeapInv st live) (hs : get_super st p = some s)
    (hhome : home_bin s = (cpu_id + 1, (c : Int), f)) (hf : f < 5)
    (hbc : bc ∈ block_sizes) (hc : class_index bc = c)
    (huse : use = true → Int.tmod (schar (s.block_bit_map 0)) 2 = 0)
    (h : take_blk st cpu_id c bc p f use fetched = some r) (hb : r.blk ≠ 0) :
    HeapInv r.st (r.blk :: live) ∧ r.super_res = p ∧ s.block_class = bc ∧
    ∃ i s1, i < capacity bc ∧ p ≤ r.blk ∧ r.blk < p + 4096 ∧ (r.blk - p) / bc = i ∧
      bit_set s.block_bit_map i = false ∧ live_at live p bc i = 0 ∧
      get_super r.st p = some s1 ∧ s1.block_bit_map = set_bit_map s.block_bit_map i ∧
      s1.u = s.u + 1 ∧ s1.block_class = bc ∧
      ∀ x, x ≠ p → bits_of r.st x = bits_of st x := by
  obtain ⟨hh1, hh2, hh3⟩ := home_bin_eq hhome
  have hok := hi.base.supers p s hs
  have hsbc : s.block_class = bc := class_index_inj _ hok.cls _ hbc (hh2.trans hc.symm)
  obtain ⟨f0, hf0, hf1, _, hf3⟩ := hok.superok_fullness
  rw [hf0] at hh3
  simp only [Option.getD_some] at hh3
  have hfree : popcount s.block_bit_map (capacity bc) < capacity bc := by
    rw [← hsbc]
    exact hf3 (by omega)
  unfold take_blk at h
  cases hm : mark_blk st bc p use with
  | none => rw [hm] at h; cases h
  | some mr =>
    rw [hm] at h
    simp only [Option.some_bind] at h
    cases mr with
    | none =>
      simp only [Option.some.injEq] at h
      subst h
      exact absurd rfl hb
    | some bs =>
      obtain ⟨blk, st1⟩ := bs
      simp only [Option.bind_eq_some, Option.some.injEq] at h
      obtain ⟨st5, hch, rfl⟩ := h
      obtain ⟨i, off, hi1, hi2, rfl, hoff, hoi, _, hu1⟩ := mark_blk_spec hs hok hsbc hfree huse hm
      unfold charge_blk at hch
      simp only [Option.bind_eq_some] at hch
      obtain ⟨st2, h2, st3, h3, s3, hs3, nf, hnf, st4, h4, h5⟩ := hch
      obtain ⟨_, hu2⟩ := modify_super_upd h2
      have hsim3 := modify_heap_sim h3 (fun _ => rfl)
      have hsim5 := unlock_heap_sim h5
      -- the state after the block is marked and counted
      have hU : Upd st st3
          (fun x r => if x = p then
            { r with block_bit_map := set_bit_map r.block_bit_map i, u := r.u + 1 } else r)
          (fun _ v => v) := by
        refine ((hu1.upd_trans hu2).upd_trans hsim3.sim_upd).upd_congr ?_ (fun _ _ => rfl)
        intro x r _
        dsimp only
        split_ifs <;> rfl
      have hs3' : s3 = { s with block_bit_map := set_bit_map s.block_bit_map i, u := s.u + 1 } := by
        have := hU.upd_get hs
        rw [hs3, if_pos rfl] at this
        exact Option.some.inj this
      have hpg := page_of_add p off hok.aligned hoff
      have hbase : BaseInv st3 ((p + off) :: live) := by
        refine hi.base.baseinv_upd hU ?_ ?_
        · intro x r hr hrok
          by_cases hx : x = p
          · subst hx
            rw [hs] at hr
            cases hr
            rw [if_pos rfl]
            exact hok.superok_take (by rw [hsbc]; exact hi1) hi2 hoff (by rw [hsbc]; exact hoi)
              rfl rfl rfl
          · rw [if_neg hx]
            exact hrok.superok_cons_other _ (by rw [hpg.1]; exact fun e => hx e.symm)
        · intro q hq
          rcases List.mem_cons.1 hq with e | e
          · rw [e]
            have := hok.below
            omega
          · exact hi.base.live_below q e
      have hlists : Lists st3 (loc_of st) := by
        refine Lists.lists_content hU ?_ hi.lists
        intro x r
        dsimp only
        split_ifs <;> exact ⟨rfl, rfl⟩
      have hother : ∀ x r, x ≠ p → get_super st3 x = some r → loc_of st x = home_bin r := by
        intro x r hx hr
        obtain ⟨r0, hr0, rfl⟩ := hU.upd_get_inv hr
        rw [if_neg hx, loc_of_eq hr0]
      have hnf' : (A2Alloc.fullness s3.u s3.block_class).getD 0 = nf := by
        have : s3.block_class = bc := by rw [hs3']; exact hsbc
        rw [this, hnf]
        rfl
      have hinv4 : HeapInv st4 ((p + off) :: live) := by
        by_cases hne : nf ≠ f
        · rw [if_pos hne] at h4
          refine (relocate hbase hlists hs3 ((loc_of_eq hs).trans hhome) hother ?_ ?_ ?_ h4).1
          · intro e
            simp only [Prod.mk.injEq] at e
            exact hne e.2.2.symm
          · rw [hs3']
            exact hh1
          · refine ⟨?_, hnf'⟩
            rw [hs3']
            show (class_index s.block_class : Int) = (c : Int)
            rw [hh2]
        · rw [if_neg hne] at h4
          simp only [Option.some.injEq] at h4
          subst h4
          refine ⟨hbase, Lists.lists_congr_loc ?_ hlists⟩
          intro x r hr
          rw [loc_of_eq hr]
          by_cases hx : x = p
          · subst hx
            rw [hs3] at hr
            cases hr
            rw [loc_of_eq hs, hhome]
            unfold home_bin
            rw [hnf']
            have : nf = f := by simpa using hne
            rw [this, hs3']
            show (cpu_id + 1, (c : Int), f) = (s.heap_num, (class_index s.block_class : Int), f)
            rw [hh1, hh2]
          · exact hother x r hx hr
      have hs4 : ∃ s4, get_super st4 p = some s4 ∧
          s4.block_bit_map = set_bit_map s.block_bit_map i ∧ s4.u = s.u + 1 ∧
          s4.block_class = bc := by
        by_cases hne : nf ≠ f
        · rw [if_pos hne] at h4
          have hne' : ((cpu_id + 1, (c : Int), f) : Int × Int × Int) ≠
              (cpu_id + 1, (c : Int), nf) := by
            intro e
            simp only [Prod.mk.injEq] at e
            exact hne e.2.2.symm
          obtain ⟨s', hs', _, _, hu4⟩ := move_superblk_upd hne' h4
          refine ⟨_, hu4.upd_get hs3, ?_, ?_, ?_⟩
          · rw [moved_block_bit_map, hs3']
          · rw [moved_u, hs3']
          · rw [moved_block_class, hs3']
            exact hsbc
        · rw [if_neg hne] at h4
          simp only [Option.some.injEq] at h4
          subst h4
          exact ⟨s3, hs3, by rw [hs3'], by rw [hs3'], by rw [hs3']; exact hsbc⟩
      obtain ⟨s4, hs4, hb4, hu4, hc4⟩ := hs4
      have hbits3 : ∀ x, x ≠ p → bits_of st3 x = bits_of st x := by
        intro x hx
        refine hU.upd_bits x (fun r => ?_)
        simp only [if_neg hx, and_self]
      have hbits4 : ∀ x, bits_of st4 x = bits_of st3 x := by
        intro x
        by_cases hne : nf ≠ f
        · rw [if_pos hne] at h4
          have hne' : ((cpu_id + 1, (c : Int), f) : Int × Int × Int) ≠
              (cpu_id + 1, (c : Int), nf) := by
            intro e
            simp only [Prod.mk.injEq] at e
            exact hne e.2.2.symm
          obtain ⟨_, _, _, _, hu4'⟩ := move_superblk_upd hne' h4
          exact hu4'.upd_bits x (fun _ => ⟨rfl, rfl, rfl⟩)
        · rw [if_neg hne] at h4
          simp only [Option.some.injEq] at h4
          subst h4
          rfl
      refine ⟨hinv4.heapinv_sim hsim5, rfl, hsbc, i, s4, hi1, Nat.le_add_right _ _, by
        show p + off < p + 4096
        omega, ?_, hi2, ?_, ?_, hb4, hu4, hc4, ?_⟩
      · show (p + off - p) / bc = i
        rw [Nat.add_sub_cancel_left]
        exact hoi
      · have := hok.livebits i
        rw [hi2] at this
        simp only [Bool.false_eq_true, and_false, if_false, Nat.le_zero] at this
        rw [← hsbc]
        exact this
      · show get_super st5 p = some s4
        rw [hsim5.sim_get_super]
        exact hs4
      · intro x hx
        show bits_of st5 x = bits_of st x
        rw [bits_of_congr (hsim5.sim_get_super x), hbits4, hbits3 x hx]

/-! ## A fresh superblock -/

theorem fresh_superblk_some {st st1 : State} {c bc ptr : Nat} (hpg : st.page_size = 4096)
    (hbrk : st.mem_brk ≠ 0) (h : fresh_superblk st c bc = some (st1, some ptr)) :
    ptr = st.mem_brk ∧ st.mem_brk + 4096 ≤ st.mem_max_addr ∧
      Fresh st st1 (fresh_header bc) (0, (c : Int), 0) := by
  unfold fresh_superblk at h
  cases hls : lock_system st with
  | none => rw [hls] at h; cases h
  | some sta =>
    rw [hls] at h
    simp only [Option.some_bind] at h
    have hsa := lock_system_sim hls
    have hpa : sta.page_size = 4096 := hsa.page.trans hpg
    rw [hpa] at h
    by_cases hroom : sta.mem_brk + 4096 ≤ sta.mem_max_addr
    · have hsb : mem_sbrk sta 4096 = (sta.mem_brk, { sta with mem_brk := sta.mem_brk + 4096 }) := by
        unfold mem_sbrk
        rw [if_pos hroom]
      rw [hsb] at h
      have hb0 : ¬ sta.mem_brk = 0 := by rw [hsa.brk]; exact hbrk
      simp only [if_neg hb0] at h
      unfold create_superblk at h
      by_cases hbc0 : bc = 0
      · rw [if_pos hbc0] at h
        cases h
      · rw [if_neg hbc0] at h
        rw [store_eq _ hb0] at h
        simp only [Option.some_bind, Option.bind_eq_some, Option.some.injEq, Prod.mk.injEq] at h
        obtain ⟨std, hcr, ste, hset, stf, hmod, rfl, rfl⟩ := h
        have hw := write_super_upd (unlock_system { sta with mem_brk := sta.mem_brk + 4096 })
          sta.mem_brk (fresh_header bc) hb0
        have hsd : Sim (write_obj (unlock_system { sta with mem_brk := sta.mem_brk + 4096 })
            sta.mem_brk (Obj.super (fresh_header bc))) std := by
          split_ifs at hcr
          · exact modify_heap_sim hcr (fun _ => rfl)
          · simp only [Option.some.injEq] at hcr
            subst hcr
            exact Sim.sim_refl _
        have hbu := @set_bin_some std ste (0, (c : Int), 0) _ hset
        have hsf := modify_heap_sim hmod (fun _ => rfl)
        have hvalid : ∀ b', ValidBin std b' ↔ ValidBin st b' := by
          intro b'
          unfold ValidBin
          rw [hsd.nheaps, hw.nheaps]
          show _ ∧ _ < sta.nheaps ∧ _ ↔ _
          rw [hsa.nheaps]
        refine ⟨by rw [hsa.brk], by rw [← hsa.brk, ← hsa.max]; exact hroom, ?_⟩
        refine ⟨?_, ?_, ?_, ?_, ?_, ?_, (hvalid _).1 hbu.valid, ?_⟩
        · rw [hsf.nheaps, hbu.nheaps, hsd.nheaps, hw.nheaps]
          exact hsa.nheaps
        · rw [hsf.page, hbu.page, hsd.page, hw.page]
          exact hsa.page
        · rw [hsf.brk, hbu.brk, hsd.brk, hw.brk]
          show sta.mem_brk + 4096 = _
          rw [hsa.brk]
        · rw [hsf.max, hbu.max, hsd.max, hw.max]
          exact hsa.max
        · intro x
          rw [hsf.sim_get_super, hbu.binupd_get_super, hsd.sim_get_super, hw.sup, ← hsa.brk]
          split_ifs
          · rfl
          · show get_super sta x = _
            rw [hsa.sim_get_super]
        · intro x
          rw [hsf.sim_get_node, hbu.binupd_get_node, hsd.sim_get_node, hw.nod, ← hsa.brk]
          split_ifs
          · rfl
          · show get_node sta x = _
            rw [hsa.sim_get_node]
        · intro b' hb'
          rw [hsf.sim_bin_of, hbu.bins b' ((hvalid b').2 hb'), hsd.sim_bin_of, hw.supupd_bin_of, ← hsa.brk]
          split_ifs
          · rfl
          · show bin_of sta b' = _
            rw [hsa.sim_bin_of]
    · have hsb : mem_sbrk sta 4096 = (0, sta) := by
        unfold mem_sbrk
        rw [if_neg hroom]
      rw [hsb] at h
      simp only [if_true, Option.some.injEq, Prod.mk.injEq] at h
      cases h.2

theorem Fresh.fresh_base {st st1 : State} {live : List Nat} {bc : Nat} {b : Int × Int × Int}
    (hi : BaseInv st live) (hf : Fresh st st1 (fresh_header bc) b) (hbc : bc ∈ block_sizes)
    (hroom : st.mem_brk + 4096 ≤ st.mem_max_addr) :
    BaseInv st1 live ∧ get_super st st.mem_brk = none := by
  have hnone : get_super st st.mem_brk = none := by
    cases hs : get_super st st.mem_brk with
    | none => rfl
    | some s =>
      have := (hi.supers _ s hs).below
      omega
  refine ⟨⟨?_, ?_, ?_, ?_, ?_, ?_, ?_, ?_⟩, hnone⟩
  · rw [hf.page]; exact hi.page
  · rw [hf.brk]
    have := hi.brk_aligned
    omega
  · rw [hf.brk]; omega
  · rw [hf.brk, hf.max]; exact hroom
  · rw [hf.max]; exact hi.max
  · intro p s hs
    rw [hf.sup] at hs
    rw [hf.brk]
    by_cases hp : p = st.mem_brk
    · rw [if_pos hp] at hs
      simp only [Option.some.injEq] at hs
      subst hs
      subst hp
      have ht := header_table bc hbc
      refine ⟨hbc, hi.brk_aligned, le_refl _, fun i => header_bitmap_lt _ i, ?_, ht.2.2.1, ?_⟩
      · show ((blks_used bc : Nat) : Int) = _
        rw [show (fresh_header bc).block_bit_map = header_bitmap (blks_used bc) from rfl,
          show (fresh_header bc).block_class = bc from rfl, ht.2.1]
      · intro i
        have : live_at live st.mem_brk (fresh_header bc).block_class i = 0 := by
          unfold live_at
          rw [List.countP_eq_zero]
          intro q hq
          have h1 := hi.live_below q hq
          have h2 := page_of_le q
          simp only [decide_eq_true_eq, not_and]
          intro h3
          omega
        rw [this]
        exact Nat.zero_le _
    · rw [if_neg hp] at hs
      exact (hi.supers p s hs).superok_mono (by omega)
  · intro x n hn
    rw [hf.nod] at hn
    split_ifs at hn with hx
    have hok := hi.nodes x n hn
    refine ⟨hok.aligned, hok.pages, by rw [hf.brk]; have := hok.below; omega, ?_⟩
    intro j hj
    rw [hf.sup]
    have hb := hok.below
    have hj' : j < n.npages.toNat := by omega
    have : (j + 1) * 4096 ≤ n.npages.toNat * 4096 := Nat.mul_le_mul_right _ hj'
    have hne : ¬ x + j * 4096 = st.mem_brk := by
      have e : (j + 1) * 4096 = j * 4096 + 4096 := by ring
      omega
    rw [if_neg hne]
    exact hok.nosuper j hj
  · intro q hq
    rw [hf.brk]
    have := hi.live_below q hq
    omega

theorem Fresh.fresh_lists {st st1 : State} {s0 : superblk_t} {b : Int × Int × Int}
    {loc : Nat → Int × Int × Int} (hl : Lists st loc) (hf : Fresh st st1 s0 b)
    (hnone : get_super st st.mem_brk = none) (h0 : s0.prev = 0 ∧ s0.next = 0) :
    Lists st1 (Function.update loc st.mem_brk b) := by
  have hne : ∀ {x s}, get_super st x = some s → x ≠ st.mem_brk := by
    intro x s hs e
    rw [e, hnone] at hs
    cases hs
  have hkeep : ∀ {x s}, get_super st x = some s → get_super st1 x = some s := by
    intro x s hs
    rw [hf.sup, if_neg (hne hs)]
    exact hs
  have hvalid : ∀ b', ValidBin st1 b' ↔ ValidBin st b' := by
    intro b'
    unfold ValidBin
    rw [hf.nheaps]
  refine ⟨?_, ?_, ?_⟩
  · intro b' hb' hn0
    have hb'' := (hvalid b').1 hb'
    rw [hf.bins b' hb''] at hn0 ⊢
    by_cases hbb : b' = b
    · rw [if_pos hbb]
      refine ⟨s0, by rw [hf.sup, if_pos rfl], h0.1, ?_⟩
      rw [Function.update_same, hbb]
    · rw [if_neg hbb] at hn0 ⊢
      obtain ⟨s, h1, h2, h3⟩ := hl.head b' hb'' hn0
      exact ⟨s, hkeep h1, h2, by rw [Function.update_noteq (hne h1)]; exact h3⟩
  · intro p s hs hn
    rw [hf.sup] at hs
    by_cases hp : p = st.mem_brk
    · rw [if_pos hp] at hs
      simp only [Option.some.injEq] at hs
      subst hs
      exact absurd h0.2 hn
    · rw [if_neg hp] at hs
      obtain ⟨n, h1, h2, h3⟩ := hl.next p s hs hn
      exact ⟨n, hkeep h1, h2, by
        rw [Function.update_noteq (hne h1), Function.update_noteq hp]; exact h3⟩
  · intro p s hs hn
    rw [hf.sup] at hs
    by_cases hp : p = st.mem_brk
    · rw [if_pos hp] at hs
      simp only [Option.some.injEq] at hs
      subst hs
      exact absurd h0.1 hn
    · rw [if_neg hp] at hs
      obtain ⟨m, h1, h2⟩ := hl.prev p s hs hn
      exact ⟨m, hkeep h1, h2⟩

/-! ## `fetch_global` keeps the invariant -/

theorem SuperOK.superok_home_fullness {brk : Nat} {live : List Nat} {p : Nat} {s : superblk_t}
    (h : SuperOK brk live p s) : 1 ≤ (home_bin s).2.2 := by
  obtain ⟨f0, hf0, hf1, _, _⟩ := h.superok_fullness
  unfold home_bin
  show 1 ≤ (A2Alloc.fullness s.u s.block_class).getD 0
  rw [hf0]
  simp only [Option.getD_some]
  omega

theorem HeapInv.heapinv_bin0_empty {st : State} {live : List Nat} (hi : HeapInv st live)
    (b : Int × Int × Int) (hb : ValidBin st b) (h0 : b.2.2 = 0) : bin_of st b = 0 := by
  by_contra hne
  obtain ⟨s, h1, _, h3⟩ := hi.lists.head b hb hne
  rw [loc_of_eq h1] at h3
  have := (hi.base.supers _ s h1).superok_home_fullness
  rw [h3, h0] at this
  omega

theorem reuse_empty_inv {st : State} {live : List Nat} {bc : Nat}
    {e : State × Nat × (Int × Int × Int)} (hi : HeapInv st live)
    (h : reuse_empty st bc = some e) : e.1 = st ∧ e.2.1 = 0 := by
  unfold reuse_empty at h
  cases hh : heap_at st 0 with
  | none => rw [hh] at h; cases h
  | some h0 =>
    rw [hh] at h
    simp only [Option.some_bind] at h
    obtain ⟨_, hn, rfl⟩ := heap_at_eq_some hh
    have hfind : (List.range 9).find?
        (fun i => decide ((st.heaptable (0 : Int).toNat).super_bases i 0 ≠ 0)) = none := by
      rw [List.find?_eq_none]
      intro i hi9
      have hi9' : i < 9 := List.mem_range.1 hi9
      have hv : ValidBin st (0, (i : Int), 0) := by
        refine ⟨le_refl _, hn, ?_, ?_, le_refl _, ?_⟩
        · exact Int.ofNat_nonneg i
        · show (i : Int) < 9
          omega
        · show (0 : Int) < 6
          decide
      have := hi.heapinv_bin0_empty (0, (i : Int), 0) hv rfl
      unfold bin_of at this
      simp only [Int.toNat_ofNat] at this
      simp only [decide_eq_true_eq, ne_eq, not_not]
      exact this
    rw [hfind] at h
    simp only [Option.some.injEq] at h
    subst h
    exact ⟨rfl, rfl⟩

theorem fetch_global_inv {st st1 : State} {live : List Nat} {cpu_id : Int} {c bc p : Nat}
    (hi : HeapInv st live) (hcpu : 0 ≤ cpu_id) (hbc : bc ∈ block_sizes)
    (hc : class_index bc = c) (h : fetch_global st cpu_id c bc = some (st1, some p)) :
    HeapInv st1 live ∧ ∃ s1, get_super st1 p = some s1 ∧
      home_bin s1 = (cpu_id + 1, (c : Int), 1) ∧
      s1.block_bit_map = ((get_super st p).getD (fresh_header bc)).block_bit_map ∧
      s1.u = ((get_super st p).getD (fresh_header bc)).u ∧
      s1.block_class = ((get_super st p).getD (fresh_header bc)).block_class ∧
      ∀ x, x ≠ p → bits_of st1 x = bits_of st x := by
  unfold fetch_global at h
  cases hlk : lock_heap st 0 with
  | none => rw [hlk] at h; cases h
  | some sta =>
    rw [hlk] at h
    simp only [Option.some_bind] at h
    obtain ⟨hsa, _, _⟩ := lock_heap_sim hlk
    have hia := hi.heapinv_sim hsa
    cases hre : reuse_empty sta bc with
    | none => rw [hre] at h; cases h
    | some e =>
      rw [hre] at h
      simp only [Option.some_bind] at h
      obtain ⟨he1, he2⟩ := reuse_empty_inv hia hre
      rw [he1] at h
      simp only [he2, if_true, true_and] at h
      cases hgb : get_bin sta 0 (c : Int) 1 with
      | none => rw [hgb] at h; cases h
      | some b1 =>
        rw [hgb] at h
        simp only [Option.some_bind] at h
        obtain ⟨hv1, rfl⟩ := @get_bin_some sta (0, (c : Int), 1) _ hgb
        by_cases hb1 : bin_of sta (0, (c : Int), 1) = 0
        · rw [if_pos hb1] at h
          cases hfr : fresh_superblk sta c bc with
          | none => rw [hfr] at h; cases h
          | some pf =>
            rw [hfr] at h
            simp only [Option.some_bind] at h
            obtain ⟨stf, po⟩ := pf
            cases po with
            | none =>
              simp only [Option.some.injEq, Prod.mk.injEq] at h
              cases h.2
            | some ptr =>
              simp only [Option.bind_eq_some, Option.some.injEq, Prod.mk.injEq] at h
              obtain ⟨stm, hmv, stu, hul, rfl, rfl⟩ := h
              obtain ⟨rfl, hroom, hfresh⟩ := fresh_superblk_some hia.base.page
                (by have := hia.base.brk_pos; omega) hfr
              obtain ⟨hbase, hnone⟩ := Fresh.fresh_base hia.base hfresh hbc hroom
              have hlists := Fresh.fresh_lists hia.lists hfresh hnone ⟨rfl, rfl⟩
              have hsf : get_super stf sta.mem_brk = some (fresh_header bc) := by
                rw [hfresh.sup, if_pos rfl]
              have ht := header_table bc hbc
              have hful := fullness_table bc hbc (blks_used bc) (by
                have := ht.2.2.2.1
                unfold capacity superblk_size at this
                omega)
              obtain ⟨hinv, ⟨s1, hs1, hh1, hb1', hu1, hc1⟩, hbits⟩ := relocate hbase hlists hsf
                (Function.update_same _ _ _)
                (by
                  intro x r hx hr
                  rw [Function.update_noteq hx]
                  rw [hfresh.sup, if_neg hx] at hr
                  exact loc_of_eq hr)
                (by
                  intro e
                  simp only [Prod.mk.injEq] at e
                  omega)
                rfl
                ⟨by show (class_index bc : Int) = (c : Int); rw [hc], by
                  show (A2Alloc.fullness ((blks_used bc : Nat) : Int) bc).getD 0 = 1
                  rw [hful.1, ht.2.2.2.2.2.2]
                  rfl⟩ hmv
              have hsu := unlock_heap_sim hul
              refine ⟨hinv.heapinv_sim hsu, s1, by rw [hsu.sim_get_super]; exact hs1, hh1, ?_, ?_, ?_, ?_⟩
              · rw [← hsa.sim_get_super, hnone]
                exact hb1'
              · rw [← hsa.sim_get_super, hnone]
                exact hu1
              · rw [← hsa.sim_get_super, hnone]
                exact hc1
              · intro x hx
                rw [bits_of_congr (hsu.sim_get_super x), hbits x]
                refine (bits_of_congr ?_).trans (bits_of_congr (hsa.sim_get_super x))
                rw [hfresh.sup, if_neg hx]
        · rw [if_neg hb1] at h
          simp only [Option.bind_eq_some, Option.some.injEq, Prod.mk.injEq] at h
          obtain ⟨stm, hmv, stu, hul, rfl, rfl⟩ := h
          obtain ⟨s, hs, _, hloc⟩ := hia.lists.head _ hv1 hb1
          have hhome : home_bin s = (0, (c : Int), 1) := by rw [← loc_of_eq hs]; exact hloc
          obtain ⟨hh1, hh2, hh3⟩ := @home_bin_eq s 0 c 1 hhome
          obtain ⟨hinv, ⟨s1, hs1, hh1', hb1', hu1, hc1⟩, hbits⟩ := relocate hia.base hia.lists hs hloc
            (fun x r _ hr => loc_of_eq hr)
            (by
              intro e
              simp only [Prod.mk.injEq] at e
              omega)
            hh1
            ⟨by show (class_index s.block_class : Int) = (c : Int); rw [hh2], hh3⟩ hmv
          have hsu := unlock_heap_sim hul
          refine ⟨hinv.heapinv_sim hsu, s1, by rw [hsu.sim_get_super]; exact hs1, hh1', ?_, ?_, ?_, ?_⟩
          · rw [← hsa.sim_get_super, hs]
            exact hb1'
          · rw [← hsa.sim_get_super, hs]
            exact hu1
          · rw [← hsa.sim_get_super, hs]
            exact hc1
          · intro x _
            rw [bits_of_congr (hsu.sim_get_super x), hbits x]
            exact bits_of_congr (hsa.sim_get_super x)

/-! ## The small path of `mm_malloc` keeps the invariant -/

theorem take_blk_null {st : State} {cpu_id : Int} {c bc p : Nat} {f : Int}
    {use fetched : Bool} {r : small_result}
    (h : take_blk st cpu_id c bc p f use fetched = some r) (hb : r.blk = 0) : r.st = st := by
  unfold take_blk at h
  cases hm : mark_blk st bc p use with
  | none => rw [hm] at h; cases h
  | some mr =>
    rw [hm] at h
    simp only [Option.some_bind] at h
    cases mr with
    | none =>
      simp only [Option.some.injEq] at h
      subst h
      rfl
    | some bs =>
      obtain ⟨blk, st1⟩ := bs
      simp only [Option.bind_eq_some, Option.some.injEq] at h
      obtain ⟨st5, _, rfl⟩ := h
      exfalso
      have hb' : blk = 0 := hb
      subst hb'
      unfold mark_blk at hm
      cases hs : get_super st p with
      | none => rw [hs] at hm; cases hm
      | some s =>
        have hp := get_super_ne_zero hs
        rw [hs] at hm
        simp only [Option.some_bind] at hm
        split_ifs at hm
        all_goals try simp only [Option.bind_eq_some, Option.some.injEq, Prod.mk.injEq] at hm
        all_goals
          obtain ⟨_, _, h0, _⟩ := hm <;> omega

theorem fresh_superblk_none {st st1 : State} {c bc : Nat} (hbrk : st.mem_brk ≠ 0)
    (h : fresh_superblk st c bc = some (st1, none)) : Sim st st1 := by
  unfold fresh_superblk at h
  cases hls : lock_system st with
  | none => rw [hls] at h; cases h
  | some sta =>
    rw [hls] at h
    simp only [Option.some_bind] at h
    have hsa := lock_system_sim hls
    split_ifs at h with h0
    · simp only [Option.some.injEq, Prod.mk.injEq] at h
      obtain ⟨rfl, _⟩ := h
      refine hsa.sim_trans ((?_ : Sim sta (mem_sbrk sta sta.page_size).2).sim_trans
        (unlock_system_sim _))
      unfold mem_sbrk at h0 ⊢
      split_ifs at h0 ⊢ with hroom
      · exfalso
        have : sta.mem_brk = 0 := h0
        rw [hsa.brk] at this
        exact hbrk this
      · exact Sim.sim_refl _
    · simp only [Option.bind_eq_some, Option.some.injEq, Prod.mk.injEq] at h
      obtain ⟨_, _, _, _, _, _, _, h2⟩ := h
      cases h2

theorem fetch_global_null {st st1 : State} {live : List Nat} {cpu_id : Int} {c bc : Nat}
    (hi : HeapInv st live) (h : fetch_global st cpu_id c bc = some (st1, none)) :
    HeapInv st1 live ∧ ∀ x, get_super st1 x = get_super st x := by
  unfold fetch_global at h
  cases hlk : lock_heap st 0 with
  | none => rw [hlk] at h; cases h
  | some sta =>
    rw [hlk] at h
    simp only [Option.some_bind] at h
    obtain ⟨hsa, _, _⟩ := lock_heap_sim hlk
    have hia := hi.heapinv_sim hsa
    cases hre : reuse_empty sta bc with
    | none => rw [hre] at h; cases h
    | some e =>
      rw [hre] at h
      simp only [Option.some_bind] at h
      obtain ⟨he1, he2⟩ := reuse_empty_inv hia hre
      rw [he1] at h
      simp only [he2, if_true, true_and] at h
      cases hgb : get_bin sta 0 (c : Int) 1 with
      | none => rw [hgb] at h; cases h
      | some b1 =>
        rw [hgb] at h
        simp only [Option.some_bind] at h
        split_ifs at h with hb1
        · cases hfr : fresh_superblk sta c bc with
          | none => rw [hfr] at h; cases h
          | some pf =>
            rw [hfr] at h
            simp only [Option.some_bind] at h
            obtain ⟨stf, po⟩ := pf
            cases po with
            | none =>
              simp only [Option.some.injEq, Prod.mk.injEq] at h
              obtain ⟨rfl, _⟩ := h
              have hsf := fresh_superblk_none (by have := hia.base.brk_pos; omega) hfr
              exact ⟨hia.heapinv_sim hsf, fun x => (hsf.sim_get_super x).trans (hsa.sim_get_super x)⟩
            | some ptr =>
              simp only [Option.bind_eq_some, Option.some.injEq, Prod.mk.injEq] at h
              obtain ⟨_, _, _, _, _, h2⟩ := h
              cases h2
        · simp only [Option.bind_eq_some, Option.some.injEq, Prod.mk.injEq] at h
          obtain ⟨_, _, _, _, _, h2⟩ := h
          cases h2

theorem mm_malloc_small_inv {st : State} {live : List Nat} {cpu_id : Int} {sz : Nat}
    {r : small_result} (hi : HeapInv st live) (hcpu : 0 ≤ cpu_id) (hsz : sz ≤ 2048)
    (h : mm_malloc_small st cpu_id sz = some r) :
    (r.blk = 0 → HeapInv r.st live ∧
      ∀ x s, get_super st x = some s → bits_of r.st x = bits_of st x) ∧
    (r.blk ≠ 0 → HeapInv r.st (r.blk :: live) ∧
      ∃ i s1,
        ((get_super st r.super_res).getD (fresh_header (size_class sz).2)).block_class =
          (size_class sz).2 ∧
        i < capacity (size_class sz).2 ∧ r.super_res ≤ r.blk ∧ r.blk < r.super_res + 4096 ∧
        (r.blk - r.super_res) / (size_class sz).2 = i ∧
        bit_set ((get_super st r.super_res).getD
          (fresh_header (size_class sz).2)).block_bit_map i = false ∧
        live_at live r.super_res (size_class sz).2 i = 0 ∧
        get_super r.st r.super_res = some s1 ∧
        (∀ j, bit_set s1.block_bit_map j = if j = i then true else
          bit_set ((get_super st r.super_res).getD
            (fresh_header (size_class sz).2)).block_bit_map j) ∧
        s1.u = ((get_super st r.super_res).getD (fresh_header (size_class sz).2)).u + 1 ∧
        s1.block_class = (size_class sz).2 ∧
        ∀ x, x ≠ r.super_res → bits_of r.st x = bits_of st x) := by
  obtain ⟨hci, hc9⟩ := class_index_size_class sz hsz
  have hbc := size_class_mem sz hsz
  unfold mm_malloc_small at h
  cases hlk : lock_heap st (cpu_id + 1) with
  | none => rw [hlk] at h; cases h
  | some sta =>
    rw [hlk] at h
    simp only [Option.some_bind] at h
    obtain ⟨hsa, _, _⟩ := lock_heap_sim hlk
    have hia := hi.heapinv_sim hsa
    cases hsc : scan_bins sta (cpu_id + 1) (size_class sz).1 sz (size_class sz).2 5 with
    | none => rw [hsc] at h; cases h
    | some found =>
      rw [hsc] at h
      simp only [Option.some_bind] at h
      cases found with
      | some t =>
        obtain ⟨p, f, use⟩ := t
        simp only at h
        obtain ⟨s, hs, hloc, hf, huse⟩ := scan_bins_spec hia.lists _ _ _ _ hsc
        rw [loc_of_eq hs] at hloc
        refine ⟨fun hb => ?_, fun hb => ?_⟩
        · rw [take_blk_null h hb]
          exact ⟨hia, fun x _ _ => bits_of_congr (hsa.sim_get_super x)⟩
        · obtain ⟨hinv, hsr, hsbc, i, s1, h1, h2, h3, h4, h5, h6, h7, h8, h9, h10, h11⟩ :=
            take_blk_inv hia hs hloc (by exact_mod_cast hf) hbc hci huse h hb
          have hget : (get_super st r.super_res).getD (fresh_header (size_class sz).2) = s := by
            rw [hsr, ← hsa.sim_get_super, hs]
            rfl
          rw [hget, hsr]
          refine ⟨hinv, i, s1, hsbc, h1, h2, h3, h4, h5, h6, h7, ?_, h9, h10, ?_⟩
          · intro j
            rw [h8]
            exact bit_set_set _ _ _ ((hia.base.supers p s hs).bytes _) h5
          · intro x hx
            rw [h11 x hx]
            exact bits_of_congr (hsa.sim_get_super x)
      | none =>
        simp only [Option.bind_eq_some] at h
        obtain ⟨g, hg, h⟩ := h
        obtain ⟨stg, po⟩ := g
        cases po with
        | none =>
          simp only [Option.some.injEq] at h
          subst h
          refine ⟨fun _ => ?_, fun hb => absurd rfl hb⟩
          obtain ⟨hn1, hn2⟩ := fetch_global_null hia hg
          exact ⟨hn1, fun x _ _ => bits_of_congr ((hn2 x).trans (hsa.sim_get_super x))⟩
        | some p =>
          simp only at h
          obtain ⟨hig, s, hs, hhome, hb0, hu0, hc0, hx0⟩ := fetch_global_inv hia hcpu hbc hci hg
          refine ⟨fun hb => ?_, fun hb => ?_⟩
          · rw [take_blk_null h hb]
            refine ⟨hig, ?_⟩
            intro x sx hsx
            by_cases hx : x = p
            · subst hx
              have hsx' : get_super sta x = some sx := by rw [hsa.sim_get_super]; exact hsx
              rw [hsx'] at hb0 hu0 hc0
              simp only [Option.getD_some] at hb0 hu0 hc0
              unfold bits_of
              rw [hs, hsx, Option.map_some', Option.map_some', hb0, hu0, hc0]
            · rw [hx0 x hx]
              exact bits_of_congr (hsa.sim_get_super x)
          · obtain ⟨hinv, hsr, hsbc, i, s1, h1, h2, h3, h4, h5, h6, h7, h8, h9, h10, h11⟩ :=
              take_blk_inv hig hs hhome (by decide) hbc hci (fun hx => by cases hx) h hb
            rw [hsr, ← hsa.sim_get_super, ← hb0, ← hu0, ← hc0]
            refine ⟨hinv, i, s1, hsbc, h1, h2, h3, h4, h5, h6, h7, ?_, h9, h10, ?_⟩
            · intro j
              rw [h8]
              exact bit_set_set _ _ _ ((hig.base.supers p s hs).bytes _) h5
            · intro x hx
              rw [h11 x hx, hx0 x hx]
              exact bits_of_congr (hsa.sim_get_super x)

/-! ## The small path of `mm_free` keeps the invariant -/

theorem release_scan_spec (h : heap_t) (hq : (release_scan h).1 ≠ 0) :
    (release_scan h).2.1 < 9 ∧ (release_scan h).2.2 < 2 ∧
      (release_scan h).1 = h.super_bases (release_scan h).2.1 (release_scan h).2.2 := by
  unfold release_scan at hq ⊢
  cases hf : (((List.range 9).map fun i => (i, 0)) ++ ((List.range 9).map fun i => (i, 1))).find?
      fun (ik : Nat × Nat) => decide (h.super_bases ik.1 ik.2 ≠ 0) with
  | none =>
    rw [hf] at hq
    exact absurd rfl hq
  | some ik =>
    have hm := List.mem_of_find?_eq_some hf
    simp only [List.mem_append, List.mem_map, List.mem_range] at hm
    rcases hm with ⟨i, hi, rfl⟩ | ⟨i, hi, rfl⟩
    · exact ⟨hi, Nat.zero_lt_two, rfl⟩
    · exact ⟨hi, Nat.one_lt_two, rfl⟩

theorem free_release_inv {st st1 : State} {live : List Nat} {heap_num : Int}
    (hi : HeapInv st live) (h : free_release st heap_num = some st1) : HeapInv st1 live := by
  unfold free_release at h
  by_cases h0 : heap_num = 0
  · rw [if_pos h0] at h
    exact hi.heapinv_sim (unlock_heap_sim h)
  · rw [if_neg h0] at h
    cases hh : heap_at st heap_num with
    | none => rw [hh] at h; cases h
    | some hp =>
      rw [hh] at h
      simp only [Option.some_bind, Option.bind_eq_some] at h
      obtain ⟨stm, hmv, hul⟩ := h
      obtain ⟨hn0, hn1, rfl⟩ := heap_at_eq_some hh
      refine HeapInv.heapinv_sim (unlock_heap_sim hul) ?_
      split_ifs at hmv with hc hq
      · exfalso
        rw [hq] at hmv
        unfold move_superblk unlink_super at hmv
        rw [get_super_zero] at hmv
        cases hmv
      · obtain ⟨h9, h2, he⟩ := release_scan_spec _ hq
        have hv : ValidBin st (heap_num,
            ((release_scan (st.heaptable heap_num.toNat)).2.1 : Int),
            ((release_scan (st.heaptable heap_num.toNat)).2.2 : Int)) := by
          refine ⟨hn0, hn1, Int.ofNat_nonneg _, ?_, Int.ofNat_nonneg _, ?_⟩
          · show ((release_scan (st.heaptable heap_num.toNat)).2.1 : Int) < 9
            omega
          · show ((release_scan (st.heaptable heap_num.toNat)).2.2 : Int) < 6
            omega
        have hbin : bin_of st (heap_num,
            ((release_scan (st.heaptable heap_num.toNat)).2.1 : Int),
            ((release_scan (st.heaptable heap_num.toNat)).2.2 : Int)) =
            (release_scan (st.heaptable heap_num.toNat)).1 := by
          unfold bin_of
          simp only [Int.toNat_ofNat]
          exact he.symm
        have hne : bin_of st (heap_num,
            ((release_scan (st.heaptable heap_num.toNat)).2.1 : Int),
            ((release_scan (st.heaptable heap_num.toNat)).2.2 : Int)) ≠ 0 := by
          rw [hbin]; exact hq
        obtain ⟨s, hs, _, hloc⟩ := hi.lists.head _ hv hne
        rw [hbin] at hs hloc
        have hhome := (loc_of_eq hs).symm.trans hloc
        obtain ⟨e1, e2, e3⟩ := home_bin_eq hhome
        exact (relocate hi.base hi.lists hs hloc (fun x r _ hr => loc_of_eq hr)
          (by
            intro e
            simp only [Prod.mk.injEq] at e
            exact h0 e.1)
          e1 ⟨by
            show (class_index s.block_class : Int) = _
            rw [e2], e3⟩ hmv).1
      · simp only [Option.some.injEq] at hmv
        subst hmv
        exact hi

theorem free_small_inv {st st1 : State} {live : List Nat} {q : Nat} {s : superblk_t}
    (hi : HeapInv st live) (hq : q ∈ live) (hs : get_super st (page_of q) = some s)
    (h : free_small st (page_of q) (q % 4096) = some st1) : HeapInv st1 (live.erase q) := by
  unfold free_small at h
  rw [hs] at h
  simp only [Option.some_bind] at h
  cases hlk : lock_heap st s.heap_num with
  | none => rw [hlk] at h; cases h
  | some sta =>
    rw [hlk] at h
    simp only [Option.some_bind] at h
    obtain ⟨hsa, _, _⟩ := lock_heap_sim hlk
    have hia := hi.heapinv_sim hsa
    have hsA : get_super sta (page_of q) = some s := by rw [hsa.sim_get_super]; exact hs
    split_ifs at h with hbc0
    simp only [Option.bind_eq_some] at h
    obtain ⟨stb, hcl, stc, hun, hrel⟩ := h
    refine free_release_inv ?_ hrel
    -- the bit is cleared
    unfold clear_bit at hcl
    split_ifs at hcl with h64
    obtain ⟨_, hu1⟩ := modify_super_upd hcl
    have hsB := hu1.upd_get hsA
    rw [if_pos rfl] at hsB
    unfold uncharge_blk at hun
    rw [hsB] at hun
    simp only [Option.some_bind, Option.bind_eq_some] at hun
    obtain ⟨f, hf, std, hmu, ste, hmh, nf, hnf, hmv⟩ := hun
    obtain ⟨_, hu2⟩ := modify_super_upd hmu
    have hsim := modify_heap_sim hmh (fun _ => rfl)
    have hok := hia.base.supers _ s hsA
    have hU : Upd sta ste
        (fun x r => if x = page_of q then
          { r with block_bit_map := clear_bit_map r.block_bit_map (q % 4096 / s.block_class),
                   u := r.u - 1 } else r)
        (fun _ v => v) := by
      refine ((hu1.upd_trans hu2).upd_trans hsim.sim_upd).upd_congr ?_ (fun _ _ => rfl)
      intro x r _
      dsimp only
      split_ifs <;> rfl
    have hsE := hU.upd_get hsA
    rw [if_pos rfl] at hsE
    obtain ⟨_, hokE⟩ := hok.superok_release hq rfl
      (show ({ s with block_bit_map := clear_bit_map s.block_bit_map (q % 4096 / s.block_class),
                      u := s.u - 1 } : superblk_t).block_class = s.block_class from rfl) rfl rfl
    have hbase : BaseInv ste (live.erase q) := by
      refine hia.base.baseinv_upd hU ?_ ?_
      · intro x r hr hrok
        by_cases hx : x = page_of q
        · subst hx
          rw [hsA] at hr
          cases hr
          rw [if_pos rfl]
          exact hokE
        · rw [if_neg hx]
          exact hrok.superok_erase q
      · intro a ha
        exact hia.base.live_below a (List.mem_of_mem_erase ha)
    have hlists : Lists ste (loc_of sta) := by
      refine Lists.lists_content hU ?_ hia.lists
      intro x r
      dsimp only
      split_ifs <;> exact ⟨rfl, rfl⟩
    have hother : ∀ x r, x ≠ page_of q → get_super ste x = some r →
        loc_of sta x = home_bin r := by
      intro x r hx hr
      obtain ⟨r0, hr0, rfl⟩ := hU.upd_get_inv hr
      rw [if_neg hx, loc_of_eq hr0]
    have hhome : loc_of sta (page_of q) =
        (s.heap_num, ((size_class_loop s.block_class 0 block_sizes).1 : Int), f) := by
      rw [loc_of_eq hsA]
      unfold home_bin class_index
      have hf' : A2Alloc.fullness s.u s.block_class = some f := hf
      rw [hf']
      rfl
    by_cases hne : nf ≠ f
    · rw [if_pos hne] at hmv
      exact (relocate hbase hlists hsE hhome hother
        (by
          intro e
          simp only [Prod.mk.injEq] at e
          exact hne e.2.2.symm)
        rfl
        ⟨rfl, by
          show (A2Alloc.fullness (s.u - 1) s.block_class).getD 0 = nf
          have hnf' : A2Alloc.fullness (s.u - 1) s.block_class = some nf := hnf
          rw [hnf']
          rfl⟩ hmv).1
    · rw [if_neg hne] at hmv
      simp only [Option.some.injEq] at hmv
      subst hmv
      refine ⟨hbase, Lists.lists_congr_loc ?_ hlists⟩
      intro x r hr
      rw [loc_of_eq hr]
      by_cases hx : x = page_of q
      · subst hx
        rw [hsE] at hr
        cases hr
        rw [hhome]
        unfold home_bin class_index
        have hnf' : A2Alloc.fullness (s.u - 1) s.block_class = some nf := hnf
        show _ = (s.heap_num, ((size_class_loop s.block_class 0 block_sizes).1 : Int),
          (A2Alloc.fullness (s.u - 1) s.block_class).getD 0)
        rw [hnf']
        have : nf = f := by simpa using hne
        rw [this]
        rfl
      · exact hother x r hx hr

/-! ## Steps of the large path -/

theorem Same.same_refl (st : State) : Same st st := ⟨rfl, fun _ => rfl, fun _ => rfl⟩

theorem Same.same_trans {a b c : State} (h1 : Same a b) (h2 : Same b c) : Same a c :=
  ⟨h2.nheaps.trans h1.nheaps, fun x => (h2.sup x).trans (h1.sup x),
    fun x => (h2.bins x).trans (h1.bins x)⟩

theorem Sim.sim_same {st st1 : State} (h : Sim st st1) : Same st st1 :=
  ⟨h.nheaps, h.sim_get_super, h.sim_bin_of⟩

theorem Same.same_loc_of {st st1 : State} (h : Same st st1) : loc_of st1 = loc_of st := by
  funext x
  unfold A2Alloc.loc_of
  rw [h.sup]

theorem Lists.lists_same {st st1 : State} {loc : Nat → Int × Int × Int} (h : Same st st1)
    (hl : Lists st loc) : Lists st1 loc := by
  have hv : ∀ b, ValidBin st1 b ↔ ValidBin st b := by
    intro b
    unfold ValidBin
    rw [h.nheaps]
  refine ⟨?_, ?_, ?_⟩
  · intro b hb hne
    rw [hv] at hb
    rw [h.bins] at hne ⊢
    rw [h.sup]
    exact hl.head b hb hne
  · intro p s hs hn
    rw [h.sup] at hs
    rw [h.sup]
    exact hl.next p s hs hn
  · intro p s hs hn
    rw [h.sup] at hs
    rw [h.sup]
    exact hl.prev p s hs hn

theorem HeapInv.heapinv_same {st st1 : State} {live live1 : List Nat} (hi : HeapInv st live)
    (h : Same st st1) (hb : BaseInv st1 live1) : HeapInv st1 live1 := by
  refine ⟨hb, ?_⟩
  rw [h.same_loc_of]
  exact hi.lists.lists_same h

theorem Large.large_refl (st : State) : Large st st :=
  ⟨fun _ h => h, Same.same_refl st, fun _ n h => ⟨n, h, rfl⟩⟩

theorem Large.large_trans {a b c : State} (h1 : Large a b) (h2 : Large b c) : Large a c := by
  refine ⟨fun live h => h2.base live (h1.base live h), h1.same.same_trans h2.same, ?_⟩
  intro x n hn
  obtain ⟨n1, e1, e2⟩ := h1.nod x n hn
  obtain ⟨n2, e3, e4⟩ := h2.nod x n1 e1
  exact ⟨n2, e3, e4.trans e2⟩

theorem Sim.sim_large {st st1 : State} (h : Sim st st1) : Large st st1 :=
  ⟨fun _ hb => hb.baseinv_sim h, h.sim_same, fun x n hn => ⟨n, by rw [h.sim_get_node]; exact hn, rfl⟩⟩

theorem get_super_of_node {st : State} {x : Nat} {n : node_t} (h : get_node st x = some n) :
    get_super st x = none := by
  unfold get_node at h
  unfold get_super
  cases hl : load st x with
  | none => rfl
  | some o =>
    rw [hl] at h
    cases o with
    | super _ => cases h
    | node _ => rfl

/-- Writing a node header at an address where a node with these pages fits. -/
theorem write_node_base {st : State} {live : List Nat} {q : Nat} {n : node_t}
    (hi : BaseInv st live) (hq : q ≠ 0) (hn : NodeOK st q n) :
    BaseInv (write_obj st q (Obj.node n)) live ∧ Same st (write_obj st q (Obj.node n)) := by
  have hqs : get_super st q = none := by
    have := hn.nosuper 0 (by have := hn.pages; omega)
    simpa using this
  have hsup : ∀ x, get_super (write_obj st q (Obj.node n)) x = get_super st x := by
    intro x
    rw [get_super_write_node]
    split_ifs with hx
    · rw [hx, hqs]
    · rfl
  refine ⟨⟨hi.page, hi.brk_aligned, hi.brk_pos, hi.brk_max, hi.max, ?_, ?_, hi.live_below⟩,
    ⟨rfl, hsup, fun _ => rfl⟩⟩
  · intro p s hs
    rw [hsup] at hs
    exact hi.supers p s hs
  · intro x n1 hn1
    rw [get_node_write_node] at hn1
    have hold : NodeOK st x n1 := by
      split_ifs at hn1 with hx
      · simp only [Option.some.injEq] at hn1
        subst hn1
        subst hx
        exact hn
      · exact hi.nodes x n1 hn1
    exact ⟨hold.aligned, hold.pages, hold.below, fun j hj => by
      rw [hsup]; exact hold.nosuper j hj⟩

theorem modify_node_large {st st1 : State} {q : Nat} {f : node_t → node_t}
    (h : modify_node st q f = some st1) (hf : ∀ n, (f n).npages = n.npages) :
    Large st st1 := by
  rw [modify_node_map] at h
  cases hn : get_node st q with
  | none => rw [hn] at h; cases h
  | some n =>
    rw [hn] at h
    simp only [Option.map_some', Option.some.injEq] at h
    subst h
    have hq := get_node_ne_zero hn
    refine ⟨?_, ?_, ?_⟩
    · intro live hb
      have hok := hb.nodes q n hn
      exact (write_node_base hb hq ⟨hok.aligned, by rw [hf]; exact hok.pages,
        by rw [hf]; exact hok.below, fun j hj => hok.nosuper j (by rw [hf] at hj; exact hj)⟩).1
    · refine ⟨rfl, ?_, fun _ => rfl⟩
      intro x
      rw [get_super_write_node]
      split_ifs with hx
      · rw [hx, get_super_of_node hn]
      · rfl
    · intro x n0 hn0
      rw [get_node_write_node]
      split_ifs with hx
      · subst hx
        rw [hn] at hn0
        cases hn0
        exact ⟨_, rfl, hf _⟩
      · exact ⟨n0, hn0, rfl⟩

theorem modify_heap_large {st st1 : State} {i : Int} {f : heap_t → heap_t}
    (h : modify_heap st i f = some st1) (hf : ∀ h, (f h).super_bases = h.super_bases) :
    Large st st1 :=
  (modify_heap_sim h hf).sim_large

theorem dealloc_large_large {st st1 : State} {blk : Nat}
    (h : dealloc_large st blk = some st1) : Large st st1 := by
  unfold dealloc_large at h
  simp only [Option.bind_eq_some] at h
  obtain ⟨sta, hul, stb, hlk, h0, hh0, stc, hm1, std, hm2, ste, hm3, hun⟩ := h
  have L1 : Large st sta := by
    unfold unlink_large at hul
    simp only [Option.bind_eq_some] at hul
    obtain ⟨b0, _, s1, hl1, b1, _, s2, hm, b2, _, s3, hm', hu⟩ := hul
    have A := (lock_heap_sim hl1).1.sim_large
    have B : Large s1 s2 := by
      split_ifs at hm
      · exact modify_node_large hm (fun _ => rfl)
      · exact modify_heap_large hm (fun _ => rfl)
    have C : Large s2 s3 := by
      split_ifs at hm'
      · exact modify_node_large hm' (fun _ => rfl)
      · simp only [Option.some.injEq] at hm'
        subst hm'
        exact Large.large_refl _
    exact ((A.large_trans B).large_trans C).large_trans (unlock_heap_sim hu).sim_large
  have L2 := (lock_heap_sim hlk).1.sim_large
  have L3 : Large stb stc := by
    split_ifs at hm1
    · exact modify_node_large hm1 (fun _ => rfl)
    · simp only [Option.some.injEq] at hm1
      subst hm1
      exact Large.large_refl _
  have L4 := modify_node_large hm2 (fun _ => rfl)
  have L5 := modify_heap_large hm3 (fun _ => rfl)
  exact ((((L1.large_trans L2).large_trans L3).large_trans L4).large_trans L5).large_trans (unlock_heap_sim hun).sim_large

/-! ## `alloc_large` -/

theorem count_down_closed (P : Nat → Bool) (hP : ∀ k, P (k + 1) = true → P k = true) :
    ∀ n k, k < ((List.range n).filter P).length → P k = true := by
  have hall : ∀ n k, k ≤ n → P n = true → P k = true := by
    intro n
    induction n with
    | zero =>
      intro k hk h
      have : k = 0 := by omega
      rw [this]; exact h
    | succ n ih =>
      intro k hk h
      by_cases hkn : k = n + 1
      · rw [hkn]; exact h
      · exact ih k (by omega) (hP n h)
  intro n
  induction n with
  | zero => intro k hk; simp at hk
  | succ n ih =>
    intro k hk
    rw [List.range_succ, List.filter_append, List.length_append] at hk
    by_cases hn : P n = true
    · have hle : ((List.range n).filter P).length ≤ n := by
        calc ((List.range n).filter P).length ≤ (List.range n).length :=
              List.length_filter_le _ _
          _ = n := List.length_range n
      simp only [List.filter_cons, hn, if_true, List.filter_nil, List.length_singleton] at hk
      exact hall n k (by omega) hn
    · simp only [List.filter_cons, hn, List.filter_nil, List.length_nil, add_zero] at hk
      exact ih k hk

theorem float_of_nat_pos (n : Nat) (hn : 0 < n) : 0 < float_of_nat n := by
  unfold float_of_nat
  split_ifs with h
  · exact hn
  · simp only
    have hq : 0 < n / 2 ^ ((List.range 41).filter fun k => decide (2 ^ (24 + k) ≤ n)).length := by
      apply Nat.div_pos _ (Nat.pow_pos (by decide))
      by_cases he : ((List.range 41).filter fun k => decide (2 ^ (24 + k) ≤ n)).length = 0
      · rw [he]
        simpa using hn
      · have := count_down_closed (fun k => decide (2 ^ (24 + k) ≤ n)) (by
          intro k hk
          simp only [decide_eq_true_eq] at hk ⊢
          calc 2 ^ (24 + k) ≤ 2 ^ (24 + (k + 1)) := Nat.pow_le_pow_right (by decide) (by omega)
            _ ≤ n := hk) 41
          (((List.range 41).filter fun k => decide (2 ^ (24 + k) ≤ n)).length - 1) (by omega)
        simp only [decide_eq_true_eq] at this
        refine le_trans (Nat.pow_le_pow_right (by decide) ?_) this
        omega
    apply Nat.mul_pos _ (Nat.pow_pos (by decide))
    split_ifs
    · omega
    · exact hq

theorem num_pgs_of_pos {sz n : Nat} (hsz : sz + sizeof_node_t < size_t_mod)
    (h : num_pgs_of sz = some n) : 1 ≤ n := by
  unfold num_pgs_of at h
  simp only at h
  split_ifs at h
  simp only [Option.some.injEq] at h
  subst h
  rw [Nat.mod_eq_of_lt hsz]
  have := float_of_nat_pos (sz + sizeof_node_t) (by unfold sizeof_node_t; omega)
  unfold superblk_size
  omega

theorem take_large_inv {st st1 : State} {live : List Nat} {num_pgs curr : Nat} {c : node_t}
    (hi : BaseInv st live) (hn : 1 ≤ num_pgs) (hc : get_node st curr = some c)
    (h : take_large st num_pgs curr = some st1) :
    BaseInv st1 live ∧ Same st st1 ∧ ∃ c1, get_node st1 curr = some c1 ∧ c1.npages = c.npages := by
  have hok := hi.nodes curr c hc
  unfold take_large at h
  rw [hc] at h
  simp only [Option.some_bind, Option.bind_eq_some] at h
  obtain ⟨t, ht, c', hc', st2, hm, c'', _, hfin⟩ := h
  -- the residue header
  have h1 : BaseInv t.1 live ∧ Same st t.1 ∧ get_node t.1 curr = some c := by
    split_ifs at ht with hgt
    · rw [hi.page] at ht
      have hb := hok.below
      have hmax := hi.max
      have hbm := hi.brk_max
      have hlt : num_pgs < c.npages.toNat := by omega
      have hy : (curr + num_pgs * 4096) % size_t_mod = curr + num_pgs * 4096 := by
        apply Nat.mod_eq_of_lt
        unfold size_t_mod
        omega
      rw [hy] at ht
      have hy0 : curr + num_pgs * 4096 ≠ 0 := by omega
      rw [store_eq _ hy0] at ht
      simp only [Option.some_bind, Option.some.injEq] at ht
      subst ht
      have hres : NodeOK st (curr + num_pgs * 4096)
          { type := 1, npages := c.npages - (num_pgs : Int), heap_num := 0,
            prev := c.prev, next := c.next } := by
        refine ⟨by have := hok.aligned; omega, by show 1 ≤ c.npages - (num_pgs : Int); omega,
          by show curr + num_pgs * 4096 + (c.npages - (num_pgs : Int)).toNat * 4096 ≤ _; omega,
          ?_⟩
        intro j hj
        have hj' : (j : Int) < c.npages - (num_pgs : Int) := hj
        have := hok.nosuper (num_pgs + j) (by push_cast; omega)
        rw [show curr + (num_pgs + j) * 4096 = curr + num_pgs * 4096 + j * 4096 by ring] at this
        exact this
      obtain ⟨hb1, hs1⟩ := write_node_base hi hy0 hres
      refine ⟨hb1, hs1, ?_⟩
      show get_node (write_obj st _ _) curr = some c
      rw [get_node_write_node, if_neg (by omega)]
      exact hc
    · simp only [Option.some.injEq] at ht
      subst ht
      exact ⟨hi, Same.same_refl st, hc⟩
  obtain ⟨hbt, hst, hct⟩ := h1
  have L2 : Large t.1 st2 := by
    split_ifs at hm
    · exact modify_node_large hm (fun _ => rfl)
    · exact modify_heap_large hm (fun _ => rfl)
  have L3 : Large st2 st1 := by
    split_ifs at hfin
    · exact modify_node_large hfin (fun _ => rfl)
    · simp only [Option.some.injEq] at hfin
      subst hfin
      exact Large.large_refl _
  have L := L2.large_trans L3
  exact ⟨L.base live hbt, hst.same_trans L.same, L.nod curr c hct⟩

theorem search_large_inv {live : List Nat} {num_pgs : Nat} (hn : 1 ≤ num_pgs) :
    ∀ (fuel : Nat) (st st1 : State) (curr res : Nat), BaseInv st live →
      search_large st num_pgs fuel curr = some (st1, res) →
      BaseInv st1 live ∧ Same st st1 ∧
        (res ≠ 0 → ∃ c1, get_node st1 res = some c1 ∧ (num_pgs : Int) ≤ c1.npages) := by
  intro fuel
  induction fuel with
  | zero =>
    intro st st1 curr res _ h
    simp only [search_large] at h
    cases h
  | succ n ih =>
    intro st st1 curr res hi h
    simp only [search_large] at h
    split_ifs at h with h0
    · simp only [Option.some.injEq, Prod.mk.injEq] at h
      obtain ⟨rfl, rfl⟩ := h
      exact ⟨hi, Same.same_refl _, fun hx => absurd rfl hx⟩
    · cases hc : get_node st curr with
      | none => rw [hc] at h; cases h
      | some c =>
        rw [hc] at h
        simp only [Option.some_bind] at h
        split_ifs at h with hge
        · simp only [Option.bind_eq_some, Option.some.injEq, Prod.mk.injEq] at h
          obtain ⟨st2, ht, rfl, rfl⟩ := h
          obtain ⟨hb, hs, c1, hc1, e⟩ := take_large_inv hi hn hc ht
          exact ⟨hb, hs, fun _ => ⟨c1, hc1, by rw [e]; exact hge⟩⟩
        · exact ih st st1 c.next res hi h

theorem push_large_inv {st st1 : State} {live : List Nat} {num_pgs res : Nat} {cpu_id : Int}
    (hi : BaseInv st live) (hn : 1 ≤ num_pgs) (hal : res % 4096 = 0)
    (hbelow : res + num_pgs * 4096 ≤ st.mem_brk)
    (hno : ∀ j, j < num_pgs → get_super st (res + j * 4096) = none)
    (h : push_large st num_pgs cpu_id res = some st1) :
    res ≠ 0 ∧ BaseInv st1 live ∧ Same st st1 ∧ ∃ n1, get_node st1 res = some n1 := by
  unfold push_large at h
  simp only [Option.bind_eq_some] at h
  obtain ⟨sta, hlk, hp, hh, stb, hm, stc, hst, std, hmh, hul⟩ := h
  have L1 := (lock_heap_sim hlk).1.sim_large
  have L2 : Large sta stb := by
    split_ifs at hm
    · exact modify_node_large hm (fun _ => rfl)
    · simp only [Option.some.injEq] at hm
      subst hm
      exact Large.large_refl _
  have L12 := L1.large_trans L2
  have hb2 := L12.base live hi
  have hres0 : res ≠ 0 := by
    intro e
    rw [e] at hst
    simp [store] at hst
  rw [store_eq _ hres0] at hst
  simp only [Option.some.injEq] at hst
  subst hst
  have hbrk : stb.mem_brk = st.mem_brk := by
    have h1 := hb2.brk_aligned
    have := (lock_heap_sim hlk).1.brk
    have hsb : stb.mem_brk = sta.mem_brk := by
      split_ifs at hm
      · rw [modify_node_map] at hm
        cases hg : get_node sta hp.largeblks with
        | none => rw [hg] at hm; cases hm
        | some g =>
          rw [hg] at hm
          simp only [Option.map_some', Option.some.injEq] at hm
          subst hm
          rfl
      · simp only [Option.some.injEq] at hm
        subst hm
        rfl
    rw [hsb, this]
  obtain ⟨hb3, hs3⟩ := write_node_base hb2 hres0 (n :=
    { type := 1, npages := (num_pgs : Int), heap_num := cpu_id, prev := 0,
      next := hp.largeblks })
    ⟨hal, by show (1 : Int) ≤ (num_pgs : Int); omega, by
      show res + ((num_pgs : Int)).toNat * 4096 ≤ stb.mem_brk
      rw [hbrk, Int.toNat_ofNat]
      exact hbelow, by
      intro j hj
      rw [L12.same.sup]
      exact hno j (by
        have : (j : Int) < (num_pgs : Int) := hj
        omega)⟩
  have L4 := (modify_heap_large hmh (fun _ => rfl)).large_trans (unlock_heap_sim hul).sim_large
  refine ⟨hres0, L4.base live hb3, (L12.same.same_trans hs3).same_trans L4.same, ?_⟩
  obtain ⟨n1, e1, _⟩ := L4.nod res _ (by
    rw [get_node_write_node, if_pos rfl, if_neg hres0])
  exact ⟨n1, e1⟩

/-! ## The entry points keep the invariant -/

theorem BaseInv.baseinv_cons {st : State} {live : List Nat} (hi : BaseInv st live) (q : Nat)
    (hq : q < st.mem_brk) (hs : get_super st (page_of q) = none) : BaseInv st (q :: live) := by
  refine ⟨hi.page, hi.brk_aligned, hi.brk_pos, hi.brk_max, hi.max, ?_, hi.nodes, ?_⟩
  · intro p s hp
    refine (hi.supers p s hp).superok_cons_other q ?_
    intro e
    rw [e, hp] at hs
    cases hs
  · intro a ha
    rcases List.mem_cons.1 ha with e | e
    · rw [e]; exact hq
    · exact hi.live_below a e

theorem BaseInv.baseinv_erase {st : State} {live : List Nat} (hi : BaseInv st live) (q : Nat) :
    BaseInv st (live.erase q) := by
  refine ⟨hi.page, hi.brk_aligned, hi.brk_pos, hi.brk_max, hi.max, ?_, hi.nodes, ?_⟩
  · intro p s hp
    exact (hi.supers p s hp).superok_erase q
  · intro a ha
    exact hi.live_below a (List.mem_of_mem_erase ha)

theorem push_large_ne_zero {st st1 : State} {num_pgs res : Nat} {cpu_id : Int}
    (h : push_large st num_pgs cpu_id res = some st1) : res ≠ 0 := by
  unfold push_large at h
  simp only [Option.bind_eq_some] at h
  obtain ⟨sta, _, hp, _, stb, _, stc, hst, _⟩ := h
  intro e
  rw [e] at hst
  simp [store] at hst

theorem alloc_large_inv {st st1 : State} {live : List Nat} {sz p : Nat} {cpu_id : Int}
    (hi : HeapInv st live) (hsz : sz + sizeof_node_t < size_t_mod)
    (h : alloc_large st sz cpu_id = some (p, st1)) :
    p ≠ 0 ∧ HeapInv st1 (p :: live) ∧ Same st st1 := by
  unfold alloc_large at h
  simp only [Option.bind_eq_some, Option.some.injEq, Prod.mk.injEq] at h
  obtain ⟨num_pgs, hnp, sta, hlk, h0, _, sr, hsr, stu, hul, rs, hrs, stp, hpush, rfl, rfl⟩ := h
  have hn := num_pgs_of_pos hsz hnp
  have hsa := (lock_heap_sim hlk).1
  obtain ⟨hb1, hs1, hres⟩ := search_large_inv hn _ _ _ _ _ (hi.base.baseinv_sim hsa) hsr
  have hsu := unlock_heap_sim hul
  have hb2 := hb1.baseinv_sim hsu
  have hs2 : Same st stu := (hsa.sim_same.same_trans hs1).same_trans hsu.sim_same
  have hr0 := push_large_ne_zero hpush
  -- the node that is handed out
  have key : BaseInv rs.2 live ∧ Same st rs.2 ∧ rs.1 % 4096 = 0 ∧
      rs.1 + num_pgs * 4096 ≤ rs.2.mem_brk ∧
      ∀ j, j < num_pgs → get_super rs.2 (rs.1 + j * 4096) = none := by
    split_ifs at hrs with hz
    · simp only [Option.bind_eq_some, Option.some.injEq] at hrs
      obtain ⟨stl, hls, rfl⟩ := hrs
      have hsl := lock_system_sim hls
      have hb3 := hb2.baseinv_sim hsl
      rw [hb3.page] at hr0 ⊢
      unfold mem_sbrk at hr0 ⊢
      by_cases hroom : stl.mem_brk + num_pgs * 4096 ≤ stl.mem_max_addr
      · simp only [if_pos hroom] at hr0 ⊢
        have hsup : ∀ x, get_super (unlock_system
            { stl with mem_brk := stl.mem_brk + num_pgs * 4096 }) x = get_super stl x :=
          fun _ => rfl
        refine ⟨⟨hb3.page, ?_, ?_, hroom, hb3.max, ?_, ?_, ?_⟩, ?_, hb3.brk_aligned,
          le_refl _, ?_⟩
        · show (stl.mem_brk + num_pgs * 4096) % 4096 = 0
          have := hb3.brk_aligned
          omega
        · show 0 < stl.mem_brk + num_pgs * 4096
          have := hb3.brk_pos
          omega
        · intro x s hx
          exact (hb3.supers x s hx).superok_mono (Nat.le_add_right _ _)
        · intro x n hx
          have hok := hb3.nodes x n hx
          exact ⟨hok.aligned, hok.pages, le_trans hok.below (Nat.le_add_right _ _), hok.nosuper⟩
        · intro q hq
          exact lt_of_lt_of_le (hb3.live_below q hq) (Nat.le_add_right _ _)
        · exact hs2.same_trans ⟨hsl.nheaps, fun x => hsl.sim_get_super x, fun b => hsl.sim_bin_of b⟩
        · intro j _
          rw [hsup]
          cases hx : get_super stl (stl.mem_brk + j * 4096) with
          | none => rfl
          | some s =>
            have := (hb3.supers _ s hx).below
            omega
      · simp only [if_neg hroom] at hr0
        exact absurd rfl hr0
    · simp only [Option.some.injEq] at hrs
      subst hrs
      obtain ⟨c1, hc1, hge⟩ := hres hz
      have hres' : ∃ c2, get_node stu sr.2 = some c2 ∧ (num_pgs : Int) ≤ c2.npages :=
        ⟨c1, by rw [hsu.sim_get_node]; exact hc1, hge⟩
      obtain ⟨c2, hc2, hge2⟩ := hres'
      have hok := hb2.nodes _ c2 hc2
      refine ⟨hb2, hs2, hok.aligned, ?_, ?_⟩
      · have := hok.below
        show sr.2 + num_pgs * 4096 ≤ stu.mem_brk
        omega
      · intro j hj
        exact hok.nosuper j (by omega)
  obtain ⟨hb4, hs4, hal, hbel, hno⟩ := key
  obtain ⟨_, hb5, hs5, n1, hn1⟩ := push_large_inv hb4 hn hal hbel hno hpush
  have hok := hb5.nodes _ n1 hn1
  have hpg := page_of_add rs.1 sizeof_node_t hok.aligned (by decide)
  have hsame := hs4.same_trans hs5
  refine ⟨by omega, HeapInv.heapinv_same hi hsame (hb5.baseinv_cons _ ?_ ?_), hsame⟩
  · have h1 := hok.below
    have h2 := hok.pages
    unfold sizeof_node_t
    omega
  · rw [hpg.1]
    have := hok.nosuper 0 (by have := hok.pages; omega)
    simpa using this

theorem mm_malloc_inv {st st1 : State} {live : List Nat} {sz p : Nat} {cpu_id : Int}
    (hi : HeapInv st live) (hcpu : 0 ≤ cpu_id) (hsz : sz + sizeof_node_t < size_t_mod)
    (h : mm_malloc st cpu_id sz = some (p, st1)) :
    HeapInv st1 (if p = 0 then live else p :: live) := by
  unfold mm_malloc at h
  split_ifs at h with hl
  · obtain ⟨hp, hinv, _⟩ := alloc_large_inv hi hsz h
    rw [if_neg hp]
    exact hinv
  · simp only [Option.map_eq_some', Prod.mk.injEq] at h
    obtain ⟨r, hr, rfl, rfl⟩ := h
    have h2048 : sz ≤ 2048 := by
      unfold superblk_size at hl
      omega
    obtain ⟨h0, h1⟩ := mm_malloc_small_inv hi hcpu h2048 hr
    split_ifs with hb
    · exact (h0 hb).1
    · exact (h1 hb).1

theorem mm_free_inv {st st1 : State} {live : List Nat} {p : Nat}
    (hi : HeapInv st live) (hp : p ∈ live) (h : mm_free st p = some st1) :
    HeapInv st1 (live.erase p) := by
  unfold mm_free at h
  rw [hi.base.page] at h
  simp only [show ¬ (4096 = 0) by decide, if_false] at h
  have hpg : p - p % 4096 = page_of p := rfl
  rw [hpg] at h
  cases hl : load st (page_of p) with
  | none => rw [hl] at h; cases h
  | some o =>
    rw [hl] at h
    cases o with
    | node n =>
      simp only at h
      split_ifs at h
      have hL := dealloc_large_large h
      exact HeapInv.heapinv_same hi hL.same ((hL.base live hi.base).baseinv_erase p)
    | super s =>
      simp only at h
      split_ifs at h
      have hs : get_super st (page_of p) = some s := by
        unfold get_super
        rw [hl]
      exact free_small_inv hi hp hs h

/-! ## `mm_init` -/

theorem init_heaps_inv (st : State) (hpg : st.page_size = 4096) :
    ∀ (n : Nat) (st1 : State), init_heaps st n = some st1 →
      (∀ j c f, (st.heaptable j).super_bases c f = 0) → st.mem_brk ≤ st.mem_max_addr →
      st1.mem = st.mem ∧ st1.page_size = 4096 ∧ st1.mem_max_addr = st.mem_max_addr ∧
      st1.mem_brk = st.mem_brk + n * 4096 ∧ st1.mem_brk ≤ st1.mem_max_addr ∧
      ∀ j c f, (st1.heaptable j).super_bases c f = 0 := by
  intro n
  induction n with
  | zero =>
    intro st1 h hb hm
    simp only [init_heaps, Option.some.injEq] at h
    subst h
    exact ⟨rfl, hpg, rfl, by omega, hm, hb⟩
  | succ n ih =>
    intro st1 h hb hm
    simp only [init_heaps, Option.bind_eq_some] at h
    obtain ⟨sta, ha, h⟩ := h
    obtain ⟨e1, e2, e3, e4, e5, e6⟩ := ih sta ha hb hm
    rw [e2] at h
    unfold mem_sbrk at h
    by_cases hroom : sta.mem_brk + 4096 ≤ sta.mem_max_addr
    · simp only [if_pos hroom] at h
      split_ifs at h
      simp only [Option.some.injEq] at h
      subst h
      refine ⟨e1, e2, e3, ?_, ?_, ?_⟩
      · show sta.mem_brk + 4096 = _
        rw [e4]
        ring
      · exact hroom
      · intro j c f
        show (if j = n then _ else sta.heaptable j).super_bases c f = 0
        split_ifs
        · rfl
        · exact e6 j c f
    · simp only [if_neg hroom, if_true] at h
      cases h

theorem mm_init_inv {ncpu lo hi : Nat} {st : State} (hlo : 0 < lo) (hal : lo % 4096 = 0)
    (hhi : hi ≤ 2 ^ 64) (h : mm_init ncpu 4096 lo hi = some st) : HeapInv st [] := by
  unfold mm_init at h
  simp only [mem_init] at h
  unfold mem_sbrk at h
  simp only at h
  by_cases hroom : lo + 4096 ≤ hi
  · simp only [if_pos hroom] at h
    have hlo0 : ¬ lo = 0 := by omega
    simp only [if_neg hlo0] at h
    obtain ⟨e1, e2, e3, e4, e5, e6⟩ := init_heaps_inv _ rfl _ _ h (fun _ _ _ => rfl) hroom
    have hsup : ∀ x, get_super st x = none := by
      intro x
      unfold get_super load
      rw [e1]
      split_ifs <;> rfl
    have hnod : ∀ x, get_node st x = none := by
      intro x
      unfold get_node load
      rw [e1]
      split_ifs <;> rfl
    have hbrk : st.mem_brk = lo + 4096 + (ncpu + 1) * 4096 := e4
    refine ⟨⟨e2, ?_, ?_, e5, ?_, ?_, ?_, ?_⟩, ?_, ?_, ?_⟩
    · rw [hbrk]; omega
    · rw [hbrk]; omega
    · rw [e3]; exact hhi
    · intro p s hs
      rw [hsup] at hs
      cases hs
    · intro x n hn
      rw [hnod] at hn
      cases hn
    · intro q hq
      cases hq
    · intro b _ hne
      exact absurd (e6 _ _ _) hne
    · intro p s hs
      rw [hsup] at hs
      cases hs
    · intro p s hs
      rw [hsup] at hs
      cases hs
  · simp only [if_neg hroom, if_true] at h
    cases h

/-- Every reachable state satisfies the invariant. -/
theorem Reachable.reachable_inv {ncpu lo hi : Nat} {st : State} {live : List Nat}
    (h : Reachable ncpu lo hi st live) : HeapInv st live := by
  induction h with
  | init st hlo hal hhi hinit => exact mm_init_inv hlo hal hhi hinit
  | malloc st st1 live cpu_id sz p _ hcpu _ hsz hm ih => exact mm_malloc_inv ih hcpu hsz hm
  | free st st1 live p _ hp hf ih => exact mm_free_inv ih hp hf

theorem bits_of_some {st st1 : State} {x : Nat} {s : superblk_t}
    (h : bits_of st1 x = bits_of st x) (hs : get_super st x = some s) :
    ∃ s1, get_super st1 x = some s1 ∧ s1.block_class = s.block_class ∧
      s1.block_bit_map = s.block_bit_map ∧ s1.u = s.u := by
  unfold bits_of at h
  rw [hs] at h
  cases h1 : get_super st1 x with
  | none => rw [h1] at h; cases h
  | some s1 =>
    rw [h1] at h
    simp only [Option.map_some', Option.some.injEq, Prod.mk.injEq] at h
    exact ⟨s1, rfl, h⟩

/-- No `mm_malloc` call clears a bit of a bitmap. -/
theorem mm_malloc_keeps_bits {st st1 : State} {live : List Nat} {cpu_id : Int} {sz p : Nat}
    (hi : HeapInv st live) (hcpu : 0 ≤ cpu_id) (hsz : sz + sizeof_node_t < size_t_mod)
    (h : mm_malloc st cpu_id sz = some (p, st1)) (x : Nat) (s : superblk_t)
    (hs : get_super st x = some s) :
    ∃ s1, get_super st1 x = some s1 ∧ s1.block_class = s.block_class ∧
      ∀ j, bit_set s.block_bit_map j = true → bit_set s1.block_bit_map j = true := by
  unfold mm_malloc at h
  split_ifs at h with hl
  · obtain ⟨_, _, hsame⟩ := alloc_large_inv hi hsz h
    exact ⟨s, by rw [hsame.sup]; exact hs, rfl, fun _ hj => hj⟩
  · simp only [Option.map_eq_some', Prod.mk.injEq] at h
    obtain ⟨r, hr, rfl, rfl⟩ := h
    have h2048 : sz ≤ 2048 := by
      unfold superblk_size at hl
      omega
    obtain ⟨h0, h1⟩ := mm_malloc_small_inv hi hcpu h2048 hr
    by_cases hb : r.blk = 0
    · obtain ⟨s1, e1, e2, e3, _⟩ := bits_of_some ((h0 hb).2 x s hs) hs
      exact ⟨s1, e1, e2, fun j hj => by rw [e3]; exact hj⟩
    · obtain ⟨_, i, s1, a1, a2, a3, a4, a5, a6, a7, a8, a9, a10, a11, a12⟩ := h1 hb
      by_cases hx : x = r.super_res
      · subst hx
        rw [hs] at a1 a9
        simp only [Option.getD_some] at a1 a9
        refine ⟨s1, a8, a11.trans a1.symm, ?_⟩
        intro j hj
        rw [a9]
        split_ifs
        · rfl
        · exact hj
      · obtain ⟨s2, e1, e2, e3, _⟩ := bits_of_some (a12 x hx) hs
        exact ⟨s2, e1, e2, fun j hj => by rw [e3]; exact hj⟩

/-! ## The bitmap bit of a returned block -/

/-- In every state reached from `mm_init` (pages of 4096 bytes) by calls
whose request sizes do not wrap in `size_t`, a small-path `mm_malloc` call
that returns a non-null block took it from the superblock `super_res`; the bit of the returned block was clear in that
superblock before the call (for a superblock that the call itself created on a
fresh page: in the header as `create_superblk` wrote it) and is set after it,
`u` grew by exactly 1, no other bit of that bitmap changed and the class,
bitmap and `u` of every other superblock are unchanged.  No pointer that is
live (returned and not yet freed) lies in the returned block, the new state is
reachable with the block live, and no `mm_malloc` call clears a bit: a block
whose bit is set is not handed out again until `mm_free` clears the bit. -/
theorem malloc_takes_clear_bit (ncpu lo hi : Nat) (st : State) (live : List Nat)
    (cpu_id : Int) (sz : Nat) (r : small_result)
    (hreach : Reachable ncpu lo hi st live) (hcpu : 0 ≤ cpu_id) (hcpu2 : cpu_id < (ncpu : Int))
    (hsz : sz ≤ superblk_size / 2) (h : mm_malloc_small st cpu_id sz = some r)
    (hb : r.blk ≠ 0) :
    mm_malloc st cpu_id sz = some (r.blk, r.st) ∧
    Reachable ncpu lo hi r.st (r.blk :: live) ∧
    (before_header st r sz).block_class = (size_class sz).2 ∧
    r.super_res ≤ r.blk ∧ r.blk < r.super_res + superblk_size ∧
    blk_index r sz < capacity (size_class sz).2 ∧
    bit_set (before_header st r sz).block_bit_map (blk_index r sz) = false ∧
    (∃ s1, get_super r.st r.super_res = some s1 ∧ s1.block_class = (size_class sz).2 ∧
      bit_set s1.block_bit_map (blk_index r sz) = true ∧
      s1.u = (before_header st r sz).u + 1 ∧
      ∀ j, j ≠ blk_index r sz →
        bit_set s1.block_bit_map j = bit_set (before_header st r sz).block_bit_map j) ∧
    (∀ x, x ≠ r.super_res → bits_of r.st x = bits_of st x) ∧
    (∀ q, q ∈ live →
      ¬ (page_of q = r.super_res ∧ q % 4096 / (size_class sz).2 = blk_index r sz)) ∧
    (∀ (cpu1 : Int) (sz1 p1 : Nat) (st1 : State), 0 ≤ cpu1 →
      sz1 + sizeof_node_t < size_t_mod → mm_malloc st cpu1 sz1 = some (p1, st1) →
      ∀ x s, get_super st x = some s →
        ∃ s1, get_super st1 x = some s1 ∧ s1.block_class = s.block_class ∧
          ∀ j, bit_set s.block_bit_map j = true → bit_set s1.block_bit_map j = true) := by
  have hinv := hreach.reachable_inv
  have h2048 : sz ≤ 2048 := hsz
  have hmm : mm_malloc st cpu_id sz = some (r.blk, r.st) := by
    unfold mm_malloc
    rw [if_neg (by unfold superblk_size; omega), h]
    rfl
  have hre : Reachable ncpu lo hi r.st (r.blk :: live) := by
    have := Reachable.malloc st r.st live cpu_id sz r.blk hreach hcpu hcpu2
      (by unfold sizeof_node_t size_t_mod; omega) hmm
    rw [if_neg hb] at this
    exact this
  obtain ⟨_, i, s1, a1, a2, a3, a4, a5, a6, a7, a8, a9, a10, a11, a12⟩ :=
    (mm_malloc_small_inv hinv hcpu h2048 h).2 hb
  have hidx : blk_index r sz = i := a5
  unfold before_header
  rw [hidx]
  refine ⟨hmm, hre, a1, a3, a4, a2, a6, ⟨s1, a8, a11, ?_, a10, ?_⟩, a12,
    live_at_zero live _ _ _ a7, ?_⟩
  · rw [a9, if_pos rfl]
  · intro j hj
    rw [a9, if_neg hj]
  · intro cpu1 sz1 p1 st1 hc1 hs1 hm1 x s hs
    exact mm_malloc_keeps_bits hinv hc1 hs1 hm1 x s hs

/-- The first `mm_malloc(600)` on the scenario machine takes block 1 of a
fresh superblock of class 1024. -/
theorem malloc_takes_clear_bit_witness :
    Reachable 2 1048576 (1048576 + 67108864) scenario_state [] ∧
      scenario_first_600.blk ≠ 0 ∧ blk_index scenario_first_600 600 = 1 ∧
      bit_set (before_header scenario_state scenario_first_600 600).block_bit_map
        (blk_index scenario_first_600 600) = false ∧
      ∃ s1, get_super scenario_first_600.st scenario_first_600.super_res = some s1 ∧
        bit_set s1.block_bit_map (blk_index scenario_first_600 600) = true ∧
        s1.u = (before_header scenario_state scenario_first_600 600).u + 1 := by
  have hr : Reachable 2 1048576 (1048576 + 67108864) scenario_state [] :=
    Reachable.init _ (by decide) (by decide) (by decide) (Option.some_get _).symm
  obtain ⟨_, _, _, _, _, _, h1, ⟨s1, h2, _, h3, h4, _⟩, _⟩ :=
    malloc_takes_clear_bit 2 1048576 (1048576 + 67108864) scenario_state [] 0 600
      scenario_first_600 hr (by decide) (by decide) (by decide) (Option.some_get _).symm
      (by decide)
  exact ⟨hr, by decide, by decide, h1, s1, h2, h3, h4⟩

/-! ## `create_superblk` and the header blocks -/

set_option maxRecDepth 100000 in
theorem header_bits_table : ∀ c ∈ block_sizes, ∀ i, i < 16 →
    (bit_set (header_bitmap (blks_used c)) i = true ↔ i < blks_used c) := by decide

theorem header_bits_high (n i : Nat) (hi : 16 ≤ i) : bit_set (header_bitmap n) i = false := by
  rw [bit_set_false]
  have h2 : ¬ i / 8 = 0 := by omega
  have h3 : ¬ i / 8 = 1 := by omega
  unfold header_bitmap
  split_ifs <;> simp

set_option maxRecDepth 100000 in
theorem blks_used_table : ∀ c ∈ block_sizes,
    blks_used c = (if c ≤ 128 then (sizeof_superblk_t + c - 1) / c else 0) ∧ blks_used c < 16 := by
  decide

/-- C16 (amended): for every block class `c`, `create_superblk(page, c)` writes a
header with type 0, class `c`, owner 0 and null links; for the classes up to 128
exactly the first `h = ceil(sizeof(superblk_t) / c)` bits of the bitmap are set,
`u = h` and the `u` of the global heap grows by `h * c`; for the classes 256 to
2048 (`c >= 2 * sizeof(superblk_t)`) no bit is set, `u = 0` and the global heap
is not charged.  Nothing else changes.  The counter is an `int`: the stored
value is the sum reduced to 32 bits, which is the sum itself whenever the sum
is an `int`. -/
theorem create_superblk_header (st : State) (page c : Nat) (hp : page ≠ 0)
    (hn : 0 < st.nheaps) (hc : c ∈ block_sizes) :
    ∃ st1 s, create_superblk st page c = some st1 ∧ get_super st1 page = some s ∧
      s.type = 0 ∧ s.block_class = c ∧ s.heap_num = 0 ∧ s.prev = 0 ∧ s.next = 0 ∧
      s.u = ((if c ≤ 128 then (sizeof_superblk_t + c - 1) / c else 0 : Nat) : Int) ∧
      (∀ i, bit_set s.block_bit_map i = true ↔
        i < (if c ≤ 128 then (sizeof_superblk_t + c - 1) / c else 0)) ∧
      (-2147483648 ≤ (st.heaptable 0).u →
        (st.heaptable 0).u +
          (((if c ≤ 128 then (sizeof_superblk_t + c - 1) / c else 0) * c : Nat) : Int) <
            2147483648 →
        (st1.heaptable 0).u = (st.heaptable 0).u +
          (((if c ≤ 128 then (sizeof_superblk_t + c - 1) / c else 0) * c : Nat) : Int)) ∧
      (st1.heaptable 0).u =
        (if c ≤ 128 then int32 ((st.heaptable 0).u +
          (((if c ≤ 128 then (sizeof_superblk_t + c - 1) / c else 0) * c : Nat) : Int))
        else (st.heaptable 0).u) ∧
      (∀ x, x ≠ page → get_super st1 x = get_super st x) ∧
      (∀ x, x ≠ page → get_node st1 x = get_node st x) ∧
      (∀ i, i ≠ 0 → st1.heaptable i = st.heaptable i) ∧
      (st1.heaptable 0).a = (st.heaptable 0).a ∧
      (st1.heaptable 0).super_bases = (st.heaptable 0).super_bases := by
  obtain ⟨hbu, hlt⟩ := blks_used_table c hc
  have hc0 : c ≠ 0 := by
    intro e
    rw [e] at hc
    revert hc
    decide
  have hbits : ∀ i, bit_set (header_bitmap (blks_used c)) i = true ↔ i < blks_used c := by
    intro i
    by_cases hi : i < 16
    · exact header_bits_table c hc i hi
    · rw [header_bits_high _ _ (by omega)]
      constructor
      · intro h; cases h
      · intro h; omega
  have hiff : c ≤ 128 ↔ c < sizeof_superblk_t * 2 :=
    (by decide : ∀ c ∈ block_sizes, (c ≤ 128 ↔ c < sizeof_superblk_t * 2)) c hc
  rw [← hbu]
  unfold create_superblk
  rw [if_neg hc0, store_eq _ hp]
  simp only [Option.some_bind]
  by_cases hsm : c < sizeof_superblk_t * 2
  · rw [if_pos hsm]
    have h0 : heap_at (write_obj st page (Obj.super
        { type := 0, block_class := c, block_bit_map := header_bitmap (blks_used c),
          u := (blks_used c : Nat), heap_num := 0, prev := 0, next := 0 })) 0 =
        some (st.heaptable 0) := by
      have := heap_at_nat (write_obj st page (Obj.super
        { type := 0, block_class := c, block_bit_map := header_bitmap (blks_used c),
          u := (blks_used c : Nat), heap_num := 0, prev := 0, next := 0 })) 0
      simpa [hn] using this
    rw [modify_heap_eq _ h0]
    refine ⟨_, fresh_header c, rfl, ?_, rfl, rfl, rfl, rfl, rfl, rfl, hbits, ?_, ?_, ?_, ?_, ?_, ?_,
      ?_⟩
    · rw [get_super_set_heap, get_super_write_super, if_pos rfl, if_neg hp]
      rfl
    · intro h1 h2
      have h3 : (0 : Int) ≤ ((blks_used c * c : Nat) : Int) := Int.natCast_nonneg _
      simp only [set_heap_heaptable, write_obj_heaptable, Int.toNat_zero, if_true]
      exact int32_eq_self (by omega) h2
    · simp [hiff.mpr hsm]
    · intro x hx
      rw [get_super_set_heap, get_super_write_super, if_neg hx]
    · intro x hx
      rw [get_node_set_heap, get_node_write_super, if_neg hx]
    · intro i hi
      simp [hi]
    · simp
    · simp
  · rw [if_neg hsm]
    have hb0 : blks_used c = 0 := by
      unfold blks_used
      rw [if_neg hsm]
    refine ⟨_, fresh_header c, rfl, ?_, rfl, rfl, rfl, rfl, rfl, rfl, hbits, ?_, ?_, ?_, ?_, ?_, ?_,
      ?_⟩
    · rw [get_super_write_super, if_pos rfl, if_neg hp]
      rfl
    · intro _ _
      rw [hb0]
      simp
    · rw [if_neg (fun h => hsm (hiff.mp h))]
      rfl
    · intro x hx
      rw [get_super_write_super, if_neg hx]
    · intro x hx
      rw [get_node_write_super, if_neg hx]
    · intro i _
      rfl
    · rfl
    · rfl

/-- Witness for C16 (amended): class 32 on the page `0x104000` of the scenario
machine has four header blocks. -/
theorem create_superblk_header_witness :
    ∃ st1 s, create_superblk scenario_state 1064960 32 = some st1 ∧
      get_super st1 1064960 = some s ∧ s.u = 4 ∧
      (∀ i, bit_set s.block_bit_map i = true ↔ i < 4) := by
  obtain ⟨st1, s, h1, h2, _, _, _, _, _, h3, h4, _⟩ :=
    create_superblk_header scenario_state 1064960 32 (by decide) (by decide) (by decide)
  exact ⟨st1, s, h1, h2, h3, h4⟩

/-- C16: for the class 256 `create_superblk` marks no block: the bitmap is
clear and `u = 0`, although the header occupies
`ceil(sizeof(superblk_t) / 256) = 1` block. -/
theorem class_256_header_not_marked :
    ((create_superblk scenario_state 1064960 256).bind fun st =>
        (get_super st 1064960).map fun s =>
          (s.u, bit_set s.block_bit_map 0, (st.heaptable 0).u)) = some (0, false, 0) ∧
      (sizeof_superblk_t + 256 - 1) / 256 = 1 := by
  constructor
  · rfl
  · rfl

/-! ## `find_blk` on the classes 1024 and 2048 -/

/-- C17: for the class 1024 (capacity 4) `find_blk` on the empty bitmap returns
1 although bit 0 is clear, and on the bitmap whose four bits are set it returns
4, an index that is not below the capacity, instead of -1; for the class 2048
(capacity 2) it returns 1 on the empty bitmap and 2 on the full one. -/
theorem find_blk_large_classes :
    find_blk (fun _ => 0) 1024 = 1 ∧
    find_blk (fun i => if i = 0 then 15 else 0) 1024 = 4 ∧
    find_blk (fun _ => 0) 2048 = 1 ∧
    find_blk (fun i => if i = 0 then 3 else 0) 2048 = 2 ∧
    bit_set (fun _ => 0) 0 = false ∧ capacity 1024 = 4 ∧ capacity 2048 = 2 := by
  refine ⟨by decide, by decide, by decide, by decide, by decide, by decide, by decide⟩

/-! ## The bin of an empty superblock -/

/-- C14: on the scenario machine, after `a = mm_malloc(256); mm_free(a)` on
CPU 0 the superblock of `a` has `u = 0` and is still linked in bin 1 of its
class, `heap[1].bins[5][1]`; the bin 0 `heap[1].bins[5][0]` is empty. -/
theorem empty_superblock_stays_in_bin_1 :
    (scenario_init.bind fun s => run_calls s [] [Call.malloc 0 256, Call.free 0]).map
        (fun r => (r.1, (List.range 6).map ((r.2.heaptable 1).super_bases 5),
          (get_super r.2 ((r.2.heaptable 1).super_bases 5 1)).map
            fun s => (s.block_class, s.u)))
      = some ([1064960], [0, 1064960, 0, 0, 0, 0], some (256, 0)) := by
  rfl

/-! ## The release scan finds a superblock -/

theorem bin_walk_ne_nil {st : State} {fuel p x : Nat} (h : x ∈ bin_walk st fuel p) : p ≠ 0 := by
  intro e
  subst e
  cases fuel with
  | zero => simp [bin_walk] at h
  | succ n => simp [bin_walk] at h

theorem release_scan_zero (h : heap_t) (hz : (release_scan h).1 = 0) :
    ∀ k f, k < 9 → f < 2 → h.super_bases k f = 0 := by
  intro k f hk hf
  by_contra hne
  unfold release_scan at hz
  cases hfind : (((List.range 9).map fun i => (i, 0)) ++ ((List.range 9).map fun i => (i, 1))).find?
      fun (ik : Nat × Nat) => decide (h.super_bases ik.1 ik.2 ≠ 0) with
  | some ik =>
    rw [hfind] at hz
    have := List.find?_some hfind
    simp only [decide_eq_true_eq] at this
    exact this hz
  | none =>
    rw [List.find?_eq_none] at hfind
    have hmem : (k, f) ∈ ((List.range 9).map fun i => (i, 0)) ++
        ((List.range 9).map fun i => (i, 1)) := by
      have hf' : f = 0 ∨ f = 1 := by omega
      rcases hf' with rfl | rfl
      · exact List.mem_append_left _ (List.mem_map.2 ⟨k, List.mem_range.2 hk, rfl⟩)
      · exact List.mem_append_right _ (List.mem_map.2 ⟨k, List.mem_range.2 hk, rfl⟩)
    have := hfind (k, f) hmem
    simp only [decide_eq_true_eq] at this
    exact this hne

theorem sum_ge_of_each (st : State) (c : Int) :
    ∀ sbs : List Nat, (∀ p ∈ sbs, c ≤ super_bytes st p) →
      c * (sbs.length : Int) ≤ (sbs.map (super_bytes st)).sum := by
  intro sbs
  induction sbs with
  | nil => intro _; simp
  | cons x xs ih =>
    intro h
    have h1 := h x (List.mem_cons_self _ _)
    have h2 := ih (fun p hp => h p (List.mem_cons_of_mem _ hp))
    simp only [List.length_cons, List.map_cons, List.sum_cons, Nat.cast_add, Nat.cast_one]
    linarith

set_option maxRecDepth 100000 in
theorem capacity_mul : ∀ c ∈ block_sizes, capacity c * c = 4096 ∧ 0 < capacity c := by decide

/-- A heap past the emptiness threshold whose counters account for its
superblocks has a superblock in a bin of fullness 0 or 1. -/
theorem scan_finds (st : State) (h : Nat) (sbs : List Nat)
    (ha : (st.heaptable h).a = 4096 * (sbs.length : Int))
    (hu : (st.heaptable h).u = (sbs.map (super_bytes st)).sum)
    (hb : ∀ p ∈ sbs, ∃ s k, get_super st p = some s ∧ s.block_class ∈ block_sizes ∧
      0 ≤ s.u ∧ k < 9 ∧
      (st.heaptable h).super_bases k (4 * s.u.toNat / capacity s.block_class + 1) ≠ 0)
    (ht : empty_threshold (st.heaptable h) = true) :
    (release_scan (st.heaptable h)).1 ≠ 0 := by
  intro hz
  have hempty := release_scan_zero _ hz
  have hge : (1024 : Int) * (sbs.length : Int) ≤ (sbs.map (super_bytes st)).sum := by
    refine sum_ge_of_each st 1024 sbs ?_
    intro p hp
    obtain ⟨s, k, hs, hc, hu0, hk, hhead⟩ := hb p hp
    have hf2 : ¬ (4 * s.u.toNat / capacity s.block_class + 1 < 2) := by
      intro hlt
      exact hhead (hempty k _ hk hlt)
    obtain ⟨hcm, hcp⟩ := capacity_mul _ hc
    have h1 : 1 ≤ 4 * s.u.toNat / capacity s.block_class := by omega
    have h2 : capacity s.block_class ≤ 4 * s.u.toNat := by
      have := (Nat.le_div_iff_mul_le hcp).1 h1
      omega
    have h3 : 4096 ≤ 4 * (s.u.toNat * s.block_class) := by
      calc 4096 = capacity s.block_class * s.block_class := hcm.symm
        _ ≤ 4 * s.u.toNat * s.block_class := Nat.mul_le_mul_right _ h2
        _ = 4 * (s.u.toNat * s.block_class) := by ring
    unfold super_bytes
    rw [hs]
    have h4 : s.u = ((s.u.toNat : Nat) : Int) := (Int.toNat_of_nonneg hu0).symm
    show (1024 : Int) ≤ s.u * (s.block_class : Int)
    rw [h4]
    have : (1024 : Int) ≤ ((s.u.toNat * s.block_class : Nat) : Int) := by
      have : 1024 ≤ s.u.toNat * s.block_class := by omega
      exact_mod_cast this
    simpa using this
  unfold empty_threshold at ht
  simp only [decide_eq_true_eq] at ht
  rw [ha, ← hu] at *
  have hdiv : Int.tdiv (4096 * (sbs.length : Int)) 4 = 1024 * (sbs.length : Int) := by
    have : (4096 : Int) * (sbs.length : Int) = 4 * (1024 * (sbs.length : Int)) := by ring
    rw [this, Int.mul_tdiv_cancel_left _ (by decide)]
  rw [hdiv] at ht
  omega

theorem in_formula_bin_spec {st : State} {h p : Nat} (hb : in_formula_bin st h p = true) :
    ∃ s, get_super st p = some s ∧ s.block_class ∈ block_sizes ∧ 0 ≤ s.u ∧
      p ∈ bin_list st h (class_index s.block_class)
        (4 * s.u.toNat / capacity s.block_class + 1) := by
  unfold in_formula_bin at hb
  cases hs : get_super st p with
  | none => rw [hs] at hb; cases hb
  | some s =>
    rw [hs] at hb
    simp only [Bool.and_eq_true, decide_eq_true_eq] at hb
    exact ⟨s, rfl, hb.1.1, hb.1.2, hb.2⟩

/-- C20: let `sbs` be the superblocks linked in the heap `h`, with (i)
`h.a = 4096 * #sbs`, (ii) `h.u` the sum of `u * block_class` over them and (iii)
every one of them in the bin `floor(4 * u / capacity) + 1` of its class.  If
`h.u < h.a / 4` and `h.u < h.a - 8 * 4096`, a bin of fullness 0 or 1 of `h` is
not empty: the scan of `mm_free` stops at a non-null superblock, the head of
the bin `(k, f)` with `f <= 1`, and that is the superblock `free_release` hands
to `move_superblk`. -/
theorem release_scan_finds (st : State) (h : Nat) (sbs : List Nat)
    (ha : (st.heaptable h).a = 4096 * (sbs.length : Int))
    (hu : (st.heaptable h).u = (sbs.map (super_bytes st)).sum)
    (hb : ∀ p ∈ sbs, in_formula_bin st h p = true)
    (ht : empty_threshold (st.heaptable h) = true) :
    (release_scan (st.heaptable h)).1 ≠ 0 ∧
      (release_scan (st.heaptable h)).2.1 < 9 ∧ (release_scan (st.heaptable h)).2.2 < 2 ∧
      (release_scan (st.heaptable h)).1 =
        (st.heaptable h).super_bases (release_scan (st.heaptable h)).2.1
          (release_scan (st.heaptable h)).2.2 ∧
      (0 < h → h < st.nheaps → free_release st (h : Int) =
        (move_superblk st (release_scan (st.heaptable h)).1
          ((h : Int), ((release_scan (st.heaptable h)).2.1 : Int),
            ((release_scan (st.heaptable h)).2.2 : Int))
          (0, ((release_scan (st.heaptable h)).2.1 : Int),
            ((release_scan (st.heaptable h)).2.2 : Int))).bind fun s => unlock_heap s (h : Int)) := by
  have hne : (release_scan (st.heaptable h)).1 ≠ 0 := by
    refine scan_finds st h sbs ha hu ?_ ht
    intro p hp
    obtain ⟨s, hs, hc, hu0, hmem⟩ := in_formula_bin_spec (hb p hp)
    exact ⟨s, class_index s.block_class, hs, hc, hu0, class_index_lt _ hc, bin_walk_ne_nil hmem⟩
  obtain ⟨h1, h2, h3⟩ := release_scan_spec _ hne
  refine ⟨hne, h1, h2, h3, ?_⟩
  intro h0 hn
  unfold free_release
  have hh0 : ¬ ((h : Int) = 0) := by omega
  rw [if_neg hh0]
  have hat : heap_at st (h : Int) = some (st.heaptable h) := by
    have := heap_at_nat st h
    simpa [hn] using this
  rw [hat]
  simp only [Option.some_bind]
  unfold empty_threshold at ht
  simp only [decide_eq_true_eq] at ht
  rw [if_pos ht, if_neg hne]

set_option maxRecDepth 1000000 in
/-- Witness for C20: the heap of CPU 0 in `threshold_state`. -/
theorem release_scan_finds_witness :
    empty_threshold (threshold_state.heaptable 1) = true ∧
      (release_scan (threshold_state.heaptable 1)).1 ≠ 0 := by
  refine ⟨by decide, (release_scan_finds threshold_state 1 (heap_supers threshold_state 1)
    (by decide) (by decide) (by decide) (by decide)).1⟩

/-! ## Ranks: the position of a superblock in its bin list -/

theorem Lists.lists_prev_loc {st : State} {loc : Nat → Int × Int × Int} (hl : Lists st loc)
    {p : Nat} {s : superblk_t} (hs : get_super st p = some s) (hp : s.prev ≠ 0) :
    ∃ m, get_super st s.prev = some m ∧ m.next = p ∧ loc s.prev = loc p := by
  obtain ⟨m, h1, h2⟩ := hl.prev p s hs hp
  have hpn : m.next ≠ 0 := by rw [h2]; exact get_super_ne_zero hs
  obtain ⟨_, _, _, h3⟩ := hl.next s.prev m h1 hpn
  rw [h2] at h3
  exact ⟨m, h1, h2, h3.symm⟩

theorem Rooted.rooted_inj {st : State} {loc : Nat → Int × Int × Int} {rank : Nat → Nat}
    (hl : Lists st loc) (hr : Rooted st loc rank) :
    ∀ (n p q : Nat) (s t : superblk_t), rank p = n → get_super st p = some s →
      get_super st q = some t → loc p = loc q → rank q = n → p = q := by
  intro n
  induction n with
  | zero =>
    intro p q s t hp hs ht hloc hq
    have hsp : s.prev = 0 := by
      by_contra h
      have := hr.step p s hs h
      omega
    have htp : t.prev = 0 := by
      by_contra h
      have := hr.step q t ht h
      omega
    obtain ⟨_, h1, _⟩ := hr.root p s hs hsp
    obtain ⟨_, h2, _⟩ := hr.root q t ht htp
    rw [← h1, ← h2, hloc]
  | succ n ih =>
    intro p q s t hp hs ht hloc hq
    have hsp : s.prev ≠ 0 := by
      intro h
      have := (hr.root p s hs h).2.2
      omega
    have htp : t.prev ≠ 0 := by
      intro h
      have := (hr.root q t ht h).2.2
      omega
    obtain ⟨m1, hm1, hn1, hl1⟩ := hl.lists_prev_loc hs hsp
    obtain ⟨m2, hm2, hn2, hl2⟩ := hl.lists_prev_loc ht htp
    have e1 := hr.step p s hs hsp
    have e2 := hr.step q t ht htp
    have hpq : s.prev = t.prev :=
      ih s.prev t.prev m1 m2 (by omega) hm1 hm2 (by rw [hl1, hl2, hloc]) (by omega)
    rw [hpq, hm2] at hm1
    cases hm1
    rw [← hn1, ← hn2]

theorem Rooted.rooted_move {st st1 : State} {loc : Nat → Int × Int × Int} {rank : Nat → Nat}
    {p : Nat} {s : superblk_t} {src dest : Int × Int × Int} (hl : Lists st loc)
    (hr : Rooted st loc rank) (hs : get_super st p = some s)
    (hloc : loc p = src) (hne : src ≠ dest) (hvd : ValidBin st dest)
    (hu : Upd st st1 (moved p (bin_of st dest) s src dest) (moved_bin p s src dest)) :
    Rooted st1 (Function.update loc p dest) (moved_rank p loc rank src dest) := by
  have hp0 : p ≠ 0 := get_super_ne_zero hs
  have F1 : bin_of st dest ≠ 0 → ∃ sd, get_super st (bin_of st dest) = some sd ∧ sd.prev = 0 ∧
      loc (bin_of st dest) = dest := hl.head dest hvd
  have F2 : s.next ≠ 0 → ∃ sn, get_super st s.next = some sn ∧ sn.prev = p ∧
      loc s.next = src := by
    intro h
    obtain ⟨sn, h1, h2, h3⟩ := hl.next p s hs h
    exact ⟨sn, h1, h2, h3.trans hloc⟩
  have F3 : s.prev ≠ 0 → ∃ sm, get_super st s.prev = some sm ∧ sm.next = p ∧
      loc s.prev = src := by
    intro h
    obtain ⟨sm, h1, h2, h3⟩ := hl.lists_prev_loc hs h
    exact ⟨sm, h1, h2, h3.trans hloc⟩
  have hinj := hr.rooted_inj hl
  constructor
  · -- roots
    intro x r1 hx1 hprev
    obtain ⟨r, hx, rfl⟩ := hu.upd_get_inv hx1
    by_cases hxp : x = p
    · subst hxp
      rw [Function.update_same]
      refine ⟨(hu.upd_validBin dest).2 hvd, ?_, ?_⟩
      · rw [hu.bins dest hvd]
        unfold moved_bin
        rw [if_pos rfl]
      · unfold moved_rank
        rw [if_pos rfl]
    · rw [Function.update_noteq hxp]
      have hprev' : (if x = bin_of st dest ∧ bin_of st dest ≠ 0 then p
          else if x = s.next ∧ s.next ≠ 0 then s.prev else r.prev) = 0 := by
        have : (moved p (bin_of st dest) s src dest x r).prev = 0 := hprev
        unfold moved at this
        simpa [hxp] using this
      by_cases hxd : x = bin_of st dest ∧ bin_of st dest ≠ 0
      · rw [if_pos hxd] at hprev'
        exact absurd hprev' hp0
      · rw [if_neg hxd] at hprev'
        by_cases hxn : x = s.next ∧ s.next ≠ 0
        · rw [if_pos hxn] at hprev'
          obtain ⟨hv, hb, hrk⟩ := hr.root p s hs hprev'
          rw [hloc] at hv hb
          obtain ⟨sn, hsn, hsnp, hsnl⟩ := F2 hxn.2
          rw [← hxn.1] at hsn hsnl
          rw [hx] at hsn
          cases hsn
          have hstep := hr.step x r hx (by rw [hsnp]; exact hp0)
          rw [hsnp] at hstep
          rw [hsnl]
          refine ⟨(hu.upd_validBin src).2 hv, ?_, ?_⟩
          · rw [hu.bins src hv]
            unfold moved_bin
            rw [if_neg hne, if_pos ⟨hprev', rfl⟩]
            exact hxn.1.symm
          · unfold moved_rank
            rw [if_neg hxp, hsnl, if_neg hne, if_pos ⟨rfl, by omega⟩]
            omega
        · rw [if_neg hxn] at hprev'
          obtain ⟨hv, hb, hrk⟩ := hr.root x r hx hprev'
          have hld : loc x ≠ dest := by
            intro e
            rw [e] at hb
            apply hxd
            refine ⟨hb.symm, ?_⟩
            rw [hb]
            exact get_super_ne_zero hx
          refine ⟨(hu.upd_validBin _).2 hv, ?_, ?_⟩
          · rw [hu.bins _ hv]
            unfold moved_bin
            rw [if_neg hld]
            by_cases hc : s.prev = 0 ∧ loc x = src
            · exfalso
              obtain ⟨_, hb2, _⟩ := hr.root p s hs hc.1
              rw [hloc, ← hc.2, hb] at hb2
              exact hxp hb2
            · rw [if_neg hc]
              exact hb
          · unfold moved_rank
            rw [if_neg hxp, if_neg hld, hrk]
            split_ifs <;> rfl
  · -- steps
    intro x r1 hx1 hprev
    obtain ⟨r, hx, rfl⟩ := hu.upd_get_inv hx1
    have hxp : x ≠ p := by
      intro e
      apply hprev
      unfold moved
      simp [e]
    have hprev' : (moved p (bin_of st dest) s src dest x r).prev =
        (if x = bin_of st dest ∧ bin_of st dest ≠ 0 then p
          else if x = s.next ∧ s.next ≠ 0 then s.prev else r.prev) := by
      unfold moved
      simp [hxp]
    rw [hprev'] at hprev ⊢
    by_cases hxd : x = bin_of st dest ∧ bin_of st dest ≠ 0
    · rw [if_pos hxd] at hprev ⊢
      obtain ⟨sd, hsd, hsdp, hsdl⟩ := F1 hxd.2
      rw [← hxd.1] at hsd hsdl
      rw [hx] at hsd
      cases hsd
      obtain ⟨_, _, hrk⟩ := hr.root x r hx hsdp
      unfold moved_rank
      rw [if_neg hxp, if_pos hsdl, if_pos rfl, hrk]
    · rw [if_neg hxd] at hprev ⊢
      by_cases hxn : x = s.next ∧ s.next ≠ 0
      · rw [if_pos hxn] at hprev ⊢
        obtain ⟨sn, hsn, hsnp, hsnl⟩ := F2 hxn.2
        rw [← hxn.1] at hsn hsnl
        rw [hx] at hsn
        cases hsn
        have hstep := hr.step x r hx (by rw [hsnp]; exact hp0)
        rw [hsnp] at hstep
        obtain ⟨sm, hsm, hsmn, hsml⟩ := F3 hprev
        have hstep2 := hr.step p s hs hprev
        have hmp : s.prev ≠ p := by
          intro e
          rw [e] at hstep2
          omega
        unfold moved_rank
        rw [if_neg hxp, hsnl, if_neg hne, if_pos ⟨rfl, by omega⟩, if_neg hmp, hsml, if_neg hne,
          if_neg (by omega)]
        omega
      · rw [if_neg hxn] at hprev ⊢
        obtain ⟨m, hm, hmn, hml⟩ := hl.lists_prev_loc hx hprev
        have hstep := hr.step x r hx hprev
        have hyp : r.prev ≠ p := by
          intro e
          rw [e, hs] at hm
          cases hm
          apply hxn
          exact ⟨hmn.symm, by rw [hmn]; exact get_super_ne_zero hx⟩
        unfold moved_rank
        rw [if_neg hxp, if_neg hyp, hml]
        by_cases hd : loc x = dest
        · rw [if_pos hd, if_pos hd]
          omega
        · rw [if_neg hd, if_neg hd]
          by_cases hsrc : loc x = src
          · have hrne : rank r.prev ≠ rank p := by
              intro e
              exact hyp (hinj _ _ _ _ _ rfl hm hs (by rw [hml, hsrc, hloc]) e.symm)
            by_cases hlt : rank p < rank x
            · rw [if_pos ⟨hsrc, hlt⟩, if_pos ⟨hsrc, by omega⟩]
              omega
            · rw [if_neg (fun h => hlt h.2), if_neg (fun h => hlt (by omega))]
              exact hstep
          · rw [if_neg (fun h => hsrc h.1), if_neg (fun h => hsrc h.1)]
            exact hstep

theorem Rooted.rooted_content {st st1 : State} {loc : Nat → Int × Int × Int} {rank : Nat → Nat}
    {g : Nat → superblk_t → superblk_t} (hu : Upd st st1 g (fun _ v => v))
    (hg : ∀ x r, (g x r).next = r.next ∧ (g x r).prev = r.prev) (hr : Rooted st loc rank) :
    Rooted st1 loc rank := by
  constructor
  · intro p s1 hs1 hp
    obtain ⟨r, hr0, rfl⟩ := hu.upd_get_inv hs1
    rw [(hg p r).2] at hp
    obtain ⟨h1, h2, h3⟩ := hr.root p r hr0 hp
    exact ⟨(hu.upd_validBin _).2 h1, by rw [hu.bins _ h1]; exact h2, h3⟩
  · intro p s1 hs1 hp
    obtain ⟨r, hr0, rfl⟩ := hu.upd_get_inv hs1
    rw [(hg p r).2] at hp ⊢
    exact hr.step p r hr0 hp

theorem Rooted.rooted_congr_loc {st : State} {loc loc1 : Nat → Int × Int × Int}
    {rank : Nat → Nat} (h : ∀ x s, get_super st x = some s → loc x = loc1 x)
    (hr : Rooted st loc rank) : Rooted st loc1 rank := by
  constructor
  · intro p s hs hp
    rw [← h p s hs]
    exact hr.root p s hs hp
  · exact hr.step

theorem Rooted.rooted_same {st st1 : State} {loc : Nat → Int × Int × Int} {rank : Nat → Nat}
    (h : Same st st1) (hr : Rooted st loc rank) : Rooted st1 loc rank := by
  have hv : ∀ b, ValidBin st1 b ↔ ValidBin st b := by
    intro b
    unfold ValidBin
    rw [h.nheaps]
  constructor
  · intro p s hs hp
    rw [h.sup] at hs
    rw [hv, h.bins]
    exact hr.root p s hs hp
  · intro p s hs hp
    rw [h.sup] at hs
    exact hr.step p s hs hp

theorem Rooted.rooted_fresh {st st1 : State} {s0 : superblk_t} {b : Int × Int × Int}
    {loc : Nat → Int × Int × Int} {rank : Nat → Nat} (hl : Lists st loc)
    (hr : Rooted st loc rank) (hf : Fresh st st1 s0 b) (hnone : get_super st st.mem_brk = none)
    (h0 : s0.prev = 0 ∧ s0.next = 0) (hempty : bin_of st b = 0) :
    Rooted st1 (Function.update loc st.mem_brk b) (Function.update rank st.mem_brk 0) := by
  have hne : ∀ {x s}, get_super st x = some s → x ≠ st.mem_brk := by
    intro x s hs e
    rw [e, hnone] at hs
    cases hs
  have hvalid : ∀ b', ValidBin st1 b' ↔ ValidBin st b' := by
    intro b'
    unfold ValidBin
    rw [hf.nheaps]
  constructor
  · intro p s hs hp
    rw [hf.sup] at hs
    by_cases hpb : p = st.mem_brk
    · subst hpb
      rw [Function.update_same, Function.update_same]
      refine ⟨(hvalid b).2 hf.valid, ?_, rfl⟩
      rw [hf.bins b hf.valid, if_pos rfl]
    · rw [if_neg hpb] at hs
      rw [Function.update_noteq hpb, Function.update_noteq hpb]
      obtain ⟨h1, h2, h3⟩ := hr.root p s hs hp
      refine ⟨(hvalid _).2 h1, ?_, h3⟩
      rw [hf.bins _ h1]
      have : loc p ≠ b := by
        intro e
        rw [e, hempty] at h2
        exact get_super_ne_zero hs h2.symm
      rw [if_neg this]
      exact h2
  · intro p s hs hp
    rw [hf.sup] at hs
    by_cases hpb : p = st.mem_brk
    · rw [if_pos hpb] at hs
      simp only [Option.some.injEq] at hs
      subst hs
      exact absurd h0.1 hp
    · rw [if_neg hpb] at hs
      have hpne : s.prev ≠ st.mem_brk := by
        obtain ⟨m, hm, _⟩ := hl.prev p s hs hp
        exact hne hm
      rw [Function.update_noteq hpb, Function.update_noteq hpne]
      exact hr.step p s hs hp

/-! ## The counters and the locks through the primitive operations -/

theorem Frame.frame_refl (st : State) : Frame st st :=
  ⟨fun _ => rfl, fun _ => rfl, fun _ => rfl, rfl⟩

theorem Frame.frame_trans {a b c : State} (h1 : Frame a b) (h2 : Frame b c) : Frame a c :=
  ⟨fun h => (h2.u h).trans (h1.u h), fun h => (h2.a h).trans (h1.a h),
    fun h => (h2.lock h).trans (h1.lock h), h2.sys.trans h1.sys⟩

theorem modify_super_frame {st st1 : State} {q : Nat} {f : superblk_t → superblk_t}
    (h : modify_super st q f = some st1) : Frame st st1 := by
  rw [modify_super_map] at h
  cases hs : get_super st q with
  | none => rw [hs] at h; cases h
  | some s =>
    rw [hs] at h
    simp only [Option.map_some', Option.some.injEq] at h
    subst h
    exact ⟨fun _ => rfl, fun _ => rfl, fun _ => rfl, rfl⟩

theorem modify_node_frame {st st1 : State} {q : Nat} {f : node_t → node_t}
    (h : modify_node st q f = some st1) : Frame st st1 := by
  rw [modify_node_map] at h
  cases hs : get_node st q with
  | none => rw [hs] at h; cases h
  | some s =>
    rw [hs] at h
    simp only [Option.map_some', Option.some.injEq] at h
    subst h
    exact ⟨fun _ => rfl, fun _ => rfl, fun _ => rfl, rfl⟩

theorem store_frame {st st1 : State} {q : Nat} {o : Obj} (h : store st q o = some st1) :
    Frame st st1 := by
  unfold store at h
  split_ifs at h
  simp only [Option.some.injEq] at h
  subst h
  exact ⟨fun _ => rfl, fun _ => rfl, fun _ => rfl, rfl⟩

theorem modify_heap_spec {st st1 : State} {i : Int} {f : heap_t → heap_t}
    (h : modify_heap st i f = some st1) :
    0 ≤ i ∧ i.toNat < st.nheaps ∧ st1 = set_heap st i (f (st.heaptable i.toNat)) := by
  unfold modify_heap at h
  cases hh : heap_at st i with
  | none => rw [hh] at h; cases h
  | some h0 =>
    rw [hh] at h
    simp only [Option.some_bind, Option.some.injEq] at h
    obtain ⟨h1, h2, rfl⟩ := heap_at_eq_some hh
    exact ⟨h1, h2, h.symm⟩

theorem modify_heap_frame {st st1 : State} {i : Int} {f : heap_t → heap_t}
    (h : modify_heap st i f = some st1)
    (hf : ∀ x, (f x).u = x.u ∧ (f x).a = x.a ∧ (f x).heap_lock = x.heap_lock) :
    Frame st st1 := by
  obtain ⟨_, _, rfl⟩ := modify_heap_spec h
  refine ⟨?_, ?_, ?_, rfl⟩ <;> intro j <;> simp only [set_heap_heaptable] <;>
    split_ifs with hj
  · rw [hj]; exact (hf _).1
  · rfl
  · rw [hj]; exact (hf _).2.1
  · rfl
  · rw [hj]; exact (hf _).2.2
  · rfl

theorem set_bin_frame {st st1 : State} {hp c f : Int} {v : Nat}
    (h : set_bin st hp c f v = some st1) : Frame st st1 := by
  unfold set_bin at h
  split_ifs at h
  exact modify_heap_frame h (fun _ => ⟨rfl, rfl, rfl⟩)

theorem unlink_super_frame {st st1 : State} {p : Nat} {src : Int × Int × Int}
    (h : unlink_super st p src = some st1) : Frame st st1 := by
  unfold unlink_super at h
  simp only [Option.bind_eq_some] at h
  obtain ⟨s, _, sta, h1, s', _, h2⟩ := h
  have f1 : Frame st sta := by
    split_ifs at h1
    · exact modify_super_frame h1
    · simp only [Option.some.injEq] at h1
      subst h1
      exact Frame.frame_refl _
  have f2 : Frame sta st1 := by
    split_ifs at h2
    · exact modify_super_frame h2
    · exact set_bin_frame h2
  exact f1.frame_trans f2

theorem push_super_frame {st st1 : State} {p : Nat} {dest : Int × Int × Int}
    (h : push_super st p dest = some st1) : Frame st st1 := by
  unfold push_super at h
  simp only [Option.bind_eq_some] at h
  obtain ⟨d, _, sta, h1, stb, h2, h3⟩ := h
  have f1 : Frame st sta := by
    split_ifs at h1
    · exact modify_super_frame h1
    · simp only [Option.some.injEq] at h1
      subst h1
      exact Frame.frame_refl _
  exact (f1.frame_trans (modify_super_frame h2)).frame_trans (set_bin_frame h3)

/-- The counters after `move_superblk`: nothing changes inside one heap; from
one heap to another `u * block_class` and `superblk_size` change sides. -/
theorem move_superblk_cnt {st st1 : State} {p : Nat} {s : superblk_t}
    {src dest : Int × Int × Int} (hs : get_super st p = some s)
    (h : move_superblk st p src dest = some st1) :
    (dest.1 = src.1 → Frame st st1) ∧
    (dest.1 ≠ src.1 → 0 ≤ src.1 ∧ src.1.toNat < st.nheaps ∧ 0 ≤ dest.1 ∧
      dest.1.toNat < st.nheaps ∧
      (∀ h, (st1.heaptable h).u =
          (if h = dest.1.toNat then int32 ((st.heaptable h).u + s.u * (s.block_class : Int))
          else if h = src.1.toNat then int32 ((st.heaptable h).u - s.u * (s.block_class : Int))
          else (st.heaptable h).u)) ∧
      (∀ h, (st1.heaptable h).a =
          (if h = dest.1.toNat then int32 ((st.heaptable h).a + (superblk_size : Int))
          else if h = src.1.toNat then int32 ((st.heaptable h).a - (superblk_size : Int))
          else (st.heaptable h).a)) ∧
      (∀ h, (st1.heaptable h).heap_lock = (st.heaptable h).heap_lock) ∧
      st1.system_lock = st.system_lock) := by
  unfold move_superblk at h
  simp only [Option.bind_eq_some] at h
  obtain ⟨sta, h1, stb, h2, h3⟩ := h
  have f1 := unlink_super_frame h1
  have f2 := push_super_frame h2
  have f12 := f1.frame_trans f2
  obtain ⟨s0, hs0, _, hua⟩ := unlink_super_upd h1
  rw [hs] at hs0
  cases hs0
  obtain ⟨_, _, hub⟩ := push_super_upd h2
  have hsb := (hua.upd_trans hub).upd_get hs
  unfold transfer_super at h3
  constructor
  · intro he
    rw [if_neg (by simpa using he)] at h3
    simp only [Option.some.injEq] at h3
    subst h3
    exact f12
  · intro hne
    rw [if_pos hne] at h3
    simp only [Option.bind_eq_some] at h3
    obtain ⟨stc, h4, s4, hs4, std, h5, h6⟩ := h3
    obtain ⟨_, huc⟩ := modify_super_upd h4
    have hs4' := huc.upd_get hsb
    rw [hs4] at hs4'
    simp only [if_pos, Option.some.injEq] at hs4'
    have hu4 : s4.u = s.u := by rw [hs4']
    have hc4 : s4.block_class = s.block_class := by rw [hs4']
    have f3 := modify_super_frame h4
    obtain ⟨a1, a2, rfl⟩ := modify_heap_spec h5
    obtain ⟨b1, b2, rfl⟩ := modify_heap_spec h6
    have hn : stc.nheaps = st.nheaps := by
      rw [huc.nheaps, hub.nheaps, hua.nheaps]
    have hsd : src.1.toNat ≠ dest.1.toNat := by
      intro e
      exact hne ((toNat_inj b1 a1).1 e.symm)
    have f123 := f12.frame_trans f3
    refine ⟨a1, by rw [← hn]; exact a2, b1, by rw [← hn]; simpa using b2, ?_, ?_, ?_, ?_⟩
    · intro j
      simp only [set_heap_heaptable]
      rw [hu4, hc4]
      by_cases hjd : j = dest.1.toNat
      · have hjs : ¬ j = src.1.toNat := by rw [hjd]; exact fun e => hsd e.symm
        rw [if_pos hjd, if_pos hjd]
        simp only [if_neg (fun e => hsd e.symm : ¬ dest.1.toNat = src.1.toNat)]
        rw [← hjd, f123.u, int32_add_right]
      · rw [if_neg hjd, if_neg hjd]
        by_cases hjs : j = src.1.toNat
        · rw [if_pos hjs, if_pos hjs]
          rw [← hjs, f123.u, int32_sub_right]
        · rw [if_neg hjs, if_neg hjs, f123.u]
    · intro j
      simp only [set_heap_heaptable]
      by_cases hjd : j = dest.1.toNat
      · have hjs : ¬ j = src.1.toNat := by rw [hjd]; exact fun e => hsd e.symm
        rw [if_pos hjd, if_pos hjd]
        simp only [if_neg (fun e => hsd e.symm : ¬ dest.1.toNat = src.1.toNat)]
        rw [← hjd, f123.a]
      · rw [if_neg hjd, if_neg hjd]
        by_cases hjs : j = src.1.toNat
        · rw [if_pos hjs, if_pos hjs]
          rw [← hjs, f123.a]
        · rw [if_neg hjs, if_neg hjs, f123.a]
    · intro j
      simp only [set_heap_heaptable]
      by_cases hjd : j = dest.1.toNat
      · have hjs : ¬ j = src.1.toNat := by rw [hjd]; exact fun e => hsd e.symm
        rw [if_pos hjd]
        simp only [if_neg (fun e => hsd e.symm : ¬ dest.1.toNat = src.1.toNat)]
        rw [← hjd, f123.lock]
      · rw [if_neg hjd]
        by_cases hjs : j = src.1.toNat
        · rw [if_pos hjs, ← hjs, f123.lock]
        · rw [if_neg hjs, f123.lock]
    · exact f123.sys

/-! ## The counters account for the superblocks -/

theorem sum_point {S : Finset Nat} {f g : Nat → Int} {p : Nat} (hp : p ∈ S)
    (h : ∀ x ∈ S, x ≠ p → g x = f x) : S.sum g = S.sum f + (g p - f p) := by
  rw [← Finset.add_sum_erase S g hp, ← Finset.add_sum_erase S f hp]
  have : (S.erase p).sum g = (S.erase p).sum f :=
    Finset.sum_congr rfl (fun x hx => h x (Finset.mem_of_mem_erase hx) (Finset.ne_of_mem_erase hx))
  rw [this]
  ring

theorem Upd.upd_mem {st st1 : State} {g : Nat → superblk_t → superblk_t}
    {β : Int × Int × Int → Nat → Nat} (hu : Upd st st1 g β) (x : Nat) :
    (∃ s, get_super st1 x = some s) ↔ ∃ s, get_super st x = some s := by
  constructor
  · rintro ⟨s, hs⟩
    obtain ⟨r, hr, _⟩ := hu.upd_get_inv hs
    exact ⟨r, hr⟩
  · rintro ⟨s, hs⟩
    exact ⟨_, hu.upd_get hs⟩

theorem owned_bytes_upd {st st1 : State} {g : Nat → superblk_t → superblk_t}
    {β : Int × Int × Int → Nat → Nat} (hu : Upd st st1 g β) (h x : Nat)
    (hg : ∀ r, get_super st x = some r → (g x r).heap_num = r.heap_num ∧ (g x r).u = r.u ∧
      (g x r).block_class = r.block_class) :
    owned_bytes st1 h x = owned_bytes st h x := by
  unfold owned_bytes
  rw [hu.sup]
  cases hs : get_super st x with
  | none => rfl
  | some r =>
    obtain ⟨h1, h2, h3⟩ := hg r hs
    simp only [Option.map_some', h1, h2, h3]

theorem owned_page_upd {st st1 : State} {g : Nat → superblk_t → superblk_t}
    {β : Int × Int × Int → Nat → Nat} (hu : Upd st st1 g β) (h x : Nat)
    (hg : ∀ r, get_super st x = some r → (g x r).heap_num = r.heap_num) :
    owned_page st1 h x = owned_page st h x := by
  unfold owned_page
  rw [hu.sup]
  cases hs : get_super st x with
  | none => rfl
  | some r =>
    simp only [Option.map_some', hg r hs]

/-- The accounting is kept by a step that changes neither the owner, the `u`
or the class of a superblock nor a counter of a heap. -/
theorem Acct.acct_keep {st st1 : State} {S : Finset Nat} {g : Nat → superblk_t → superblk_t}
    {β : Int × Int × Int → Nat → Nat} (ha : Acct st S) (hu : Upd st st1 g β)
    (hg : ∀ x r, get_super st x = some r → (g x r).heap_num = r.heap_num ∧ (g x r).u = r.u ∧
      (g x r).block_class = r.block_class)
    (hcu : ∀ h, (st1.heaptable h).u = (st.heaptable h).u)
    (hca : ∀ h, (st1.heaptable h).a = (st.heaptable h).a) : Acct st1 S := by
  refine ⟨fun x => (ha.mem x).trans (hu.upd_mem x).symm, ?_, ?_⟩
  · intro h hh
    rw [hu.nheaps] at hh
    rw [hcu, ha.used h hh]
    exact congrArg int32
      (Finset.sum_congr rfl (fun x _ => (owned_bytes_upd hu h x (hg x)).symm))
  · intro h hh
    rw [hu.nheaps] at hh
    rw [hca, ha.alloc h hh]
    exact congrArg int32
      (Finset.sum_congr rfl (fun x _ => (owned_page_upd hu h x (fun r hr => (hg x r hr).1)).symm))

/-- The accounting is kept when the `u` of the superblock `p` changes by `d`
and the `u` of its owner by `d * block_class`. -/
theorem Acct.acct_charge {st st1 : State} {S : Finset Nat} {g : Nat → superblk_t → superblk_t}
    {β : Int × Int × Int → Nat → Nat} {p : Nat} {s : superblk_t} {d : Int}
    (ha : Acct st S) (hu : Upd st st1 g β) (hs : get_super st p = some s)
    (hown : 0 ≤ s.heap_num)
    (hg : ∀ x r, get_super st x = some r → (g x r).heap_num = r.heap_num ∧
      (g x r).block_class = r.block_class ∧ (x ≠ p → (g x r).u = r.u))
    (hp : (g p s).u = s.u + d)
    (hcu : ∀ h, (st1.heaptable h).u =
      if h = s.heap_num.toNat then int32 ((st.heaptable h).u + d * (s.block_class : Int))
      else (st.heaptable h).u)
    (hca : ∀ h, (st1.heaptable h).a = (st.heaptable h).a) : Acct st1 S := by
  have hpS : p ∈ S := (ha.mem p).2 ⟨s, hs⟩
  refine ⟨fun x => (ha.mem x).trans (hu.upd_mem x).symm, ?_, ?_⟩
  · intro h hh
    rw [hu.nheaps] at hh
    have hsum : S.sum (owned_bytes st1 h) = S.sum (owned_bytes st h) +
        (if h = s.heap_num.toNat then d * (s.block_class : Int) else 0) := by
      rw [sum_point (f := owned_bytes st h) (g := owned_bytes st1 h) hpS]
      · congr 1
        unfold owned_bytes
        rw [hu.upd_get hs, hs]
        obtain ⟨h1, h2, _⟩ := hg p s hs
        simp only [h1, h2, hp]
        by_cases hh' : s.heap_num = (h : Int)
        · have : h = s.heap_num.toNat := by omega
          simp only [if_pos hh', if_pos this]
          ring
        · have : ¬ h = s.heap_num.toNat := by omega
          simp only [if_neg hh', if_neg this]
          ring
      · intro x _ hx
        exact owned_bytes_upd hu h x
          (fun r hr => ⟨(hg x r hr).1, (hg x r hr).2.2 hx, (hg x r hr).2.1⟩)
    rw [hcu, hsum, ha.used h hh]
    split_ifs
    · rw [int32_add_left]
    · rw [add_zero]
  · intro h hh
    rw [hu.nheaps] at hh
    rw [hca, ha.alloc h hh]
    exact congrArg int32
      (Finset.sum_congr rfl (fun x _ => (owned_page_upd hu h x (fun r hr => (hg x r hr).1)).symm))

/-- The accounting is kept when the superblock `p` goes from the heap `src`
to the heap `dst` and the counters follow. -/
theorem Acct.acct_transfer {st st1 : State} {S : Finset Nat}
    {g : Nat → superblk_t → superblk_t} {β : Int × Int × Int → Nat → Nat} {p : Nat}
    {s : superblk_t} {src dst : Int} (ha : Acct st S) (hu : Upd st st1 g β)
    (hs : get_super st p = some s) (hsrc : s.heap_num = src) (h0 : 0 ≤ src) (h1 : 0 ≤ dst)
    (hg : ∀ x r, get_super st x = some r → (g x r).u = r.u ∧
      (g x r).block_class = r.block_class ∧ (x ≠ p → (g x r).heap_num = r.heap_num))
    (hp : (g p s).heap_num = dst) (hds : dst ≠ src)
    (hcu : ∀ h, (st1.heaptable h).u =
          (if h = dst.toNat then int32 ((st.heaptable h).u + s.u * (s.block_class : Int))
          else if h = src.toNat then int32 ((st.heaptable h).u - s.u * (s.block_class : Int))
          else (st.heaptable h).u))
    (hca : ∀ h, (st1.heaptable h).a =
          (if h = dst.toNat then int32 ((st.heaptable h).a + (superblk_size : Int))
          else if h = src.toNat then int32 ((st.heaptable h).a - (superblk_size : Int))
          else (st.heaptable h).a)) : Acct st1 S := by
  have hpS : p ∈ S := (ha.mem p).2 ⟨s, hs⟩
  have e1 : ∀ h : Nat, (dst = (h : Int)) ↔ h = dst.toNat := by intro h; omega
  have e2 : ∀ h : Nat, (src = (h : Int)) ↔ h = src.toNat := by intro h; omega
  have e3 : ∀ h : Nat, h = dst.toNat → ¬ h = src.toNat := by intro h; omega
  refine ⟨fun x => (ha.mem x).trans (hu.upd_mem x).symm, ?_, ?_⟩
  · intro h hh
    rw [hu.nheaps] at hh
    have hsum : S.sum (owned_bytes st1 h) = S.sum (owned_bytes st h)
        + (if h = dst.toNat then s.u * (s.block_class : Int) else 0)
        - (if h = src.toNat then s.u * (s.block_class : Int) else 0) := by
      rw [sum_point (f := owned_bytes st h) (g := owned_bytes st1 h) hpS]
      · unfold owned_bytes
        rw [hu.upd_get hs, hs]
        obtain ⟨h1', h2', _⟩ := hg p s hs
        simp only [h1', h2', hp, hsrc, e1, e2]
        ring
      · intro x _ hx
        exact owned_bytes_upd hu h x
          (fun r hr => ⟨(hg x r hr).2.2 hx, (hg x r hr).1, (hg x r hr).2.1⟩)
    rw [hcu, hsum, ha.used h hh]
    by_cases hd : h = dst.toNat
    · rw [if_pos hd, if_pos hd, if_neg (e3 h hd), int32_add_left, sub_zero]
    · rw [if_neg hd, if_neg hd, add_zero]
      by_cases hsr : h = src.toNat
      · rw [if_pos hsr, if_pos hsr, int32_sub_left]
      · rw [if_neg hsr, if_neg hsr, sub_zero]
  · intro h hh
    rw [hu.nheaps] at hh
    have hsum : S.sum (owned_page st1 h) = S.sum (owned_page st h)
        + (if h = dst.toNat then (superblk_size : Int) else 0)
        - (if h = src.toNat then (superblk_size : Int) else 0) := by
      rw [sum_point (f := owned_page st h) (g := owned_page st1 h) hpS]
      · unfold owned_page
        rw [hu.upd_get hs, hs]
        simp only [hp, hsrc, e1, e2]
        ring
      · intro x _ hx
        exact owned_page_upd hu h x (fun r hr => (hg x r hr).2.2 hx)
    rw [hca, hsum, ha.alloc h hh]
    by_cases hd : h = dst.toNat
    · rw [if_pos hd, if_pos hd, if_neg (e3 h hd), int32_add_left, sub_zero]
    · rw [if_neg hd, if_neg hd, add_zero]
      by_cases hsr : h = src.toNat
      · rw [if_pos hsr, if_pos hsr, int32_sub_left]
      · rw [if_neg hsr, if_neg hsr, sub_zero]

/-- The accounting is kept when a superblock is created on a fresh page for
the global heap, whose counters take it in. -/
theorem Acct.acct_fresh {st st1 : State} {S : Finset Nat} {s0 : superblk_t}
    {b : Int × Int × Int} (ha : Acct st S) (hf : Fresh st st1 s0 b)
    (hnone : get_super st st.mem_brk = none) (hown : s0.heap_num = 0)
    (hcu : ∀ h, (st1.heaptable h).u =
      if h = 0 then int32 ((st.heaptable h).u + s0.u * (s0.block_class : Int))
      else (st.heaptable h).u)
    (hca : ∀ h, (st1.heaptable h).a =
      if h = 0 then int32 ((st.heaptable h).a + (superblk_size : Int))
      else (st.heaptable h).a) : Acct st1 (insert st.mem_brk S) := by
  have hnS : st.mem_brk ∉ S := by
    intro hm
    obtain ⟨s, hs⟩ := (ha.mem _).1 hm
    rw [hnone] at hs
    cases hs
  have hold : ∀ x ∈ S, get_super st1 x = get_super st x := by
    intro x hx
    rw [hf.sup, if_neg (fun e => hnS (by rw [← e]; exact hx))]
  refine ⟨?_, ?_, ?_⟩
  · intro x
    rw [Finset.mem_insert, hf.sup]
    by_cases hx : x = st.mem_brk
    · simp [hx]
    · simp only [hx, if_false, false_or]
      exact ha.mem x
  · intro h hh
    rw [hf.nheaps] at hh
    rw [hcu, ha.used h hh, Finset.sum_insert hnS]
    have e0 : owned_bytes st1 h st.mem_brk = if h = 0 then s0.u * (s0.block_class : Int) else 0 := by
      unfold owned_bytes
      rw [hf.sup, if_pos rfl]
      simp only [hown]
      by_cases h0 : h = 0
      · simp [h0]
      · have : ¬ ((0 : Int) = (h : Int)) := by omega
        simp [h0, this]
    have e1 : S.sum (owned_bytes st1 h) = S.sum (owned_bytes st h) := by
      refine Finset.sum_congr rfl (fun x hx => ?_)
      unfold owned_bytes
      rw [hold x hx]
    rw [e0, e1]
    split_ifs
    · rw [int32_add_left, add_comm]
    · rw [zero_add]
  · intro h hh
    rw [hf.nheaps] at hh
    rw [hca, ha.alloc h hh, Finset.sum_insert hnS]
    have e0 : owned_page st1 h st.mem_brk = if h = 0 then (superblk_size : Int) else 0 := by
      unfold owned_page
      rw [hf.sup, if_pos rfl]
      simp only [hown]
      by_cases h0 : h = 0
      · simp [h0]
      · have : ¬ ((0 : Int) = (h : Int)) := by omega
        simp [h0, this]
    have e1 : S.sum (owned_page st1 h) = S.sum (owned_page st h) := by
      refine Finset.sum_congr rfl (fun x hx => ?_)
      unfold owned_page
      rw [hold x hx]
    rw [e0, e1]
    split_ifs
    · rw [int32_add_left, add_comm]
    · rw [zero_add]

/-- The accounting is kept by a step of the large path. -/
theorem Acct.acct_same {st st1 : State} {S : Finset Nat} (ha : Acct st S) (h : Same st st1)
    (hcu : ∀ h, (st1.heaptable h).u = (st.heaptable h).u)
    (hca : ∀ h, (st1.heaptable h).a = (st.heaptable h).a) : Acct st1 S := by
  refine ⟨?_, ?_, ?_⟩
  · intro x
    rw [h.sup]
    exact ha.mem x
  · intro j hj
    rw [h.nheaps] at hj
    rw [hcu, ha.used j hj]
    refine congrArg int32 (Finset.sum_congr rfl (fun x _ => ?_))
    unfold owned_bytes
    rw [h.sup]
  · intro j hj
    rw [h.nheaps] at hj
    rw [hca, ha.alloc j hj]
    refine congrArg int32 (Finset.sum_congr rfl (fun x _ => ?_))
    unfold owned_page
    rw [h.sup]

/-! ## Ranks and accounting through the steps of the small path -/

theorem Tight.tight_congr_loc {st : State} {loc loc1 : Nat → Int × Int × Int}
    (h : ∀ x s, get_super st x = some s → loc x = loc1 x) (ht : Tight st loc) :
    Tight st loc1 := by
  obtain ⟨rank, hr⟩ := ht.rooted
  exact ⟨⟨rank, hr.rooted_congr_loc h⟩, ht.acct⟩

theorem Tight.tight_sim {st st1 : State} {loc : Nat → Int × Int × Int} (ht : Tight st loc)
    (h : Sim st st1) (hcu : ∀ h, (st1.heaptable h).u = (st.heaptable h).u)
    (hca : ∀ h, (st1.heaptable h).a = (st.heaptable h).a) : Tight st1 loc := by
  obtain ⟨rank, hr⟩ := ht.rooted
  obtain ⟨S, ha⟩ := ht.acct
  exact ⟨⟨rank, hr.rooted_same h.sim_same⟩, ⟨S, ha.acct_same h.sim_same hcu hca⟩⟩

theorem Tight.tight_same {st st1 : State} {loc : Nat → Int × Int × Int} (ht : Tight st loc)
    (h : Same st st1) (hcu : ∀ h, (st1.heaptable h).u = (st.heaptable h).u)
    (hca : ∀ h, (st1.heaptable h).a = (st.heaptable h).a) : Tight st1 loc := by
  obtain ⟨rank, hr⟩ := ht.rooted
  obtain ⟨S, ha⟩ := ht.acct
  exact ⟨⟨rank, hr.rooted_same h⟩, ⟨S, ha.acct_same h hcu hca⟩⟩

theorem lock_heap_frame {st st1 : State} {i : Int} (h : lock_heap st i = some st1) :
    (∀ h, (st1.heaptable h).u = (st.heaptable h).u) ∧
      (∀ h, (st1.heaptable h).a = (st.heaptable h).a) := by
  unfold lock_heap at h
  cases hh : heap_at st i with
  | none => rw [hh] at h; cases h
  | some h0 =>
    rw [hh] at h
    simp only [Option.some_bind] at h
    obtain ⟨_, _, rfl⟩ := heap_at_eq_some hh
    split_ifs at h
    simp only [Option.some.injEq] at h
    subst h
    constructor <;> intro j <;> simp only [set_heap_heaptable] <;> split_ifs with hj
    · rw [hj]
    · rfl
    · rw [hj]
    · rfl

theorem unlock_heap_frame {st st1 : State} {i : Int} (h : unlock_heap st i = some st1) :
    (∀ h, (st1.heaptable h).u = (st.heaptable h).u) ∧
      (∀ h, (st1.heaptable h).a = (st.heaptable h).a) := by
  unfold unlock_heap at h
  obtain ⟨_, _, rfl⟩ := modify_heap_spec h
  constructor <;> intro j <;> simp only [set_heap_heaptable] <;> split_ifs with hj
  · rw [hj]
  · rfl
  · rw [hj]
  · rfl

theorem Tight.tight_lock {st st1 : State} {loc : Nat → Int × Int × Int} {i : Int}
    (ht : Tight st loc) (h : lock_heap st i = some st1) : Tight st1 loc :=
  ht.tight_sim (lock_heap_sim h).1 (lock_heap_frame h).1 (lock_heap_frame h).2

theorem Tight.tight_unlock {st st1 : State} {loc : Nat → Int × Int × Int} {i : Int}
    (ht : Tight st loc) (h : unlock_heap st i = some st1) : Tight st1 loc :=
  ht.tight_sim (unlock_heap_sim h) (unlock_heap_frame h).1 (unlock_heap_frame h).2

/-- Moving a superblock to the bin that its fields name keeps the ranks and
the accounting (compare `relocate`). -/
theorem relocate_tight {st st1 : State} {p : Nat} {s : superblk_t}
    {src dest : Int × Int × Int} {loc : Nat → Int × Int × Int}
    (hl : Lists st loc) (ht : Tight st loc) (hs : get_super st p = some s)
    (hloc : loc p = src) (hother : ∀ x r, x ≠ p → get_super st x = some r → loc x = home_bin r)
    (hne : src ≠ dest) (hh : s.heap_num = src.1)
    (hd : (class_index s.block_class : Int) = dest.2.1 ∧
      (fullness s.u s.block_class).getD 0 = dest.2.2)
    (h : move_superblk st p src dest = some st1) : Tight st1 (loc_of st1) := by
  obtain ⟨s', hs', hvd, _, hu⟩ := move_superblk_upd hne h
  rw [hs] at hs'
  cases hs'
  obtain ⟨rank, hr⟩ := ht.rooted
  obtain ⟨S, ha⟩ := ht.acct
  have hhome : home_bin (moved p (bin_of st dest) s src dest p s) = dest := by
    unfold home_bin
    rw [moved_heap_num, moved_block_class, moved_u, hd.1, hd.2]
    by_cases hc : dest.1 ≠ src.1
    · rw [if_pos ⟨rfl, hc⟩]
    · rw [if_neg (fun hx => hc hx.2), hh]
      have : dest.1 = src.1 := by simpa using hc
      rw [← this]
  constructor
  · refine ⟨_, Rooted.rooted_congr_loc ?_ (hr.rooted_move hl hs hloc hne hvd hu)⟩
    intro x s1 hs1
    obtain ⟨r, hr0, rfl⟩ := hu.upd_get_inv hs1
    rw [loc_of_eq (hu.upd_get hr0)]
    by_cases hx : x = p
    · subst hx
      rw [hs] at hr0
      cases hr0
      rw [Function.update_same, hhome]
    · rw [Function.update_noteq hx, hother x r hx hr0]
      have hc : home_bin (moved p (bin_of st dest) s src dest x r) = home_bin r := by
        refine home_bin_congr ?_ rfl rfl
        rw [moved_heap_num, if_neg (fun h => hx h.1)]
      rw [hc]
  · obtain ⟨c1, c2⟩ := move_superblk_cnt hs h
    by_cases hc : dest.1 = src.1
    · have f := c1 hc
      refine ⟨S, ha.acct_keep hu ?_ f.u f.a⟩
      intro x r _
      refine ⟨?_, rfl, rfl⟩
      rw [moved_heap_num, if_neg (fun h => h.2 hc)]
    · obtain ⟨a1, _, b1, _, hcu, hca, _, _⟩ := c2 hc
      refine ⟨S, ha.acct_transfer hu hs hh a1 b1 ?_ ?_ hc hcu hca⟩
      · intro x r _
        refine ⟨rfl, rfl, fun hx => ?_⟩
        rw [moved_heap_num, if_neg (fun h => hx h.1)]
      · rw [moved_heap_num, if_pos ⟨rfl, hc⟩]

theorem mark_blk_frame {st st1 : State} {bc p blk : Nat} {use : Bool}
    (h : mark_blk st bc p use = some (some (blk, st1))) : Frame st st1 := by
  unfold mark_blk at h
  simp only [Option.bind_eq_some] at h
  obtain ⟨s, _, h⟩ := h
  split_ifs at h
  · simp only [Option.bind_eq_some, Option.some.injEq, Prod.mk.injEq] at h
    obtain ⟨st2, hm, _, rfl⟩ := h
    exact modify_super_frame hm
  · cases h
  · simp only [Option.bind_eq_some, Option.some.injEq, Prod.mk.injEq] at h
    obtain ⟨st2, hm, _, rfl⟩ := h
    exact modify_super_frame hm

theorem take_blk_tight {st : State} {live : List Nat} {cpu_id : Int} {c bc p : Nat} {f : Int}
    {use fetched : Bool} {r : small_result} {s : superblk_t}
    (hi : HeapInv st live) (ht : Tight st (loc_of st)) (hs : get_super st p = some s)
    (hhome : home_bin s = (cpu_id + 1, (c : Int), f)) (hf : f < 5)
    (hbc : bc ∈ block_sizes) (hc : class_index bc = c)
    (huse : use = true → Int.tmod (schar (s.block_bit_map 0)) 2 = 0)
    (h : take_blk st cpu_id c bc p f use fetched = some r) :
    Tight r.st (loc_of r.st) := by
  obtain ⟨hh1, hh2, hh3⟩ := home_bin_eq hhome
  have hok := hi.base.supers p s hs
  have hsbc : s.block_class = bc := class_index_inj _ hok.cls _ hbc (hh2.trans hc.symm)
  obtain ⟨f0, hf0, hf1, _, hf3⟩ := hok.superok_fullness
  rw [hf0] at hh3
  simp only [Option.getD_some] at hh3
  have hfree : popcount s.block_bit_map (capacity bc) < capacity bc := by
    rw [← hsbc]
    exact hf3 (by omega)
  unfold take_blk at h
  cases hm : mark_blk st bc p use with
  | none => rw [hm] at h; cases h
  | some mr =>
    rw [hm] at h
    simp only [Option.some_bind] at h
    cases mr with
    | none =>
      simp only [Option.some.injEq] at h
      subst h
      exact ht
    | some bs =>
      obtain ⟨blk, st1⟩ := bs
      simp only [Option.bind_eq_some, Option.some.injEq] at h
      obtain ⟨st5, hch, rfl⟩ := h
      obtain ⟨i, off, hi1, hi2, rfl, hoff, hoi, _, hu1⟩ := mark_blk_spec hs hok hsbc hfree huse hm
      have fr1 := mark_blk_frame hm
      unfold charge_blk at hch
      simp only [Option.bind_eq_some] at hch
      obtain ⟨st2, h2, st3, h3, s3, hs3, nf, hnf, st4, h4, h5⟩ := hch
      obtain ⟨_, hu2⟩ := modify_super_upd h2
      have fr2 := fr1.frame_trans (modify_super_frame h2)
      have hsim3 := modify_heap_sim h3 (fun _ => rfl)
      have hsim5 := unlock_heap_sim h5
      obtain ⟨hc0, _, hst3⟩ := modify_heap_spec h3
      -- the state after the block is marked and counted
      have hU : Upd st st3
          (fun x r => if x = p then
            { r with block_bit_map := set_bit_map r.block_bit_map i, u := r.u + 1 } else r)
          (fun _ v => v) := by
        refine ((hu1.upd_trans hu2).upd_trans hsim3.sim_upd).upd_congr ?_ (fun _ _ => rfl)
        intro x r _
        dsimp only
        split_ifs <;> rfl
      have hs3' : s3 = { s with block_bit_map := set_bit_map s.block_bit_map i, u := s.u + 1 } := by
        have := hU.upd_get hs
        rw [hs3, if_pos rfl] at this
        exact Option.some.inj this
      have hpg := page_of_add p off hok.aligned hoff
      have hbase : BaseInv st3 ((p + off) :: live) := by
        refine hi.base.baseinv_upd hU ?_ ?_
        · intro x r hr hrok
          by_cases hx : x = p
          · subst hx
            rw [hs] at hr
            cases hr
            rw [if_pos rfl]
            exact hok.superok_take (by rw [hsbc]; exact hi1) hi2 hoff (by rw [hsbc]; exact hoi)
              rfl rfl rfl
          · rw [if_neg hx]
            exact hrok.superok_cons_other _ (by rw [hpg.1]; exact fun e => hx e.symm)
        · intro q hq
          rcases List.mem_cons.1 hq with e | e
          · rw [e]
            have := hok.below
            omega
          · exact hi.base.live_below q e
      have hlists : Lists st3 (loc_of st) := by
        refine Lists.lists_content hU ?_ hi.lists
        intro x r
        dsimp only
        split_ifs <;> exact ⟨rfl, rfl⟩
      have ht3 : Tight st3 (loc_of st) := by
        obtain ⟨rank, hr⟩ := ht.rooted
        obtain ⟨S, ha⟩ := ht.acct
        constructor
        · refine ⟨rank, hr.rooted_content hU ?_⟩
          intro x r
          dsimp only
          split_ifs <;> exact ⟨rfl, rfl⟩
        · refine ⟨S, ha.acct_charge (d := 1) hU hs (by rw [hh1]; exact hc0) ?_ ?_ ?_ ?_⟩
          · intro x r _
            dsimp only
            split_ifs with hx
            · exact ⟨rfl, rfl, fun hne => absurd hx hne⟩
            · exact ⟨rfl, rfl, fun _ => rfl⟩
          · rw [if_pos rfl]
          · intro j
            rw [hst3, hh1, hsbc]
            simp only [set_heap_heaptable]
            split_ifs with hj
            · rw [hj, fr2.u, one_mul]
            · rw [fr2.u]
          · intro j
            rw [hst3]
            simp only [set_heap_heaptable]
            split_ifs with hj
            · rw [hj, fr2.a]
            · rw [fr2.a]
      have hother : ∀ x r, x ≠ p → get_super st3 x = some r → loc_of st x = home_bin r := by
        intro x r hx hr
        obtain ⟨r0, hr0, rfl⟩ := hU.upd_get_inv hr
        rw [if_neg hx, loc_of_eq hr0]
      have hnf' : (A2Alloc.fullness s3.u s3.block_class).getD 0 = nf := by
        have : s3.block_class = bc := by rw [hs3']; exact hsbc
        rw [this, hnf]
        rfl
      have ht4 : Tight st4 (loc_of st4) := by
        by_cases hne : nf ≠ f
        · rw [if_pos hne] at h4
          refine relocate_tight hlists ht3 hs3 ((loc_of_eq hs).trans hhome) hother ?_ ?_ ?_ h4
          · intro e
            simp only [Prod.mk.injEq] at e
            exact hne e.2.2.symm
          · rw [hs3']
            exact hh1
          · refine ⟨?_, hnf'⟩
            rw [hs3']
            show (class_index s.block_class : Int) = (c : Int)
            rw [hh2]
        · rw [if_neg hne] at h4
          simp only [Option.some.injEq] at h4
          subst h4
          refine Tight.tight_congr_loc ?_ ht3
          intro x r hr
          rw [loc_of_eq hr]
          by_cases hx : x = p
          · subst hx
            rw [hs3] at hr
            cases hr
            rw [loc_of_eq hs, hhome]
            unfold home_bin
            rw [hnf']
            have : nf = f := by simpa using hne
            rw [this, hs3']
            show (cpu_id + 1, (c : Int), f) = (s.heap_num, (class_index s.block_class : Int), f)
            rw [hh1, hh2]
          · exact hother x r hx hr
      show Tight st5 (loc_of st5)
      rw [hsim5.sim_loc_of]
      exact ht4.tight_unlock h5

theorem lock_system_heaps {st st1 : State} (h : lock_system st = some st1) :
    st1.heaptable = st.heaptable := by
  unfold lock_system at h
  split_ifs at h
  simp only [Option.some.injEq] at h
  subst h
  rfl

theorem mem_sbrk_heaps (st : State) (n : Nat) : (mem_sbrk st n).2.heaptable = st.heaptable := by
  unfold mem_sbrk
  split_ifs <;> rfl

theorem blks_used_large {bc : Nat} (h : ¬ bc < sizeof_superblk_t * 2) : blks_used bc = 0 := by
  unfold blks_used
  rw [if_neg h]

/-- The counters after `fresh_superblk`: the global heap takes the header
blocks and the page in. -/
theorem fresh_superblk_cnt {st st1 : State} {c bc ptr : Nat}
    (h : fresh_superblk st c bc = some (st1, some ptr)) :
    (∀ h, (st1.heaptable h).u =
      if h = 0 ∧ bc < sizeof_superblk_t * 2 then
        int32 ((st.heaptable h).u + ((blks_used bc : Nat) : Int) * (bc : Int))
      else (st.heaptable h).u) ∧
    (∀ h, (st1.heaptable h).a =
      if h = 0 then int32 ((st.heaptable h).a + (superblk_size : Int))
      else (st.heaptable h).a) := by
  unfold fresh_superblk at h
  cases hls : lock_system st with
  | none => rw [hls] at h; cases h
  | some sta =>
    rw [hls] at h
    simp only [Option.some_bind] at h
    have hha := lock_system_heaps hls
    split_ifs at h with h0
    · simp only [Option.some.injEq, Prod.mk.injEq] at h
      cases h.2
    · simp only [Option.bind_eq_some, Option.some.injEq, Prod.mk.injEq] at h
      obtain ⟨std, hcr, ste, hset, stf, hmod, rfl, _⟩ := h
      have hsb := mem_sbrk_heaps sta sta.page_size
      have hd : ∀ j, (std.heaptable j).u =
            (if j = 0 ∧ bc < sizeof_superblk_t * 2 then
              int32 ((st.heaptable j).u + ((blks_used bc : Nat) : Int) * (bc : Int))
            else (st.heaptable j).u) ∧
          (std.heaptable j).a = (st.heaptable j).a := by
        intro j
        unfold create_superblk at hcr
        split_ifs at hcr with hbc0 hsm
        · simp only [Option.bind_eq_some] at hcr
          obtain ⟨stw, hw, hm⟩ := hcr
          have fw := store_frame hw
          obtain ⟨_, _, rfl⟩ := modify_heap_spec hm
          simp only [set_heap_heaptable, Int.toNat_zero]
          have e1 : (stw.heaptable j).u = (st.heaptable j).u := by
            rw [fw.u]
            show ((mem_sbrk sta sta.page_size).2.heaptable j).u = _
            rw [hsb, hha]
          have e2 : (stw.heaptable j).a = (st.heaptable j).a := by
            rw [fw.a]
            show ((mem_sbrk sta sta.page_size).2.heaptable j).a = _
            rw [hsb, hha]
          by_cases hj : j = 0
          · subst hj
            refine ⟨?_, e2⟩
            rw [if_pos rfl, if_pos ⟨rfl, hsm⟩]
            show int32 ((stw.heaptable 0).u + _) = _
            rw [e1]
            push_cast
            rfl
          · rw [if_neg hj, if_neg (fun h => hj h.1)]
            exact ⟨e1, e2⟩
        · simp only [Option.bind_eq_some, Option.some.injEq] at hcr
          obtain ⟨stw, hw, rfl⟩ := hcr
          have fw := store_frame hw
          rw [blks_used_large hsm]
          have e1 : (stw.heaptable j).u = (st.heaptable j).u := by
            rw [fw.u]
            show ((mem_sbrk sta sta.page_size).2.heaptable j).u = _
            rw [hsb, hha]
          have e2 : (stw.heaptable j).a = (st.heaptable j).a := by
            rw [fw.a]
            show ((mem_sbrk sta sta.page_size).2.heaptable j).a = _
            rw [hsb, hha]
          refine ⟨?_, e2⟩
          rw [e1, if_neg (fun h => hsm h.2)]
      have fe := set_bin_frame hset
      obtain ⟨_, _, rfl⟩ := modify_heap_spec hmod
      constructor
      · intro j
        simp only [set_heap_heaptable, Int.toNat_zero]
        by_cases hj : j = 0
        · subst hj
          rw [if_pos rfl]
          show (ste.heaptable 0).u = _
          rw [fe.u, (hd 0).1]
        · rw [if_neg hj, fe.u, (hd j).1]
      · intro j
        simp only [set_heap_heaptable, Int.toNat_zero]
        by_cases hj : j = 0
        · subst hj
          rw [if_pos rfl, if_pos rfl]
          show int32 ((ste.heaptable 0).a + _) = _
          rw [fe.a, (hd 0).2]
        · rw [if_neg hj, if_neg hj, fe.a, (hd j).2]

theorem fresh_superblk_none_cnt {st st1 : State} {c bc : Nat}
    (h : fresh_superblk st c bc = some (st1, none)) : st1.heaptable = st.heaptable := by
  unfold fresh_superblk at h
  cases hls : lock_system st with
  | none => rw [hls] at h; cases h
  | some sta =>
    rw [hls] at h
    simp only [Option.some_bind] at h
    have hha := lock_system_heaps hls
    split_ifs at h with h0
    · simp only [Option.some.injEq, Prod.mk.injEq] at h
      obtain ⟨rfl, _⟩ := h
      show (mem_sbrk sta sta.page_size).2.heaptable = _
      rw [mem_sbrk_heaps, hha]
    · simp only [Option.bind_eq_some, Option.some.injEq, Prod.mk.injEq] at h
      obtain ⟨_, _, _, _, _, _, _, h2⟩ := h
      cases h2

theorem fetch_global_tight {st st1 : State} {live : List Nat} {cpu_id : Int} {c bc : Nat}
    {po : Option Nat} (hi : HeapInv st live) (ht : Tight st (loc_of st)) (hcpu : 0 ≤ cpu_id)
    (hbc : bc ∈ block_sizes) (hc : class_index bc = c)
    (h : fetch_global st cpu_id c bc = some (st1, po)) : Tight st1 (loc_of st1) := by
  unfold fetch_global at h
  cases hlk : lock_heap st 0 with
  | none => rw [hlk] at h; cases h
  | some sta =>
    rw [hlk] at h
    simp only [Option.some_bind] at h
    obtain ⟨hsa, _, hn0⟩ := lock_heap_sim hlk
    have hia := hi.heapinv_sim hsa
    have hta : Tight sta (loc_of sta) := by
      rw [hsa.sim_loc_of]
      exact ht.tight_lock hlk
    cases hre : reuse_empty sta bc with
    | none => rw [hre] at h; cases h
    | some e =>
      rw [hre] at h
      simp only [Option.some_bind] at h
      obtain ⟨he1, he2⟩ := reuse_empty_inv hia hre
      rw [he1] at h
      simp only [he2, if_true, true_and] at h
      cases hgb : get_bin sta 0 (c : Int) 1 with
      | none => rw [hgb] at h; cases h
      | some b1 =>
        rw [hgb] at h
        simp only [Option.some_bind] at h
        obtain ⟨hv1, rfl⟩ := @get_bin_some sta (0, (c : Int), 1) _ hgb
        by_cases hb1 : bin_of sta (0, (c : Int), 1) = 0
        · rw [if_pos hb1] at h
          cases hfr : fresh_superblk sta c bc with
          | none => rw [hfr] at h; cases h
          | some pf =>
            rw [hfr] at h
            simp only [Option.some_bind] at h
            obtain ⟨stf, pf2⟩ := pf
            cases pf2 with
            | none =>
              simp only [Option.some.injEq, Prod.mk.injEq] at h
              obtain ⟨rfl, _⟩ := h
              have hsf := fresh_superblk_none (by have := hia.base.brk_pos; omega) hfr
              have hhe := fresh_superblk_none_cnt hfr
              rw [hsf.sim_loc_of]
              exact hta.tight_sim hsf (fun j => by rw [hhe]) (fun j => by rw [hhe])
            | some ptr =>
              simp only [Option.bind_eq_some, Option.some.injEq, Prod.mk.injEq] at h
              obtain ⟨stm, hmv, stu, hul, rfl, _⟩ := h
              obtain ⟨rfl, hroom, hfresh⟩ := fresh_superblk_some hia.base.page
                (by have := hia.base.brk_pos; omega) hfr
              obtain ⟨hcu, hca⟩ := fresh_superblk_cnt hfr
              obtain ⟨hbase, hnone⟩ := Fresh.fresh_base hia.base hfresh hbc hroom
              have hlists := Fresh.fresh_lists hia.lists hfresh hnone ⟨rfl, rfl⟩
              have htf : Tight stf (Function.update (loc_of sta) sta.mem_brk (0, (c : Int), 0)) := by
                obtain ⟨rank, hr⟩ := hta.rooted
                obtain ⟨S, ha⟩ := hta.acct
                refine ⟨⟨_, hr.rooted_fresh hia.lists hfresh hnone ⟨rfl, rfl⟩
                  (hia.heapinv_bin0_empty _ hfresh.valid rfl)⟩, ⟨_, ha.acct_fresh hfresh hnone rfl ?_ hca⟩⟩
                intro j
                rw [hcu j]
                by_cases hj : j = 0
                · subst hj
                  rw [if_pos rfl]
                  by_cases hsm : bc < sizeof_superblk_t * 2
                  · rw [if_pos ⟨rfl, hsm⟩]
                    rfl
                  · rw [if_neg (fun h => hsm h.2)]
                    have hz : (fresh_header bc).u = 0 := by
                      show ((blks_used bc : Nat) : Int) = 0
                      rw [blks_used_large hsm]
                      rfl
                    rw [hz, zero_mul, add_zero, ha.used 0 (by rw [hsa.nheaps]; simpa using hn0), int32_idem]
                · rw [if_neg hj, if_neg (fun h => hj h.1)]
              have hsf : get_super stf sta.mem_brk = some (fresh_header bc) := by
                rw [hfresh.sup, if_pos rfl]
              have htb := header_table bc hbc
              have hful := fullness_table bc hbc (blks_used bc) (by
                have := htb.2.2.2.1
                unfold capacity superblk_size at this
                omega)
              have htm := relocate_tight hlists htf hsf
                (Function.update_same _ _ _)
                (by
                  intro x r hx hr
                  rw [Function.update_noteq hx]
                  rw [hfresh.sup, if_neg hx] at hr
                  exact loc_of_eq hr)
                (by
                  intro e
                  simp only [Prod.mk.injEq] at e
                  omega)
                rfl
                ⟨by show (class_index bc : Int) = (c : Int); rw [hc], by
                  show (A2Alloc.fullness ((blks_used bc : Nat) : Int) bc).getD 0 = 1
                  rw [hful.1, htb.2.2.2.2.2.2]
                  rfl⟩ hmv
              have hsu := unlock_heap_sim hul
              rw [hsu.sim_loc_of]
              exact htm.tight_unlock hul
        · rw [if_neg hb1] at h
          simp only [Option.bind_eq_some, Option.some.injEq, Prod.mk.injEq] at h
          obtain ⟨stm, hmv, stu, hul, rfl, _⟩ := h
          obtain ⟨s, hs, _, hloc⟩ := hia.lists.head _ hv1 hb1
          have hhome : home_bin s = (0, (c : Int), 1) := by rw [← loc_of_eq hs]; exact hloc
          obtain ⟨hh1, hh2, hh3⟩ := @home_bin_eq s 0 c 1 hhome
          have htm := relocate_tight hia.lists hta hs hloc
            (fun x r _ hr => loc_of_eq hr)
            (by
              intro e
              simp only [Prod.mk.injEq] at e
              omega)
            hh1
            ⟨by show (class_index s.block_class : Int) = (c : Int); rw [hh2], hh3⟩ hmv
          have hsu := unlock_heap_sim hul
          rw [hsu.sim_loc_of]
          exact htm.tight_unlock hul

theorem mm_malloc_small_tight {st : State} {live : List Nat} {cpu_id : Int} {sz : Nat}
    {r : small_result} (hi : HeapInv st live) (ht : Tight st (loc_of st)) (hcpu : 0 ≤ cpu_id)
    (hsz : sz ≤ 2048) (h : mm_malloc_small st cpu_id sz = some r) :
    Tight r.st (loc_of r.st) := by
  obtain ⟨hci, hc9⟩ := class_index_size_class sz hsz
  have hbc := size_class_mem sz hsz
  unfold mm_malloc_small at h
  cases hlk : lock_heap st (cpu_id + 1) with
  | none => rw [hlk] at h; cases h
  | some sta =>
    rw [hlk] at h
    simp only [Option.some_bind] at h
    obtain ⟨hsa, _, _⟩ := lock_heap_sim hlk
    have hia := hi.heapinv_sim hsa
    have hta : Tight sta (loc_of sta) := by
      rw [hsa.sim_loc_of]
      exact ht.tight_lock hlk
    cases hsc : scan_bins sta (cpu_id + 1) (size_class sz).1 sz (size_class sz).2 5 with
    | none => rw [hsc] at h; cases h
    | some found =>
      rw [hsc] at h
      simp only [Option.some_bind] at h
      cases found with
      | some t =>
        obtain ⟨p, f, use⟩ := t
        simp only at h
        obtain ⟨s, hs, hloc, hf, huse⟩ := scan_bins_spec hia.lists _ _ _ _ hsc
        rw [loc_of_eq hs] at hloc
        exact take_blk_tight hia hta hs hloc (by exact_mod_cast hf) hbc hci huse h
      | none =>
        simp only [Option.bind_eq_some] at h
        obtain ⟨g, hg, h⟩ := h
        obtain ⟨stg, po⟩ := g
        have htg := fetch_global_tight hia hta hcpu hbc hci hg
        cases po with
        | none =>
          simp only [Option.some.injEq] at h
          subst h
          exact htg
        | some p =>
          simp only at h
          obtain ⟨hig, s, hs, hhome, hb0, hu0, hc0, hx0⟩ := fetch_global_inv hia hcpu hbc hci hg
          exact take_blk_tight hig htg hs hhome (by decide) hbc hci (fun hx => by cases hx) h

theorem free_release_tight {st st1 : State} {live : List Nat} {heap_num : Int}
    (hi : HeapInv st live) (ht : Tight st (loc_of st))
    (h : free_release st heap_num = some st1) : Tight st1 (loc_of st1) := by
  unfold free_release at h
  by_cases h0 : heap_num = 0
  · rw [if_pos h0] at h
    rw [(unlock_heap_sim h).sim_loc_of]
    exact ht.tight_unlock h
  · rw [if_neg h0] at h
    cases hh : heap_at st heap_num with
    | none => rw [hh] at h; cases h
    | some hp =>
      rw [hh] at h
      simp only [Option.some_bind, Option.bind_eq_some] at h
      obtain ⟨stm, hmv, hul⟩ := h
      obtain ⟨hn0, hn1, rfl⟩ := heap_at_eq_some hh
      rw [(unlock_heap_sim hul).sim_loc_of]
      refine Tight.tight_unlock ?_ hul
      split_ifs at hmv with hc hq
      · exfalso
        rw [hq] at hmv
        unfold move_superblk unlink_super at hmv
        rw [get_super_zero] at hmv
        cases hmv
      · obtain ⟨h9, h2, he⟩ := release_scan_spec _ hq
        have hv : ValidBin st (heap_num,
            ((release_scan (st.heaptable heap_num.toNat)).2.1 : Int),
            ((release_scan (st.heaptable heap_num.toNat)).2.2 : Int)) := by
          refine ⟨hn0, hn1, Int.ofNat_nonneg _, ?_, Int.ofNat_nonneg _, ?_⟩
          · show ((release_scan (st.heaptable heap_num.toNat)).2.1 : Int) < 9
            omega
          · show ((release_scan (st.heaptable heap_num.toNat)).2.2 : Int) < 6
            omega
        have hbin : bin_of st (heap_num,
            ((release_scan (st.heaptable heap_num.toNat)).2.1 : Int),
            ((release_scan (st.heaptable heap_num.toNat)).2.2 : Int)) =
            (release_scan (st.heaptable heap_num.toNat)).1 := by
          unfold bin_of
          simp only [Int.toNat_ofNat]
          exact he.symm
        have hne : bin_of st (heap_num,
            ((release_scan (st.heaptable heap_num.toNat)).2.1 : Int),
            ((release_scan (st.heaptable heap_num.toNat)).2.2 : Int)) ≠ 0 := by
          rw [hbin]; exact hq
        obtain ⟨s, hs, _, hloc⟩ := hi.lists.head _ hv hne
        rw [hbin] at hs hloc
        have hhome := (loc_of_eq hs).symm.trans hloc
        obtain ⟨e1, e2, e3⟩ := home_bin_eq hhome
        exact relocate_tight hi.lists ht hs hloc (fun x r _ hr => loc_of_eq hr)
          (by
            intro e
            simp only [Prod.mk.injEq] at e
            exact h0 e.1)
          e1 ⟨by
            show (class_index s.block_class : Int) = _
            rw [e2], e3⟩ hmv
      · simp only [Option.some.injEq] at hmv
        subst hmv
        exact ht

/-- The state of `mm_free` after the block is released (bit cleared, counters
decremented, superblock in the bin of its new fullness) and before the
emptiness threshold is looked at: the invariants hold there, no superblock has
changed its owner and only the `u` of the owner has changed. -/
theorem release_part_mid {st sta stb stc : State} {live : List Nat} {q : Nat} {s : superblk_t}
    (hi : HeapInv st live) (ht : Tight st (loc_of st)) (hq : q ∈ live)
    (hs : get_super st (page_of q) = some s)
    (hlk : lock_heap st s.heap_num = some sta)
    (hcl : clear_bit sta (page_of q) (q % 4096 / s.block_class) = some stb)
    (hun : uncharge_blk stb (page_of q) s.heap_num = some stc) :
    HeapInv stc (live.erase q) ∧
      Tight stc (loc_of stc) ∧ 0 ≤ s.heap_num ∧ s.heap_num.toNat < st.nheaps ∧
      (∀ x r, get_super st x = some r →
        ∃ r1, get_super stc x = some r1 ∧ r1.heap_num = r.heap_num) ∧
      (∀ x r1, get_super stc x = some r1 →
        ∃ r, get_super st x = some r ∧ r1.heap_num = r.heap_num) ∧
      (∀ j, (stc.heaptable j).a = (st.heaptable j).a) ∧
      (∀ j, (stc.heaptable j).u =
        if j = s.heap_num.toNat then int32 ((st.heaptable j).u - (s.block_class : Int))
        else (st.heaptable j).u) ∧
      stc.nheaps = st.nheaps ∧ stc.mem_brk = st.mem_brk := by
  obtain ⟨hsa, hown0, hown1⟩ := lock_heap_sim hlk
  obtain ⟨fla, flb⟩ := lock_heap_frame hlk
  have hia := hi.heapinv_sim hsa
  have hta : Tight sta (loc_of sta) := by
    rw [hsa.sim_loc_of]
    exact ht.tight_lock hlk
  have hsA : get_super sta (page_of q) = some s := by rw [hsa.sim_get_super]; exact hs
  -- the bit is cleared
  unfold clear_bit at hcl
  split_ifs at hcl with h64
  obtain ⟨_, hu1⟩ := modify_super_upd hcl
  have fr1 := modify_super_frame hcl
  have hsB := hu1.upd_get hsA
  rw [if_pos rfl] at hsB
  unfold uncharge_blk at hun
  rw [hsB] at hun
  simp only [Option.some_bind, Option.bind_eq_some] at hun
  obtain ⟨f, hf, std, hmu, ste, hmh, nf, hnf, hmv⟩ := hun
  obtain ⟨_, hu2⟩ := modify_super_upd hmu
  have fr2 := fr1.frame_trans (modify_super_frame hmu)
  have hsim := modify_heap_sim hmh (fun _ => rfl)
  obtain ⟨_, _, hste⟩ := modify_heap_spec hmh
  have hok := hia.base.supers _ s hsA
  have hU : Upd sta ste
      (fun x r => if x = page_of q then
        { r with block_bit_map := clear_bit_map r.block_bit_map (q % 4096 / s.block_class),
                 u := r.u - 1 } else r)
      (fun _ v => v) := by
    refine ((hu1.upd_trans hu2).upd_trans hsim.sim_upd).upd_congr ?_ (fun _ _ => rfl)
    intro x r _
    dsimp only
    split_ifs <;> rfl
  have hsE := hU.upd_get hsA
  rw [if_pos rfl] at hsE
  obtain ⟨_, hokE⟩ := hok.superok_release hq rfl
    (show ({ s with block_bit_map := clear_bit_map s.block_bit_map (q % 4096 / s.block_class),
                    u := s.u - 1 } : superblk_t).block_class = s.block_class from rfl) rfl rfl
  have hbase : BaseInv ste (live.erase q) := by
    refine hia.base.baseinv_upd hU ?_ ?_
    · intro x r hr hrok
      by_cases hx : x = page_of q
      · subst hx
        rw [hsA] at hr
        cases hr
        rw [if_pos rfl]
        exact hokE
      · rw [if_neg hx]
        exact hrok.superok_erase q
    · intro a ha
      exact hia.base.live_below a (List.mem_of_mem_erase ha)
  have hlists : Lists ste (loc_of sta) := by
    refine Lists.lists_content hU ?_ hia.lists
    intro x r
    dsimp only
    split_ifs <;> exact ⟨rfl, rfl⟩
  have hcue : ∀ j, (ste.heaptable j).u =
      if j = s.heap_num.toNat then int32 ((st.heaptable j).u - (s.block_class : Int))
      else (st.heaptable j).u := by
    intro j
    rw [hste]
    simp only [set_heap_heaptable]
    split_ifs with hj
    · rw [hj, fr2.u, fla]
    · rw [fr2.u, fla]
  have hcae : ∀ j, (ste.heaptable j).a = (st.heaptable j).a := by
    intro j
    rw [hste]
    simp only [set_heap_heaptable]
    split_ifs with hj
    · rw [hj, fr2.a, flb]
    · rw [fr2.a, flb]
  have hte : Tight ste (loc_of sta) := by
    obtain ⟨rank, hr⟩ := hta.rooted
    obtain ⟨S, ha⟩ := hta.acct
    constructor
    · refine ⟨rank, hr.rooted_content hU ?_⟩
      intro x r
      dsimp only
      split_ifs <;> exact ⟨rfl, rfl⟩
    · refine ⟨S, ha.acct_charge (d := -1) hU hsA hown0 ?_ ?_ ?_ ?_⟩
      · intro x r _
        dsimp only
        split_ifs with hx
        · exact ⟨rfl, rfl, fun hne => absurd hx hne⟩
        · exact ⟨rfl, rfl, fun _ => rfl⟩
      · rw [if_pos rfl]
        rfl
      · intro j
        rw [hcue, fla]
        split_ifs
        · congr 1
          ring
        · rfl
      · intro j
        rw [hcae, flb]
  have hother : ∀ x r, x ≠ page_of q → get_super ste x = some r →
      loc_of sta x = home_bin r := by
    intro x r hx hr
    obtain ⟨r0, hr0, rfl⟩ := hU.upd_get_inv hr
    rw [if_neg hx, loc_of_eq hr0]
  have hhome : loc_of sta (page_of q) =
      (s.heap_num, ((size_class_loop s.block_class 0 block_sizes).1 : Int), f) := by
    rw [loc_of_eq hsA]
    unfold home_bin class_index
    have hf' : A2Alloc.fullness s.u s.block_class = some f := hf
    rw [hf']
    rfl
  have hownE : ∀ x r, get_super st x = some r →
      ∃ r1, get_super ste x = some r1 ∧ r1.heap_num = r.heap_num := by
    intro x r hr
    have hr' : get_super sta x = some r := by rw [hsa.sim_get_super]; exact hr
    refine ⟨_, hU.upd_get hr', ?_⟩
    dsimp only
    split_ifs <;> rfl
  have hownE' : ∀ x r1, get_super ste x = some r1 →
      ∃ r, get_super st x = some r ∧ r1.heap_num = r.heap_num := by
    intro x r1 hr1
    obtain ⟨r, hr, rfl⟩ := hU.upd_get_inv hr1
    refine ⟨r, by rw [← hsa.sim_get_super]; exact hr, ?_⟩
    dsimp only
    split_ifs <;> rfl
  by_cases hne : nf ≠ f
  · rw [if_pos hne] at hmv
    have hne' : ((s.heap_num, ((size_class_loop s.block_class 0 block_sizes).1 : Int), f) :
        Int × Int × Int) ≠
        (s.heap_num, ((size_class_loop s.block_class 0 block_sizes).1 : Int), nf) := by
      intro e
      simp only [Prod.mk.injEq] at e
      exact hne e.2.2.symm
    have hd : ∀ s1 : superblk_t, s1.block_class = s.block_class → s1.u = s.u - 1 →
        (class_index s1.block_class : Int) =
          ((size_class_loop s.block_class 0 block_sizes).1 : Int) ∧
        (A2Alloc.fullness s1.u s1.block_class).getD 0 = nf := by
      intro s1 e1 e2
      rw [e1, e2]
      exact ⟨rfl, by
        have hnf' : A2Alloc.fullness (s.u - 1) s.block_class = some nf := hnf
        rw [hnf']
        rfl⟩
    have hrel1 := relocate hbase hlists hsE hhome hother hne' rfl (hd _ rfl rfl) hmv
    have hrel2 := relocate_tight hlists hte hsE hhome hother hne' rfl (hd _ rfl rfl) hmv
    obtain ⟨_, _, _, _, hum⟩ := move_superblk_upd hne' hmv
    obtain ⟨c1, _⟩ := move_superblk_cnt hsE hmv
    have fm := c1 rfl
    refine ⟨hrel1.1, hrel2, hown0, hown1, ?_, ?_, ?_, ?_,
      hum.nheaps.trans (hU.nheaps.trans hsa.nheaps), hum.brk.trans (hU.brk.trans hsa.brk)⟩
    · intro x r hr
      obtain ⟨r1, hr1, e1⟩ := hownE x r hr
      refine ⟨_, hum.upd_get hr1, ?_⟩
      rw [moved_heap_num, if_neg (fun hx => hx.2 rfl)]
      exact e1
    · intro x r2 hr2
      obtain ⟨r1, hr1, rfl⟩ := hum.upd_get_inv hr2
      obtain ⟨r, hr, e1⟩ := hownE' x r1 hr1
      refine ⟨r, hr, ?_⟩
      rw [moved_heap_num, if_neg (fun hx => hx.2 rfl)]
      exact e1
    · intro j
      rw [fm.a, hcae]
    · intro j
      rw [fm.u, hcue]
  · rw [if_neg hne] at hmv
    simp only [Option.some.injEq] at hmv
    subst hmv
    have hcong : ∀ x r, get_super ste x = some r → loc_of sta x = loc_of ste x := by
      intro x r hr
      rw [loc_of_eq hr]
      by_cases hx : x = page_of q
      · subst hx
        rw [hsE] at hr
        cases hr
        rw [hhome]
        unfold home_bin class_index
        have hnf' : A2Alloc.fullness (s.u - 1) s.block_class = some nf := hnf
        show _ = (s.heap_num, ((size_class_loop s.block_class 0 block_sizes).1 : Int),
          (A2Alloc.fullness (s.u - 1) s.block_class).getD 0)
        rw [hnf']
        have : nf = f := by simpa using hne
        rw [this]
        rfl
      · exact hother x r hx hr
    exact ⟨⟨hbase, Lists.lists_congr_loc hcong hlists⟩, Tight.tight_congr_loc hcong hte,
      hown0, hown1, hownE, hownE', hcae, hcue, hU.nheaps.trans hsa.nheaps,
      hU.brk.trans hsa.brk⟩

theorem free_small_mid {st st1 : State} {live : List Nat} {q : Nat} {s : superblk_t}
    (hi : HeapInv st live) (ht : Tight st (loc_of st)) (hq : q ∈ live)
    (hs : get_super st (page_of q) = some s)
    (h : free_small st (page_of q) (q % 4096) = some st1) :
    ∃ stc, free_release stc s.heap_num = some st1 ∧ HeapInv stc (live.erase q) ∧
      Tight stc (loc_of stc) := by
  unfold free_small at h
  rw [hs] at h
  simp only [Option.some_bind] at h
  cases hlk : lock_heap st s.heap_num with
  | none => rw [hlk] at h; cases h
  | some sta =>
    rw [hlk] at h
    simp only [Option.some_bind] at h
    split_ifs at h with hbc0
    simp only [Option.bind_eq_some] at h
    obtain ⟨stb, hcl, stc, hun, hrel⟩ := h
    obtain ⟨h1, h2, _⟩ := release_part_mid hi ht hq hs hlk hcl hun
    exact ⟨stc, hrel, h1, h2⟩

/-! ## The counters through the large path -/

theorem Cnt.cnt_refl (st : State) : Cnt st st := ⟨fun _ => rfl, fun _ => rfl⟩

theorem Cnt.cnt_trans {a b c : State} (h1 : Cnt a b) (h2 : Cnt b c) : Cnt a c :=
  ⟨fun h => (h2.u h).trans (h1.u h), fun h => (h2.a h).trans (h1.a h)⟩

theorem Frame.frame_cnt {st st1 : State} (h : Frame st st1) : Cnt st st1 := ⟨h.u, h.a⟩

theorem cnt_of_heaps {st st1 : State} (h : st1.heaptable = st.heaptable) : Cnt st st1 :=
  ⟨fun j => by rw [h], fun j => by rw [h]⟩

theorem lock_heap_cnt {st st1 : State} {i : Int} (h : lock_heap st i = some st1) : Cnt st st1 :=
  ⟨(lock_heap_frame h).1, (lock_heap_frame h).2⟩

theorem unlock_heap_cnt {st st1 : State} {i : Int} (h : unlock_heap st i = some st1) :
    Cnt st st1 :=
  ⟨(unlock_heap_frame h).1, (unlock_heap_frame h).2⟩

theorem modify_heap_cnt {st st1 : State} {i : Int} {f : heap_t → heap_t}
    (h : modify_heap st i f = some st1) (hf : ∀ x, (f x).u = x.u ∧ (f x).a = x.a) :
    Cnt st st1 := by
  obtain ⟨_, _, rfl⟩ := modify_heap_spec h
  constructor <;> intro j <;> simp only [set_heap_heaptable] <;> split_ifs with hj
  · rw [hj]; exact (hf _).1
  · rfl
  · rw [hj]; exact (hf _).2
  · rfl

theorem take_large_cnt {st st1 : State} {n curr : Nat}
    (h : take_large st n curr = some st1) : Cnt st st1 := by
  unfold take_large at h
  simp only [Option.bind_eq_some] at h
  obtain ⟨c, _, t, ht, c1, _, st2, h2, c2, _, h3⟩ := h
  have f1 : Cnt st t.1 := by
    split_ifs at ht
    · simp only [Option.bind_eq_some, Option.some.injEq] at ht
      obtain ⟨sta, hs, rfl⟩ := ht
      exact (store_frame hs).frame_cnt
    · simp only [Option.some.injEq] at ht
      subst ht
      exact Cnt.cnt_refl _
  have f2 : Cnt t.1 st2 := by
    split_ifs at h2
    · exact (modify_node_frame h2).frame_cnt
    · exact modify_heap_cnt h2 (fun _ => ⟨rfl, rfl⟩)
  have f3 : Cnt st2 st1 := by
    split_ifs at h3
    · exact (modify_node_frame h3).frame_cnt
    · simp only [Option.some.injEq] at h3
      subst h3
      exact Cnt.cnt_refl _
  exact (f1.cnt_trans f2).cnt_trans f3

theorem search_large_cnt {st : State} {n : Nat} :
    ∀ (fuel curr : Nat) (r : State × Nat), search_large st n fuel curr = some r → Cnt st r.1 := by
  intro fuel
  induction fuel with
  | zero => intro curr r h; simp [search_large] at h
  | succ k ih =>
    intro curr r h
    unfold search_large at h
    split_ifs at h with h0
    · simp only [Option.some.injEq] at h
      subst h
      exact Cnt.cnt_refl _
    · simp only [Option.bind_eq_some] at h
      obtain ⟨c, _, h⟩ := h
      split_ifs at h
      · simp only [Option.bind_eq_some, Option.some.injEq] at h
        obtain ⟨st2, ht, rfl⟩ := h
        exact take_large_cnt ht
      · exact ih _ _ h

theorem push_large_cnt {st st1 : State} {n : Nat} {cpu_id : Int} {res : Nat}
    (h : push_large st n cpu_id res = some st1) : Cnt st st1 := by
  unfold push_large at h
  simp only [Option.bind_eq_some] at h
  obtain ⟨sta, h1, hp, _, stb, h2, stc, h3, std, h4, h5⟩ := h
  have f2 : Cnt sta stb := by
    split_ifs at h2
    · exact (modify_node_frame h2).frame_cnt
    · simp only [Option.some.injEq] at h2
      subst h2
      exact Cnt.cnt_refl _
  exact ((((lock_heap_cnt h1).cnt_trans f2).cnt_trans (store_frame h3).frame_cnt).cnt_trans
    (modify_heap_cnt h4 (fun _ => ⟨rfl, rfl⟩))).cnt_trans (unlock_heap_cnt h5)

theorem alloc_large_cnt {st st1 : State} {sz p : Nat} {cpu_id : Int}
    (h : alloc_large st sz cpu_id = some (p, st1)) : Cnt st st1 := by
  unfold alloc_large at h
  simp only [Option.bind_eq_some] at h
  obtain ⟨n, _, sta, h1, h0, _, sr, h2, stb, h3, rs, h4, stc, h5, h6⟩ := h
  simp only [Option.some.injEq, Prod.mk.injEq] at h6
  obtain ⟨_, rfl⟩ := h6
  have f4 : Cnt stb rs.2 := by
    split_ifs at h4
    · simp only [Option.bind_eq_some, Option.some.injEq] at h4
      obtain ⟨std, hl, rfl⟩ := h4
      refine cnt_of_heaps ?_
      show (mem_sbrk std (n * std.page_size)).2.heaptable = _
      rw [mem_sbrk_heaps, lock_system_heaps hl]
    · simp only [Option.some.injEq] at h4
      subst h4
      exact Cnt.cnt_refl _
  exact ((((lock_heap_cnt h1).cnt_trans (search_large_cnt _ _ _ h2)).cnt_trans
    (unlock_heap_cnt h3)).cnt_trans f4).cnt_trans (push_large_cnt h5)

theorem dealloc_large_cnt {st st1 : State} {blk : Nat}
    (h : dealloc_large st blk = some st1) : Cnt st st1 := by
  unfold dealloc_large at h
  simp only [Option.bind_eq_some] at h
  obtain ⟨sta, hu, stb, h1, h0, _, stc, h2, std, h3, ste, h4, h5⟩ := h
  have fu : Cnt st sta := by
    unfold unlink_large at hu
    simp only [Option.bind_eq_some] at hu
    obtain ⟨b0, _, s1, g1, b, _, s2, g2, b', _, s3, g3, g4⟩ := hu
    have e2 : Cnt s1 s2 := by
      split_ifs at g2
      · exact (modify_node_frame g2).frame_cnt
      · exact modify_heap_cnt g2 (fun _ => ⟨rfl, rfl⟩)
    have e3 : Cnt s2 s3 := by
      split_ifs at g3
      · exact (modify_node_frame g3).frame_cnt
      · simp only [Option.some.injEq] at g3
        subst g3
        exact Cnt.cnt_refl _
    exact (((lock_heap_cnt g1).cnt_trans e2).cnt_trans e3).cnt_trans (unlock_heap_cnt g4)
  have f2 : Cnt stb stc := by
    split_ifs at h2
    · exact (modify_node_frame h2).frame_cnt
    · simp only [Option.some.injEq] at h2
      subst h2
      exact Cnt.cnt_refl _
  exact (((((fu.cnt_trans (lock_heap_cnt h1)).cnt_trans f2).cnt_trans
    (modify_node_frame h3).frame_cnt).cnt_trans
    (modify_heap_cnt h4 (fun _ => ⟨rfl, rfl⟩))).cnt_trans (unlock_heap_cnt h5))

theorem mm_malloc_tight {st st1 : State} {live : List Nat} {sz p : Nat} {cpu_id : Int}
    (hi : HeapInv st live) (ht : Tight st (loc_of st)) (hcpu : 0 ≤ cpu_id)
    (hsz : sz + sizeof_node_t < size_t_mod) (h : mm_malloc st cpu_id sz = some (p, st1)) :
    Tight st1 (loc_of st1) := by
  unfold mm_malloc at h
  split_ifs at h with hl
  · obtain ⟨_, _, hsame⟩ := alloc_large_inv hi hsz h
    have hc := alloc_large_cnt h
    rw [hsame.same_loc_of]
    exact ht.tight_same hsame hc.u hc.a
  · simp only [Option.map_eq_some', Prod.mk.injEq] at h
    obtain ⟨r, hr, rfl, rfl⟩ := h
    have h2048 : sz ≤ 2048 := by
      unfold superblk_size at hl
      omega
    exact mm_malloc_small_tight hi ht hcpu h2048 hr

theorem mm_free_tight {st st1 : State} {live : List Nat} {p : Nat}
    (hi : HeapInv st live) (ht : Tight st (loc_of st)) (hp : p ∈ live)
    (h : mm_free st p = some st1) : Tight st1 (loc_of st1) := by
  unfold mm_free at h
  rw [hi.base.page] at h
  simp only [show ¬ (4096 = 0) by decide, if_false] at h
  have hpg : p - p % 4096 = page_of p := rfl
  rw [hpg] at h
  cases hl : load st (page_of p) with
  | none => rw [hl] at h; cases h
  | some o =>
    rw [hl] at h
    cases o with
    | node n =>
      simp only at h
      split_ifs at h
      have hL := dealloc_large_large h
      have hc := dealloc_large_cnt h
      rw [hL.same.same_loc_of]
      exact ht.tight_same hL.same hc.u hc.a
    | super s =>
      simp only at h
      split_ifs at h
      have hs : get_super st (page_of p) = some s := by
        unfold get_super
        rw [hl]
      obtain ⟨stc, hrel, hic, htc⟩ := free_small_mid hi ht hp hs h
      exact free_release_tight hic htc hrel

theorem init_heaps_cnt (st : State) :
    ∀ (n : Nat) (st1 : State), init_heaps st n = some st1 →
      (∀ j, (st.heaptable j).u = 0 ∧ (st.heaptable j).a = 0 ∧
        (st.heaptable j).heap_lock = false) →
      (∀ j, (st1.heaptable j).u = 0 ∧ (st1.heaptable j).a = 0 ∧
        (st1.heaptable j).heap_lock = false) ∧ st1.system_lock = st.system_lock ∧
      st1.nheaps = (if n = 0 then st.nheaps else n) := by
  intro n
  induction n with
  | zero =>
    intro st1 h h0
    simp only [init_heaps, Option.some.injEq] at h
    subst h
    exact ⟨h0, rfl, rfl⟩
  | succ k ih =>
    intro st1 h h0
    simp only [init_heaps, Option.bind_eq_some] at h
    obtain ⟨sta, ha, h⟩ := h
    obtain ⟨i1, i2, _⟩ := ih sta ha h0
    split_ifs at h
    simp only [Option.some.injEq] at h
    subst h
    refine ⟨?_, ?_, by simp⟩
    · intro j
      dsimp only
      split_ifs
      · exact ⟨rfl, rfl, rfl⟩
      · have := i1 j
        rw [mem_sbrk_heaps]
        exact this
    · show (mem_sbrk sta sta.page_size).2.system_lock = _
      rw [← i2]
      unfold mem_sbrk
      split_ifs <;> rfl

theorem mm_init_cnt {ncpu lo hi : Nat} {st : State} (hlo : 0 < lo)
    (h : mm_init ncpu 4096 lo hi = some st) :
    (∀ j, (st.heaptable j).u = 0 ∧ (st.heaptable j).a = 0 ∧
      (st.heaptable j).heap_lock = false) ∧ st.system_lock = false ∧
      st.nheaps = ncpu + 1 := by
  unfold mm_init at h
  simp only [mem_init] at h
  unfold mem_sbrk at h
  simp only at h
  by_cases hroom : lo + 4096 ≤ hi
  · simp only [if_pos hroom] at h
    have hlo0 : ¬ lo = 0 := by omega
    simp only [if_neg hlo0] at h
    obtain ⟨e1, e2, e3⟩ := init_heaps_cnt _ _ _ h (fun _ => ⟨rfl, rfl, rfl⟩)
    exact ⟨e1, e2, by simpa using e3⟩
  · simp only [if_neg hroom, if_true] at h
    cases h

theorem mm_init_tight {ncpu lo hi : Nat} {st : State} (hlo : 0 < lo)
    (h : mm_init ncpu 4096 lo hi = some st) : Tight st (loc_of st) := by
  obtain ⟨hc, _, _⟩ := mm_init_cnt hlo h
  have hsup : ∀ x, get_super st x = none := by
    unfold mm_init at h
    simp only [mem_init] at h
    unfold mem_sbrk at h
    simp only at h
    by_cases hroom : lo + 4096 ≤ hi
    · simp only [if_pos hroom] at h
      have hlo0 : ¬ lo = 0 := by omega
      simp only [if_neg hlo0] at h
      obtain ⟨e1, _⟩ := init_heaps_inv _ rfl _ _ h (fun _ _ _ => rfl) hroom
      intro x
      unfold get_super load
      rw [e1]
      split_ifs <;> rfl
    · simp only [if_neg hroom, if_true] at h
      cases h
  constructor
  · refine ⟨fun _ => 0, ?_, ?_⟩ <;>
    · intro p s hs
      rw [hsup] at hs
      cases hs
  · refine ⟨∅, ?_, ?_, ?_⟩
    · intro x
      simp [hsup]
    · intro j _
      rw [(hc j).1]
      simp
    · intro j _
      rw [(hc j).2.1]
      simp

/-- In every reachable state the bin lists are rooted and the counters of the
heaps account for the superblocks. -/
theorem Reachable.reachable_tight {ncpu lo hi : Nat} {st : State} {live : List Nat}
    (h : Reachable ncpu lo hi st live) : Tight st (loc_of st) := by
  induction h with
  | init st hlo hal hhi hinit => exact mm_init_tight hlo hinit
  | malloc st st1 live cpu_id sz p hr hcpu _ hsz hm ih =>
    exact mm_malloc_tight hr.reachable_inv ih hcpu hsz hm
  | free st st1 live p hr hp hf ih => exact mm_free_tight hr.reachable_inv ih hp hf

/-! ## The walk of a bin list -/

theorem bin_walk_zero (st : State) (F : Nat) : bin_walk st F 0 = [] := by
  cases F <;> simp [bin_walk]

theorem bin_walk_succ {st : State} {p : Nat} {s : superblk_t} (F : Nat)
    (hs : get_super st p = some s) :
    bin_walk st (F + 1) p = p :: bin_walk st F s.next := by
  have hp := get_super_ne_zero hs
  simp [bin_walk, hp, hs]

/-- The `i`-th element of the walk from a superblock of rank `n` of the bin
`b` is a superblock of rank `n + i` of that bin. -/
theorem walk_sound {st : State} {loc : Nat → Int × Int × Int} {rank : Nat → Nat}
    {b : Int × Int × Int} (hl : Lists st loc) (hr : Rooted st loc rank) :
    ∀ (F p n : Nat), (p ≠ 0 → ∃ s, get_super st p = some s ∧ loc p = b ∧ rank p = n) →
      ∀ (i x : Nat), (bin_walk st F p)[i]? = some x →
        ∃ sx, get_super st x = some sx ∧ loc x = b ∧ rank x = n + i := by
  intro F
  induction F with
  | zero => intro p n _ i x h; simp [bin_walk] at h
  | succ F ih =>
    intro p n hp i x h
    by_cases hp0 : p = 0
    · rw [hp0, bin_walk_zero] at h
      simp at h
    · obtain ⟨s, hs, hb, hn⟩ := hp hp0
      rw [bin_walk_succ F hs] at h
      cases i with
      | zero =>
        simp only [List.getElem?_cons_zero, Option.some.injEq] at h
        subst h
        exact ⟨s, hs, hb, hn⟩
      | succ i =>
        rw [List.getElem?_cons_succ] at h
        have hnext : s.next ≠ 0 → ∃ t, get_super st s.next = some t ∧ loc s.next = b ∧
            rank s.next = n + 1 := by
          intro h0
          obtain ⟨t, ht, htp, htl⟩ := hl.next p s hs h0
          refine ⟨t, ht, htl.trans hb, ?_⟩
          have := hr.step s.next t ht (by rw [htp]; exact hp0)
          rw [htp, hn] at this
          exact this
        obtain ⟨sx, h1, h2, h3⟩ := ih s.next (n + 1) hnext i x h
        exact ⟨sx, h1, h2, by omega⟩

theorem walk_nodup {st : State} {loc : Nat → Int × Int × Int} {rank : Nat → Nat}
    {b : Int × Int × Int} (hl : Lists st loc) (hr : Rooted st loc rank) (F p n : Nat)
    (hp : p ≠ 0 → ∃ s, get_super st p = some s ∧ loc p = b ∧ rank p = n) :
    (bin_walk st F p).Nodup := by
  rw [List.nodup_iff_getElem?_ne_getElem?]
  intro i j hij hj e
  have hi : i < (bin_walk st F p).length := by omega
  have hx : (bin_walk st F p)[i]? = some ((bin_walk st F p)[i]) := List.getElem?_eq_getElem hi
  obtain ⟨_, _, _, r1⟩ := walk_sound hl hr F p n hp i _ hx
  rw [e] at hx
  obtain ⟨_, _, _, r2⟩ := walk_sound hl hr F p n hp j _ hx
  omega

theorem walk_mem {st : State} {loc : Nat → Int × Int × Int} {rank : Nat → Nat}
    {b : Int × Int × Int} (hl : Lists st loc) (hr : Rooted st loc rank) (F p n : Nat)
    (hp : p ≠ 0 → ∃ s, get_super st p = some s ∧ loc p = b ∧ rank p = n) (x : Nat)
    (hx : x ∈ bin_walk st F p) :
    ∃ sx, get_super st x = some sx ∧ loc x = b ∧ n ≤ rank x ∧ rank x < n + F := by
  obtain ⟨i, hi, e⟩ := List.getElem_of_mem hx
  have hx' : (bin_walk st F p)[i]? = some x := by rw [List.getElem?_eq_getElem hi, e]
  obtain ⟨sx, h1, h2, h3⟩ := walk_sound hl hr F p n hp i x hx'
  have hlen : (bin_walk st F p).length ≤ F := by
    clear hx hx' e hi hp
    induction F generalizing p with
    | zero => simp [bin_walk]
    | succ F ih =>
      unfold bin_walk
      split_ifs
      · simp
      · cases get_super st p with
        | none => simp
        | some s =>
          simp only [List.length_cons]
          have := ih s.next
          omega
  exact ⟨sx, h1, h2, by omega, by omega⟩

/-- A superblock of the bin of `p` with a higher rank: `p` has a successor. -/
theorem next_exists {st : State} {loc : Nat → Int × Int × Int} {rank : Nat → Nat}
    (hl : Lists st loc) (hr : Rooted st loc rank) {p : Nat} {s : superblk_t}
    (hs : get_super st p = some s) :
    ∀ (d x : Nat) (sx : superblk_t), get_super st x = some sx → loc x = loc p →
      rank x = rank p + d + 1 → s.next ≠ 0 := by
  intro d
  induction d with
  | zero =>
    intro x sx hx hloc hrk
    have hxp : sx.prev ≠ 0 := by
      intro h
      have := (hr.root x sx hx h).2.2
      omega
    obtain ⟨m, hm, hmn, hml⟩ := hl.lists_prev_loc hx hxp
    have hstep := hr.step x sx hx hxp
    have : sx.prev = p :=
      hr.rooted_inj hl _ _ _ _ _ rfl hm hs (hml.trans hloc) (by omega)
    rw [this, hs] at hm
    cases hm
    rw [hmn]
    exact get_super_ne_zero hx
  | succ d ih =>
    intro x sx hx hloc hrk
    have hxp : sx.prev ≠ 0 := by
      intro h
      have := (hr.root x sx hx h).2.2
      omega
    obtain ⟨m, hm, hmn, hml⟩ := hl.lists_prev_loc hx hxp
    have hstep := hr.step x sx hx hxp
    exact ih sx.prev m hm (hml.trans hloc) (by omega)

/-- The walk from `p` with fuel `F` meets every superblock of the bin of `p`
whose rank is at least that of `p` and less than `F` more. -/
theorem walk_complete {st : State} {loc : Nat → Int × Int × Int} {rank : Nat → Nat}
    (hl : Lists st loc) (hr : Rooted st loc rank) :
    ∀ (F p : Nat) (s : superblk_t), get_super st p = some s →
      ∀ (x : Nat) (sx : superblk_t), get_super st x = some sx → loc x = loc p →
        rank p ≤ rank x → rank x < rank p + F → x ∈ bin_walk st F p := by
  intro F
  induction F with
  | zero => intro p s _ x sx _ _ h1 h2; omega
  | succ F ih =>
    intro p s hs x sx hx hloc h1 h2
    rw [bin_walk_succ F hs]
    by_cases he : rank x = rank p
    · have : x = p := hr.rooted_inj hl _ _ _ _ _ rfl hx hs hloc he.symm
      rw [this]
      exact List.mem_cons_self _ _
    · have hn0 : s.next ≠ 0 :=
        next_exists hl hr hs (rank x - rank p - 1) x sx hx hloc (by omega)
      obtain ⟨t, ht, htp, htl⟩ := hl.next p s hs hn0
      have hstep := hr.step s.next t ht (by rw [htp]; exact get_super_ne_zero hs)
      rw [htp] at hstep
      refine List.mem_cons_of_mem _ (ih s.next t ht x sx hx (hloc.trans htl.symm) (by omega)
        (by omega))

/-- The head of the bin of a superblock is a superblock of rank 0 of that
bin. -/
theorem head_exists {st : State} {loc : Nat → Int × Int × Int} {rank : Nat → Nat}
    (hl : Lists st loc) (hr : Rooted st loc rank) :
    ∀ (n x : Nat) (sx : superblk_t), rank x = n → get_super st x = some sx →
      ValidBin st (loc x) ∧ ∃ s0, get_super st (bin_of st (loc x)) = some s0 ∧
        loc (bin_of st (loc x)) = loc x ∧ rank (bin_of st (loc x)) = 0 := by
  intro n
  induction n with
  | zero =>
    intro x sx hrk hx
    have hxp : sx.prev = 0 := by
      by_contra h
      have := hr.step x sx hx h
      omega
    obtain ⟨h1, h2, h3⟩ := hr.root x sx hx hxp
    rw [h2]
    exact ⟨h1, sx, hx, rfl, h3⟩
  | succ n ih =>
    intro x sx hrk hx
    have hxp : sx.prev ≠ 0 := by
      intro h
      have := (hr.root x sx hx h).2.2
      omega
    obtain ⟨m, hm, hmn, hml⟩ := hl.lists_prev_loc hx hxp
    have hstep := hr.step x sx hx hxp
    have := ih sx.prev m (by omega) hm
    rw [hml] at this
    exact this

theorem mem_read_mem {m : List (Nat × Obj)} {p : Nat} {o : Obj} (h : mem_read m p = some o) :
    p ∈ m.map Prod.fst := by
  induction m with
  | nil => simp [mem_read] at h
  | cons a rest ih =>
    obtain ⟨q, o'⟩ := a
    unfold mem_read at h
    split_ifs at h with hq
    · simp [hq]
    · simp only [List.map_cons, List.mem_cons]
      exact Or.inr (ih h)

/-- A list of distinct superblocks is not longer than the header map. -/
theorem nodup_supers_length (st : State) (xs : List Nat) (hn : xs.Nodup)
    (hs : ∀ x ∈ xs, ∃ s, get_super st x = some s) : xs.length ≤ st.mem.length := by
  have hsub : xs ⊆ st.mem.map Prod.fst := by
    intro x hx
    obtain ⟨s, h⟩ := hs x hx
    unfold get_super load at h
    split_ifs at h
    cases hm : mem_read st.mem x with
    | none => rw [hm] at h; cases h
    | some o => exact mem_read_mem hm
  have := (List.subperm_of_subset hn hsub).length_le
  simpa using this

/-- No rank reaches the fuel of `bin_list`. -/
theorem rank_lt_fuel {st : State} {loc : Nat → Int × Int × Int} {rank : Nat → Nat}
    (hl : Lists st loc) (hr : Rooted st loc rank) {x : Nat} {sx : superblk_t}
    (hx : get_super st x = some sx) : rank x < st.mem.length := by
  obtain ⟨hv, s0, h0, hl0, hr0⟩ := head_exists hl hr _ x sx rfl hx
  have hp : bin_of st (loc x) ≠ 0 → ∃ s, get_super st (bin_of st (loc x)) = some s ∧
      loc (bin_of st (loc x)) = loc x ∧ rank (bin_of st (loc x)) = 0 := fun _ => ⟨s0, h0, hl0, hr0⟩
  have hmem := walk_complete hl hr (rank x + 1) _ s0 h0 x sx hx hl0.symm (by omega) (by omega)
  obtain ⟨i, hi, e⟩ := List.getElem_of_mem hmem
  have hx' : (bin_walk st (rank x + 1) (bin_of st (loc x)))[i]? = some x := by
    rw [List.getElem?_eq_getElem hi, e]
  obtain ⟨_, _, _, h3⟩ := walk_sound hl hr _ _ 0 hp i x hx'
  have hnd := walk_nodup hl hr (rank x + 1) _ 0 hp
  have hlen := nodup_supers_length st _ hnd (by
    intro y hy
    obtain ⟨sy, h1, _⟩ := walk_mem hl hr _ _ 0 hp y hy
    exact ⟨sy, h1⟩)
  omega

/-- A walk that does not use up its fuel is a well-formed list. -/
theorem walk_chain {st : State} {loc : Nat → Int × Int × Int} (hl : Lists st loc) :
    ∀ (F prev p : Nat), (p ≠ 0 → ∃ s, get_super st p = some s ∧ s.prev = prev) →
      (bin_walk st F p).length < F → chain_ok st prev p (bin_walk st F p) = true := by
  intro F
  induction F with
  | zero => intro prev p _ h; simp at h
  | succ F ih =>
    intro prev p hp hlen
    by_cases hp0 : p = 0
    · rw [hp0, bin_walk_zero]
      simp [chain_ok]
    · obtain ⟨s, hs, hsp⟩ := hp hp0
      rw [bin_walk_succ F hs] at hlen ⊢
      simp only [List.length_cons, Nat.add_lt_add_iff_right] at hlen
      have := ih p s.next (by
        intro h0
        obtain ⟨t, ht, htp, _⟩ := hl.next p s hs h0
        exact ⟨t, ht, htp⟩) hlen
      simp [chain_ok, hp0, hs, hsp, this]

/-! ## The bin lists of a reachable state -/

theorem bin_list_spec {st : State} {live : List Nat} {rank : Nat → Nat} (hi : HeapInv st live)
    (hr : Rooted st (loc_of st) rank) {h k f : Nat} (hh : h < st.nheaps) (hk : k < 9)
    (hf : f < 6) :
    chain_ok st 0 ((st.heaptable h).super_bases k f) (bin_list st h k f) = true ∧
      (bin_list st h k f).Nodup ∧
      ∀ x, x ∈ bin_list st h k f ↔
        ∃ s, get_super st x = some s ∧ loc_of st x = ((h : Int), (k : Int), (f : Int)) := by
  have hv : ValidBin st ((h : Int), (k : Int), (f : Int)) := by
    refine ⟨Int.ofNat_nonneg _, ?_, Int.ofNat_nonneg _, ?_, Int.ofNat_nonneg _, ?_⟩
    · show (h : Int).toNat < st.nheaps
      simpa using hh
    · show (k : Int) < 9
      omega
    · show (f : Int) < 6
      omega
  have hbin : bin_of st ((h : Int), (k : Int), (f : Int)) = (st.heaptable h).super_bases k f := by
    unfold bin_of
    simp
  have hp : (st.heaptable h).super_bases k f ≠ 0 →
      ∃ s, get_super st ((st.heaptable h).super_bases k f) = some s ∧
        loc_of st ((st.heaptable h).super_bases k f) = ((h : Int), (k : Int), (f : Int)) ∧
        rank ((st.heaptable h).super_bases k f) = 0 := by
    intro h0
    rw [← hbin] at h0 ⊢
    obtain ⟨s, h1, h2, h3⟩ := hi.lists.head _ hv h0
    exact ⟨s, h1, h3, (hr.root _ s h1 h2).2.2⟩
  have hnd := walk_nodup hi.lists hr (st.mem.length + 1) _ 0 hp
  have hmem := walk_mem hi.lists hr (st.mem.length + 1) _ 0 hp
  have hlen : (bin_list st h k f).length ≤ st.mem.length :=
    nodup_supers_length st _ hnd (fun y hy => by
      obtain ⟨sy, h1, _⟩ := hmem y hy
      exact ⟨sy, h1⟩)
  refine ⟨?_, hnd, ?_⟩
  · refine walk_chain hi.lists _ 0 _ ?_ (by unfold bin_list at hlen; omega)
    intro h0
    rw [← hbin] at h0 ⊢
    obtain ⟨s, h1, h2, _⟩ := hi.lists.head _ hv h0
    exact ⟨s, h1, h2⟩
  · intro x
    constructor
    · intro hx
      obtain ⟨sx, h1, h2, _⟩ := hmem x hx
      exact ⟨sx, h1, h2⟩
    · rintro ⟨sx, h1, h2⟩
      obtain ⟨_, s0, h0, hl0, hr0⟩ := head_exists hi.lists hr _ x sx rfl h1
      rw [h2, hbin] at h0 hl0 hr0
      have hlt := rank_lt_fuel hi.lists hr h1
      exact walk_complete hi.lists hr _ _ s0 h0 x sx h1 (h2.trans hl0.symm) (by omega) (by omega)

/-- The home bin of a superblock of a reachable state is a bin of the heap
table. -/
theorem home_bin_valid {st : State} {live : List Nat} {rank : Nat → Nat} (hi : HeapInv st live)
    (hr : Rooted st (loc_of st) rank) {p : Nat} {s : superblk_t}
    (hs : get_super st p = some s) :
    ∃ h k f : Nat, h < st.nheaps ∧ k < 9 ∧ 1 ≤ f ∧ f < 6 ∧ s.heap_num = (h : Int) ∧
      k = class_index s.block_class ∧ fullness s.u s.block_class = some (f : Int) ∧
      loc_of st p = ((h : Int), (k : Int), (f : Int)) := by
  obtain ⟨hv, _⟩ := head_exists hi.lists hr _ p s rfl hs
  rw [loc_of_eq hs] at hv ⊢
  obtain ⟨f, hf, hf1, hf6, _⟩ := (hi.base.supers p s hs).superok_fullness
  obtain ⟨v1, v2, _⟩ := hv
  have v1' : 0 ≤ s.heap_num := v1
  have v2' : s.heap_num.toNat < st.nheaps := v2
  refine ⟨s.heap_num.toNat, class_index s.block_class, f, v2',
    class_index_lt _ (hi.base.supers p s hs).cls, hf1, hf6, (Int.toNat_of_nonneg v1').symm, rfl,
    hf, ?_⟩
  unfold home_bin
  rw [hf, Int.toNat_of_nonneg v1']
  rfl

theorem all_bins_mem {k f : Nat} (hk : k < 9) (hf : f < 6) : (k, f) ∈ all_bins := by
  unfold all_bins
  rw [List.mem_flatMap]
  exact ⟨k, List.mem_range.2 hk, List.mem_map.2 ⟨f, List.mem_range.2 hf, rfl⟩⟩

theorem all_bins_lt {kf : Nat × Nat} (h : kf ∈ all_bins) : kf.1 < 9 ∧ kf.2 < 6 := by
  unfold all_bins at h
  rw [List.mem_flatMap] at h
  obtain ⟨k, hk, h⟩ := h
  rw [List.mem_map] at h
  obtain ⟨f, hf, rfl⟩ := h
  exact ⟨List.mem_range.1 hk, List.mem_range.1 hf⟩

theorem all_bins_nodup : all_bins.Nodup := by decide

/-- The superblocks linked in the bins of a heap are the superblocks that name
the heap as their owner, each of them once. -/
theorem heap_supers_spec {st : State} {live : List Nat} {rank : Nat → Nat}
    (hi : HeapInv st live) (hr : Rooted st (loc_of st) rank) {h : Nat} (hh : h < st.nheaps) :
    (heap_supers st h).Nodup ∧
      ∀ x, x ∈ heap_supers st h ↔ ∃ s, get_super st x = some s ∧ s.heap_num = (h : Int) := by
  constructor
  · unfold heap_supers
    rw [List.nodup_flatMap]
    constructor
    · intro kf hkf
      obtain ⟨hk, hf⟩ := all_bins_lt hkf
      exact (bin_list_spec hi hr hh hk hf).2.1
    · refine List.Nodup.pairwise_of_forall_ne all_bins_nodup ?_
      intro a ha b hb hab
      obtain ⟨ak, af⟩ := all_bins_lt ha
      obtain ⟨bk, bf⟩ := all_bins_lt hb
      intro x hxa hxb
      obtain ⟨_, _, la⟩ := ((bin_list_spec hi hr hh ak af).2.2 x).1 hxa
      obtain ⟨_, _, lb⟩ := ((bin_list_spec hi hr hh bk bf).2.2 x).1 hxb
      rw [la] at lb
      simp only [Prod.mk.injEq] at lb
      apply hab
      have e1 : a.1 = b.1 := by omega
      have e2 : a.2 = b.2 := by omega
      exact Prod.ext e1 e2
  · intro x
    unfold heap_supers
    rw [List.mem_flatMap]
    constructor
    · rintro ⟨kf, hkf, hx⟩
      obtain ⟨hk, hf⟩ := all_bins_lt hkf
      obtain ⟨s, hs, hloc⟩ := ((bin_list_spec hi hr hh hk hf).2.2 x).1 hx
      refine ⟨s, hs, ?_⟩
      rw [loc_of_eq hs] at hloc
      unfold home_bin at hloc
      simp only [Prod.mk.injEq] at hloc
      exact hloc.1
    · rintro ⟨s, hs, hown⟩
      obtain ⟨h1, k, f, _, hk, _, hf, hown1, _, _, hloc⟩ := home_bin_valid hi hr hs
      have : h1 = h := by omega
      subst this
      exact ⟨(k, f), all_bins_mem hk hf, ((bin_list_spec hi hr hh hk hf).2.2 x).2 ⟨s, hs, hloc⟩⟩

/-- In a state that satisfies the invariants the `int` `u` of a heap holds the
sum of `u * block_class` over the superblocks linked in its bins and `a` holds
`superblk_size` times their number, both reduced to 32 bits. -/
theorem heap_counters {st : State} {live : List Nat} (hi : HeapInv st live)
    (ht : Tight st (loc_of st)) {h : Nat} (hh : h < st.nheaps) :
    (st.heaptable h).u = int32 (heap_used st h) ∧
      (st.heaptable h).a =
        int32 ((superblk_size : Int) * ((heap_supers st h).length : Int)) := by
  obtain ⟨rank, hr⟩ := ht.rooted
  obtain ⟨S, ha⟩ := ht.acct
  obtain ⟨hnd, hmem⟩ := heap_supers_spec hi hr hh
  have hsub : (heap_supers st h).toFinset ⊆ S := by
    intro x hx
    rw [List.mem_toFinset, hmem] at hx
    obtain ⟨s, hs, _⟩ := hx
    exact (ha.mem x).2 ⟨s, hs⟩
  constructor
  · rw [ha.used h hh]
    congr 1
    unfold heap_used
    rw [← List.sum_toFinset _ hnd, ← Finset.sum_subset hsub]
    · refine Finset.sum_congr rfl ?_
      intro x hx
      rw [List.mem_toFinset, hmem] at hx
      obtain ⟨s, hs, hown⟩ := hx
      unfold owned_bytes super_bytes
      rw [hs]
      simp only [hown, if_true]
    · intro x hxS hx
      rw [List.mem_toFinset, hmem] at hx
      obtain ⟨s, hs⟩ := (ha.mem x).1 hxS
      unfold owned_bytes
      rw [hs]
      have : ¬ s.heap_num = (h : Int) := fun e => hx ⟨s, hs, e⟩
      simp only [this, if_false]
  · rw [ha.alloc h hh]
    congr 1
    rw [← Finset.sum_subset hsub (f := owned_page st h)]
    · have : ∀ x ∈ (heap_supers st h).toFinset, owned_page st h x = (superblk_size : Int) := by
        intro x hx
        rw [List.mem_toFinset, hmem] at hx
        obtain ⟨s, hs, hown⟩ := hx
        unfold owned_page
        rw [hs]
        simp only [hown, if_true]
      rw [Finset.sum_congr rfl this, Finset.sum_const, List.card_toFinset,
        List.Nodup.dedup hnd]
      simp [mul_comm]
    · intro x hxS hx
      rw [List.mem_toFinset, hmem] at hx
      obtain ⟨s, hs⟩ := (ha.mem x).1 hxS
      unfold owned_page
      rw [hs]
      have : ¬ s.heap_num = (h : Int) := fun e => hx ⟨s, hs, e⟩
      simp only [this, if_false]

theorem sum_le_of_each (st : State) (c : Int) :
    ∀ sbs : List Nat, (∀ p ∈ sbs, super_bytes st p ≤ c) →
      (sbs.map (super_bytes st)).sum ≤ c * (sbs.length : Int) := by
  intro sbs
  induction sbs with
  | nil => intro _; simp
  | cons x xs ih =>
    intro h
    have h1 := h x (List.mem_cons_self _ _)
    have h2 := ih (fun p hp => h p (List.mem_cons_of_mem _ hp))
    simp only [List.length_cons, List.map_cons, List.sum_cons, Nat.cast_add, Nat.cast_one]
    linarith

theorem sum_nonneg_of_each (st : State) :
    ∀ sbs : List Nat, (∀ p ∈ sbs, 0 ≤ super_bytes st p) →
      0 ≤ (sbs.map (super_bytes st)).sum := by
  intro sbs h
  apply List.sum_nonneg
  intro x hx
  rw [List.mem_map] at hx
  obtain ⟨p, hp, rfl⟩ := hx
  exact h p hp

/-- Distinct pages below the break: there are at most `brk / 4096` of them. -/
theorem aligned_pages_length (brk : Nat) (l : List Nat) (hn : l.Nodup)
    (hl : ∀ p ∈ l, p % 4096 = 0 ∧ p + 4096 ≤ brk) : l.length * 4096 ≤ brk := by
  have hsub : l.toFinset ⊆ (Finset.range (brk / 4096)).image (fun i => i * 4096) := by
    intro p hp
    rw [List.mem_toFinset] at hp
    obtain ⟨h1, h2⟩ := hl p hp
    rw [Finset.mem_image]
    refine ⟨p / 4096, ?_, ?_⟩
    · rw [Finset.mem_range]
      omega
    · omega
  have hc := Finset.card_le_card hsub
  rw [List.toFinset_card_of_nodup hn] at hc
  have hc2 := hc.trans Finset.card_image_le
  rw [Finset.card_range] at hc2
  omega

/-- The bytes in use of a superblock that satisfies the invariant are between
0 and the size of the page. -/
theorem super_bytes_range {st : State} {live : List Nat} (hi : HeapInv st live) (p : Nat) :
    0 ≤ super_bytes st p ∧ super_bytes st p ≤ 4096 := by
  unfold super_bytes
  cases hs : get_super st p with
  | none => exact ⟨le_refl _, by decide⟩
  | some s =>
    have hok := hi.base.supers p s hs
    obtain ⟨u, hu, _, hle⟩ := hok.superok_u_le
    show 0 ≤ s.u * (s.block_class : Int) ∧ s.u * (s.block_class : Int) ≤ 4096
    rw [hu]
    have h1 : u * s.block_class ≤ 4096 :=
      (Nat.mul_le_mul_right _ hle).trans (Nat.div_mul_le_self _ _)
    constructor
    · exact mul_nonneg (Int.natCast_nonneg _) (Int.natCast_nonneg _)
    · exact_mod_cast h1

/-- While the break is below 2 GiB the counters of a heap are exact: `u` is
the sum of `u * block_class` over the superblocks linked in its bins and `a`
is `superblk_size` times their number. -/
theorem heap_counters_exact {st : State} {live : List Nat} (hi : HeapInv st live)
    (ht : Tight st (loc_of st)) {h : Nat} (hh : h < st.nheaps)
    (hbrk : st.mem_brk < 2147483648) :
    (st.heaptable h).u = heap_used st h ∧
      (st.heaptable h).a = (superblk_size : Int) * ((heap_supers st h).length : Int) := by
  obtain ⟨rank, hr⟩ := ht.rooted
  obtain ⟨hnd, hmem⟩ := heap_supers_spec hi hr hh
  obtain ⟨hcu, hca⟩ := heap_counters hi ht hh
  have hlen : (heap_supers st h).length * 4096 ≤ st.mem_brk := by
    refine aligned_pages_length _ _ hnd ?_
    intro p hp
    obtain ⟨s, hs, _⟩ := (hmem p).1 hp
    have hok := hi.base.supers p s hs
    exact ⟨hok.aligned, hok.below⟩
  have hlen' : (4096 : Int) * ((heap_supers st h).length : Int) < 2147483648 := by
    have : ((heap_supers st h).length * 4096 : Nat) < 2147483648 := by omega
    have h2 : (((heap_supers st h).length * 4096 : Nat) : Int) < 2147483648 := by
      exact_mod_cast this
    push_cast at h2
    linarith
  have h0 : 0 ≤ heap_used st h :=
    sum_nonneg_of_each st _ (fun p _ => (super_bytes_range hi p).1)
  have h1 : heap_used st h ≤ 4096 * ((heap_supers st h).length : Int) :=
    sum_le_of_each st 4096 _ (fun p _ => (super_bytes_range hi p).2)
  constructor
  · rw [hcu]
    exact int32_eq_self (by omega) (by omega)
  · rw [hca]
    refine int32_eq_self ?_ hlen'
    have : (0 : Int) ≤ ((heap_supers st h).length : Int) := Int.natCast_nonneg _
    show -2147483648 ≤ (4096 : Int) * _
    omega

/-- In every reachable state, for every heap `h` of the heap table, the `int`
`h.u` holds the sum over the superblocks linked in the bins of `h` of
`u * block_class` reduced to 32 bits, where `u` counts the blocks of the header
too; it is the sum itself as long as the sum is below `2 ^ 31`. -/
theorem heap_u_is_wrapped_sum (ncpu lo hi : Nat) (st : State) (live : List Nat)
    (hreach : Reachable ncpu lo hi st live) (h : Nat) (hh : h < st.nheaps) :
    (st.heaptable h).u = int32 (heap_used st h) ∧
      0 ≤ heap_used st h ∧
      (heap_used st h < 2147483648 → (st.heaptable h).u = heap_used st h) ∧
      ∀ p ∈ heap_supers st h, ∃ s, get_super st p = some s ∧ s.heap_num = (h : Int) ∧
        super_bytes st p = s.u * (s.block_class : Int) ∧
        ((blks_used s.block_class : Nat) : Int) ≤ s.u := by
  have hinv := hreach.reachable_inv
  have ht := hreach.reachable_tight
  obtain ⟨rank, hr⟩ := ht.rooted
  have hc := (heap_counters hinv ht hh).1
  suffices hmem : ∀ p ∈ heap_supers st h, ∃ s, get_super st p = some s ∧
      s.heap_num = (h : Int) ∧ super_bytes st p = s.u * (s.block_class : Int) ∧
      ((blks_used s.block_class : Nat) : Int) ≤ s.u by
    have hnn : 0 ≤ heap_used st h := by
      unfold heap_used
      apply List.sum_nonneg
      intro x hx
      rw [List.mem_map] at hx
      obtain ⟨p, hp, rfl⟩ := hx
      obtain ⟨s, _, _, hb, hu⟩ := hmem p hp
      rw [hb]
      exact mul_nonneg (le_trans (Int.natCast_nonneg _) hu) (Int.natCast_nonneg _)
    refine ⟨hc, hnn, ?_, hmem⟩
    intro hlt
    rw [hc]
    exact int32_eq_self (by omega) hlt
  intro p hp
  obtain ⟨s, hs, hown⟩ := ((heap_supers_spec hinv hr hh).2 p).1 hp
  refine ⟨s, hs, hown, by unfold super_bytes; rw [hs], ?_⟩
  have hok := hinv.base.supers p s hs
  rw [hok.count]
  have hb := (header_table _ hok.cls).2.2.2.1
  have : blks_used s.block_class ≤ popcount s.block_bit_map (capacity s.block_class) := by
    unfold popcount
    have hsub : (List.range (blks_used s.block_class)).filter
          (fun i => bit_set s.block_bit_map i) = List.range (blks_used s.block_class) := by
      rw [List.filter_eq_self]
      intro i hi
      exact hok.header i (List.mem_range.1 hi)
    have hsl : ((List.range (blks_used s.block_class)).filter
          (fun i => bit_set s.block_bit_map i)).Sublist
        ((List.range (capacity s.block_class)).filter (fun i => bit_set s.block_bit_map i)) :=
      List.Sublist.filter _ (List.range_sublist.2 (by omega))
    have := hsl.length_le
    rw [hsub, List.length_range] at this
    exact this
  exact_mod_cast this

/-! ## `move_superblk` returns -/

theorem modify_super_total (st : State) {q : Nat} (f : superblk_t → superblk_t)
    (h : ∃ s, get_super st q = some s) : ∃ st1, modify_super st q f = some st1 := by
  obtain ⟨s, hs⟩ := h
  exact ⟨_, modify_super_eq f hs⟩

theorem set_bin_total {st : State} {b : Int × Int × Int} (hv : ValidBin st b) (v : Nat) :
    ∃ st1, set_bin st b.1 b.2.1 b.2.2 v = some st1 := by
  obtain ⟨h1, h2, h3, h4, h5, h6⟩ := hv
  unfold set_bin
  rw [if_pos ⟨h3, h4, h5, h6⟩]
  unfold modify_heap heap_at
  rw [if_pos ⟨h1, h2⟩]
  exact ⟨_, rfl⟩

theorem modify_heap_total (st : State) {i : Int} (f : heap_t → heap_t) (h0 : 0 ≤ i)
    (h1 : i.toNat < st.nheaps) : ∃ st1, modify_heap st i f = some st1 := by
  unfold modify_heap heap_at
  rw [if_pos ⟨h0, h1⟩]
  exact ⟨_, rfl⟩

theorem unlink_super_total {st : State} {loc : Nat → Int × Int × Int} {p : Nat}
    {s : superblk_t} {src : Int × Int × Int} (hl : Lists st loc)
    (hs : get_super st p = some s) (hvs : ValidBin st src) :
    ∃ st1, unlink_super st p src = some st1 := by
  unfold unlink_super
  rw [hs]
  simp only [Option.some_bind]
  by_cases hn : s.next ≠ 0
  · rw [if_pos hn]
    obtain ⟨n, hn1, _⟩ := hl.next p s hs hn
    obtain ⟨sta, ha⟩ := modify_super_total _ (fun n => { n with prev := s.prev }) ⟨n, hn1⟩
    rw [ha]
    simp only [Option.some_bind]
    obtain ⟨_, hu⟩ := modify_super_upd ha
    rw [hu.upd_get hs]
    simp only [Option.some_bind]
    have hprev : (if p = s.next then ({ s with prev := s.prev } : superblk_t) else s).prev =
        s.prev := by
      split_ifs <;> rfl
    rw [hprev]
    by_cases hp : s.prev ≠ 0
    · rw [if_pos hp]
      obtain ⟨m, hm, _⟩ := hl.prev p s hs hp
      exact modify_super_total _ _ ((hu.upd_mem _).2 ⟨m, hm⟩)
    · rw [if_neg hp]
      exact set_bin_total ((hu.upd_validBin src).2 hvs) _
  · rw [if_neg hn]
    simp only [Option.some_bind]
    rw [hs]
    simp only [Option.some_bind]
    by_cases hp : s.prev ≠ 0
    · rw [if_pos hp]
      obtain ⟨m, hm, _⟩ := hl.prev p s hs hp
      exact modify_super_total _ _ ⟨m, hm⟩
    · rw [if_neg hp]
      exact set_bin_total hvs _

theorem push_super_total {st : State} {p : Nat} {dest : Int × Int × Int}
    (hs : ∃ s, get_super st p = some s) (hvd : ValidBin st dest)
    (hd : bin_of st dest ≠ 0 → ∃ s, get_super st (bin_of st dest) = some s) :
    ∃ st1, push_super st p dest = some st1 := by
  unfold push_super
  rw [get_bin_valid hvd]
  simp only [Option.some_bind]
  by_cases h0 : bin_of st dest ≠ 0
  · rw [if_pos h0]
    obtain ⟨sta, ha⟩ := modify_super_total _ (fun h => { h with prev := p }) (hd h0)
    rw [ha]
    simp only [Option.some_bind]
    obtain ⟨_, hu⟩ := modify_super_upd ha
    obtain ⟨stb, hb⟩ := modify_super_total _
      (fun x => { x with next := bin_of st dest, prev := 0 }) ((hu.upd_mem p).2 hs)
    rw [hb]
    simp only [Option.some_bind]
    obtain ⟨_, hu2⟩ := modify_super_upd hb
    exact set_bin_total ((hu2.upd_validBin dest).2 ((hu.upd_validBin dest).2 hvd)) _
  · rw [if_neg h0]
    simp only [Option.some_bind]
    obtain ⟨stb, hb⟩ := modify_super_total _
      (fun x => { x with next := bin_of st dest, prev := 0 }) hs
    rw [hb]
    simp only [Option.some_bind]
    obtain ⟨_, hu2⟩ := modify_super_upd hb
    exact set_bin_total ((hu2.upd_validBin dest).2 hvd) _

theorem transfer_super_total {st : State} {p : Nat} {src dest : Int × Int × Int}
    (hs : ∃ s, get_super st p = some s) (hvs : ValidBin st src) (hvd : ValidBin st dest) :
    ∃ st1, transfer_super st p src dest = some st1 := by
  unfold transfer_super
  split_ifs with hne
  · obtain ⟨sta, ha⟩ := modify_super_total _ (fun x => { x with heap_num := dest.1 }) hs
    rw [ha]
    simp only [Option.some_bind]
    obtain ⟨_, hu⟩ := modify_super_upd ha
    obtain ⟨s1, hs1⟩ := (hu.upd_mem p).2 hs
    rw [hs1]
    simp only [Option.some_bind]
    obtain ⟨stb, hb⟩ := modify_heap_total sta
      (fun h => { h with u := int32 (h.u - int32 (s1.u * (s1.block_class : Int))),
                         a := int32 (h.a - (superblk_size : Int)) }) hvs.1
      (by rw [hu.nheaps]; exact hvs.2.1)
    rw [hb]
    simp only [Option.some_bind]
    obtain ⟨_, _, rfl⟩ := modify_heap_spec hb
    exact modify_heap_total _ _ hvd.1 (by
      show dest.1.toNat < sta.nheaps
      rw [hu.nheaps]
      exact hvd.2.1)
  · exact ⟨_, rfl⟩

/-- `move_superblk` returns when the superblock and its neighbours exist and
the two bins are bins of the heap table. -/
theorem move_superblk_total {st : State} {loc : Nat → Int × Int × Int} {p : Nat}
    {s : superblk_t} {src dest : Int × Int × Int} (hl : Lists st loc)
    (hs : get_super st p = some s) (hvs : ValidBin st src) (hvd : ValidBin st dest) :
    ∃ st1, move_superblk st p src dest = some st1 := by
  unfold move_superblk
  obtain ⟨sta, ha⟩ := unlink_super_total hl hs hvs
  rw [ha]
  simp only [Option.some_bind]
  obtain ⟨s', hs', _, hua⟩ := unlink_super_upd ha
  rw [hs] at hs'
  cases hs'
  have hd : bin_of sta dest ≠ 0 → ∃ s, get_super sta (bin_of sta dest) = some s := by
    intro h0
    have hb := hua.bins dest hvd
    by_cases hc : s.prev = 0 ∧ dest = src
    · -- the head of `src` after the unlink is the successor of `p`
      rw [hb, if_pos hc] at h0 ⊢
      obtain ⟨n, hn, _⟩ := hl.next p s hs h0
      exact (hua.upd_mem _).2 ⟨n, hn⟩
    · rw [hb, if_neg hc] at h0 ⊢
      obtain ⟨d, hd, _⟩ := hl.head dest hvd h0
      exact (hua.upd_mem _).2 ⟨d, hd⟩
  obtain ⟨stb, hb⟩ := push_super_total ((hua.upd_mem p).2 ⟨s, hs⟩)
    ((hua.upd_validBin dest).2 hvd) hd
  rw [hb]
  simp only [Option.some_bind]
  obtain ⟨_, _, hub⟩ := push_super_upd hb
  exact transfer_super_total ((hub.upd_mem p).2 ((hua.upd_mem p).2 ⟨s, hs⟩))
    ((hub.upd_validBin src).2 ((hua.upd_validBin src).2 hvs))
    ((hub.upd_validBin dest).2 ((hua.upd_validBin dest).2 hvd))

/-! ## `mm_free` returns -/

theorem valid_bin_of {st : State} {h : Int} {k f : Nat} (h0 : 0 ≤ h) (h1 : h.toNat < st.nheaps)
    (hk : k < 9) (hf : f < 6) : ValidBin st (h, (k : Int), (f : Int)) := by
  refine ⟨h0, h1, Int.ofNat_nonneg _, ?_, Int.ofNat_nonneg _, ?_⟩
  · show (k : Int) < 9
    omega
  · show (f : Int) < 6
    omega

/-- The first part of the small path of `mm_free` (lock, clear the bit, count
the block out, move the superblock to its new bin) returns when the pointer is
live and the heap of the superblock is not locked. -/
theorem release_part_total {st : State} {live : List Nat} {q : Nat} {s : superblk_t}
    (hi : HeapInv st live) (hq : q ∈ live) (hs : get_super st (page_of q) = some s)
    (hown0 : 0 ≤ s.heap_num) (hown1 : s.heap_num.toNat < st.nheaps)
    (hlock : (st.heaptable s.heap_num.toNat).heap_lock = false) :
    ∃ sta stb stc, lock_heap st s.heap_num = some sta ∧
      clear_bit sta (page_of q) (q % 4096 / s.block_class) = some stb ∧
      uncharge_blk stb (page_of q) s.heap_num = some stc := by
  have hat : heap_at st s.heap_num = some (st.heaptable s.heap_num.toNat) := by
    unfold heap_at
    rw [if_pos ⟨hown0, hown1⟩]
  obtain ⟨sta, hlk⟩ : ∃ sta, lock_heap st s.heap_num = some sta := ⟨_, lock_heap_eq hat hlock⟩
  obtain ⟨hsa, _, _⟩ := lock_heap_sim hlk
  have hia := hi.heapinv_sim hsa
  have hsA : get_super sta (page_of q) = some s := by
    rw [hsa.sim_get_super]; exact hs
  have hok := hia.base.supers _ s hsA
  obtain ⟨hcond, hokE⟩ := hok.superok_release hq rfl
    (show ({ s with block_bit_map := clear_bit_map s.block_bit_map (q % 4096 / s.block_class),
                    u := s.u - 1 } : superblk_t).block_class = s.block_class from rfl) rfl rfl
  have hcap : capacity s.block_class ≤ 512 := by
    have : ∀ c ∈ block_sizes, capacity c ≤ 512 := by decide
    exact this _ hok.cls
  have h64 : q % 4096 / s.block_class / 8 < 64 := by
    have := hcond.1
    omega
  obtain ⟨stb, hcl⟩ : ∃ stb, clear_bit sta (page_of q)
      (q % 4096 / s.block_class) = some stb := by
    unfold clear_bit
    rw [if_pos h64]
    exact modify_super_total _ _ ⟨s, hsA⟩
  suffices hex : ∃ stc, uncharge_blk stb (page_of q) s.heap_num = some stc by
    obtain ⟨stc, hun⟩ := hex
    exact ⟨sta, stb, stc, hlk, hcl, hun⟩
  have hcl' := hcl
  unfold clear_bit at hcl'
  rw [if_pos h64] at hcl'
  obtain ⟨_, hu1⟩ := modify_super_upd hcl'
  have hsB := hu1.upd_get hsA
  rw [if_pos rfl] at hsB
  obtain ⟨f, hf, hf1, hf6, _⟩ := hok.superok_fullness
  obtain ⟨nf, hnf, hnf1, hnf6, _⟩ := hokE.superok_fullness
  unfold uncharge_blk
  rw [hsB]
  simp only [Option.some_bind]
  have hf' : fullness s.u s.block_class = some (f : Int) := hf
  rw [hf']
  simp only [Option.some_bind]
  obtain ⟨std, hmu⟩ := modify_super_total stb (fun x => { x with u := x.u - 1 })
    ⟨_, hsB⟩
  rw [hmu]
  simp only [Option.some_bind]
  obtain ⟨_, hu2⟩ := modify_super_upd hmu
  have hnd : std.nheaps = st.nheaps := by
    rw [hu2.nheaps, hu1.nheaps, hsa.nheaps]
  obtain ⟨ste, hmh⟩ := modify_heap_total std
    (fun h => { h with u := int32 (h.u - (s.block_class : Int)) }) hown0
    (by rw [hnd]; exact hown1)
  rw [hmh]
  simp only [Option.some_bind]
  have hnf' : fullness (s.u - 1) s.block_class = some (nf : Int) := hnf
  rw [hnf']
  simp only [Option.some_bind]
  split_ifs with hne
  · have hsim := modify_heap_sim hmh (fun _ => rfl)
    have hU : Upd sta ste
        (fun x r => if x = page_of q then
          { r with block_bit_map := clear_bit_map r.block_bit_map (q % 4096 / s.block_class),
                   u := r.u - 1 } else r)
        (fun _ v => v) := by
      refine ((hu1.upd_trans hu2).upd_trans hsim.sim_upd).upd_congr ?_ (fun _ _ => rfl)
      intro x r _
      dsimp only
      split_ifs <;> rfl
    have hsE := hU.upd_get hsA
    rw [if_pos rfl] at hsE
    have hlists : Lists ste (loc_of sta) := by
      refine Lists.lists_content hU ?_ hia.lists
      intro x r
      dsimp only
      split_ifs <;> exact ⟨rfl, rfl⟩
    have hne1 : ste.nheaps = st.nheaps := by rw [hsim.nheaps, hnd]
    have hci : (size_class_loop s.block_class 0 block_sizes).1 < 9 := class_index_lt _ hok.cls
    exact move_superblk_total hlists hsE
      (valid_bin_of hown0 (by rw [hne1]; exact hown1) hci hf6)
      (valid_bin_of hown0 (by rw [hne1]; exact hown1) hci hnf6)
  · exact ⟨_, rfl⟩

theorem release_scan_first (h : heap_t) (hq : (release_scan h).1 ≠ 0) :
    ∀ k f, k < 9 → (f < (release_scan h).2.2 ∨
      (f = (release_scan h).2.2 ∧ k < (release_scan h).2.1)) → h.super_bases k f = 0 := by
  intro k f hk hlt
  unfold release_scan at hq hlt
  cases hfind : (((List.range 9).map fun i => (i, 0)) ++ ((List.range 9).map fun i => (i, 1))).find?
      fun (ik : Nat × Nat) => decide (h.super_bases ik.1 ik.2 ≠ 0) with
  | none =>
    rw [hfind] at hq
    exact absurd rfl hq
  | some ik =>
    rw [hfind] at hlt
    simp only at hlt
    obtain ⟨_, as, bs, hxs, has⟩ := List.find?_eq_some.1 hfind
    have hsorted : List.Pairwise (fun a b : Nat × Nat => a.2 < b.2 ∨ (a.2 = b.2 ∧ a.1 < b.1))
        (((List.range 9).map fun i => (i, 0)) ++ ((List.range 9).map fun i => (i, 1))) := by
      decide
    have hf2 : f < 2 := by
      have hmem : ik ∈ ((List.range 9).map fun i => (i, 0)) ++
          ((List.range 9).map fun i => (i, 1)) := by
        rw [hxs]
        simp
      have : ∀ x ∈ ((List.range 9).map fun i => ((i, 0) : Nat × Nat)) ++
          ((List.range 9).map fun i => (i, 1)), x.2 < 2 := by decide
      have := this ik hmem
      omega
    have hmem : (k, f) ∈ ((List.range 9).map fun i => (i, 0)) ++
        ((List.range 9).map fun i => (i, 1)) := by
      have hf' : f = 0 ∨ f = 1 := by omega
      rcases hf' with rfl | rfl
      · exact List.mem_append_left _ (List.mem_map.2 ⟨k, List.mem_range.2 hk, rfl⟩)
      · exact List.mem_append_right _ (List.mem_map.2 ⟨k, List.mem_range.2 hk, rfl⟩)
    rw [hxs] at hsorted hmem
    rw [List.pairwise_append] at hsorted
    obtain ⟨_, hbs, _⟩ := hsorted
    rw [List.pairwise_cons] at hbs
    have hin : (k, f) ∈ as := by
      rcases List.mem_append.1 hmem with h1 | h1
      · exact h1
      · exfalso
        rcases List.mem_cons.1 h1 with h2 | h2
        · rw [← h2] at hlt
          simp only at hlt
          omega
        · have := hbs.1 _ h2
          simp only at this
          omega
    have := has _ hin
    simpa using this

theorem load_of_get_super {st : State} {p : Nat} {s : superblk_t}
    (h : get_super st p = some s) : load st p = some (Obj.super s) := by
  unfold get_super at h
  cases hl : load st p with
  | none => rw [hl] at h; cases h
  | some o =>
    rw [hl] at h
    cases o with
    | super s' =>
      simp only [Option.some.injEq] at h
      rw [h]
    | node n => cases h

/-- While the break is below 2 GiB (so that the `int` counters are exact)
the end of `mm_free` on a per-CPU heap `h` returns.  Past the emptiness
threshold the head `x` of the first non-empty bin of `h` in the scan order
(fullness 0 then 1, classes 0 to 8) becomes the head of the same bin of the
global heap and is owned by it, no other superblock changes its owner; else no
header changes. -/
theorem free_release_spec {st : State} {live : List Nat} {h : Nat} (hi : HeapInv st live)
    (ht : Tight st (loc_of st)) (h0 : 0 < h) (hh : h < st.nheaps)
    (hbrk : st.mem_brk < 2147483648) :
    ∃ st1, free_release st (h : Int) = some st1 ∧
      (empty_threshold (st.heaptable h) = true →
        ∃ x k f sx s1, k < 9 ∧ f < 2 ∧ x ≠ 0 ∧ (st.heaptable h).super_bases k f = x ∧
          (∀ k1 f1, k1 < 9 → (f1 < f ∨ (f1 = f ∧ k1 < k)) →
            (st.heaptable h).super_bases k1 f1 = 0) ∧
          get_super st x = some sx ∧ sx.heap_num = (h : Int) ∧
          get_super st1 x = some s1 ∧ s1.heap_num = 0 ∧ s1.u = sx.u ∧
          s1.block_class = sx.block_class ∧ s1.block_bit_map = sx.block_bit_map ∧
          (st1.heaptable 0).super_bases k f = x ∧
          (∀ y r, y ≠ x → get_super st y = some r →
            ∃ r1, get_super st1 y = some r1 ∧ r1.heap_num = r.heap_num) ∧
          (∀ y r1, y ≠ x → get_super st1 y = some r1 →
            ∃ r, get_super st y = some r ∧ r1.heap_num = r.heap_num)) ∧
      (empty_threshold (st.heaptable h) = false → ∀ y, get_super st1 y = get_super st y) := by
  obtain ⟨rank, hr⟩ := ht.rooted
  have hat : heap_at st (h : Int) = some (st.heaptable h) := by
    have := heap_at_nat st h
    simpa [hh] using this
  have hh0 : ¬ ((h : Int) = 0) := by omega
  unfold free_release
  rw [if_neg hh0, hat]
  simp only [Option.some_bind]
  cases hthr : empty_threshold (st.heaptable h) with
  | false =>
    have hc : ¬ ((st.heaptable h).u < Int.tdiv (st.heaptable h).a 4 ∧
        (st.heaptable h).u < int32 ((st.heaptable h).a - 8 * (superblk_size : Int))) := by
      unfold empty_threshold at hthr
      simpa using hthr
    rw [if_neg hc]
    simp only [Option.some_bind]
    obtain ⟨st1, h1⟩ := modify_heap_total st (fun h => { h with heap_lock := false })
      (Int.ofNat_nonneg h) (by simpa using hh)
    refine ⟨st1, h1, fun hx => (by cases hx), fun _ y => ?_⟩
    exact (unlock_heap_sim h1).sim_get_super y
  | true =>
    have hc : (st.heaptable h).u < Int.tdiv (st.heaptable h).a 4 ∧
        (st.heaptable h).u < int32 ((st.heaptable h).a - 8 * (superblk_size : Int)) := by
      unfold empty_threshold at hthr
      simpa using hthr
    rw [if_pos hc]
    -- the scan finds a superblock
    obtain ⟨hcu, hca⟩ := heap_counters_exact hi ht hh hbrk
    have hne : (release_scan (st.heaptable h)).1 ≠ 0 := by
      refine scan_finds st h (heap_supers st h) hca hcu ?_ hthr
      intro p hp
      obtain ⟨s, hs, hown⟩ := ((heap_supers_spec hi hr hh).2 p).1 hp
      obtain ⟨h1, k, f, _, hk, _, hf, hown1, _, hful, hloc⟩ := home_bin_valid hi hr hs
      have hhe : h1 = h := by omega
      subst hhe
      have hok := hi.base.supers p s hs
      obtain ⟨u, hu, _, hle⟩ := hok.superok_u_le
      obtain ⟨t1, _⟩ := fullness_table _ hok.cls u hle
      rw [hu, t1] at hful
      simp only [Option.some.injEq] at hful
      have hff : f = 4 * u / (4096 / s.block_class) + 1 := by omega
      have hmem := ((bin_list_spec hi hr hh hk hf).2.2 p).2 ⟨s, hs, hloc⟩
      refine ⟨s, k, hs, hok.cls, by rw [hu]; exact Int.ofNat_nonneg _, hk, ?_⟩
      have := bin_walk_ne_nil hmem
      rw [hu]
      simp only [Int.toNat_ofNat]
      rw [hff] at this
      exact this
    rw [if_neg hne]
    obtain ⟨h9, h2, he⟩ := release_scan_spec _ hne
    have hfirst := release_scan_first _ hne
    generalize hxq : (release_scan (st.heaptable h)).1 = x at *
    generalize hkq : (release_scan (st.heaptable h)).2.1 = k at *
    generalize hfq : (release_scan (st.heaptable h)).2.2 = f at *
    have hv : ValidBin st ((h : Int), (k : Int), (f : Int)) :=
      valid_bin_of (Int.ofNat_nonneg h) (by simpa using hh) h9 (by omega)
    have hvd : ValidBin st ((0 : Int), (k : Int), (f : Int)) :=
      valid_bin_of (le_refl _) (by show (0 : Int).toNat < st.nheaps; simp; omega) h9 (by omega)
    have hbin : bin_of st ((h : Int), (k : Int), (f : Int)) = x := by
      unfold bin_of
      simp only [Int.toNat_ofNat]
      exact he.symm
    obtain ⟨sx, hsx, _, hloc⟩ := hi.lists.head _ hv (by rw [hbin]; exact hne)
    rw [hbin] at hsx hloc
    have hhome := (loc_of_eq hsx).symm.trans hloc
    obtain ⟨e1, e2, e3⟩ := home_bin_eq hhome
    have hsd : ((h : Int), (k : Int), (f : Int)) ≠ ((0 : Int), (k : Int), (f : Int)) := by
      intro e
      simp only [Prod.mk.injEq] at e
      exact hh0 e.1
    obtain ⟨stm, hmv⟩ := move_superblk_total hi.lists hsx hv hvd
    rw [hmv]
    simp only [Option.some_bind]
    obtain ⟨hinv, ⟨s1, hs1, hh1, hb1, hu1, hc1⟩, _⟩ := relocate hi.base hi.lists hsx hloc
      (fun x r _ hr => loc_of_eq hr) hsd e1
      ⟨by show (class_index sx.block_class : Int) = _; rw [e2], e3⟩ hmv
    obtain ⟨_, _, _, _, hum⟩ := move_superblk_upd hsd hmv
    obtain ⟨st1, hul⟩ := modify_heap_total stm (fun h => { h with heap_lock := false })
      (Int.ofNat_nonneg h) (by rw [hum.nheaps]; simpa using hh)
    have hsu := unlock_heap_sim hul
    refine ⟨st1, hul, fun _ => ?_, fun hx => (by cases hx)⟩
    refine ⟨x, k, f, sx, s1, h9, h2, hne, he.symm, hfirst, hsx, e1, ?_, ?_, hu1, hc1, hb1, ?_, ?_, ?_⟩
    · rw [hsu.sim_get_super]
      exact hs1
    · have := (home_bin_eq (h := 0) (c := k) (f := (f : Int)) hh1).1
      exact this
    · have hb := hum.bins _ hvd
      unfold moved_bin at hb
      rw [if_pos rfl] at hb
      have hb2 := hsu.sim_bin_of ((0 : Int), (k : Int), (f : Int))
      rw [hb] at hb2
      unfold bin_of at hb2
      simpa using hb2
    · intro y r hy hr
      refine ⟨_, by rw [hsu.sim_get_super]; exact hum.upd_get hr, ?_⟩
      rw [moved_heap_num, if_neg (fun hc => hy hc.1)]
    · intro y r1 hy hr1
      rw [hsu.sim_get_super] at hr1
      obtain ⟨r, hr, rfl⟩ := hum.upd_get_inv hr1
      refine ⟨r, hr, ?_⟩
      rw [moved_heap_num, if_neg (fun hc => hy hc.1)]

theorem run_live_reachable {ncpu lo hi : Nat} :
    ∀ (cs : List Call) (st : State) (ps live : List Nat) (r : List Nat × List Nat × State),
      Reachable ncpu lo hi st live → run_live ncpu st ps live cs = some r →
      Reachable ncpu lo hi r.2.2 r.2.1 := by
  intro cs
  induction cs with
  | nil =>
    intro st ps live r hr h
    simp only [run_live, Option.some.injEq] at h
    subst h
    exact hr
  | cons c cs ih =>
    intro st ps live r hr h
    cases c with
    | malloc cpu_id sz =>
      simp only [run_live] at h
      split_ifs at h with hc
      simp only [Option.bind_eq_some] at h
      obtain ⟨m, hm, h⟩ := h
      exact ih _ _ _ _ (Reachable.malloc st m.2 live cpu_id sz m.1 hr hc.1 hc.2.1 hc.2.2 hm) h
    | free k =>
      simp only [run_live, Option.bind_eq_some] at h
      obtain ⟨p, _, h⟩ := h
      split_ifs at h with hp
      simp only [Option.bind_eq_some] at h
      obtain ⟨st1, hf, h⟩ := h
      exact ih _ _ _ _ (Reachable.free st st1 live p hr hp hf) h

theorem scenario_reachable : Reachable 2 1048576 (1048576 + 67108864) scenario_state [] :=
  Reachable.init _ (by decide) (by decide) (by decide) (Option.some_get _).symm

theorem threshold_reachable :
    Reachable 2 1048576 (1048576 + 67108864) threshold_state threshold_run.2.1 :=
  run_live_reachable _ _ _ _ _ scenario_reachable (Option.some_get _).symm

/-- In a reachable state whose break is below 2 GiB (so that the `int`
counters of the heaps are exact) let `q` be a live pointer into a superblock
(header `s`, type tag 0) owned by a per-CPU heap `h >= 1` whose lock is free.
Then `mm_free(q)` returns.  Let `stc` be the state after the block has been
released (lines 500-521: bit cleared, `u` of the superblock and of `h`
decremented, superblock in the bin of its new fullness).  If `h` is past the
emptiness threshold in `stc`, exactly one superblock changes its owner: the
head `x` of the first non-empty bin of `h` in the scan order (fullness 0 then
1, classes 0 to 8) becomes the head of the bin with the same class and
fullness of the global heap, with `heap_num = 0`, and every other superblock
keeps its owner.  If not, every superblock keeps its owner. -/
theorem free_releases_head_below_2gib (ncpu lo hi : Nat) (st : State) (live : List Nat)
    (q : Nat) (s : superblk_t) (hreach : Reachable ncpu lo hi st live) (hq : q ∈ live)
    (hs : get_super st (page_of q) = some s) (htype : s.type = 0) (hcpu : 1 ≤ s.heap_num)
    (hlock : (st.heaptable s.heap_num.toNat).heap_lock = false)
    (hbrk : st.mem_brk < 2147483648) :
    ∃ sta stb stc st1,
      lock_heap st s.heap_num = some sta ∧
      clear_bit sta (page_of q) (q % 4096 / s.block_class) = some stb ∧
      uncharge_blk stb (page_of q) s.heap_num = some stc ∧
      free_release stc s.heap_num = some st1 ∧
      mm_free st q = some st1 ∧
      Reachable ncpu lo hi st1 (live.erase q) ∧
      (stc.heaptable s.heap_num.toNat).u =
        int32 ((st.heaptable s.heap_num.toNat).u - (s.block_class : Int)) ∧
      (stc.heaptable s.heap_num.toNat).a = (st.heaptable s.heap_num.toNat).a ∧
      (empty_threshold (stc.heaptable s.heap_num.toNat) = true →
        ∃ x k f sx s1, k < 9 ∧ f < 2 ∧ x ≠ 0 ∧
          (stc.heaptable s.heap_num.toNat).super_bases k f = x ∧
          (∀ k1 f1, k1 < 9 → (f1 < f ∨ (f1 = f ∧ k1 < k)) →
            (stc.heaptable s.heap_num.toNat).super_bases k1 f1 = 0) ∧
          get_super st x = some sx ∧ sx.heap_num = s.heap_num ∧
          get_super st1 x = some s1 ∧ s1.heap_num = 0 ∧
          (st1.heaptable 0).super_bases k f = x ∧
          (∀ y r, y ≠ x → get_super st y = some r →
            ∃ r1, get_super st1 y = some r1 ∧ r1.heap_num = r.heap_num)) ∧
      (empty_threshold (stc.heaptable s.heap_num.toNat) = false →
        ∀ y r, get_super st y = some r →
          ∃ r1, get_super st1 y = some r1 ∧ r1.heap_num = r.heap_num) := by
  have hinv := hreach.reachable_inv
  have ht := hreach.reachable_tight
  obtain ⟨rank, hr⟩ := ht.rooted
  obtain ⟨h, _, _, hh, _, _, _, hown, _, _, _⟩ := home_bin_valid hinv hr hs
  have hown0 : 0 ≤ s.heap_num := by omega
  have htn : s.heap_num.toNat = h := by omega
  rw [htn] at hlock ⊢
  have hown1 : s.heap_num.toNat < st.nheaps := by rw [htn]; exact hh
  obtain ⟨sta, stb, stc, hlk, hcl, hun⟩ := release_part_total hinv hq hs hown0 hown1
    (by rw [htn]; exact hlock)
  obtain ⟨hic, htc, _, _, ho1, ho2, hca, hcu, hnc, hbc⟩ :=
    release_part_mid hinv ht hq hs hlk hcl hun
  obtain ⟨st1, hrel, hthr, hno⟩ := free_release_spec hic htc (h := h) (by omega)
    (by rw [hnc]; exact hh) (by rw [hbc]; exact hbrk)
  have hrel' : free_release stc s.heap_num = some st1 := by rw [hown]; exact hrel
  have hok := hinv.base.supers _ s hs
  have hbc0 : ¬ s.block_class = 0 := by
    intro e
    have := hok.cls
    rw [e] at this
    revert this
    decide
  have hfree : mm_free st q = some st1 := by
    unfold mm_free
    rw [hinv.base.page]
    simp only [show ¬ (4096 = 0) by decide, if_false]
    have hpg : q - q % 4096 = page_of q := rfl
    rw [hpg, load_of_get_super hs]
    simp only
    rw [if_neg (by rw [htype]; simp)]
    unfold free_small
    rw [hs]
    simp only [Option.some_bind]
    rw [hlk]
    simp only [Option.some_bind]
    rw [if_neg hbc0, hcl]
    simp only [Option.some_bind]
    rw [hun]
    simp only [Option.some_bind]
    exact hrel'
  refine ⟨sta, stb, stc, st1, hlk, hcl, hun, hrel', hfree,
    Reachable.free st st1 live q hreach hq hfree, ?_, hca h, ?_, ?_⟩
  · rw [hcu h, htn, if_pos rfl]
  · intro hthr1
    obtain ⟨x, k, f, sx, s1, a1, a2, a3, a4, a5, a6, a7, a8, a9, _, _, _, a13, a14, _⟩ :=
      hthr hthr1
    obtain ⟨sx0, hsx0, hsxo⟩ := ho2 x sx a6
    refine ⟨x, k, f, sx0, s1, a1, a2, a3, a4, a5, hsx0, ?_, a8, a9, a13, ?_⟩
    · rw [← hsxo, a7, hown]
    · intro y r hy hr0
      obtain ⟨r1, hr1, e1⟩ := ho1 y r hr0
      obtain ⟨r2, hr2, e2⟩ := a14 y r1 hy hr1
      exact ⟨r2, hr2, e2.trans e1⟩
  · intro hthr0 y r hr0
    obtain ⟨r1, hr1, e1⟩ := ho1 y r hr0
    exact ⟨r1, by rw [hno hthr0 y]; exact hr1, e1⟩

/-! ## Witnesses on the scenario machine -/

set_option maxRecDepth 1000000 in
/-- The heap of CPU 0 in `threshold_state`: its `u` is the sum over its
superblocks. -/
theorem heap_u_is_wrapped_sum_witness :
    Reachable 2 1048576 (1048576 + 67108864) threshold_state threshold_run.2.1 ∧
      (threshold_state.heaptable 1).u = int32 (heap_used threshold_state 1) :=
  ⟨threshold_reachable,
    (heap_u_is_wrapped_sum _ _ _ _ _ threshold_reachable 1 (by decide)).1⟩

set_option maxRecDepth 1000000 in
/-- The lemma on `mm_free` of the eighth block in `threshold_state`. -/
theorem free_releases_head_below_2gib_witness :
    Reachable 2 1048576 (1048576 + 67108864) threshold_state threshold_run.2.1 ∧
      1095680 ∈ threshold_run.2.1 ∧
      ∃ st1, mm_free threshold_state 1095680 = some st1 ∧
        Reachable 2 1048576 (1048576 + 67108864) st1 (threshold_run.2.1.erase 1095680) := by
  have hq : 1095680 ∈ threshold_run.2.1 := by decide
  obtain ⟨_, _, _, st1, _, _, _, _, hf, hre, _⟩ :=
    free_releases_head_below_2gib 2 1048576 (1048576 + 67108864) threshold_state
      threshold_run.2.1 1095680
      ((get_super threshold_state (page_of 1095680)).get (by decide))
      threshold_reachable hq (Option.some_get _).symm (by decide) (by decide) (by decide)
      (by decide)
  exact ⟨threshold_reachable, hq, st1, hf, hre⟩

/-! ## `alloc_large`: first fit in the global list -/

/-- A run of `mm_malloc(32)` on CPU 0 that returns no null pointer leads from
a reachable state to a reachable state, with the returned pointers live. -/
theorem malloc_run_reachable {ncpu lo hi : Nat} (hcpu : 0 < ncpu) :
    ∀ (n : Nat) (st : State) (live : List Nat) (rs : List small_result),
      Reachable ncpu lo hi st live → malloc_run 0 32 n st = some rs →
      (∀ r ∈ rs, r.blk ≠ 0) →
      Reachable ncpu lo hi (run_final st rs) ((rs.map fun r => r.blk).reverse ++ live) := by
  intro n
  induction n with
  | zero =>
    intro st live rs hr h _
    simp only [malloc_run, Option.some.injEq] at h
    subst h
    simpa [run_final] using hr
  | succ n ih =>
    intro st live rs hr h hnz
    simp only [malloc_run, Option.bind_eq_some, Option.map_eq_some'] at h
    obtain ⟨r, hm, rs1, hrs1, rfl⟩ := h
    have hb : r.blk ≠ 0 := hnz r (List.mem_cons_self _ _)
    have hmm : mm_malloc st 0 32 = some (r.blk, r.st) := by
      simp [mm_malloc, superblk_size, hm]
    have h1 := Reachable.malloc st r.st live 0 32 r.blk hr (le_refl _)
      (by exact_mod_cast hcpu) (by decide) hmm
    rw [if_neg hb] at h1
    have h2 := ih r.st (r.blk :: live) rs1 h1 hrs1
      (fun x hx => hnz x (List.mem_cons_of_mem _ hx))
    rw [run_final_cons]
    simpa using h2

/-- The state after `n` calls `mm_malloc(32)` on CPU 0 of a fresh allocator:
the addresses returned, its shape, and that it is reachable with all of them
live. -/
theorem run32_reach (ncpu lo hi n : Nat) (hcpu : 1 ≤ ncpu) (hlo : 0 < lo)
    (hal : lo % 4096 = 0) (hhi : hi ≤ 2 ^ 64)
    (hroom : lo + (ncpu + 2 + (n + 123) / 124) * 4096 ≤ hi) :
    ∃ s0 rs, mm_init ncpu 4096 lo hi = some s0 ∧ malloc_run 0 32 n s0 = some rs ∧
      rs.map (fun r => r.blk) = (List.range n).map
        (fun i => lo + (ncpu + 2) * 4096 + i / 124 * 4096 + (4 + i % 124) * 32) ∧
      Run32 (lo + (ncpu + 2) * 4096) hi (n / 124)
        (if n % 124 = 0 then none else some (n % 124 + 4)) (run_final s0 rs) ∧
      Reachable ncpu lo hi (run_final s0 rs) (rs.map fun r => r.blk).reverse := by
  obtain ⟨s0, hinit, hR0⟩ := mm_init_run32 ncpu lo hi hcpu hlo (by
    have : (ncpu + 2) * 4096 ≤ (ncpu + 2 + (n + 123) / 124) * 4096 :=
      Nat.mul_le_mul_right _ (Nat.le_add_right _ _)
    omega)
  obtain ⟨rs, hrun, hb, _, hR⟩ := run32 (lo + (ncpu + 2) * 4096) hi n 0 s0
    (by simpa using hR0)
    (by
      have : (ncpu + 2 + (n + 123) / 124) * 4096 = (ncpu + 2) * 4096 + (n + 123) / 124 * 4096 := by
        ring
      simp only [zero_add]
      omega)
  simp only [zero_add] at hb hR
  have hnz : ∀ r ∈ rs, r.blk ≠ 0 := by
    intro r hr
    have hmem : r.blk ∈ rs.map (fun r => r.blk) := List.mem_map_of_mem _ hr
    rw [hb] at hmem
    simp only [List.mem_map, List.mem_range] at hmem
    obtain ⟨i, -, hi⟩ := hmem
    omega
  have hreach := malloc_run_reachable (by omega : 0 < ncpu) n s0 [] rs
    (Reachable.init s0 hlo hal hhi hinit) hrun hnz
  rw [List.append_nil] at hreach
  exact ⟨s0, rs, hinit, hrun, hb, hR, hreach⟩

/-- When every superblock of heap 1 is a full superblock of class 32, the sum
over the superblocks of heap 1 is 4096 times their number. -/
theorem run32_heap_used {B hi j : Nat} {st : State} {live : List Nat}
    (h : Run32 B hi j none st) (hinv : HeapInv st live) (ht : Tight st (loc_of st)) :
    heap_used st 1 = 4096 * (j : Int) := by
  obtain ⟨rank, hr⟩ := ht.rooted
  have hn1 : 1 < st.nheaps := h.nheaps
  obtain ⟨hnd, hmem⟩ := heap_supers_spec hinv hr hn1
  have hbytes : ∀ p ∈ heap_supers st 1, super_bytes st p = 4096 := by
    intro p hp
    obtain ⟨s, hs, _⟩ := (hmem p).1 hp
    obtain ⟨_, hbc, _, i, hi, hpi⟩ := h.owner p s hs
    obtain ⟨s1, hs1, hu1⟩ := h.full i (by simpa using hi)
    rw [← hpi, hs] at hs1
    cases hs1
    unfold super_bytes
    rw [hs]
    show s.u * (s.block_class : Int) = 4096
    rw [hu1, hbc]
    rfl
  have hlen : (heap_supers st 1).length = j := by
    have hfin : (heap_supers st 1).toFinset = (Finset.range j).image (fun i => B + i * 4096) := by
      ext p
      rw [List.mem_toFinset, hmem, Finset.mem_image]
      constructor
      · rintro ⟨s, hs, _⟩
        obtain ⟨_, _, _, i, hi, hpi⟩ := h.owner p s hs
        exact ⟨i, Finset.mem_range.2 (by simpa using hi), hpi.symm⟩
      · rintro ⟨i, hi, rfl⟩
        obtain ⟨s, hs, _⟩ := h.full i (Finset.mem_range.1 hi)
        exact ⟨s, hs, (h.owner _ s hs).1⟩
    have hc := congrArg Finset.card hfin
    rw [List.toFinset_card_of_nodup hnd, Finset.card_image_of_injective _ (by
      intro a b hab
      simp only at hab
      omega), Finset.card_range] at hc
    exact hc
  have h1 := sum_le_of_each st 4096 (heap_supers st 1) (fun p hp => le_of_eq (hbytes p hp))
  have h2 := sum_ge_of_each st 4096 (heap_supers st 1) (fun p hp => le_of_eq (hbytes p hp).symm)
  unfold heap_used
  rw [hlen] at h1 h2
  omega

/-- C12: on a machine whose raw region holds more than 2 GiB (2 CPUs, pages of
4096 bytes, raw region from `0x100000` to `2 ^ 32`), after the 65011712 calls
`mm_malloc(32)` on CPU 0, which fill 524288 superblocks, the state is
reachable by small-path calls only and the `int` field `u` of heap 1 holds
`-2147483648`, while the sum of `u * block_class` over the superblocks linked
in the bins of heap 1 is `2147483648`: the sum has left the range of the
`int`. -/
theorem heap_u_wraps_above_2gib :
    ∃ s0 rs live, mm_init 2 4096 1048576 4294967296 = some s0 ∧
      malloc_run 0 32 65011712 s0 = some rs ∧
      Reachable 2 1048576 4294967296 (run_final s0 rs) live ∧
      1 < (run_final s0 rs).nheaps ∧
      ((run_final s0 rs).heaptable 1).u = -2147483648 ∧
      heap_used (run_final s0 rs) 1 = 2147483648 ∧
      ((run_final s0 rs).heaptable 1).u ≠ heap_used (run_final s0 rs) 1 := by
  obtain ⟨s0, rs, hinit, hrun, _, hR, hreach⟩ :=
    run32_reach 2 1048576 4294967296 65011712 (by decide) (by decide) (by decide) (by decide)
      (by decide)
  have e1 : 65011712 / 124 = 524288 := by decide
  have e2 : 65011712 % 124 = 0 := by decide
  rw [e1, e2] at hR
  simp only [if_true] at hR
  have hu : ((run_final s0 rs).heaptable 1).u = -2147483648 := by
    rw [hR.u1]
    decide
  have hsum : heap_used (run_final s0 rs) 1 = 2147483648 := by
    rw [run32_heap_used hR hreach.reachable_inv hreach.reachable_tight]
    decide
  refine ⟨s0, rs, _, hinit, hrun, hreach, hR.nheaps, hu, hsum, ?_⟩
  rw [hu, hsum]
  decide

/-- When the bins of fullness 0 and 1 are all empty the scan of `mm_free`
ends with `super_res == NULL`. -/
theorem release_scan_none (h : heap_t) (hz : ∀ k f, k < 9 → f < 2 → h.super_bases k f = 0) :
    release_scan h = (0, 0, 0) := by
  unfold release_scan
  have hn : (((List.range 9).map fun i => (i, 0)) ++ ((List.range 9).map fun i => (i, 1))).find?
      (fun (ik : Nat × Nat) => decide (h.super_bases ik.1 ik.2 ≠ 0)) = none := by
    rw [List.find?_eq_none]
    intro ik hik
    simp only [List.mem_append, List.mem_map, List.mem_range] at hik
    rcases hik with ⟨i, hi, rfl⟩ | ⟨i, hi, rfl⟩
    · simp [hz i 0 hi (by decide)]
    · simp [hz i 1 hi (by decide)]
  rw [hn]

/-- `move_superblk` on the null pointer does not return: its first statement
reads `super->next`. -/
theorem move_superblk_null (st : State) (src dest : Int × Int × Int) :
    move_superblk st 0 src dest = none := by
  unfold move_superblk unlink_super
  rw [get_super_zero]
  rfl

/-- While CPU 0 has only allocated blocks of 32 bytes and the superblock in
use holds 34 blocks, every bin of fullness 0 or 1 of heap 1 is empty. -/
theorem run32_low_bins {B hi j : Nat} {st : State} {live : List Nat}
    (h : Run32 B hi j (some 34) st) (hinv : HeapInv st live) :
    ∀ k f, k < 9 → f < 2 → (st.heaptable 1).super_bases k f = 0 := by
  intro k f hk hf
  by_contra hne
  have hn1 : 1 < st.nheaps := h.nheaps
  have hv : ValidBin st ((1 : Int), (k : Int), (f : Int)) := by
    refine ⟨by show (0 : Int) ≤ 1; decide, ?_, ?_, ?_, ?_, ?_⟩
    · show (1 : Int).toNat < st.nheaps
      exact hn1
    · exact Int.ofNat_nonneg k
    · show (k : Int) < 9
      omega
    · exact Int.ofNat_nonneg f
    · show (f : Int) < 6
      omega
  have hb : bin_of st ((1 : Int), (k : Int), (f : Int)) = (st.heaptable 1).super_bases k f := by
    unfold bin_of
    simp
  obtain ⟨s, hs, _, hloc⟩ := hinv.lists.head _ hv (by rw [hb]; exact hne)
  rw [loc_of_eq hs] at hloc
  obtain ⟨_, _, hful⟩ := home_bin_eq hloc
  obtain ⟨_, hbc, _, i, hi, hpi⟩ := h.owner _ s hs
  rw [hbc] at hful
  by_cases hij : i < j
  · obtain ⟨s1, hs1, hu1⟩ := h.full i hij
    rw [← hpi, hs] at hs1
    cases hs1
    rw [hu1] at hful
    have e : (fullness 128 32).getD 0 = 5 := by decide
    rw [e] at hful
    omega
  · have hij' : i = j := by
      simp only [Option.isSome_some, if_true] at hi
      omega
    obtain ⟨_, _, s1, hs1, _, hu1, _⟩ := h.cur_ok 34 rfl
    rw [← hij', ← hpi, hs] at hs1
    cases hs1
    rw [hu1] at hful
    have e : (fullness ((34 : Nat) : Int) 32).getD 0 = 2 := by decide
    rw [e] at hful
    omega

/-- The end of `mm_free` on heap 1 when its counters satisfy the emptiness
threshold and its bins of fullness 0 and 1 are empty: `move_superblk` is called
on the null pointer and does not return. -/
theorem free_release_null {st : State} (hn : 1 < st.nheaps)
    (hthr : (st.heaptable 1).u < Int.tdiv (st.heaptable 1).a 4 ∧
      (st.heaptable 1).u < int32 ((st.heaptable 1).a - 8 * (superblk_size : Int)))
    (hz : ∀ k f, k < 9 → f < 2 → (st.heaptable 1).super_bases k f = 0) :
    free_release st 1 = none := by
  have hat : heap_at st 1 = some (st.heaptable 1) := by
    have := heap_at_nat st 1
    rw [if_pos hn] at this
    exact this
  unfold free_release
  rw [if_neg (by decide : ¬ ((1 : Int) = 0)), hat]
  simp only [Option.some_bind]
  rw [if_pos hthr, release_scan_none _ hz]
  simp only [if_true, move_superblk_null, Option.none_bind]

/-- While CPU 0 has only allocated blocks of 32 bytes and the superblock in
use holds 34 blocks, `mm_free` of the block taken last leaves the superblock
in its bin; when the counters of heap 1 then satisfy the emptiness threshold,
the scan finds no superblock and `move_superblk` is called on the null
pointer: `mm_free` does not return. -/
theorem free_last_no_return {B hi j : Nat} {st : State} {live : List Nat}
    (h : Run32 B hi j (some 34) st) (hB : B % 4096 = 0) (hinv : HeapInv st live)
    (hthr : int32 ((st.heaptable 1).u - 32) < Int.tdiv (st.heaptable 1).a 4 ∧
      int32 ((st.heaptable 1).u - 32) < int32 ((st.heaptable 1).a - 8 * (superblk_size : Int))) :
    mm_free st (B + j * 4096 + 33 * 32) = none := by
  obtain ⟨_, _, s, hs, hbc, hsu, hsp, hsn, hbm⟩ := h.cur_ok 34 rfl
  obtain ⟨hown, _, htype, _⟩ := h.owner _ s hs
  have hbins := run32_low_bins h hinv
  have hn1 : 1 < st.nheaps := h.nheaps
  have hC0 := get_super_ne_zero hs
  have hpg : B + j * 4096 + 33 * 32 - (B + j * 4096 + 33 * 32) % 4096 = B + j * 4096 := by omega
  have hoff : (B + j * 4096 + 33 * 32) % 4096 = 1056 := by omega
  unfold mm_free
  rw [h.page, if_neg (by decide : ¬ (4096 = 0))]
  dsimp only
  rw [hpg, hoff, load_of_get_super hs]
  dsimp only
  rw [if_neg (by rw [htype]; simp)]
  unfold free_small
  rw [hs]
  simp only [Option.some_bind]
  rw [hown, hbc]
  have hlk : lock_heap st 1 = some (set_heap st 1 { st.heaptable 1 with heap_lock := true }) := by
    have := lock_heap_nat st 1
    simpa [hn1, h.lock1] using this
  rw [hlk]
  simp only [Option.some_bind]
  rw [if_neg (by decide : ¬ (32 = 0))]
  have e33 : 1056 / 32 = 33 := by decide
  rw [e33]
  unfold clear_bit
  rw [if_pos (by decide : 33 / 8 < 64), modify_super_map, get_super_set_heap, hs]
  simp only [Option.map_some', Option.some_bind]
  unfold uncharge_blk
  rw [get_super_write_super, if_pos rfl, if_neg hC0]
  simp only [Option.some_bind]
  rw [hsu, hbc, fullness_32 34 (by decide)]
  simp only [Option.some_bind]
  have f2 : fullness (((34 : Nat) : Int) - 1) 32 = some (((34 / 32 + 1 : Nat)) : Int) :=
    fullness_32 33 (by decide)
  have hat : ∀ st1 : State, st1.nheaps = st.nheaps → heap_at st1 1 = some (st1.heaptable 1) := by
    intro st1 hn
    have := heap_at_nat st1 1
    rw [if_pos (by rw [hn]; exact hn1)] at this
    exact this
  rw [modify_super_map, get_super_write_super, if_pos rfl, if_neg hC0]
  simp only [Option.map_some', Option.some_bind]
  rw [modify_heap_eq _ (hat (write_obj (write_obj (set_heap st 1 _) _ _) _ _) rfl), f2]
  simp only [Option.some_bind, ne_eq, not_true_eq_false, if_false]
  apply free_release_null
  · exact hn1
  · simpa using hthr
  · intro k f hk hf
    simpa using hbins k f hk hf

/-- C15: on a machine whose raw region holds more than 2 GiB (2 CPUs, pages of
4096 bytes, raw region from `0x100000` to `2 ^ 32`), the 65011742 calls
`mm_malloc(32)` on CPU 0 fill 524288 superblocks and take 34 blocks of the
next one.  The state is reachable, the pointer `q` returned last is live, and
the `int` counters of heap 1 have wrapped: `a = -2147479552` and
`u = -2147482560`.  After the block of `q` is released they satisfy the
emptiness threshold (`u - 32 < a / 4`, and `a - 8 * 4096` wraps to a positive
number), although every bin of fullness 0 or 1 of heap 1 is empty: the scan of
`mm_free(q)` finds no superblock, `move_superblk` is called on the null
pointer, and `mm_free(q)` does not return.  No superblock is moved to the
global heap. -/
theorem free_past_wrapped_threshold :
    ∃ s0 rs live, mm_init 2 4096 1048576 4294967296 = some s0 ∧
      malloc_run 0 32 65011742 s0 = some rs ∧
      Reachable 2 1048576 4294967296 (run_final s0 rs) live ∧
      2148549664 ∈ live ∧
      (∃ s, get_super (run_final s0 rs) (page_of 2148549664) = some s ∧ s.type = 0 ∧
        s.heap_num = 1) ∧
      ((run_final s0 rs).heaptable 1).heap_lock = false ∧
      ((run_final s0 rs).heaptable 1).a = -2147479552 ∧
      ((run_final s0 rs).heaptable 1).u = -2147482560 ∧
      ((-2147482560 : Int) - 32 < Int.tdiv (-2147479552) 4 ∧
        (-2147482560 : Int) - 32 < int32 (-2147479552 - 8 * (superblk_size : Int))) ∧
      (∀ k f, k < 9 → f < 2 → ((run_final s0 rs).heaptable 1).super_bases k f = 0) ∧
      mm_free (run_final s0 rs) 2148549664 = none := by
  obtain ⟨s0, rs, hinit, hrun, hb, hR, hreach⟩ :=
    run32_reach 2 1048576 4294967296 65011742 (by decide) (by decide) (by decide) (by decide)
      (by decide)
  have e1 : 65011742 / 124 = 524288 := by decide
  have e2 : 65011742 % 124 = 30 := by decide
  rw [e1, e2] at hR
  simp only [show ¬ (30 = 0) by decide, if_false] at hR
  have hR' : Run32 (1048576 + (2 + 2) * 4096) 4294967296 524288 (some 34) (run_final s0 rs) := hR
  have hinv := hreach.reachable_inv
  have ha : ((run_final s0 rs).heaptable 1).a = -2147479552 := by
    rw [hR'.a1]
    decide
  have hu : ((run_final s0 rs).heaptable 1).u = -2147482560 := by
    rw [hR'.u1]
    decide
  have hthr : ((-2147482560 : Int) - 32 < Int.tdiv (-2147479552) 4 ∧
      (-2147482560 : Int) - 32 < int32 (-2147479552 - 8 * (superblk_size : Int))) := by decide
  have hq : 1048576 + (2 + 2) * 4096 + 524288 * 4096 + 33 * 32 = 2148549664 := by decide
  have hfree := free_last_no_return hR' (by decide) hinv (by
    rw [hu, ha]
    rw [int32_eq_self (by decide) (by decide)]
    exact hthr)
  rw [hq] at hfree
  obtain ⟨_, _, s, hs, _⟩ := hR'.cur_ok 34 rfl
  obtain ⟨hown, _, htype, _⟩ := hR'.owner _ s hs
  have hpg : page_of 2148549664 = 1048576 + (2 + 2) * 4096 + 524288 * 4096 := by decide
  refine ⟨s0, rs, _, hinit, hrun, hreach, ?_, ⟨s, by rw [hpg]; exact hs, htype, hown⟩,
    hR'.lock1, ha, hu, hthr, run32_low_bins hR' hinv, hfree⟩
  rw [List.mem_reverse, hb, List.mem_map]
  exact ⟨65011741, List.mem_range.2 (by decide), by decide⟩

/-! ## First fit in the global list -/

set_option maxRecDepth 1000000 in
/-- C5: on the fresh two-CPU machine, CPU 0 calls `mm_malloc((size_t)-32)`,
`mm_malloc(8)`, `mm_malloc(3000)`, `mm_malloc(8)`.  The first size wraps to 0
pages: the call returns `1064992` without moving the break and leaves a node
at the break `1064960` as the list head of heap 1.  The second call builds a
superblock of class 8 on that very page and returns its block 13, `1065064`,
whose bit is set.  The third call stores `res` through the stale list head
(line 118): in the typed memory this store has no meaning (the call has no
result); laid over the header as the records are laid out, it replaces
`block_bit_map[0..7]`, which clears the bits 0 and 13.  The fourth call then
takes the block behind the header again: it returns `1065064`, which is still
live and was never freed, sets bit 0 and leaves bit 13 clear. -/
theorem wrapped_size_hands_live_block_out :
    num_pgs_of wrap_size = some 0 ∧
    (run_calls scenario_state [] [Call.malloc 0 wrap_size, Call.malloc 0 8]).map
        (fun r => (r.1, (r.2.heaptable 1).largeblks, (get_node r.2 1064960).isSome,
          (get_super r.2 1064960).map fun s =>
            (s.block_class, s.u, bit_set s.block_bit_map 13)))
      = some ([1064992, 1065064], 1064960, false, some (8, 14, true)) ∧
    ((run_calls scenario_state [] [Call.malloc 0 wrap_size, Call.malloc 0 8]).bind fun r =>
        mm_malloc r.2 0 3000).isNone = true ∧
    ((run_calls scenario_state [] [Call.malloc 0 wrap_size, Call.malloc 0 8]).bind fun r =>
      (alloc_large_aliased r.2 3000 0).bind fun r3 =>
        (mm_malloc_small r3.2 0 8).map fun r4 =>
          (r3.1,
            (get_super r3.2 1064960).map fun s =>
              (bit_set s.block_bit_map 0, bit_set s.block_bit_map 13, s.u),
            r4.blk, r4.super_res, blk_index r4 8,
            (get_super r4.st 1064960).map fun s =>
              (bit_set s.block_bit_map 0, bit_set s.block_bit_map 13, s.u)))
      = some (1069088, some (false, false, 14), 1065064, 1064960, 13,
          some (true, false, 15)) := by
  refine ⟨by rfl, by rfl, by rfl, by rfl⟩

/-! ## The offset of a small block in a reachable state -/

end A2Alloc
